import Mathlib

/-!
The pulsejet codec: a shallow embedding of the codec and its container contract.

The development follows the C++ headers of the repository:

* `Common.hpp`        : constants, `WindowMode`, `VorbisWindow`, `MdctWindow`
* `EncodeHelpers.hpp` : `Order0BitsEstimate`, `WriteCString`, `WriteU16LE`
* `Encode.hpp`        : `Encode`
* `Decode.hpp`        : `Decode`
* `Meta.hpp`          : `CheckSample`, `CheckSampleVersion`, the version strings
* `MetaHelpers.hpp`   : `VersionStringInternal`

Conventions of the embedding.

* Bytes (`uint8_t`) are natural numbers below 256, `int8_t` values are integers in
  `[-128, 127]`; every narrowing conversion is written with an explicit `%`.
* `uint32_t` arithmetic that can wrap (the frame and sample counts of `Encode`) is written
  with an explicit `% 2 ^ 32`.
* `float` and `double` arithmetic is not interpreted: every function that computes with
  floating point numbers takes an `Arith F D` that supplies the primitive operations on the
  carrier `F` of `float` and the carrier `D` of `double`.  Theorems stated for every `Arith`
  hold whatever the rounding behaviour of the operations is.
* A pointer into the encoded byte stream is an offset into the list of bytes; a read past the
  end of the list makes `Decode` return `none`.
-/

namespace Pulsejet

/-! ## Floating point primitives -/

/-- The primitive floating point operations the codec uses.  `F` carries `float`, `D` carries
`double`.  The fields with a C name (`sqrtf`, `log2f`, `roundf`, `powf`) are the `<cmath>`
functions, `CosF`, `SinF`, `Exp2f`, `SqrtF` are the shims of `Pulsejet::Shims`. -/
structure Arith (F D : Type) where
  /-- A `float` literal. -/
  litF : ℚ → F
  /-- The conversion `static_cast<float>` of an unsigned integer. -/
  natF : Nat → F
  /-- The conversion `static_cast<float>` of a signed integer. -/
  intF : Int → F
  addF : F → F → F
  subF : F → F → F
  mulF : F → F → F
  divF : F → F → F
  /-- The comparison `a < b` on `float`. -/
  ltF : F → F → Bool
  /-- The comparison `a >= b` on `float`. -/
  geF : F → F → Bool
  /-- The constant `static_cast<float>(M_PI)`. -/
  piF : F
  /-- The constant `static_cast<float>(M_PI_2)`. -/
  pi2F : F
  sqrtf : F → F
  log2f : F → F
  roundf : F → F
  powf : F → F → F
  /-- The integer a `float` converts to (truncation toward zero), before narrowing. -/
  truncF : F → Int
  CosF : F → F
  SinF : F → F
  Exp2f : F → F
  SqrtF : F → F
  /-- A `double` literal. -/
  litD : ℚ → D
  /-- The conversion `static_cast<double>` of an unsigned integer. -/
  natD : Nat → D
  addD : D → D → D
  subD : D → D → D
  mulD : D → D → D
  divD : D → D → D
  negD : D → D
  absD : D → D
  log2D : D → D
  /-- The comparison `a < b` on `double`. -/
  ltD : D → D → Bool
  /-- The comparison `a > b` on `double`. -/
  gtD : D → D → Bool

/-! ## Common.hpp -/

/-- The tag `"PLSJ"` as a C string: four characters and the terminating NUL. -/
def SampleTag : List Nat := [0x50, 0x4C, 0x53, 0x4A, 0]

def CodecVersionMajor : Nat := 0
def CodecVersionMinor : Nat := 1

def FrameSize : Nat := 1024
def NumShortWindowsPerFrame : Nat := 8
def LongWindowSize : Nat := FrameSize * 2
def ShortWindowSize : Nat := LongWindowSize / NumShortWindowsPerFrame

def NumBands : Nat := 20
def NumTotalBins : Nat := 856

/-- The scoped enumeration `WindowMode`.  Its underlying type is an integer type, and the
decoder converts an arbitrary byte to it, so a mode is represented by its integer value. -/
abbrev WindowMode := Nat

namespace WindowMode
def Long : WindowMode := 0
def Short : WindowMode := 1
def Start : WindowMode := 2
def Stop : WindowMode := 3
end WindowMode

def BandToNumBins : List Nat :=
  [8, 8, 8, 8, 8, 8, 8, 8, 16, 16, 24, 32, 32, 40, 48, 64, 80, 120, 144, 176]

section Generic

variable {F D : Type}

def VorbisWindow (A : Arith F D) (nPlusHalf : F) (size : Nat) : F :=
  let sineWindow := A.SinF (A.mulF (A.divF A.piF (A.natF size)) nPlusHalf)
  A.SinF (A.mulF (A.mulF A.pi2F sineWindow) sineWindow)

def MdctWindow (A : Arith F D) (n size : Nat) (mode : WindowMode) : F :=
  let nPlusHalf := A.addF (A.natF n) (A.litF (1 / 2))
  if mode = WindowMode.Start then
    let shortWindowOffset := LongWindowSize * 3 / 4 - ShortWindowSize / 4
    if n ≥ shortWindowOffset + ShortWindowSize / 2 then
      A.litF 0
    else if n ≥ shortWindowOffset then
      A.subF (A.litF 1)
        (VorbisWindow A (A.subF nPlusHalf (A.natF shortWindowOffset)) ShortWindowSize)
    else if n ≥ LongWindowSize / 2 then
      A.litF 1
    else
      VorbisWindow A nPlusHalf size
  else if mode = WindowMode.Stop then
    let shortWindowOffset := LongWindowSize / 4 - ShortWindowSize / 4
    if n < shortWindowOffset then
      A.litF 0
    else if n < shortWindowOffset + ShortWindowSize / 2 then
      VorbisWindow A (A.subF nPlusHalf (A.natF shortWindowOffset)) ShortWindowSize
    else if n < LongWindowSize / 2 then
      A.litF 1
    else
      VorbisWindow A nPlusHalf size
  else
    VorbisWindow A nPlusHalf size

/-! ## EncodeHelpers.hpp -/

def BandBinQuantizeScaleBases : List Nat :=
  [200, 200, 200, 200, 200, 200, 200, 200, 198, 193, 188, 183, 178, 173, 168, 163, 158, 153,
    148, 129]

/-- The two statements `freqs.try_emplace(key, 0); freqs.at(key) += 1;` on a `std::map`
with integer keys and `uint32_t` counts.  The map is its list of entries in ascending key
order, which is the order in which `Order0BitsEstimate` walks it. -/
def freqIncr (key : Int) : List (Int × Nat) → List (Int × Nat)
  | [] => [(key, 1)]
  | (k, c) :: rest =>
    if key < k then (key, 1) :: (k, c) :: rest
    else if key = k then (k, (c + 1) % 2 ^ 32) :: rest
    else (k, c) :: freqIncr key rest

def Order0BitsEstimate (A : Arith F D) (freqs : List (Int × Nat)) : D :=
  let numSymbols := freqs.foldl (fun numSymbols kvp => (numSymbols + kvp.2) % 2 ^ 32) 0
  freqs.foldl
    (fun bitsEstimate kvp =>
      let freq := A.natD kvp.2
      let prob := A.divD freq (A.natD numSymbols)
      A.addD bitsEstimate (A.mulD (A.negD (A.log2D prob)) freq))
    (A.litD 0)

/-- The loop of `WriteCString`: push characters until the terminating NUL. -/
def WriteCString (v : List Nat) : List Nat → List Nat
  | [] => v
  | c :: s => if c = 0 then v else WriteCString (v ++ [c]) s

def WriteU16LE (v : List Nat) (value : Nat) : List Nat :=
  v ++ [value % 256, value / 256 % 256]

/-! ## Encode.hpp -/

/-- The conversion `static_cast<uint8_t>(roundf(x))`. -/
def roundToU8 (A : Arith F D) (x : F) : Nat :=
  (A.truncF (A.roundf x) % 256).toNat

/-- The value of an integer narrowed to `int8_t`. -/
def wrapI8 (z : Int) : Int := (z + 128) % 256 - 128

/-- The conversion `static_cast<int8_t>(roundf(x))`. -/
def roundToI8 (A : Arith F D) (x : F) : Int :=
  wrapI8 (A.truncF (A.roundf x))

/-- The byte `uint8_t r = a - b` for bytes `a` and `b`. -/
def subU8 (a b : Nat) : Nat := (((a : Int) - (b : Int)) % 256).toNat

/-- The byte an `int8_t` becomes when it is stored in a `vector<uint8_t>`. -/
def i8ToU8 (z : Int) : Nat := (z % 256).toNat

/-- The `int8_t` a byte is read as. -/
def u8ToI8 (b : Nat) : Int := if b < 128 then (b : Int) else (b : Int) - 256

/-- The function `std::clamp(v, lo, hi)`. -/
def clampF (A : Arith F D) (v lo hi : F) : F :=
  if A.ltF v lo then lo else if A.ltF hi v then hi else v

/-- The energy of the frame `frameIndex` of the transient detector. -/
def frameEnergyAt (A : Arith F D) (paddedSamples : List F) (frameIndex : Nat) : F :=
  let frameOffset := FrameSize / 2 + frameIndex * FrameSize
  (List.range FrameSize).foldl
    (fun frameEnergy i =>
      let sample := paddedSamples.getD (frameOffset + i) (A.litF 0)
      A.addF frameEnergy (A.mulF sample sample))
    (A.litF 0)

/-- The loop that builds `isTransientFrameMap`; the state is the map and `lastFrameEnergy`. -/
def buildTransientFrameMap (A : Arith F D) (paddedSamples : List F) (numFrames : Nat) :
    List Bool × F :=
  (List.range numFrames).foldl
    (fun (s : List Bool × F) frameIndex =>
      let frameEnergy := frameEnergyAt A paddedSamples frameIndex
      (s.1 ++ [A.geF frameEnergy (A.mulF s.2 (A.litF 2))], frameEnergy))
    ([], A.litF 0)

/-- The window mode `Encode` selects for frame `frameIndex`. -/
def selectWindowMode (A : Arith F D) (targetBitRate : D) (isTransientFrameMap : List Bool)
    (numFrames frameIndex : Nat) : WindowMode :=
  let isTransientFrame := isTransientFrameMap.getD frameIndex false
  if A.gtD targetBitRate (A.litD 8) then
    let isPrevFrameTransientFrame :=
      decide (frameIndex > 0) && isTransientFrameMap.getD (frameIndex - 1) false
    let isNextFrameTransientFrame :=
      decide (frameIndex < numFrames - 1) && isTransientFrameMap.getD (frameIndex + 1) false
    if isTransientFrame || (isPrevFrameTransientFrame && isNextFrameTransientFrame) then
      WindowMode.Short
    else if isNextFrameTransientFrame then
      WindowMode.Start
    else if isPrevFrameTransientFrame then
      WindowMode.Stop
    else
      WindowMode.Long
  else
    WindowMode.Long

/-- The subframe configuration `(numSubframes, subframeWindowOffset, subframeWindowSize)` of a
window mode; `Encode` and `Decode` compute it with the same statements. -/
def subframeConfig (windowMode : WindowMode) : Nat × Nat × Nat :=
  if windowMode = WindowMode.Short then
    (NumShortWindowsPerFrame, LongWindowSize / 4 - ShortWindowSize / 4, ShortWindowSize)
  else
    (1, 0, LongWindowSize)

/-- The windowed samples of a subframe. -/
def windowedSamplesOf (A : Arith F D) (paddedSamples : List F)
    (frameOffset windowOffset subframeWindowSize : Nat) (windowMode : WindowMode) : List F :=
  (List.range subframeWindowSize).map fun n =>
    let sample := paddedSamples.getD (frameOffset + windowOffset + n) (A.litF 0)
    let window := MdctWindow A n subframeWindowSize windowMode
    A.mulF sample window

/-- The forward MDCT of the windowed samples: the vector `windowBins`. -/
def mdct (A : Arith F D) (windowedSamples : List F) (subframeWindowSize subframeSize : Nat) :
    List F :=
  (List.range subframeSize).map fun k =>
    (List.range subframeWindowSize).foldl
      (fun bin n =>
        A.addF bin
          (A.mulF (windowedSamples.getD n (A.litF 0))
            (A.CosF
              (A.mulF
                (A.mulF (A.divF A.piF (A.natF subframeSize))
                  (A.addF (A.addF (A.natF n) (A.litF (1 / 2))) (A.natF (subframeSize / 2))))
                (A.addF (A.natF k) (A.litF (1 / 2)))))))
      (A.litF 0)

/-- The candidate streams built for one scaling factor, and the pointer `bandBins` (an offset
into `windowBins`). -/
structure Candidate where
  quantizedBandEnergies : List Nat
  bandEnergyStream : List Nat
  bandEnergyFreqs : List (Int × Nat)
  binQStream : List Int
  binQFreqs : List (Int × Nat)
  bandBins : Nat

/-- The value `bandEnergy` of a band of `numBins` bins that starts at offset `bandBins` of
`windowBins`. -/
def encBandEnergy (A : Arith F D) (windowBins : List F) (bandBins numBins : Nat) : F :=
  let epsilon := A.litF (1 / 10 ^ 27)
  A.sqrtf
    ((List.range numBins).foldl
      (fun bandEnergy binIndex =>
        let bin := windowBins.getD (bandBins + binIndex) (A.litF 0)
        A.addF bandEnergy (A.mulF bin bin))
      epsilon)

/-- The value `linearBandEnergy` of a band. -/
def encLinearBandEnergy (A : Arith F D) (bandEnergy : F) (numBins : Nat) : F :=
  A.divF
    (A.addF
      (clampF A (A.log2f (A.divF bandEnergy (A.natF numBins))) (A.litF (-20)) (A.litF 20))
      (A.litF 20))
    (A.litF 40)

/-- The value `bandBinQuantizeScale` of a band. -/
def encBandBinQuantizeScale (A : Arith F D) (bandIndex scalingFactor maxScalingFactor : Nat)
    (linearBandEnergy : F) : F :=
  A.mulF
    (A.mulF
      (A.mulF
        (A.divF
          (A.mulF
            (A.powf
              (A.divF (A.natF (BandBinQuantizeScaleBases.getD bandIndex 0)) (A.litF 200))
              (A.litF 3))
            (A.natF scalingFactor))
          (A.natF maxScalingFactor))
        (A.litF 127))
      linearBandEnergy)
    linearBandEnergy

/-- The bin quantum `binQ` of a bin. -/
def encBinQ (A : Arith F D) (bin bandEnergy bandBinQuantizeScale : F) : Int :=
  let epsilon := A.litF (1 / 10 ^ 27)
  roundToI8 A (A.mulF (A.divF bin (A.addF bandEnergy epsilon)) bandBinQuantizeScale)

/-- The body of the loop over the bands of a candidate. -/
def encodeBand (A : Arith F D) (windowBins : List F) (quantizedBandEnergyPredictions : List Nat)
    (numSubframes scalingFactor maxScalingFactor : Nat) (c : Candidate) (bandIndex : Nat) :
    Candidate :=
  let numBins := BandToNumBins.getD bandIndex 0 / numSubframes
  let bandEnergy := encBandEnergy A windowBins c.bandBins numBins
  let linearBandEnergy := encLinearBandEnergy A bandEnergy numBins
  let quantizedBandEnergy := roundToU8 A (A.mulF linearBandEnergy (A.litF 64))
  let quantizedBandEnergyResidual :=
    subU8 quantizedBandEnergy (quantizedBandEnergyPredictions.getD bandIndex 0)
  let bandBinQuantizeScale :=
    encBandBinQuantizeScale A bandIndex scalingFactor maxScalingFactor linearBandEnergy
  let c1 : Candidate :=
    { c with
      quantizedBandEnergies := c.quantizedBandEnergies ++ [quantizedBandEnergy]
      bandEnergyStream := c.bandEnergyStream ++ [quantizedBandEnergyResidual]
      bandEnergyFreqs := freqIncr (quantizedBandEnergyResidual : Int) c.bandEnergyFreqs }
  let c2 :=
    (List.range numBins).foldl
      (fun (c : Candidate) binIndex =>
        let bin := windowBins.getD (c.bandBins + binIndex) (A.litF 0)
        let binQ := encBinQ A bin bandEnergy bandBinQuantizeScale
        { c with
          binQStream := c.binQStream ++ [binQ]
          binQFreqs := freqIncr binQ c.binQFreqs })
      c1
  { c2 with bandBins := c2.bandBins + numBins }

/-- The candidate of one scaling factor: the loop over all bands. -/
def encodeCandidate (A : Arith F D) (windowBins : List F)
    (quantizedBandEnergyPredictions : List Nat)
    (numSubframes scalingFactor maxScalingFactor : Nat) : Candidate :=
  (List.range NumBands).foldl
    (encodeBand A windowBins quantizedBandEnergyPredictions numSubframes scalingFactor
      maxScalingFactor)
    { quantizedBandEnergies := [], bandEnergyStream := [], bandEnergyFreqs := [],
      binQStream := [], binQFreqs := [], bandBins := 0 }

/-- The adjusted estimate `subframeBitsEstimate` of a candidate. -/
def subframeBitsEstimateOf (A : Arith F D) (c : Candidate) : D :=
  let bandEnergyBitsEstimate := Order0BitsEstimate A c.bandEnergyFreqs
  let binQBitsEstimate := Order0BitsEstimate A c.binQFreqs
  let estimateAdjustment := A.litD (83 / 100)
  A.mulD (A.addD bandEnergyBitsEstimate binQBitsEstimate) estimateAdjustment

/-- The variables the scaling factor search keeps. -/
structure Best (D : Type) where
  bestQuantizedBandEnergies : List Nat
  bestBandEnergyStream : List Nat
  bestBinQStream : List Int
  bestSubframeBitsEstimate : D

def minScalingFactor : Nat := 1
def maxScalingFactor : Nat := 500

/-- The body of the scaling factor loop. -/
def searchStep (A : Arith F D) (windowBins : List F) (quantizedBandEnergyPredictions : List Nat)
    (numSubframes : Nat) (targetBitsPerSubframe slackBits : D) (best : Best D)
    (scalingFactor : Nat) : Best D :=
  let c :=
    encodeCandidate A windowBins quantizedBandEnergyPredictions numSubframes scalingFactor
      maxScalingFactor
  let subframeBitsEstimate := subframeBitsEstimateOf A c
  let targetBitsPerSubframeWithSlackBits := A.addD targetBitsPerSubframe slackBits
  if scalingFactor = minScalingFactor ∨
      A.ltD (A.absD (A.subD subframeBitsEstimate targetBitsPerSubframeWithSlackBits))
        (A.absD (A.subD best.bestSubframeBitsEstimate targetBitsPerSubframeWithSlackBits))
        = true then
    { bestQuantizedBandEnergies := c.quantizedBandEnergies
      bestBandEnergyStream := c.bandEnergyStream
      bestBinQStream := c.binQStream
      bestSubframeBitsEstimate := subframeBitsEstimate }
  else
    best

/-- The exhaustive search over the scaling factors `1, ..., 500`. -/
def searchScalingFactor (A : Arith F D) (windowBins : List F)
    (quantizedBandEnergyPredictions : List Nat) (numSubframes : Nat)
    (targetBitsPerSubframe slackBits : D) : Best D :=
  (List.range' minScalingFactor maxScalingFactor).foldl
    (searchStep A windowBins quantizedBandEnergyPredictions numSubframes targetBitsPerSubframe
      slackBits)
    { bestQuantizedBandEnergies := [], bestBandEnergyStream := [], bestBinQStream := [],
      bestSubframeBitsEstimate := A.litD 0 }

/-- The variables of `Encode` that the frame loop updates. -/
structure EncState (D : Type) where
  windowModeStream : List Nat
  bandEnergyStream : List Nat
  binQStream : List Int
  quantizedBandEnergyPredictions : List Nat
  slackBits : D
  outTotalBitsEstimate : D

/-- The body of the subframe loop of `Encode`. -/
def encodeSubframe (A : Arith F D) (paddedSamples : List F) (targetBitsPerSubframe : D)
    (frameIndex : Nat) (windowMode : WindowMode)
    (numSubframes subframeWindowOffset subframeWindowSize : Nat)
    (st : EncState D) (subframeIndex : Nat) : EncState D :=
  let subframeSize := subframeWindowSize / 2
  let frameOffset := frameIndex * FrameSize
  let windowOffset := subframeWindowOffset + subframeIndex * subframeSize
  let windowedSamples :=
    windowedSamplesOf A paddedSamples frameOffset windowOffset subframeWindowSize windowMode
  let windowBins := mdct A windowedSamples subframeWindowSize subframeSize
  let best :=
    searchScalingFactor A windowBins st.quantizedBandEnergyPredictions numSubframes
      targetBitsPerSubframe st.slackBits
  { st with
    quantizedBandEnergyPredictions := best.bestQuantizedBandEnergies
    bandEnergyStream := st.bandEnergyStream ++ best.bestBandEnergyStream
    binQStream := st.binQStream ++ best.bestBinQStream
    slackBits := A.addD st.slackBits (A.subD targetBitsPerSubframe best.bestSubframeBitsEstimate)
    outTotalBitsEstimate := A.addD st.outTotalBitsEstimate best.bestSubframeBitsEstimate }

/-- The state of the subframe loop of a frame after its first `j` subframes. -/
def encodeSubframes (A : Arith F D) (paddedSamples : List F) (targetBitsPerFrame : D)
    (frameIndex : Nat) (windowMode : WindowMode) (st : EncState D) (j : Nat) : EncState D :=
  let numSubframes := (subframeConfig windowMode).1
  let subframeWindowOffset := (subframeConfig windowMode).2.1
  let subframeWindowSize := (subframeConfig windowMode).2.2
  let targetBitsPerSubframe := A.divD targetBitsPerFrame (A.natD numSubframes)
  (List.range j).foldl
    (encodeSubframe A paddedSamples targetBitsPerSubframe frameIndex windowMode numSubframes
      subframeWindowOffset subframeWindowSize)
    st

/-- The first statements of the body of the frame loop of `Encode`: the window mode is
selected and pushed to `windowModeStream`. -/
def encodeFrameStart (A : Arith F D) (targetBitRate : D) (isTransientFrameMap : List Bool)
    (numFrames : Nat) (st : EncState D) (frameIndex : Nat) : EncState D :=
  let windowMode := selectWindowMode A targetBitRate isTransientFrameMap numFrames frameIndex
  { st with windowModeStream := st.windowModeStream ++ [windowMode % 256] }

/-- The body of the frame loop of `Encode`. -/
def encodeFrame (A : Arith F D) (paddedSamples : List F) (targetBitRate targetBitsPerFrame : D)
    (isTransientFrameMap : List Bool) (numFrames : Nat) (st : EncState D) (frameIndex : Nat) :
    EncState D :=
  let windowMode := selectWindowMode A targetBitRate isTransientFrameMap numFrames frameIndex
  let st1 := encodeFrameStart A targetBitRate isTransientFrameMap numFrames st frameIndex
  encodeSubframes A paddedSamples targetBitsPerFrame frameIndex windowMode st1
    (subframeConfig windowMode).1

/-- The body of the loop that mirrors the first and the last frame into the padding. -/
def padStep (A : Arith F D) (numPaddedSamples : Nat) (paddedSamples : List F) (i : Nat) :
    List F :=
  let p1 := paddedSamples.set (FrameSize - 1 - i) (paddedSamples.getD (FrameSize + i) (A.litF 0))
  p1.set (numPaddedSamples - FrameSize + i)
    (p1.getD (numPaddedSamples - FrameSize - 1 - i) (A.litF 0))

/-- The padded sample buffer of `Encode`: silence, the input copied at `FrameSize`, and the
two mirrored padding regions. -/
def padSamples (A : Arith F D) (sampleStream : List F) (numPaddedSamples : Nat) : List F :=
  let silence := List.replicate numPaddedSamples (A.litF 0)
  let copied :=
    silence.take FrameSize ++ sampleStream ++ silence.drop (FrameSize + sampleStream.length)
  (List.range FrameSize).foldl (padStep A numPaddedSamples) copied

/-- The initial values of the variables of the frame loop of `Encode`. -/
def EncState.initial (A : Arith F D) : EncState D :=
  { windowModeStream := [], bandEnergyStream := [], binQStream := [],
    quantizedBandEnergyPredictions := List.replicate NumBands 0,
    slackBits := A.litD 0, outTotalBitsEstimate := A.litD 0 }

/-- The state of `Encode` after the first `k` frames. -/
def encodeFrames (A : Arith F D) (paddedSamples : List F) (targetBitRate targetBitsPerFrame : D)
    (isTransientFrameMap : List Bool) (numFrames k : Nat) : EncState D :=
  (List.range k).foldl
    (encodeFrame A paddedSamples targetBitRate targetBitsPerFrame isTransientFrameMap numFrames)
    (EncState.initial A)

/-- The number of frames `Encode` writes to the header, before narrowing to 16 bits. -/
def headerNumFrames (sampleStreamSize : Nat) : Nat :=
  (sampleStreamSize + FrameSize - 1) % 2 ^ 32 / FrameSize

/-- The size of the padded sample buffer of `Encode`, in `uint32_t` arithmetic. -/
def encNumPaddedSamples (sampleStreamSize : Nat) : Nat :=
  let numFrames := (headerNumFrames sampleStreamSize + 1) % 2 ^ 32
  let numSamples := numFrames * FrameSize % 2 ^ 32
  (numSamples + FrameSize * 2) % 2 ^ 32

/-- The function `Encode`.  The sample stream is the list of its `sampleStreamSize` samples.
The result is the encoded byte vector and `outTotalBitsEstimate`; it is `none` when the size
does not fit `uint32_t` or when the copy of the input would overrun the padded buffer (whose
size is computed in wrapping 32 bit arithmetic), which the C++ code leaves undefined. -/
def Encode (A : Arith F D) (sampleStream : List F) (sampleRate targetBitRate : D) :
    Option (List Nat × D) :=
  let sampleStreamSize := sampleStream.length
  let targetBitsPerFrame :=
    A.mulD (A.mulD targetBitRate (A.litD 1000)) (A.divD (A.natD FrameSize) sampleRate)
  let v := WriteCString [] SampleTag
  let v := WriteU16LE v CodecVersionMajor
  let v := WriteU16LE v CodecVersionMinor
  let numFrames := headerNumFrames sampleStreamSize
  let v := WriteU16LE v (numFrames % 2 ^ 16)
  let numFrames := (numFrames + 1) % 2 ^ 32
  let numPaddedSamples := encNumPaddedSamples sampleStreamSize
  if sampleStreamSize < 2 ^ 32 ∧ FrameSize + sampleStreamSize ≤ numPaddedSamples then
    let paddedSamples := padSamples A sampleStream numPaddedSamples
    let isTransientFrameMap := (buildTransientFrameMap A paddedSamples numFrames).1
    let st :=
      encodeFrames A paddedSamples targetBitRate targetBitsPerFrame isTransientFrameMap
        numFrames numFrames
    let v := v ++ st.windowModeStream
    let v := v ++ st.binQStream.map i8ToU8
    let v := v ++ st.bandEnergyStream
    some (v, st.outTotalBitsEstimate)
  else
    none

/-! ## Decode.hpp -/

/-- The variables of `Decode` that its loops update.  The three stream pointers are offsets
into the encoded byte stream; `bandBins` is an offset into `windowBins`. -/
structure DecState (F : Type) where
  windowModeStream : Nat
  quantizedBandBinStream : Nat
  inputStream : Nat
  lcgState : Nat
  quantizedBandEnergyPredictions : List Nat
  paddedSamples : List F
  windowBins : List F
  bandBins : Nat

/-- The body of the loop `Decode band bins`: one byte of the bin stream is read, counted when
it is not zero, and stored in `windowBins`; the second component of the state is
`numNonzeroBins`. -/
def decodeBandBinsStep (A : Arith F D) (bytes : List Nat) (s : DecState F × Nat)
    (binIndex : Nat) : Option (DecState F × Nat) := do
  let b ← bytes[s.1.quantizedBandBinStream]?
  let binQ := u8ToI8 b
  let numNonzeroBins := if binQ ≠ 0 then s.2 + 1 else s.2
  let bin := A.intF binQ
  pure
    ({ s.1 with
        quantizedBandBinStream := s.1.quantizedBandBinStream + 1
        windowBins := s.1.windowBins.set (s.1.bandBins + binIndex) bin },
      numNonzeroBins)

/-- The loop `Decode band bins` over the `numBins` bins of a band. -/
def decodeBandBins (A : Arith F D) (bytes : List Nat) (numBins : Nat) (st : DecState F) :
    Option (DecState F × Nat) :=
  (List.range numBins).foldlM (decodeBandBinsStep A bytes) (st, 0)

/-- The noise fill of a band whose fill ratio is below the threshold. -/
def noiseFill (A : Arith F D) (numBins numNonzeroBins : Nat) (st : DecState F) : DecState F :=
  let binFill := A.divF (A.natF numNonzeroBins) (A.natF numBins)
  let noiseFillThreshold := A.litF (1 / 10)
  if A.ltF binFill noiseFillThreshold then
    let binSparsity := A.divF (A.subF noiseFillThreshold binFill) noiseFillThreshold
    let noiseFillGain := A.mulF binSparsity binSparsity
    (List.range numBins).foldl
      (fun (s : DecState F) binIndex =>
        let noiseSample := A.divF (A.intF (wrapI8 (s.lcgState / 2 ^ 16))) (A.litF 127)
        { s with
          windowBins :=
            s.windowBins.set (s.bandBins + binIndex)
              (A.addF (s.windowBins.getD (s.bandBins + binIndex) (A.litF 0))
                (A.mulF noiseSample noiseFillGain))
          lcgState := (s.lcgState * 1664525 + 1013904223) % 2 ^ 32 })
      st
  else
    st

/-- The value `binScale` of a band: the decoded band energy over the energy of the bins of
the band that starts at offset `bandBins` of `windowBins`. -/
def decBinScale (A : Arith F D) (windowBins : List F) (bandBins numBins : Nat)
    (bandEnergy : F) : F :=
  let epsilon := A.litF (1 / 10 ^ 27)
  let bandBinEnergy :=
    A.SqrtF
      ((List.range numBins).foldl
        (fun bandBinEnergy binIndex =>
          let bin := windowBins.getD (bandBins + binIndex) (A.litF 0)
          A.addF bandBinEnergy (A.mulF bin bin))
        epsilon)
  A.divF bandEnergy bandBinEnergy

/-- The renormalisation of the bins of a band to the decoded band energy. -/
def scaleBand (A : Arith F D) (numBins : Nat) (bandEnergy : F) (st : DecState F) : DecState F :=
  let binScale := decBinScale A st.windowBins st.bandBins numBins bandEnergy
  (List.range numBins).foldl
    (fun (s : DecState F) binIndex =>
      { s with
        windowBins :=
          s.windowBins.set (s.bandBins + binIndex)
            (A.mulF (s.windowBins.getD (s.bandBins + binIndex) (A.litF 0)) binScale) })
    st

/-- The value `bandEnergy` of a band of `Decode` with the given quantized band energy. -/
def decBandEnergy (A : Arith F D) (quantizedBandEnergy numBins : Nat) : F :=
  A.mulF
    (A.Exp2f
      (A.subF (A.mulF (A.divF (A.natF quantizedBandEnergy) (A.litF 64)) (A.litF 40))
        (A.litF 20)))
    (A.natF numBins)

/-- The body of the band loop of `Decode`. -/
def decodeBand (A : Arith F D) (bytes : List Nat) (numSubframes : Nat) (st : DecState F)
    (bandIndex : Nat) : Option (DecState F) := do
  let numBins := BandToNumBins.getD bandIndex 0 / numSubframes
  let (st1, numNonzeroBins) ← decodeBandBins A bytes numBins st
  let st2 := noiseFill A numBins numNonzeroBins st1
  let quantizedBandEnergyResidual ← bytes[st2.inputStream]?
  let quantizedBandEnergy :=
    (st2.quantizedBandEnergyPredictions.getD bandIndex 0 + quantizedBandEnergyResidual) % 256
  let st3 : DecState F :=
    { st2 with
      inputStream := st2.inputStream + 1
      quantizedBandEnergyPredictions :=
        st2.quantizedBandEnergyPredictions.set bandIndex quantizedBandEnergy }
  let bandEnergy := decBandEnergy A quantizedBandEnergy numBins
  let st4 := scaleBand A numBins bandEnergy st3
  pure { st4 with bandBins := st4.bandBins + numBins }

/-- The sample `n` of the inverse MDCT of `windowBins`. -/
def imdctSample (A : Arith F D) (windowBins : List F) (subframeWindowSize n : Nat) : F :=
  let nPlusHalf := A.addF (A.natF n) (A.litF (1 / 2))
  (List.range (subframeWindowSize / 2)).foldl
    (fun sample k =>
      A.addF sample
        (A.mulF
          (A.mulF (A.divF (A.litF 2) (A.natF (subframeWindowSize / 2)))
            (windowBins.getD k (A.litF 0)))
          (A.CosF
            (A.mulF
              (A.mulF (A.divF A.piF (A.natF (subframeWindowSize / 2)))
                (A.addF nPlusHalf (A.natF (subframeWindowSize / 4))))
              (A.addF (A.natF k) (A.litF (1 / 2)))))))
    (A.litF 0)

/-- The loop that applies the IMDCT and the window and accumulates the samples of a subframe
into the padded buffer. -/
def overlapAdd (A : Arith F D) (windowBins : List F) (frameOffset windowOffset : Nat)
    (subframeWindowSize : Nat) (windowMode : WindowMode) (paddedSamples : List F) : List F :=
  (List.range subframeWindowSize).foldl
    (fun paddedSamples n =>
      let sample := imdctSample A windowBins subframeWindowSize n
      let window := MdctWindow A n subframeWindowSize windowMode
      paddedSamples.set (frameOffset + windowOffset + n)
        (A.addF (paddedSamples.getD (frameOffset + windowOffset + n) (A.litF 0))
          (A.mulF sample window)))
    paddedSamples

/-- The body of the subframe loop of `Decode`. -/
def decodeSubframe (A : Arith F D) (bytes : List Nat) (frameIndex : Nat)
    (windowMode : WindowMode) (numSubframes subframeWindowOffset subframeWindowSize : Nat)
    (st : DecState F) (subframeIndex : Nat) : Option (DecState F) := do
  let st0 : DecState F :=
    { st with windowBins := List.replicate FrameSize (A.litF 0), bandBins := 0 }
  let st1 ← (List.range NumBands).foldlM (decodeBand A bytes numSubframes) st0
  let frameOffset := frameIndex * FrameSize
  let windowOffset := subframeWindowOffset + subframeIndex * subframeWindowSize / 2
  pure
    { st1 with
      paddedSamples :=
        overlapAdd A st1.windowBins frameOffset windowOffset subframeWindowSize windowMode
          st1.paddedSamples }

/-- The state of the subframe loop of a frame of `Decode` after its first `j` subframes. -/
def decodeSubframes (A : Arith F D) (bytes : List Nat) (frameIndex : Nat)
    (windowMode : WindowMode) (st : DecState F) (j : Nat) : Option (DecState F) :=
  let numSubframes := (subframeConfig windowMode).1
  let subframeWindowOffset := (subframeConfig windowMode).2.1
  let subframeWindowSize := (subframeConfig windowMode).2.2
  (List.range j).foldlM
    (decodeSubframe A bytes frameIndex windowMode numSubframes subframeWindowOffset
      subframeWindowSize)
    st

/-- The first statement of the body of the frame loop of `Decode`: the window mode byte is
read.  The result is the mode and the state with the advanced pointer. -/
def decodeFrameStart (bytes : List Nat) (st : DecState F) : Option (WindowMode × DecState F) := do
  let b ← bytes[st.windowModeStream]?
  pure (b, { st with windowModeStream := st.windowModeStream + 1 })

/-- The body of the frame loop of `Decode`. -/
def decodeFrame (A : Arith F D) (bytes : List Nat) (st : DecState F) (frameIndex : Nat) :
    Option (DecState F) := do
  let (windowMode, st1) ← decodeFrameStart bytes st
  decodeSubframes A bytes frameIndex windowMode st1 (subframeConfig windowMode).1

/-- The frame count `Decode` reads from the header (a 16 bit little-endian integer at byte
offset 8), or `none` when the stream is shorter than the header. -/
def readNumFrames (bytes : List Nat) : Option Nat := do
  let lo ← bytes[8]?
  let hi ← bytes[9]?
  pure (lo + 256 * hi)

/-- The values of the variables of `Decode` before the frame loop, for the frame count
`numFrames` of the header. -/
def DecState.initial (A : Arith F D) (numFrames : Nat) : DecState F :=
  let inputStream := 8 + 2
  let numSamples := numFrames * FrameSize
  let numFrames := numFrames + 1
  let windowModeStream := inputStream
  let inputStream := inputStream + numFrames
  let quantizedBandBinStream := inputStream
  let inputStream := inputStream + numFrames * NumTotalBins
  let numPaddedSamples := numSamples + FrameSize * 2
  { windowModeStream := windowModeStream
    quantizedBandBinStream := quantizedBandBinStream
    inputStream := inputStream
    lcgState := 0
    quantizedBandEnergyPredictions := List.replicate NumBands 0
    paddedSamples := List.replicate numPaddedSamples (A.litF 0)
    windowBins := []
    bandBins := 0 }

/-- The state of `Decode` after the first `k` frames, for the frame count `numFrames` of the
header. -/
def decodeFrames (A : Arith F D) (bytes : List Nat) (numFrames k : Nat) : Option (DecState F) :=
  (List.range k).foldlM (decodeFrame A bytes) (DecState.initial A numFrames)

/-- The function `Decode`.  The result is the decoded sample buffer and `outNumSamples`; it
is `none` when a read passes the end of the byte stream. -/
def Decode (A : Arith F D) (bytes : List Nat) : Option (List F × Nat) := do
  let numFrames ← readNumFrames bytes
  let numSamples := numFrames * FrameSize
  let st ← decodeFrames A bytes numFrames (numFrames + 1)
  pure ((st.paddedSamples.drop FrameSize).take numSamples, numSamples)

end Generic

/-! ## Meta.hpp -/

/-- The function `strcmp` on two byte buffers: the difference of the first pair of bytes that
differ, or `0` when both strings end together; `none` when a buffer ends before that. -/
def strcmp : List Nat → List Nat → Option Int
  | a :: as, b :: bs =>
    if a ≠ b then some ((a : Int) - (b : Int))
    else if a = 0 then some 0
    else strcmp as bs
  | _, _ => none

/-- The function `CheckSample`: `!strcmp(inputStream, SampleTag)`. -/
def CheckSample (inputStream : List Nat) : Option Bool :=
  (strcmp inputStream SampleTag).map fun r => r == 0

/-- The 16 bit little-endian integer at index `i` of the stream read as `uint16_t` array. -/
def readU16 (inputStream : List Nat) (i : Nat) : Option Nat := do
  let lo ← inputStream[2 * i]?
  let hi ← inputStream[2 * i + 1]?
  pure (lo + 256 * hi)

/-- The function `CheckSampleVersion`. -/
def CheckSampleVersion (inputStream : List Nat) : Option Bool :=
  (readU16 inputStream 2).map fun versionMajor => versionMajor == CodecVersionMajor

/-! ## A computable arithmetic -/

/-- A rational approximation of the square root, exact to six decimal places from below. -/
def ratSqrt (q : ℚ) : ℚ :=
  (Nat.sqrt (q.num.toNat * q.den * 10 ^ 12) : ℚ) / ((q.den : ℚ) * 10 ^ 6)

/-- The integer part of the binary logarithm of a positive rational. -/
def ratLog2 (q : ℚ) : ℚ :=
  if 0 < q then (Int.log 2 q : ℚ) else -(10 ^ 6)

/-- A rational approximation of `2 ^ x`: exact at the integers, linear in between. -/
def ratExp2 (q : ℚ) : ℚ :=
  (2 : ℚ) ^ ⌊q⌋ * (1 + Int.fract q)

/-- A rational approximation of pi. -/
def ratPi : ℚ := 355 / 113

/-- A rational approximation of the sine (Bhaskara's formula after range reduction). -/
def ratSin (q : ℚ) : ℚ :=
  let r := q - 2 * ratPi * ⌊q / (2 * ratPi)⌋
  let half := fun (t : ℚ) => 16 * t * (ratPi - t) / (5 * ratPi ^ 2 - 4 * t * (ratPi - t))
  if r ≤ ratPi then half r else -(half (r - ratPi))

/-- The function `roundf` on rationals: to the nearest integer, halves away from zero. -/
def ratRound (q : ℚ) : ℚ :=
  if 0 ≤ q then (⌊q + 1 / 2⌋ : ℚ) else -(⌊-q + 1 / 2⌋ : ℚ)

/-- The truncation of a rational toward zero. -/
def ratTrunc (q : ℚ) : Int :=
  if 0 ≤ q then ⌊q⌋ else -⌊-q⌋

/-- A computable arithmetic on the rationals.  Sums, differences, products, quotients,
comparisons, rounding and the conversions are exact; the square root, the logarithm, the
exponential and the trigonometric functions are rational approximations, in the way the shims
of the codec may be approximations. -/
def ratArith : Arith ℚ ℚ where
  litF := fun q => q
  natF := fun n => (n : ℚ)
  intF := fun z => (z : ℚ)
  addF := fun a b => a + b
  subF := fun a b => a - b
  mulF := fun a b => a * b
  divF := fun a b => a / b
  ltF := fun a b => decide (a < b)
  geF := fun a b => decide (a ≥ b)
  piF := ratPi
  pi2F := ratPi / 2
  sqrtf := ratSqrt
  log2f := ratLog2
  roundf := ratRound
  powf := fun a b => a ^ ⌊b⌋.toNat
  truncF := ratTrunc
  CosF := fun a => ratSin (a + ratPi / 2)
  SinF := ratSin
  Exp2f := ratExp2
  SqrtF := ratSqrt
  litD := fun q => q
  natD := fun n => (n : ℚ)
  addD := fun a b => a + b
  subD := fun a b => a - b
  mulD := fun a b => a * b
  divD := fun a b => a / b
  negD := fun a => -a
  absD := fun a => |a|
  log2D := ratLog2
  ltD := fun a b => decide (a < b)
  gtD := fun a b => decide (a > b)

/-! ## Views of a run of `Encode` and `Decode` -/

section Views

variable {F D : Type}

/-- The number `⌈n / 1024⌉` of frames of an input of `n` samples. -/
def ceilFrames (n : Nat) : Nat := ⌈(n : ℚ) / 1024⌉₊

/-- The ten header bytes `Encode` writes for an input of `n` samples. -/
def encHeader (n : Nat) : List Nat :=
  WriteU16LE
    (WriteU16LE (WriteU16LE (WriteCString [] SampleTag) CodecVersionMajor) CodecVersionMinor)
    (headerNumFrames n % 2 ^ 16)

/-- The number of frames `Encode` processes: one more than the header count. -/
def encFrameCount (n : Nat) : Nat := (headerNumFrames n + 1) % 2 ^ 32

/-- The value `targetBitsPerFrame` of `Encode`. -/
def encTargetBitsPerFrame (A : Arith F D) (sampleRate targetBitRate : D) : D :=
  A.mulD (A.mulD targetBitRate (A.litD 1000)) (A.divD (A.natD FrameSize) sampleRate)

/-- The padded sample buffer of `Encode` for the input `sampleStream`. -/
def encPadded (A : Arith F D) (sampleStream : List F) : List F :=
  padSamples A sampleStream (encNumPaddedSamples sampleStream.length)

/-- The transient frame map of `Encode` for the input `sampleStream`. -/
def encTransientMap (A : Arith F D) (sampleStream : List F) : List Bool :=
  (buildTransientFrameMap A (encPadded A sampleStream) (encFrameCount sampleStream.length)).1

/-- The window mode `Encode` gives to frame `f` of the input `sampleStream`. -/
def encWindowMode (A : Arith F D) (sampleStream : List F) (targetBitRate : D) (f : Nat) :
    WindowMode :=
  selectWindowMode A targetBitRate (encTransientMap A sampleStream)
    (encFrameCount sampleStream.length) f

/-- The state of `Encode` on the input `sampleStream` after the first `k` frames. -/
def encState (A : Arith F D) (sampleStream : List F) (sampleRate targetBitRate : D) (k : Nat) :
    EncState D :=
  encodeFrames A (encPadded A sampleStream) targetBitRate
    (encTargetBitsPerFrame A sampleRate targetBitRate) (encTransientMap A sampleStream)
    (encFrameCount sampleStream.length) k

/-- The state of `Encode` on the input `sampleStream` after `k` complete frames and the
first `j` subframes of frame `k`. -/
def encStateAt (A : Arith F D) (sampleStream : List F) (sampleRate targetBitRate : D)
    (k j : Nat) : EncState D :=
  encodeSubframes A (encPadded A sampleStream) (encTargetBitsPerFrame A sampleRate targetBitRate)
    k (encWindowMode A sampleStream targetBitRate k)
    (encodeFrameStart A targetBitRate (encTransientMap A sampleStream)
      (encFrameCount sampleStream.length) (encState A sampleStream sampleRate targetBitRate k) k)
    j

/-- The state of `Decode` on `bytes` after `k` complete frames and the first `j` subframes of
frame `k`. -/
def decStateAt (A : Arith F D) (bytes : List Nat) (numFrames k j : Nat) :
    Option (DecState F) := do
  let st ← decodeFrames A bytes numFrames k
  let (windowMode, st1) ← decodeFrameStart bytes st
  decodeSubframes A bytes k windowMode st1 j

/-- The byte vector `Encode` returns for the input `sampleStream`: the header and the
three streams of the final state. -/
def encBytes (A : Arith F D) (sampleStream : List F) (sampleRate targetBitRate : D) :
    List Nat :=
  encHeader sampleStream.length
    ++ (encState A sampleStream sampleRate targetBitRate
          (encFrameCount sampleStream.length)).windowModeStream
    ++ (encState A sampleStream sampleRate targetBitRate
          (encFrameCount sampleStream.length)).binQStream.map i8ToU8
    ++ (encState A sampleStream sampleRate targetBitRate
          (encFrameCount sampleStream.length)).bandEnergyStream

/-- The number of subframes of a frame with the given window mode byte. -/
def numSubframesOf (windowMode : Nat) : Nat := (subframeConfig windowMode).1

end Views

section StreamViews

/-- The number of bins of band `b` in a subframe of a frame with `numSubframes` subframes. -/
def bandNumBins (numSubframes b : Nat) : Nat := BandToNumBins.getD b 0 / numSubframes

/-- The number of bins of the first `k` bands of a subframe. -/
def binsUpTo (numSubframes k : Nat) : Nat :=
  ((List.range k).map (bandNumBins numSubframes)).sum

/-- The relation between the band energy predictions `pred` before a subframe, the residual
bytes `res` written for it and the quantized band energies `q` of the subframe: twenty
bytes each, and every residual is the byte difference of energy and prediction. -/
def SubframeCoded (pred res q : List Nat) : Prop :=
  q.length = NumBands ∧ res.length = NumBands ∧
    (∀ b, b < NumBands → res.getD b 0 = subU8 (q.getD b 0) (pred.getD b 0)) ∧
    ∀ b, b < NumBands → q.getD b 0 < 256

end StreamViews

section FrameViews

/-- The band energy predictions are twenty bytes. -/
def PredOK (pred : List Nat) : Prop :=
  pred.length = NumBands ∧ ∀ b, b < NumBands → pred.getD b 0 < 256

/-- The number of subframes of the first `k` frames, for the window modes `modes`. -/
def subframesUpTo (modes : Nat → Nat) (k : Nat) : Nat :=
  ((List.range k).map fun f => numSubframesOf (modes f)).sum

end FrameViews

section SilenceViews

variable {F D : Type}

/-- The facts about the `float` zero that decide the transient map of a silent input: the
square of zero and the sum of two zeros are zero, and `0 >= 0 * 2` holds. -/
structure Arith.ZeroLaws (A : Arith F D) : Prop where
  mul_zero_zero : A.mulF (A.litF 0) (A.litF 0) = A.litF 0
  add_zero_zero : A.addF (A.litF 0) (A.litF 0) = A.litF 0
  ge_zero : A.geF (A.litF 0) (A.mulF (A.litF 0) (A.litF 2)) = true

/-- Every sample of the list is the `float` zero. -/
def AllZero (A : Arith F D) (l : List F) : Prop := ∀ v, v ∈ l → v = A.litF 0

end SilenceViews

section PlanViews

/-- The window mode the planning rules of `Encode` give to a frame that is transient or not
(`t`), whose previous frame exists and is transient (`p`) and whose next frame exists and is
transient (`n`), when the target bit rate is above 8. -/
def planMode (t p n : Bool) : WindowMode :=
  if t || (p && n) then WindowMode.Short
  else if n then WindowMode.Start
  else if p then WindowMode.Stop
  else WindowMode.Long

end PlanViews

/-! ## Exact real arithmetic -/

section RealArith

/-- The function `roundf` on real numbers: to the nearest integer, halves away from zero. -/
noncomputable def realRound (x : ℝ) : ℝ :=
  if 0 ≤ x then (⌊x + 1 / 2⌋ : ℝ) else -(⌊-x + 1 / 2⌋ : ℝ)

/-- The truncation of a real number toward zero. -/
noncomputable def realTrunc (x : ℝ) : Int :=
  if 0 ≤ x then ⌊x⌋ else -⌊-x⌋

/-- Exact real arithmetic: every operation of `<cmath>` is the exact real function, and so
are the shims `Exp2f` and `SqrtF`; the shims `CosF` and `SinF` are the parameters `cosF` and
`sinF`. -/
noncomputable def realArith (cosF sinF : ℝ → ℝ) : Arith ℝ ℝ where
  litF := fun q => (q : ℝ)
  natF := fun n => (n : ℝ)
  intF := fun z => (z : ℝ)
  addF := fun a b => a + b
  subF := fun a b => a - b
  mulF := fun a b => a * b
  divF := fun a b => a / b
  ltF := fun a b => decide (a < b)
  geF := fun a b => decide (a ≥ b)
  piF := Real.pi
  pi2F := Real.pi / 2
  sqrtf := Real.sqrt
  log2f := Real.logb 2
  roundf := realRound
  powf := fun a b => a ^ b
  truncF := realTrunc
  CosF := cosF
  SinF := sinF
  Exp2f := fun a => (2 : ℝ) ^ a
  SqrtF := Real.sqrt
  litD := fun q => (q : ℝ)
  natD := fun n => (n : ℝ)
  addD := fun a b => a + b
  subD := fun a b => a - b
  mulD := fun a b => a * b
  divD := fun a b => a / b
  negD := fun a => -a
  absD := fun a => |a|
  log2D := Real.logb 2
  ltD := fun a b => decide (a < b)
  gtD := fun a b => decide (a > b)

end RealArith

section SilentStreams

/-- The state of `Encode` holds only zero predictions, zero residual bytes and zero bin
quanta. -/
def SilentEnc {D : Type} (st : EncState D) : Prop :=
  (∀ v, v ∈ st.quantizedBandEnergyPredictions → v = 0) ∧
    (∀ v, v ∈ st.bandEnergyStream → v = 0) ∧ ∀ v, v ∈ st.binQStream → v = 0

end SilentStreams

section SilenceBounds

/-- The bound on the absolute sum of the bins of a band of `n` bins that `Decode`
renormalises to the band energy of the quantized energy zero: `2^-20 * n * (n / 16 + 4)`. -/
def silenceBandBound (n : Nat) : ℚ := (n : ℚ) * ((n : ℚ) / 16 + 4) / 2 ^ 20

/-- The sum of the bounds of the first `k` bands of a subframe. -/
def silenceBinsBound (ns k : Nat) : ℚ :=
  ((List.range k).map fun b => silenceBandBound (bandNumBins ns b)).sum

/-- The bound on one windowed sample of the inverse transform of a subframe with window size
`size`, for a frame with `ns` subframes. -/
def silenceSampleBound (ns size : Nat) : ℚ :=
  2 / ((size / 2 : Nat) : ℚ) * silenceBinsBound ns NumBands

end SilenceBounds

section SilenceInvariant

/-- The bound on the samples of the padded buffer of `Decode` after `t` subframes whose
windows of size `2 * H` start at `off`, `off + H`, `off + 2 * H`, ...: samples below the
current window have received two windows, the samples of its first half one, the others
none. -/
def Tier (c : ℝ) (off H t : Nat) (ps : List ℝ) : Prop :=
  ∀ i, |ps.getD i 0| ≤
    if i < off + H * t then 2 * c else if i < off + H * (t + 1) then c else 0

/-- The bytes are the code of a silent input of `numFrames - 1` frames in which every frame
has the window mode `mode`: the window mode bytes are `mode` and every later byte is zero. -/
structure SilentCode (bytes : List Nat) (numFrames mode : Nat) : Prop where
  length_eq : bytes.length = 10 + numFrames + NumTotalBins * numFrames
    + NumBands * (numSubframesOf mode * numFrames)
  windowMode_eq : ∀ f, f < numFrames → bytes.getD (10 + f) 0 = mode
  zero_after : ∀ i, 10 + numFrames ≤ i → bytes.getD i 0 = 0

end SilenceInvariant

/-! ## MetaHelpers.hpp and the version strings of Meta.hpp -/

section VersionStrings

def VersionPrefix : String := "pulsejet v"

/-- The function `std::to_string` on a `uint16_t` argument, which is promoted to `int`: the
decimal digits of the value. -/
def to_string (value : Nat) : String := Nat.repr value

def VersionStringInternal (versionMajor versionMinor : Nat) : String :=
  VersionPrefix ++ to_string versionMajor ++ "." ++ to_string versionMinor

def LibraryVersionString : String := VersionPrefix ++ "0.1.0"

def CodecVersionString : String := VersionStringInternal CodecVersionMajor CodecVersionMinor

/-- The function `SampleVersionString`; `none` when the stream is shorter than the two
version fields it reads. -/
def SampleVersionString (inputStream : List Nat) : Option String := do
  let versionMajor ← readU16 inputStream 2
  let versionMinor ← readU16 inputStream 3
  pure (VersionStringInternal versionMajor versionMinor)

end VersionStrings

/-! ## Views of the scaling factor search -/

section SearchViews

variable {F D : Type}

/-- The vector `windowBins` of subframe `subframeIndex` of frame `frameIndex`: the MDCT of the
windowed samples, as `encodeSubframe` computes it. -/
def encWindowBins (A : Arith F D) (paddedSamples : List F) (frameIndex : Nat)
    (windowMode : WindowMode) (subframeWindowOffset subframeWindowSize subframeIndex : Nat) :
    List F :=
  mdct A
    (windowedSamplesOf A paddedSamples (frameIndex * FrameSize)
      (subframeWindowOffset + subframeIndex * (subframeWindowSize / 2)) subframeWindowSize
      windowMode)
    subframeWindowSize (subframeWindowSize / 2)

/-- The value the scaling factor search compares for the candidate of `scalingFactor`: the
distance `abs(subframeBitsEstimate - targetBitsPerSubframeWithSlackBits)`. -/
def searchDistance (A : Arith F D) (windowBins : List F)
    (quantizedBandEnergyPredictions : List Nat) (numSubframes : Nat)
    (targetBitsPerSubframe slackBits : D) (scalingFactor : Nat) : D :=
  A.absD
    (A.subD
      (subframeBitsEstimateOf A
        (encodeCandidate A windowBins quantizedBandEnergyPredictions numSubframes scalingFactor
          maxScalingFactor))
      (A.addD targetBitsPerSubframe slackBits))

/-- The comparison `lt` is a strict weak order on the values `d s`: it is irreflexive and
transitive, and so is the relation "neither is below the other". -/
structure StrictWeakOn (lt : D → D → Bool) (d : Nat → D) : Prop where
  irrefl : ∀ s, lt (d s) (d s) = false
  trans : ∀ r s t, lt (d r) (d s) = true → lt (d s) (d t) = true → lt (d r) (d t) = true
  negTrans : ∀ r s t, lt (d r) (d s) = false → lt (d s) (d t) = false → lt (d r) (d t) = false

end SearchViews

/-! ## Views of a candidate -/

section CandidateViews

variable {F D : Type}

/-- The function `clamp_int8` of the format description: the nearest value in
`[-128, 127]`. -/
def clamp_int8 (z : Int) : Int := max (-128) (min 127 z)

/-- The value `bandEnergy` the encoder computes for band `b` of a subframe of a frame with
`numSubframes` subframes: the band starts at offset `binsUpTo numSubframes b`. -/
def encBandEnergyOf (A : Arith F D) (windowBins : List F) (numSubframes b : Nat) : F :=
  encBandEnergy A windowBins (binsUpTo numSubframes b) (bandNumBins numSubframes b)

/-- The value `linearBandEnergy` the encoder computes for band `b`. -/
def encLinearBandEnergyOf (A : Arith F D) (windowBins : List F) (numSubframes b : Nat) : F :=
  encLinearBandEnergy A (encBandEnergyOf A windowBins numSubframes b) (bandNumBins numSubframes b)

/-- The argument of `roundf` in the quantization of the energy of band `b`:
`linearBandEnergy * 64.0f`. -/
def encBandEnergyValue (A : Arith F D) (windowBins : List F) (numSubframes b : Nat) : F :=
  A.mulF (encLinearBandEnergyOf A windowBins numSubframes b) (A.litF 64)

/-- The value `bandBinQuantizeScale` the encoder computes for band `b` and the scaling factor
`scalingFactor`. -/
def encBandBinQuantizeScaleOf (A : Arith F D) (windowBins : List F)
    (numSubframes scalingFactor b : Nat) : F :=
  encBandBinQuantizeScale A b scalingFactor maxScalingFactor
    (encLinearBandEnergyOf A windowBins numSubframes b)

/-- The argument of `roundf` in the quantization of bin `i` of band `b`:
`bin / (bandEnergy + epsilon) * bandBinQuantizeScale`. -/
def encBinValue (A : Arith F D) (windowBins : List F) (numSubframes scalingFactor b i : Nat) :
    F :=
  A.mulF
    (A.divF (windowBins.getD (binsUpTo numSubframes b + i) (A.litF 0))
      (A.addF (encBandEnergyOf A windowBins numSubframes b) (A.litF (1 / 10 ^ 27))))
    (encBandBinQuantizeScaleOf A windowBins numSubframes scalingFactor b)

end CandidateViews

/-! ## Views of the band energy of `Decode` -/

section DecodeEnergyViews

variable {F D : Type}

/-- The argument `Decode` passes to `Exp2f` for a quantized band energy:
`static_cast<float>(quantizedBandEnergy) / 64.0f * 40.0f - 20.0f`. -/
def decExp2Arg (A : Arith F D) (quantizedBandEnergy : Nat) : F :=
  A.subF (A.mulF (A.divF (A.natF quantizedBandEnergy) (A.litF 64)) (A.litF 40)) (A.litF 20)

end DecodeEnergyViews

/-! ## Views of the padded buffer of `Encode` -/

section PaddingViews

variable {F D : Type}

/-- The padded buffer of `Encode` after the copy of the input and before the loop that fills
the padding regions. -/
def copiedSamples (A : Arith F D) (sampleStream : List F) (numPaddedSamples : Nat) : List F :=
  (List.replicate numPaddedSamples (A.litF 0)).take FrameSize ++ sampleStream
    ++ (List.replicate numPaddedSamples (A.litF 0)).drop (FrameSize + sampleStream.length)

end PaddingViews

/-! ## Views of the indices of `Decode` -/

section DecodeIndexViews

/-- The index of `paddedSamples` into which `Decode` accumulates sample `n` of subframe
`subframeIndex` of frame `frameIndex`: `frameOffset + windowOffset + n`. -/
def decSampleIndex (frameIndex : Nat) (windowMode : WindowMode) (subframeIndex n : Nat) : Nat :=
  frameIndex * FrameSize
    + ((subframeConfig windowMode).2.1 + subframeIndex * (subframeConfig windowMode).2.2 / 2) + n

/-- The index of `windowBins` at which `Decode` keeps bin `binIndex` of band `b` of a subframe
of a frame with `numSubframes` subframes: `bandBins + binIndex`, where `bandBins` has been
advanced by the bins of the bands before `b`. -/
def decBinIndex (numSubframes b binIndex : Nat) : Nat := binsUpTo numSubframes b + binIndex

end DecodeIndexViews

/-! ## The window of the format description -/

section SpecWindow

/-- The function `vorbis(nPlusHalf, S) = sin(π/2 · sin²(π/S · nPlusHalf))` of the format
description. -/
noncomputable def specVorbis (nPlusHalf : ℝ) (S : Nat) : ℝ :=
  Real.sin (Real.pi / 2 * Real.sin (Real.pi / (S : ℝ) * nPlusHalf) ^ 2)

/-- The offset `off` of the short window inside a `Start` window, in the words of the format
description: `3·LongWindowSize/4 − ShortWindowSize/4`. -/
def specStartOffset : Nat := 3 * LongWindowSize / 4 - ShortWindowSize / 4

/-- The offset `off` of the short window inside a `Stop` window, in the words of the format
description: `LongWindowSize/4 − ShortWindowSize/4`. -/
def specStopOffset : Nat := LongWindowSize / 4 - ShortWindowSize / 4

/-- The window of the format description, piece by piece in its words.  For `Start`:
`1 − vorbis(n+0.5−off, ShortWindowSize)` for `off ≤ n < off + ShortWindowSize/2`, `0` for
`n ≥ off + ShortWindowSize/2`, `1` for `LongWindowSize/2 ≤ n < off`, else `vorbis(n+0.5, S)`.
For `Stop`: `0` for `n < off`, `vorbis(n+0.5−off, ShortWindowSize)` for
`off ≤ n < off + ShortWindowSize/2`, `1` for `ShortWindowSize/2 + off ≤ n < LongWindowSize/2`,
else `vorbis(n+0.5, S)`.  For the other modes `vorbis(n+0.5, S)`. -/
noncomputable def specMdctWindow (n S : Nat) (mode : WindowMode) : ℝ :=
  if mode = WindowMode.Start then
    if specStartOffset ≤ n ∧ n < specStartOffset + ShortWindowSize / 2 then
      1 - specVorbis ((n : ℝ) + 0.5 - (specStartOffset : ℝ)) ShortWindowSize
    else if n ≥ specStartOffset + ShortWindowSize / 2 then 0
    else if LongWindowSize / 2 ≤ n ∧ n < specStartOffset then 1
    else specVorbis ((n : ℝ) + 0.5) S
  else if mode = WindowMode.Stop then
    if n < specStopOffset then 0
    else if specStopOffset ≤ n ∧ n < specStopOffset + ShortWindowSize / 2 then
      specVorbis ((n : ℝ) + 0.5 - (specStopOffset : ℝ)) ShortWindowSize
    else if ShortWindowSize / 2 + specStopOffset ≤ n ∧ n < LongWindowSize / 2 then 1
    else specVorbis ((n : ℝ) + 0.5) S
  else specVorbis ((n : ℝ) + 0.5) S

end SpecWindow

/-! ## Views of the bit accounting of `Encode` -/

section SlackViews

variable {F D : Type}

/-- The value `targetBitsPerSubframe` of frame `k` of a run of `Encode`. -/
def encTargetBitsPerSubframe (A : Arith F D) (sampleStream : List F)
    (sampleRate targetBitRate : D) (k : Nat) : D :=
  A.divD (encTargetBitsPerFrame A sampleRate targetBitRate)
    (A.natD (numSubframesOf (encWindowMode A sampleStream targetBitRate k)))

/-- The value `bestSubframeBitsEstimate` at the end of the scaling factor search of subframe
`j` of frame `k` of a run of `Encode`: the chosen bits estimate of the subframe. -/
def encChosenEstimate (A : Arith F D) (sampleStream : List F) (sampleRate targetBitRate : D)
    (k j : Nat) : D :=
  (searchScalingFactor A
    (encWindowBins A (encPadded A sampleStream) k (encWindowMode A sampleStream targetBitRate k)
      (subframeConfig (encWindowMode A sampleStream targetBitRate k)).2.1
      (subframeConfig (encWindowMode A sampleStream targetBitRate k)).2.2 j)
    (encStateAt A sampleStream sampleRate targetBitRate k j).quantizedBandEnergyPredictions
    (numSubframesOf (encWindowMode A sampleStream targetBitRate k))
    (encTargetBitsPerSubframe A sampleStream sampleRate targetBitRate k)
    (encStateAt A sampleStream sampleRate targetBitRate k j).slackBits).bestSubframeBitsEstimate

end SlackViews

/-! ## Views of the frequency maps -/

section FreqViews

/-- The frequency map holds positive counts whose total is `n`. -/
def FreqOK (freqs : List (Int × Nat)) (n : Nat) : Prop :=
  (∀ kvp, kvp ∈ freqs → 0 < kvp.2) ∧ (freqs.map Prod.snd).sum = n

end FreqViews

/-! ## Views of the noise fill of `Decode` -/

section NoiseViews

variable {F D : Type}

/-- One transition of the LCG of `Decode`: `lcgState * 1664525 + 1013904223` in 32 bits. -/
def lcgNext (lcgState : Nat) : Nat := (lcgState * 1664525 + 1013904223) % 2 ^ 32

/-- The state of the LCG after `k` transitions from its initial state 0. -/
def lcgAt (k : Nat) : Nat := lcgNext^[k] 0

/-- The condition `binFill < noiseFillThreshold` of a band of `numBins` bins of which
`numNonzeroBins` are not zero. -/
def noiseFilled (A : Arith F D) (numBins numNonzeroBins : Nat) : Bool :=
  A.ltF (A.divF (A.natF numNonzeroBins) (A.natF numBins)) (A.litF (1 / 10))

/-- The value `noiseFillGain` of a band of `numBins` bins of which `numNonzeroBins` are not
zero. -/
def noiseFillGainOf (A : Arith F D) (numBins numNonzeroBins : Nat) : F :=
  A.mulF
    (A.divF (A.subF (A.litF (1 / 10)) (A.divF (A.natF numNonzeroBins) (A.natF numBins)))
      (A.litF (1 / 10)))
    (A.divF (A.subF (A.litF (1 / 10)) (A.divF (A.natF numNonzeroBins) (A.natF numBins)))
      (A.litF (1 / 10)))

/-- The value `noiseSample` computed in the LCG state `lcgState`:
`static_cast<float>(static_cast<int8_t>(lcgState >> 16)) / 127.0f`. -/
def noiseSampleOf (A : Arith F D) (lcgState : Nat) : F :=
  A.divF (A.intF (wrapI8 (lcgState / 2 ^ 16))) (A.litF 127)

/-- The number of bytes among the `numBins` bytes from offset `q` on that are not zero when
read as `int8_t`. -/
def countNonzeroBins (bytes : List Nat) (q numBins : Nat) : Nat :=
  ((List.range numBins).filter fun i => u8ToI8 (bytes.getD (q + i) 0) ≠ 0).length

end NoiseViews

/-! ## The container header -/

section Header

variable {F D : Type}

theorem ceilFrames_eq (n : Nat) : ceilFrames n = (n + 1023) / 1024 := by
  unfold ceilFrames
  apply le_antisymm
  · apply Nat.ceil_le.mpr
    rw [div_le_iff₀ (by norm_num)]
    have h : n ≤ (n + 1023) / 1024 * 1024 := by omega
    exact_mod_cast h
  · have h0 : (n : ℚ) / 1024 ≤ ((⌈(n : ℚ) / 1024⌉₊ : Nat) : ℚ) := Nat.le_ceil _
    rw [div_le_iff₀ (by norm_num)] at h0
    have h1 : n ≤ ⌈(n : ℚ) / 1024⌉₊ * 1024 := by exact_mod_cast h0
    omega

theorem headerNumFrames_eq {n : Nat} (h : n ≤ 2 ^ 32 - 4096) :
    headerNumFrames n = (n + 1023) / 1024 := by
  unfold headerNumFrames FrameSize
  rw [Nat.mod_eq_of_lt (by omega)]
  rfl

theorem encFrameCount_eq {n : Nat} (h : n ≤ 2 ^ 32 - 4096) :
    encFrameCount n = (n + 1023) / 1024 + 1 := by
  unfold encFrameCount
  rw [headerNumFrames_eq h, Nat.mod_eq_of_lt (by omega)]

theorem encNumPaddedSamples_eq {n : Nat} (h : n ≤ 2 ^ 32 - 4096) :
    encNumPaddedSamples n = ((n + 1023) / 1024 + 1) * 1024 + 2048 := by
  unfold encNumPaddedSamples FrameSize
  simp only [headerNumFrames_eq h]
  rw [Nat.mod_eq_of_lt (a := (n + 1023) / 1024 + 1) (by omega),
    Nat.mod_eq_of_lt (a := ((n + 1023) / 1024 + 1) * 1024) (by omega),
    Nat.mod_eq_of_lt (by omega)]

theorem encHeader_eq (n : Nat) :
    encHeader n =
      [0x50, 0x4C, 0x53, 0x4A, 0, 0, 1, 0, headerNumFrames n % 2 ^ 16 % 256,
        headerNumFrames n % 2 ^ 16 / 256 % 256] := by
  simp [encHeader, WriteU16LE, WriteCString, SampleTag, CodecVersionMajor, CodecVersionMinor]

theorem encHeader_length (n : Nat) : (encHeader n).length = 10 := by
  rw [encHeader_eq]; rfl

/-- The result of `Encode` on an input whose size does not make the buffer sizes wrap: the
header, then the three streams. -/
theorem Encode_eq_some (A : Arith F D) (x : List F) (sampleRate targetBitRate : D)
    (h : x.length ≤ 2 ^ 32 - 4096) :
    Encode A x sampleRate targetBitRate =
      some
        (encBytes A x sampleRate targetBitRate,
          (encState A x sampleRate targetBitRate
            (encFrameCount x.length)).outTotalBitsEstimate) := by
  have hg : x.length < 2 ^ 32 ∧ FrameSize + x.length ≤ encNumPaddedSamples x.length := by
    rw [encNumPaddedSamples_eq h]
    unfold FrameSize
    constructor <;> omega
  unfold Encode
  simp only [if_pos hg]
  rfl

/-- When the buffer sizes wrap, the copy of the input overruns the padded buffer and `Encode`
has no result. -/
theorem Encode_eq_none (A : Arith F D) (x : List F) (sampleRate targetBitRate : D)
    (h : 2 ^ 32 - 4096 < x.length) : Encode A x sampleRate targetBitRate = none := by
  have hg : ¬ (x.length < 2 ^ 32 ∧ FrameSize + x.length ≤ encNumPaddedSamples x.length) := by
    rintro ⟨h1, h2⟩
    unfold encNumPaddedSamples headerNumFrames FrameSize at h2
    dsimp only at h2
    omega
  unfold Encode
  simp only [if_neg hg]

theorem readU16_header (n : Nat) (rest : List Nat) :
    readU16 (encHeader n ++ rest) 4 = some (headerNumFrames n % 2 ^ 16) := by
  rw [encHeader_eq]
  simp only [readU16, List.cons_append]
  simp only [List.getElem?_cons_succ, List.getElem?_cons_zero, Option.bind_eq_bind,
    Option.some_bind, Option.pure_def, Option.some.injEq]
  omega

end Header

/-! ## Loops -/

section Loops

/-- Invariant rule for a counted loop. -/
theorem foldl_range_inv {σ : Type} (f : σ → Nat → σ) (P : Nat → σ → Prop) (n : Nat) (s0 : σ)
    (h0 : P 0 s0) (hstep : ∀ k, k < n → ∀ s, P k s → P (k + 1) (f s k)) :
    P n ((List.range n).foldl f s0) := by
  induction n with
  | zero => simpa using h0
  | succ m ih =>
    rw [List.range_succ, List.foldl_append]
    simp only [List.foldl_cons, List.foldl_nil]
    exact hstep m (Nat.lt_succ_self m) _
      (ih (fun k hk s hs => hstep k (Nat.lt_succ_of_lt hk) s hs))

/-- Invariant rule for a loop over an arbitrary list of indices, with an invariant that does
not depend on the position. -/
theorem foldl_list_inv {σ α : Type} (f : σ → α → σ) (P : σ → Prop) (l : List α) (s0 : σ)
    (h0 : P s0) (hstep : ∀ a s, P s → P (f s a)) : P (l.foldl f s0) := by
  induction l generalizing s0 with
  | nil => simpa using h0
  | cons a l ih => exact ih _ (hstep a s0 h0)

/-- Invariant rule for a counted loop whose body can fail. -/
theorem foldlM_range_inv {σ : Type} (f : σ → Nat → Option σ) (P : Nat → σ → Prop) (n : Nat)
    (s0 : σ) (h0 : P 0 s0)
    (hstep : ∀ k, k < n → ∀ s, P k s → ∃ s', f s k = some s' ∧ P (k + 1) s') :
    ∃ s', (List.range n).foldlM f s0 = some s' ∧ P n s' := by
  induction n with
  | zero => exact ⟨s0, by simp, h0⟩
  | succ m ih =>
    obtain ⟨s1, h1, hP1⟩ := ih (fun k hk s hs => hstep k (Nat.lt_succ_of_lt hk) s hs)
    obtain ⟨s2, h2, hP2⟩ := hstep m (Nat.lt_succ_self m) s1 hP1
    refine ⟨s2, ?_, hP2⟩
    rw [List.range_succ, List.foldlM_append, h1]
    simp [h2]

theorem getD_set_eq {α : Type} (l : List α) (i j : Nat) (a d : α) :
    (l.set i a).getD j d = if i = j ∧ j < l.length then a else l.getD j d := by
  rw [List.getD_eq_getElem?_getD, List.getElem?_set, List.getD_eq_getElem?_getD]
  by_cases h : i = j
  · subst h
    by_cases h2 : i < l.length
    · simp [h2]
    · simp [h2, List.getElem?_eq_none (Nat.le_of_not_lt h2)]
  · simp [h]

theorem foldlM_range_inv' {σ : Type} (f : σ → Nat → Option σ) (P : Nat → σ → Prop) (n : Nat)
    (s0 : σ) (h0 : P 0 s0)
    (hstep : ∀ k, k < n → ∀ s s', P k s → f s k = some s' → P (k + 1) s') :
    ∀ s', (List.range n).foldlM f s0 = some s' → P n s' := by
  induction n with
  | zero =>
    intro s' hs
    simp at hs
    rw [← hs]
    exact h0
  | succ m ih =>
    intro s' hs
    rw [List.range_succ, List.foldlM_append] at hs
    cases h1 : (List.range m).foldlM f s0 with
    | none => simp [h1] at hs
    | some s1 =>
      rw [h1] at hs
      simp at hs
      exact hstep m (Nat.lt_succ_self m) s1 s'
        (ih (fun k hk s s' hP hf => hstep k (Nat.lt_succ_of_lt hk) s s' hP hf) s1 h1) hs

theorem range_eq_append_range' (j n : Nat) (h : j ≤ n) :
    List.range n = List.range j ++ List.range' j (n - j) := by
  rw [List.range_eq_range', List.range_eq_range']
  have := List.range'_append 0 j (n - j) 1
  simp only [Nat.one_mul, Nat.zero_add] at this
  rw [this]
  congr 1
  omega

end Loops

/-! ## The streams `Encode` writes -/

section EncoderStreams

variable {F D : Type}

theorem roundToU8_lt (A : Arith F D) (x : F) : roundToU8 A x < 256 := by
  unfold roundToU8
  omega

theorem getD_append_left {α : Type} (l r : List α) (i : Nat) (d : α) (h : i < l.length) :
    (l ++ r).getD i d = l.getD i d := by
  simp [List.getD_eq_getElem?_getD, List.getElem?_append_left h]

theorem getD_append_length {α : Type} (l : List α) (a d : α) :
    (l ++ [a]).getD l.length d = a := by
  simp [List.getD_eq_getElem?_getD]

/-- One band of a candidate: one energy byte, one residual byte, `numBins` bin quanta. -/
theorem encodeBand_spec (A : Arith F D) (windowBins : List F) (pred : List Nat)
    (ns sf msf : Nat) (c : Candidate) (b : Nat) :
    ∃ q, q < 256 ∧
      (encodeBand A windowBins pred ns sf msf c b).quantizedBandEnergies
        = c.quantizedBandEnergies ++ [q] ∧
      (encodeBand A windowBins pred ns sf msf c b).bandEnergyStream
        = c.bandEnergyStream ++ [subU8 q (pred.getD b 0)] ∧
      (encodeBand A windowBins pred ns sf msf c b).binQStream.length
        = c.binQStream.length + bandNumBins ns b := by
  refine ⟨roundToU8 A (A.mulF (encLinearBandEnergy A
    (encBandEnergy A windowBins c.bandBins (BandToNumBins.getD b 0 / ns))
    (BandToNumBins.getD b 0 / ns)) (A.litF 64)), roundToU8_lt A _, ?_⟩
  unfold encodeBand
  dsimp only
  refine foldl_range_inv _
    (fun k (s : Candidate) =>
      s.quantizedBandEnergies = c.quantizedBandEnergies ++ [_] ∧
      s.bandEnergyStream = c.bandEnergyStream ++ [_] ∧
      s.binQStream.length = c.binQStream.length + k) _ _ ⟨rfl, rfl, rfl⟩ ?_
  intro k _ s hs
  obtain ⟨h1, h2, h3⟩ := hs
  refine ⟨h1, h2, ?_⟩
  simp [h3, Nat.add_assoc]

theorem binsUpTo_succ (ns k : Nat) : binsUpTo ns (k + 1) = binsUpTo ns k + bandNumBins ns k := by
  unfold binsUpTo
  rw [List.sum_range_succ]

/-- A candidate: twenty energies, twenty residuals, and the bin quanta of all bands. -/
theorem encodeCandidate_spec (A : Arith F D) (windowBins : List F) (pred : List Nat)
    (ns sf msf : Nat) :
    SubframeCoded pred (encodeCandidate A windowBins pred ns sf msf).bandEnergyStream
        (encodeCandidate A windowBins pred ns sf msf).quantizedBandEnergies ∧
      (encodeCandidate A windowBins pred ns sf msf).binQStream.length = binsUpTo ns NumBands := by
  unfold encodeCandidate
  have key := foldl_range_inv (encodeBand A windowBins pred ns sf msf)
    (fun k (c : Candidate) =>
      c.quantizedBandEnergies.length = k ∧ c.bandEnergyStream.length = k ∧
      (∀ b, b < k → c.bandEnergyStream.getD b 0
        = subU8 (c.quantizedBandEnergies.getD b 0) (pred.getD b 0)) ∧
      (∀ b, b < k → c.quantizedBandEnergies.getD b 0 < 256) ∧
      c.binQStream.length = binsUpTo ns k) NumBands
    { quantizedBandEnergies := [], bandEnergyStream := [], bandEnergyFreqs := [],
      binQStream := [], binQFreqs := [], bandBins := 0 }
    ⟨rfl, rfl, by intro b hb; omega, by intro b hb; omega, by simp [binsUpTo]⟩ ?_
  · obtain ⟨h1, h2, h3, h4, h5⟩ := key
    exact ⟨⟨h1, h2, h3, h4⟩, h5⟩
  · intro k _ c hc
    obtain ⟨h1, h2, h3, h4, h5⟩ := hc
    obtain ⟨q, hq, e1, e2, e3⟩ := encodeBand_spec A windowBins pred ns sf msf c k
    rw [e1, e2, e3]
    refine ⟨by simp [h1], by simp [h2], ?_, ?_, by rw [h5, binsUpTo_succ]⟩
    · intro b hb
      rcases Nat.lt_succ_iff_lt_or_eq.mp hb with hlt | heq
      · rw [getD_append_left _ _ _ _ (by omega), getD_append_left _ _ _ _ (by omega)]
        exact h3 b hlt
      · subst heq
        have a1 := getD_append_length c.bandEnergyStream (subU8 q (pred.getD b 0)) 0
        have a2 := getD_append_length c.quantizedBandEnergies q 0
        rw [h2] at a1
        rw [h1] at a2
        rw [a1, a2]
    · intro b hb
      rcases Nat.lt_succ_iff_lt_or_eq.mp hb with hlt | heq
      · rw [getD_append_left _ _ _ _ (by omega)]
        exact h4 b hlt
      · subst heq
        have a2 := getD_append_length c.quantizedBandEnergies q 0
        rw [h1] at a2
        rw [a2]
        exact hq

/-- The streams the scaling factor search keeps are the streams of one of the candidates. -/
theorem searchScalingFactor_candidate (A : Arith F D) (windowBins : List F) (pred : List Nat)
    (ns : Nat) (target slack : D) :
    ∃ sf,
      (searchScalingFactor A windowBins pred ns target slack).bestQuantizedBandEnergies
        = (encodeCandidate A windowBins pred ns sf maxScalingFactor).quantizedBandEnergies ∧
      (searchScalingFactor A windowBins pred ns target slack).bestBandEnergyStream
        = (encodeCandidate A windowBins pred ns sf maxScalingFactor).bandEnergyStream ∧
      (searchScalingFactor A windowBins pred ns target slack).bestBinQStream
        = (encodeCandidate A windowBins pred ns sf maxScalingFactor).binQStream := by
  unfold searchScalingFactor
  have h500 : List.range' minScalingFactor maxScalingFactor
      = minScalingFactor :: List.range' (minScalingFactor + 1) 499 := by
    unfold minScalingFactor maxScalingFactor
    rw [List.range'_succ]
  rw [h500, List.foldl_cons]
  refine foldl_list_inv (searchStep A windowBins pred ns target slack)
    (fun best => ∃ sf,
      best.bestQuantizedBandEnergies
        = (encodeCandidate A windowBins pred ns sf maxScalingFactor).quantizedBandEnergies ∧
      best.bestBandEnergyStream
        = (encodeCandidate A windowBins pred ns sf maxScalingFactor).bandEnergyStream ∧
      best.bestBinQStream
        = (encodeCandidate A windowBins pred ns sf maxScalingFactor).binQStream) _ _ ?_ ?_
  · refine ⟨minScalingFactor, ?_⟩
    simp [searchStep]
  · intro sf best hbest
    unfold searchStep
    dsimp only
    split
    · exact ⟨sf, rfl, rfl, rfl⟩
    · exact hbest

theorem searchScalingFactor_spec (A : Arith F D) (windowBins : List F) (pred : List Nat)
    (ns : Nat) (target slack : D) :
    SubframeCoded pred
        (searchScalingFactor A windowBins pred ns target slack).bestBandEnergyStream
        (searchScalingFactor A windowBins pred ns target slack).bestQuantizedBandEnergies ∧
      (searchScalingFactor A windowBins pred ns target slack).bestBinQStream.length
        = binsUpTo ns NumBands := by
  obtain ⟨sf, h1, h2, h3⟩ := searchScalingFactor_candidate A windowBins pred ns target slack
  rw [h1, h2, h3]
  exact encodeCandidate_spec A windowBins pred ns sf maxScalingFactor

/-- One subframe of `Encode`: twenty residual bytes are appended to the band energy stream,
the predictions become the energies the residuals code, and the bin quanta of all bands are
appended to the bin stream. -/
theorem encodeSubframe_spec (A : Arith F D) (ps : List F) (target : D) (f : Nat)
    (mode : WindowMode) (ns off size : Nat) (st : EncState D) (j : Nat) :
    (encodeSubframe A ps target f mode ns off size st j).windowModeStream
        = st.windowModeStream ∧
      (∃ res,
        (encodeSubframe A ps target f mode ns off size st j).bandEnergyStream
          = st.bandEnergyStream ++ res ∧
        SubframeCoded st.quantizedBandEnergyPredictions res
          (encodeSubframe A ps target f mode ns off size st j).quantizedBandEnergyPredictions) ∧
      (encodeSubframe A ps target f mode ns off size st j).binQStream.length
        = st.binQStream.length + binsUpTo ns NumBands := by
  unfold encodeSubframe
  dsimp only
  refine ⟨rfl, ⟨_, rfl, ?_⟩, ?_⟩
  · exact (searchScalingFactor_spec A _ _ ns target st.slackBits).1
  · rw [List.length_append, (searchScalingFactor_spec A _ _ ns target st.slackBits).2]

end EncoderStreams

/-! ## The frames `Encode` writes -/

section EncoderFrames

variable {F D : Type}

theorem binsUpTo_long : binsUpTo 1 NumBands = 856 := by decide

theorem binsUpTo_short : binsUpTo 8 NumBands = 107 := by decide

theorem numSubframesOf_eq (m : Nat) : numSubframesOf m = if m = 1 then 8 else 1 := by
  unfold numSubframesOf subframeConfig WindowMode.Short NumShortWindowsPerFrame
  split <;> rfl

theorem numSubframesOf_cases (m : Nat) : numSubframesOf m = 1 ∨ numSubframesOf m = 8 := by
  rw [numSubframesOf_eq]
  split <;> simp

theorem numSubframesOf_mul_bins (m : Nat) :
    numSubframesOf m * binsUpTo (numSubframesOf m) NumBands = NumTotalBins := by
  rcases numSubframesOf_cases m with h | h <;> rw [h]
  · rw [binsUpTo_long]; rfl
  · rw [binsUpTo_short]; rfl

theorem subframesUpTo_succ (modes : Nat → Nat) (k : Nat) :
    subframesUpTo modes (k + 1) = subframesUpTo modes k + numSubframesOf (modes k) := by
  unfold subframesUpTo
  rw [List.sum_range_succ]

theorem PredOK_initial : PredOK (List.replicate NumBands 0) := by
  refine ⟨by simp, ?_⟩
  intro b hb
  simp [List.getD_eq_getElem?_getD, List.getElem?_replicate, hb]

theorem SubframeCoded.predOK {pred res q : List Nat} (h : SubframeCoded pred res q) :
    PredOK q := ⟨h.1, h.2.2.2⟩

theorem encodeSubframes_succ (A : Arith F D) (ps : List F) (tbpf : D) (f : Nat)
    (mode : WindowMode) (st : EncState D) (j : Nat) :
    encodeSubframes A ps tbpf f mode st (j + 1)
      = encodeSubframe A ps (A.divD tbpf (A.natD (numSubframesOf mode))) f mode
          (numSubframesOf mode) (subframeConfig mode).2.1 (subframeConfig mode).2.2
          (encodeSubframes A ps tbpf f mode st j) j := by
  unfold encodeSubframes numSubframesOf
  dsimp only
  rw [List.range_succ, List.foldl_append]
  rfl

theorem encodeSubframes_zero (A : Arith F D) (ps : List F) (tbpf : D) (f : Nat)
    (mode : WindowMode) (st : EncState D) :
    encodeSubframes A ps tbpf f mode st 0 = st := rfl

/-- The first `j` subframes of a frame append `20 * j` residual bytes and `j` times the bins
of a subframe. -/
theorem encodeSubframes_spec (A : Arith F D) (ps : List F) (tbpf : D) (f : Nat)
    (mode : WindowMode) (st : EncState D) (j : Nat) :
    (encodeSubframes A ps tbpf f mode st j).windowModeStream = st.windowModeStream ∧
      (encodeSubframes A ps tbpf f mode st j).bandEnergyStream.length
        = st.bandEnergyStream.length + NumBands * j ∧
      (encodeSubframes A ps tbpf f mode st j).binQStream.length
        = st.binQStream.length + j * binsUpTo (numSubframesOf mode) NumBands ∧
      (PredOK st.quantizedBandEnergyPredictions →
        PredOK (encodeSubframes A ps tbpf f mode st j).quantizedBandEnergyPredictions) := by
  induction j with
  | zero => simp [encodeSubframes_zero]
  | succ j ih =>
    obtain ⟨h1, h2, h3, h4⟩ := ih
    rw [encodeSubframes_succ]
    obtain ⟨e1, ⟨res, e2, e3⟩, e4⟩ := encodeSubframe_spec A ps
      (A.divD tbpf (A.natD (numSubframesOf mode))) f mode (numSubframesOf mode)
      (subframeConfig mode).2.1 (subframeConfig mode).2.2
      (encodeSubframes A ps tbpf f mode st j) j
    refine ⟨by rw [e1, h1], ?_, ?_, fun _ => e3.predOK⟩
    · rw [e2, List.length_append, h2, e3.2.1]
      ring
    · rw [e4, h3]
      ring

/-- Every run of subframes only appends to the band energy stream. -/
theorem encodeSubframe_foldl_extends (A : Arith F D) (ps : List F) (target : D) (f : Nat)
    (mode : WindowMode) (ns off size : Nat) (l : List Nat) (st : EncState D) :
    ∃ r, (l.foldl (encodeSubframe A ps target f mode ns off size) st).bandEnergyStream
      = st.bandEnergyStream ++ r := by
  refine foldl_list_inv (encodeSubframe A ps target f mode ns off size)
    (fun s => ∃ r, s.bandEnergyStream = st.bandEnergyStream ++ r) l st ⟨[], by simp⟩ ?_
  intro j s hs
  obtain ⟨r, hr⟩ := hs
  obtain ⟨_, ⟨res, e2, _⟩, _⟩ := encodeSubframe_spec A ps target f mode ns off size s j
  exact ⟨r ++ res, by rw [e2, hr, List.append_assoc]⟩

theorem encodeSubframes_extends (A : Arith F D) (ps : List F) (tbpf : D) (f : Nat)
    (mode : WindowMode) (st : EncState D) (j n : Nat) (h : j ≤ n) :
    ∃ r, (encodeSubframes A ps tbpf f mode st n).bandEnergyStream
      = (encodeSubframes A ps tbpf f mode st j).bandEnergyStream ++ r := by
  unfold encodeSubframes
  dsimp only
  rw [range_eq_append_range' j n h, List.foldl_append]
  exact encodeSubframe_foldl_extends A ps _ f mode _ _ _ _ _

theorem selectWindowMode_lt (A : Arith F D) (br : D) (tmap : List Bool) (n f : Nat) :
    selectWindowMode A br tmap n f < 4 := by
  unfold selectWindowMode
  dsimp only
  split_ifs <;> decide

theorem encodeFrame_eq (A : Arith F D) (ps : List F) (br tbpf : D) (tmap : List Bool)
    (n : Nat) (st : EncState D) (f : Nat) :
    encodeFrame A ps br tbpf tmap n st f
      = encodeSubframes A ps tbpf f (selectWindowMode A br tmap n f)
          (encodeFrameStart A br tmap n st f)
          (numSubframesOf (selectWindowMode A br tmap n f)) := rfl

/-- One frame of `Encode`: one window mode byte, `NumTotalBins` bin quanta, and twenty
residual bytes for each subframe. -/
theorem encodeFrame_spec (A : Arith F D) (ps : List F) (br tbpf : D) (tmap : List Bool)
    (n : Nat) (st : EncState D) (f : Nat) :
    (encodeFrame A ps br tbpf tmap n st f).windowModeStream
        = st.windowModeStream ++ [selectWindowMode A br tmap n f] ∧
      (encodeFrame A ps br tbpf tmap n st f).bandEnergyStream.length
        = st.bandEnergyStream.length
          + NumBands * numSubframesOf (selectWindowMode A br tmap n f) ∧
      (encodeFrame A ps br tbpf tmap n st f).binQStream.length
        = st.binQStream.length + NumTotalBins ∧
      (PredOK st.quantizedBandEnergyPredictions →
        PredOK (encodeFrame A ps br tbpf tmap n st f).quantizedBandEnergyPredictions) ∧
      ∃ r, (encodeFrame A ps br tbpf tmap n st f).bandEnergyStream
        = st.bandEnergyStream ++ r := by
  rw [encodeFrame_eq]
  obtain ⟨h1, h2, h3, h4⟩ := encodeSubframes_spec A ps tbpf f (selectWindowMode A br tmap n f)
    (encodeFrameStart A br tmap n st f) (numSubframesOf (selectWindowMode A br tmap n f))
  have hm : selectWindowMode A br tmap n f % 256 = selectWindowMode A br tmap n f :=
    Nat.mod_eq_of_lt (Nat.lt_trans (selectWindowMode_lt A br tmap n f) (by decide))
  refine ⟨?_, ?_, ?_, ?_, ?_⟩
  · rw [h1]
    simp [encodeFrameStart, hm]
  · rw [h2]; rfl
  · rw [h3, numSubframesOf_mul_bins]; rfl
  · exact h4
  · obtain ⟨r, hr⟩ := encodeSubframes_extends A ps tbpf f (selectWindowMode A br tmap n f)
      (encodeFrameStart A br tmap n st f) 0
      (numSubframesOf (selectWindowMode A br tmap n f)) (Nat.zero_le _)
    exact ⟨r, hr⟩

theorem encodeFrame_foldl_extends (A : Arith F D) (ps : List F) (br tbpf : D)
    (tmap : List Bool) (n : Nat) (l : List Nat) (st : EncState D) :
    ∃ r, (l.foldl (encodeFrame A ps br tbpf tmap n) st).bandEnergyStream
      = st.bandEnergyStream ++ r := by
  refine foldl_list_inv (encodeFrame A ps br tbpf tmap n)
    (fun s => ∃ r, s.bandEnergyStream = st.bandEnergyStream ++ r) l st ⟨[], by simp⟩ ?_
  intro f s hs
  obtain ⟨r, hr⟩ := hs
  obtain ⟨_, _, _, _, r2, hr2⟩ := encodeFrame_spec A ps br tbpf tmap n s f
  exact ⟨r ++ r2, by rw [hr2, hr, List.append_assoc]⟩

theorem encState_zero (A : Arith F D) (x : List F) (sr br : D) :
    encState A x sr br 0 = EncState.initial A := rfl

theorem encState_succ (A : Arith F D) (x : List F) (sr br : D) (k : Nat) :
    encState A x sr br (k + 1)
      = encodeFrame A (encPadded A x) br (encTargetBitsPerFrame A sr br) (encTransientMap A x)
          (encFrameCount x.length) (encState A x sr br k) k := by
  unfold encState encodeFrames
  rw [List.range_succ, List.foldl_append]
  rfl

theorem encState_succ_eq_encStateAt (A : Arith F D) (x : List F) (sr br : D) (k : Nat) :
    encState A x sr br (k + 1)
      = encStateAt A x sr br k (numSubframesOf (encWindowMode A x br k)) := by
  rw [encState_succ, encodeFrame_eq]
  rfl

/-- The state of `Encode` after `k` frames: `k` window mode bytes, `856 * k` bin quanta, and
twenty residual bytes for each subframe. -/
theorem encState_spec (A : Arith F D) (x : List F) (sr br : D) (k : Nat) :
    (encState A x sr br k).windowModeStream = (List.range k).map (encWindowMode A x br) ∧
      (encState A x sr br k).bandEnergyStream.length
        = NumBands * subframesUpTo (encWindowMode A x br) k ∧
      (encState A x sr br k).binQStream.length = NumTotalBins * k ∧
      PredOK (encState A x sr br k).quantizedBandEnergyPredictions := by
  induction k with
  | zero =>
    rw [encState_zero]
    exact ⟨rfl, rfl, rfl, PredOK_initial⟩
  | succ k ih =>
    obtain ⟨h1, h2, h3, h4⟩ := ih
    rw [encState_succ]
    obtain ⟨e1, e2, e3, e4, _⟩ := encodeFrame_spec A (encPadded A x) br
      (encTargetBitsPerFrame A sr br) (encTransientMap A x) (encFrameCount x.length)
      (encState A x sr br k) k
    refine ⟨?_, ?_, ?_, e4 h4⟩
    · rw [e1, h1, List.range_succ, List.map_append]
      rfl
    · rw [e2, h2, subframesUpTo_succ]
      unfold encWindowMode
      ring
    · rw [e3, h3]
      ring

theorem encState_extends (A : Arith F D) (x : List F) (sr br : D) (k n : Nat) (h : k ≤ n) :
    ∃ r, (encState A x sr br n).bandEnergyStream
      = (encState A x sr br k).bandEnergyStream ++ r := by
  unfold encState encodeFrames
  rw [range_eq_append_range' k n h, List.foldl_append]
  exact encodeFrame_foldl_extends A _ _ _ _ _ _ _

theorem encStateAt_extends (A : Arith F D) (x : List F) (sr br : D) (k j n : Nat)
    (hk : k < n) (hj : j ≤ numSubframesOf (encWindowMode A x br k)) :
    ∃ r, (encState A x sr br n).bandEnergyStream
      = (encStateAt A x sr br k j).bandEnergyStream ++ r := by
  obtain ⟨r1, h1⟩ := encState_extends A x sr br (k + 1) n hk
  rw [encState_succ_eq_encStateAt] at h1
  obtain ⟨r2, h2⟩ := encodeSubframes_extends A (encPadded A x) (encTargetBitsPerFrame A sr br)
    k (encWindowMode A x br k)
    (encodeFrameStart A br (encTransientMap A x) (encFrameCount x.length)
      (encState A x sr br k) k) j (numSubframesOf (encWindowMode A x br k)) hj
  refine ⟨r2 ++ r1, ?_⟩
  rw [h1]
  unfold encStateAt
  rw [h2, List.append_assoc]

end EncoderFrames

/-! ## The reads of `Decode` -/

section DecoderReads

variable {F D : Type}

theorem getElem?_eq_some_getD {α : Type} (l : List α) (i : Nat) (d : α) (h : i < l.length) :
    l[i]? = some (l.getD i d) := by
  simp [List.getD_eq_getElem?_getD, List.getElem?_eq_getElem h]

theorem binsUpTo_mono (ns : Nat) {k n : Nat} (h : k ≤ n) : binsUpTo ns k ≤ binsUpTo ns n := by
  induction n with
  | zero =>
    have : k = 0 := by omega
    rw [this]
  | succ m ih =>
    rcases Nat.lt_succ_iff_lt_or_eq.mp (Nat.lt_succ_of_le h) with hlt | heq
    · rw [binsUpTo_succ]
      have := ih (by omega)
      omega
    · rw [heq]

/-- The loop that reads the bins of a band succeeds when `numBins` bytes are left; it moves
the bin pointer by `numBins` and changes nothing else but `windowBins`. -/
theorem decodeBandBins_spec (A : Arith F D) (bytes : List Nat) (numBins : Nat)
    (st : DecState F) (h : st.quantizedBandBinStream + numBins ≤ bytes.length) :
    ∃ st' nz, decodeBandBins A bytes numBins st = some (st', nz) ∧
      st'.windowModeStream = st.windowModeStream ∧
      st'.quantizedBandBinStream = st.quantizedBandBinStream + numBins ∧
      st'.inputStream = st.inputStream ∧
      st'.quantizedBandEnergyPredictions = st.quantizedBandEnergyPredictions ∧
      st'.paddedSamples = st.paddedSamples ∧
      st'.bandBins = st.bandBins ∧
      st'.lcgState = st.lcgState ∧
      st'.windowBins.length = st.windowBins.length := by
  unfold decodeBandBins
  have key := foldlM_range_inv (decodeBandBinsStep A bytes)
    (fun k (s : DecState F × Nat) =>
      s.1.windowModeStream = st.windowModeStream ∧
      s.1.quantizedBandBinStream = st.quantizedBandBinStream + k ∧
      s.1.inputStream = st.inputStream ∧
      s.1.quantizedBandEnergyPredictions = st.quantizedBandEnergyPredictions ∧
      s.1.paddedSamples = st.paddedSamples ∧
      s.1.bandBins = st.bandBins ∧
      s.1.lcgState = st.lcgState ∧
      s.1.windowBins.length = st.windowBins.length) numBins (st, 0)
    ⟨rfl, rfl, rfl, rfl, rfl, rfl, rfl, rfl⟩ ?_
  · obtain ⟨s', hs', hP⟩ := key
    exact ⟨s'.1, s'.2, hs', hP⟩
  · intro k hk s hs
    obtain ⟨h1, h2, h3, h4, h5, h6, h7, h8⟩ := hs
    have hlt : s.1.quantizedBandBinStream < bytes.length := by omega
    simp only [decodeBandBinsStep, getElem?_eq_some_getD bytes _ 0 hlt, Option.bind_eq_bind,
      Option.some_bind, Option.pure_def, Option.some.injEq, exists_eq_left']
    refine ⟨h1, ?_, h3, h4, h5, h6, h7, ?_⟩
    · simp only [h2]; omega
    · simp only [List.length_set, h8]

/-- The pointers after the loop that reads the bins of a band, when it succeeds. -/
theorem decodeBandBins_spec_of_some (A : Arith F D) (bytes : List Nat) (numBins : Nat)
    (st st1 : DecState F) (nz : Nat) (h : decodeBandBins A bytes numBins st = some (st1, nz)) :
    st1.windowModeStream = st.windowModeStream ∧
      st1.quantizedBandBinStream = st.quantizedBandBinStream + numBins ∧
      st1.inputStream = st.inputStream ∧
      st1.quantizedBandEnergyPredictions = st.quantizedBandEnergyPredictions ∧
      st1.paddedSamples = st.paddedSamples ∧
      st1.bandBins = st.bandBins ∧
      st1.lcgState = st.lcgState ∧
      st1.windowBins.length = st.windowBins.length := by
  refine foldlM_range_inv' (decodeBandBinsStep A bytes)
    (fun k (s : DecState F × Nat) =>
      s.1.windowModeStream = st.windowModeStream ∧
      s.1.quantizedBandBinStream = st.quantizedBandBinStream + k ∧
      s.1.inputStream = st.inputStream ∧
      s.1.quantizedBandEnergyPredictions = st.quantizedBandEnergyPredictions ∧
      s.1.paddedSamples = st.paddedSamples ∧
      s.1.bandBins = st.bandBins ∧
      s.1.lcgState = st.lcgState ∧
      s.1.windowBins.length = st.windowBins.length) numBins (st, 0)
    ⟨rfl, rfl, rfl, rfl, rfl, rfl, rfl, rfl⟩ ?_ (st1, nz) h
  intro k _ s s' hs hf
  obtain ⟨h1, h2, h3, h4, h5, h6, h7, h8⟩ := hs
  unfold decodeBandBinsStep at hf
  cases hb : bytes[s.1.quantizedBandBinStream]? with
  | none => simp [hb] at hf
  | some b =>
    simp only [hb, Option.bind_eq_bind, Option.some_bind, Option.pure_def,
      Option.some.injEq] at hf
    rw [← hf]
    exact ⟨h1, by simp only [h2]; omega, h3, h4, h5, h6, h7,
      by simp only [List.length_set, h8]⟩

theorem noiseFill_spec (A : Arith F D) (numBins nz : Nat) (st : DecState F) :
    (noiseFill A numBins nz st).windowModeStream = st.windowModeStream ∧
      (noiseFill A numBins nz st).quantizedBandBinStream = st.quantizedBandBinStream ∧
      (noiseFill A numBins nz st).inputStream = st.inputStream ∧
      (noiseFill A numBins nz st).quantizedBandEnergyPredictions
        = st.quantizedBandEnergyPredictions ∧
      (noiseFill A numBins nz st).paddedSamples = st.paddedSamples ∧
      (noiseFill A numBins nz st).bandBins = st.bandBins ∧
      (noiseFill A numBins nz st).windowBins.length = st.windowBins.length := by
  unfold noiseFill
  dsimp only
  split
  · refine foldl_list_inv _
      (fun (s : DecState F) =>
        s.windowModeStream = st.windowModeStream ∧
        s.quantizedBandBinStream = st.quantizedBandBinStream ∧
        s.inputStream = st.inputStream ∧
        s.quantizedBandEnergyPredictions = st.quantizedBandEnergyPredictions ∧
        s.paddedSamples = st.paddedSamples ∧
        s.bandBins = st.bandBins ∧
        s.windowBins.length = st.windowBins.length) _ _
      ⟨rfl, rfl, rfl, rfl, rfl, rfl, rfl⟩ ?_
    intro k s hs
    obtain ⟨h1, h2, h3, h4, h5, h6, h7⟩ := hs
    exact ⟨h1, h2, h3, h4, h5, h6, by simp only [List.length_set, h7]⟩
  · exact ⟨rfl, rfl, rfl, rfl, rfl, rfl, rfl⟩

theorem scaleBand_spec (A : Arith F D) (numBins : Nat) (bandEnergy : F) (st : DecState F) :
    (scaleBand A numBins bandEnergy st).windowModeStream = st.windowModeStream ∧
      (scaleBand A numBins bandEnergy st).quantizedBandBinStream = st.quantizedBandBinStream ∧
      (scaleBand A numBins bandEnergy st).inputStream = st.inputStream ∧
      (scaleBand A numBins bandEnergy st).quantizedBandEnergyPredictions
        = st.quantizedBandEnergyPredictions ∧
      (scaleBand A numBins bandEnergy st).paddedSamples = st.paddedSamples ∧
      (scaleBand A numBins bandEnergy st).bandBins = st.bandBins ∧
      (scaleBand A numBins bandEnergy st).lcgState = st.lcgState ∧
      (scaleBand A numBins bandEnergy st).windowBins.length = st.windowBins.length := by
  unfold scaleBand
  dsimp only
  refine foldl_list_inv _
    (fun (s : DecState F) =>
      s.windowModeStream = st.windowModeStream ∧
      s.quantizedBandBinStream = st.quantizedBandBinStream ∧
      s.inputStream = st.inputStream ∧
      s.quantizedBandEnergyPredictions = st.quantizedBandEnergyPredictions ∧
      s.paddedSamples = st.paddedSamples ∧
      s.bandBins = st.bandBins ∧
      s.lcgState = st.lcgState ∧
      s.windowBins.length = st.windowBins.length) _ _
    ⟨rfl, rfl, rfl, rfl, rfl, rfl, rfl, rfl⟩ ?_
  intro k s hs
  obtain ⟨h1, h2, h3, h4, h5, h6, h7, h8⟩ := hs
  exact ⟨h1, h2, h3, h4, h5, h6, h7, by simp only [List.length_set, h8]⟩

/-- One band of `Decode` succeeds when its bins and its residual byte are left in the
stream; it reads `numBins` bin bytes and one residual byte, and adds the residual to the
prediction of the band modulo 256. -/
theorem decodeBand_spec (A : Arith F D) (bytes : List Nat) (ns : Nat) (st : DecState F)
    (b : Nat) (h1 : st.quantizedBandBinStream + bandNumBins ns b ≤ bytes.length)
    (h2 : st.inputStream < bytes.length) :
    ∃ st', decodeBand A bytes ns st b = some st' ∧
      st'.windowModeStream = st.windowModeStream ∧
      st'.quantizedBandBinStream = st.quantizedBandBinStream + bandNumBins ns b ∧
      st'.inputStream = st.inputStream + 1 ∧
      st'.quantizedBandEnergyPredictions
        = st.quantizedBandEnergyPredictions.set b
            ((st.quantizedBandEnergyPredictions.getD b 0 + bytes.getD st.inputStream 0)
              % 256) ∧
      st'.paddedSamples = st.paddedSamples ∧
      st'.windowBins.length = st.windowBins.length := by
  obtain ⟨st1, nz, e1, a1, a2, a3, a4, a5, a6, a7, a8⟩ :=
    decodeBandBins_spec A bytes (bandNumBins ns b) st h1
  obtain ⟨n1, n2, n3, n4, n5, n6, n7⟩ := noiseFill_spec A (bandNumBins ns b) nz st1
  have hlt : (noiseFill A (bandNumBins ns b) nz st1).inputStream < bytes.length := by
    rw [n3, a3]; exact h2
  unfold decodeBand
  unfold bandNumBins at e1 hlt n1 n2 n3 n4 n5 n6 n7
  simp only [e1, Option.bind_eq_bind, Option.some_bind, Option.pure_def,
    getElem?_eq_some_getD bytes _ 0 hlt]
  refine ⟨_, rfl, ?_⟩
  simp only [(scaleBand_spec A _ _ _).1, (scaleBand_spec A _ _ _).2.1,
    (scaleBand_spec A _ _ _).2.2.1, (scaleBand_spec A _ _ _).2.2.2.1,
    (scaleBand_spec A _ _ _).2.2.2.2.1, (scaleBand_spec A _ _ _).2.2.2.2.2.2.2,
    n1, n2, n3, n4, n5, n7, a1, a2, a3, a4, a5, a8, bandNumBins, and_self]

/-- The band loop of a subframe of `Decode` succeeds when the bins of a subframe and twenty
residual bytes are left; it adds the twenty residual bytes to the predictions modulo 256. -/
theorem decodeBands_spec (A : Arith F D) (bytes : List Nat) (ns : Nat) (st : DecState F)
    (hq : st.quantizedBandBinStream + binsUpTo ns NumBands ≤ bytes.length)
    (hi : st.inputStream + NumBands ≤ bytes.length)
    (hl : st.quantizedBandEnergyPredictions.length = NumBands) :
    ∃ st', (List.range NumBands).foldlM (decodeBand A bytes ns) st = some st' ∧
      st'.windowModeStream = st.windowModeStream ∧
      st'.quantizedBandBinStream = st.quantizedBandBinStream + binsUpTo ns NumBands ∧
      st'.inputStream = st.inputStream + NumBands ∧
      st'.paddedSamples = st.paddedSamples ∧
      st'.windowBins.length = st.windowBins.length ∧
      st'.quantizedBandEnergyPredictions.length = NumBands ∧
      ∀ b, b < NumBands → st'.quantizedBandEnergyPredictions.getD b 0
        = (st.quantizedBandEnergyPredictions.getD b 0 + bytes.getD (st.inputStream + b) 0)
            % 256 := by
  have key := foldlM_range_inv (decodeBand A bytes ns)
    (fun k (s : DecState F) =>
      s.windowModeStream = st.windowModeStream ∧
      s.quantizedBandBinStream = st.quantizedBandBinStream + binsUpTo ns k ∧
      s.inputStream = st.inputStream + k ∧
      s.paddedSamples = st.paddedSamples ∧
      s.windowBins.length = st.windowBins.length ∧
      s.quantizedBandEnergyPredictions.length = NumBands ∧
      ∀ b, b < NumBands → s.quantizedBandEnergyPredictions.getD b 0
        = if b < k then
            (st.quantizedBandEnergyPredictions.getD b 0 + bytes.getD (st.inputStream + b) 0)
              % 256
          else st.quantizedBandEnergyPredictions.getD b 0) NumBands st
    ⟨rfl, by simp [binsUpTo], rfl, rfl, rfl, hl, by intro b _; simp⟩ ?_
  · obtain ⟨s', hs', h1, h2, h3, h4, h5, h6, h7⟩ := key
    refine ⟨s', hs', h1, h2, h3, h4, h5, h6, ?_⟩
    intro b hb
    rw [h7 b hb, if_pos hb]
  · intro k hk s hs
    obtain ⟨h1, h2, h3, h4, h5, h6, h7⟩ := hs
    have hm := binsUpTo_mono ns (Nat.succ_le_of_lt hk)
    rw [binsUpTo_succ] at hm
    obtain ⟨s', e, a1, a2, a3, a4, a5, a6⟩ := decodeBand_spec A bytes ns s k
      (by rw [h2]; omega) (by rw [h3]; omega)
    refine ⟨s', e, by rw [a1, h1], by rw [a2, h2, binsUpTo_succ, Nat.add_assoc],
      by rw [a3, h3, Nat.add_assoc], by rw [a5, h4], by rw [a6, h5],
      by rw [a4, List.length_set, h6], ?_⟩
    intro b hb
    rw [a4, List.getD_eq_getElem?_getD, List.getElem?_set]
    by_cases hkb : k = b
    · subst hkb
      rw [if_pos rfl, if_pos (by rw [h6]; exact hb), if_pos (Nat.lt_succ_self _),
        Option.getD_some, h7 k hb, if_neg (Nat.lt_irrefl _), h3]
    · rw [if_neg hkb, ← List.getD_eq_getElem?_getD, h7 b hb]
      by_cases hlt : b < k
      · rw [if_pos hlt, if_pos (Nat.lt_succ_of_lt hlt)]
      · rw [if_neg hlt, if_neg (by omega)]

theorem overlapAdd_length (A : Arith F D) (windowBins : List F) (fo wo size : Nat)
    (mode : WindowMode) (ps : List F) :
    (overlapAdd A windowBins fo wo size mode ps).length = ps.length := by
  unfold overlapAdd
  refine foldl_list_inv _ (fun (l : List F) => l.length = ps.length) _ _ rfl ?_
  intro n l hl
  simp only [List.length_set, hl]

/-- One subframe of `Decode` succeeds when the bins of a subframe and twenty residual bytes
are left; it reads exactly those, and adds the residual bytes to the predictions. -/
theorem decodeSubframe_spec (A : Arith F D) (bytes : List Nat) (f : Nat) (mode : WindowMode)
    (ns off size : Nat) (st : DecState F) (j : Nat)
    (hq : st.quantizedBandBinStream + binsUpTo ns NumBands ≤ bytes.length)
    (hi : st.inputStream + NumBands ≤ bytes.length)
    (hl : st.quantizedBandEnergyPredictions.length = NumBands) :
    ∃ st', decodeSubframe A bytes f mode ns off size st j = some st' ∧
      st'.windowModeStream = st.windowModeStream ∧
      st'.quantizedBandBinStream = st.quantizedBandBinStream + binsUpTo ns NumBands ∧
      st'.inputStream = st.inputStream + NumBands ∧
      st'.paddedSamples.length = st.paddedSamples.length ∧
      st'.quantizedBandEnergyPredictions.length = NumBands ∧
      ∀ b, b < NumBands → st'.quantizedBandEnergyPredictions.getD b 0
        = (st.quantizedBandEnergyPredictions.getD b 0 + bytes.getD (st.inputStream + b) 0)
            % 256 := by
  obtain ⟨s1, e, a1, a2, a3, a4, a5, a6, a7⟩ := decodeBands_spec A bytes ns
    { st with windowBins := List.replicate FrameSize (A.litF 0), bandBins := 0 } hq hi hl
  unfold decodeSubframe
  simp only [e, Option.bind_eq_bind, Option.some_bind, Option.pure_def, Option.some.injEq,
    exists_eq_left']
  exact ⟨a1, a2, a3, by rw [overlapAdd_length, a4], a6, a7⟩

theorem decodeSubframes_succ (A : Arith F D) (bytes : List Nat) (f : Nat) (mode : WindowMode)
    (st : DecState F) (j : Nat) :
    decodeSubframes A bytes f mode st (j + 1)
      = (decodeSubframes A bytes f mode st j).bind fun s =>
          decodeSubframe A bytes f mode (numSubframesOf mode) (subframeConfig mode).2.1
            (subframeConfig mode).2.2 s j := by
  unfold decodeSubframes numSubframesOf
  dsimp only
  rw [List.range_succ, List.foldlM_append]
  simp

theorem decodeSubframes_zero (A : Arith F D) (bytes : List Nat) (f : Nat) (mode : WindowMode)
    (st : DecState F) : decodeSubframes A bytes f mode st 0 = some st := rfl

theorem decodeFrames_succ (A : Arith F D) (bytes : List Nat) (n k : Nat) :
    decodeFrames A bytes n (k + 1)
      = (decodeFrames A bytes n k).bind fun s => decodeFrame A bytes s k := by
  unfold decodeFrames
  rw [List.range_succ, List.foldlM_append]
  simp

theorem decodeFrames_zero (A : Arith F D) (bytes : List Nat) (n : Nat) :
    decodeFrames A bytes n 0 = some (DecState.initial A n) := rfl

theorem u8_roundtrip (p q : Nat) (hq : q < 256) : (p + subU8 q p) % 256 = q := by
  unfold subU8
  omega

theorem list_ext_getD {l1 l2 : List Nat} (h : l1.length = l2.length)
    (hg : ∀ b, b < l1.length → l1.getD b 0 = l2.getD b 0) : l1 = l2 := by
  apply List.ext_getElem h
  intro i h1 h2
  have := hg i h1
  simp only [List.getD_eq_getElem?_getD, List.getElem?_eq_getElem h1,
    List.getElem?_eq_getElem h2, Option.getD_some] at this
  exact this

end DecoderReads

/-! ## The layout of the encoded bytes -/

section Layout

variable {F D : Type}

theorem encBytes_length (A : Arith F D) (x : List F) (sr br : D) :
    (encBytes A x sr br).length
      = 10 + encFrameCount x.length + NumTotalBins * encFrameCount x.length
        + NumBands * subframesUpTo (encWindowMode A x br) (encFrameCount x.length) := by
  obtain ⟨h1, h2, h3, _⟩ := encState_spec A x sr br (encFrameCount x.length)
  unfold encBytes
  simp only [List.length_append, List.length_map, encHeader_length, h1, h2, h3,
    List.length_range]

theorem encBytes_windowMode (A : Arith F D) (x : List F) (sr br : D) (k : Nat)
    (hk : k < encFrameCount x.length) :
    (encBytes A x sr br).getD (10 + k) 0 = encWindowMode A x br k := by
  obtain ⟨h1, _, _, _⟩ := encState_spec A x sr br (encFrameCount x.length)
  unfold encBytes
  rw [List.append_assoc, List.append_assoc, List.getD_eq_getElem?_getD,
    List.getElem?_append_right (by rw [encHeader_length]; omega), encHeader_length,
    List.getElem?_append_left (by rw [h1]; simpa using hk), h1]
  simp [hk]

theorem encBytes_bandEnergy (A : Arith F D) (x : List F) (sr br : D) (i : Nat) :
    (encBytes A x sr br).getD
        (10 + encFrameCount x.length + NumTotalBins * encFrameCount x.length + i) 0
      = (encState A x sr br (encFrameCount x.length)).bandEnergyStream.getD i 0 := by
  obtain ⟨h1, _, h3, _⟩ := encState_spec A x sr br (encFrameCount x.length)
  unfold encBytes
  rw [List.getD_eq_getElem?_getD, List.getD_eq_getElem?_getD,
    List.getElem?_append_right
      (by simp only [List.length_append, List.length_map, encHeader_length, h1, h3,
            List.length_range]; omega)]
  congr 2
  simp only [List.length_append, List.length_map, encHeader_length, h1, h3, List.length_range]
  omega

theorem readNumFrames_encBytes (A : Arith F D) (x : List F) (sr br : D) :
    readNumFrames (encBytes A x sr br) = some (headerNumFrames x.length % 2 ^ 16) := by
  unfold encBytes
  rw [List.append_assoc, List.append_assoc, encHeader_eq]
  simp only [readNumFrames, List.cons_append]
  simp only [List.getElem?_cons_succ, List.getElem?_cons_zero, Option.bind_eq_bind,
    Option.some_bind, Option.pure_def, Option.some.injEq]
  omega

theorem subframesUpTo_congr (m1 m2 : Nat → Nat) (k : Nat) (h : ∀ f, f < k → m1 f = m2 f) :
    subframesUpTo m1 k = subframesUpTo m2 k := by
  induction k with
  | zero => rfl
  | succ k ih =>
    rw [subframesUpTo_succ, subframesUpTo_succ, ih (fun f hf => h f (Nat.lt_succ_of_lt hf)),
      h k (Nat.lt_succ_self k)]

theorem subframesUpTo_mono (m : Nat → Nat) {k n : Nat} (h : k ≤ n) :
    subframesUpTo m k ≤ subframesUpTo m n := by
  induction n with
  | zero =>
    have : k = 0 := by omega
    rw [this]
  | succ n ih =>
    rcases Nat.lt_succ_iff_lt_or_eq.mp (Nat.lt_succ_of_le h) with hlt | heq
    · rw [subframesUpTo_succ]
      have := ih (by omega)
      omega
    · rw [heq]

theorem subframesUpTo_le (m : Nat → Nat) (k : Nat) : subframesUpTo m k ≤ 8 * k := by
  induction k with
  | zero => simp [subframesUpTo]
  | succ k ih =>
    rw [subframesUpTo_succ]
    rcases numSubframesOf_cases (m k) with h | h <;> omega

end Layout

/-! ## The pointers of `Decode` on arbitrary bytes -/

section DecoderPointers

variable {F D : Type}

/-- The first `j` subframes of a frame of `Decode` succeed when `j` subframes of bins and
`20 * j` residual bytes are left, and read exactly those. -/
theorem decodeSubframes_ptr (A : Arith F D) (bytes : List Nat) (f : Nat) (mode : WindowMode)
    (st : DecState F) (j : Nat)
    (hq : st.quantizedBandBinStream + j * binsUpTo (numSubframesOf mode) NumBands
      ≤ bytes.length)
    (hi : st.inputStream + NumBands * j ≤ bytes.length)
    (hl : st.quantizedBandEnergyPredictions.length = NumBands) :
    ∃ st', decodeSubframes A bytes f mode st j = some st' ∧
      st'.windowModeStream = st.windowModeStream ∧
      st'.quantizedBandBinStream
        = st.quantizedBandBinStream + j * binsUpTo (numSubframesOf mode) NumBands ∧
      st'.inputStream = st.inputStream + NumBands * j ∧
      st'.paddedSamples.length = st.paddedSamples.length ∧
      st'.quantizedBandEnergyPredictions.length = NumBands := by
  induction j with
  | zero => exact ⟨st, rfl, rfl, by simp, by simp, rfl, hl⟩
  | succ j ih =>
    have e1 : (j + 1) * binsUpTo (numSubframesOf mode) NumBands
        = j * binsUpTo (numSubframesOf mode) NumBands + binsUpTo (numSubframesOf mode) NumBands :=
      by ring
    have e2 : NumBands * (j + 1) = NumBands * j + NumBands := by ring
    rw [e1] at hq
    rw [e2] at hi
    obtain ⟨s1, h0, h1, h2, h3, h4, h5⟩ := ih (by omega) (by omega)
    obtain ⟨s2, g0, g1, g2, g3, g4, g5, _⟩ := decodeSubframe_spec A bytes f mode
      (numSubframesOf mode) (subframeConfig mode).2.1 (subframeConfig mode).2.2 s1 j
      (by rw [h2]; omega) (by rw [h3]; omega) h5
    refine ⟨s2, ?_, by rw [g1, h1], by rw [g2, h2, e1]; omega, by rw [g3, h3, e2]; omega,
      by rw [g4, h4], g5⟩
    rw [decodeSubframes_succ, h0]
    exact g0

theorem decodeFrame_eq (A : Arith F D) (bytes : List Nat) (st : DecState F) (k : Nat)
    (hw : st.windowModeStream < bytes.length) :
    decodeFrame A bytes st k
      = decodeSubframes A bytes k (bytes.getD st.windowModeStream 0)
          { st with windowModeStream := st.windowModeStream + 1 }
          (numSubframesOf (bytes.getD st.windowModeStream 0)) := by
  unfold decodeFrame decodeFrameStart
  simp only [getElem?_eq_some_getD bytes _ 0 hw, Option.bind_eq_bind, Option.some_bind,
    Option.pure_def]
  rfl

theorem decStateAt_eq (A : Arith F D) (bytes : List Nat) (n k j : Nat) (st : DecState F)
    (h : decodeFrames A bytes n k = some st) (hw : st.windowModeStream < bytes.length) :
    decStateAt A bytes n k j
      = decodeSubframes A bytes k (bytes.getD st.windowModeStream 0)
          { st with windowModeStream := st.windowModeStream + 1 } j := by
  unfold decStateAt decodeFrameStart
  simp only [h, getElem?_eq_some_getD bytes _ 0 hw, Option.bind_eq_bind, Option.some_bind,
    Option.pure_def]

/-- One frame of `Decode` succeeds when its window mode byte, `NumTotalBins` bin bytes and
twenty residual bytes for each subframe are left; it reads exactly those, whatever the window
mode byte is. -/
theorem decodeFrame_ptr (A : Arith F D) (bytes : List Nat) (st : DecState F) (k : Nat)
    (hw : st.windowModeStream < bytes.length)
    (hq : st.quantizedBandBinStream + NumTotalBins ≤ bytes.length)
    (hi : st.inputStream + NumBands * numSubframesOf (bytes.getD st.windowModeStream 0)
      ≤ bytes.length)
    (hl : st.quantizedBandEnergyPredictions.length = NumBands) :
    ∃ st', decodeFrame A bytes st k = some st' ∧
      st'.windowModeStream = st.windowModeStream + 1 ∧
      st'.quantizedBandBinStream = st.quantizedBandBinStream + NumTotalBins ∧
      st'.inputStream
        = st.inputStream + NumBands * numSubframesOf (bytes.getD st.windowModeStream 0) ∧
      st'.paddedSamples.length = st.paddedSamples.length ∧
      st'.quantizedBandEnergyPredictions.length = NumBands := by
  obtain ⟨s1, h0, h1, h2, h3, h4, h5⟩ := decodeSubframes_ptr A bytes k
    (bytes.getD st.windowModeStream 0)
    { st with windowModeStream := st.windowModeStream + 1 }
    (numSubframesOf (bytes.getD st.windowModeStream 0))
    (by rw [numSubframesOf_mul_bins]; exact hq) hi hl
  refine ⟨s1, ?_, h1, by rw [h2, numSubframesOf_mul_bins], h3, h4, h5⟩
  rw [decodeFrame_eq A bytes st k hw]
  exact h0

/-- The first `k` frames of `Decode`, for the header frame count `n`, succeed when the bytes
reach to the end of the last residual byte they need; the window mode pointer has then read
`k` bytes, the bin pointer `856 * k` bytes and the residual pointer twenty bytes for each
subframe. -/
theorem decodeFrames_ptr (A : Arith F D) (bytes : List Nat) (n k : Nat) (hk : k ≤ n + 1)
    (hlen : 10 + (n + 1) + NumTotalBins * (n + 1)
      + NumBands * subframesUpTo (fun f => bytes.getD (10 + f) 0) k ≤ bytes.length) :
    ∃ st', decodeFrames A bytes n k = some st' ∧
      st'.windowModeStream = 10 + k ∧
      st'.quantizedBandBinStream = 10 + (n + 1) + NumTotalBins * k ∧
      st'.inputStream = 10 + (n + 1) + NumTotalBins * (n + 1)
        + NumBands * subframesUpTo (fun f => bytes.getD (10 + f) 0) k ∧
      st'.paddedSamples.length = n * FrameSize + FrameSize * 2 ∧
      st'.quantizedBandEnergyPredictions.length = NumBands := by
  induction k with
  | zero =>
    refine ⟨_, decodeFrames_zero A bytes n, rfl, rfl, ?_, ?_, ?_⟩
    · simp [DecState.initial, subframesUpTo, Nat.mul_comm]
    · simp [DecState.initial]
    · simp [DecState.initial]
  | succ k ih =>
    rw [subframesUpTo_succ] at hlen
    have hns := numSubframesOf_cases (bytes.getD (10 + k) 0)
    obtain ⟨s1, h0, h1, h2, h3, h4, h5⟩ := ih (by omega)
      (by simp only [NumBands, NumTotalBins] at hlen ⊢; omega)
    obtain ⟨s2, g0, g1, g2, g3, g4, g5⟩ := decodeFrame_ptr A bytes s1 k
      (by rw [h1]; simp only [NumBands, NumTotalBins] at hlen; omega)
      (by rw [h2]; simp only [NumBands, NumTotalBins] at hlen ⊢; omega)
      (by rw [h3, h1]; simp only [NumBands, NumTotalBins] at hlen ⊢; omega) h5
    refine ⟨s2, ?_, by rw [g1, h1]; omega, ?_, ?_, by rw [g4, h4], g5⟩
    · rw [decodeFrames_succ, h0]
      exact g0
    · rw [g2, h2]
      simp only [NumTotalBins]
      omega
    · rw [g3, h3, h1, subframesUpTo_succ]
      simp only [NumBands, NumTotalBins]
      omega

theorem Decode_eq (A : Arith F D) (bytes : List Nat) (n : Nat) (st : DecState F)
    (h1 : readNumFrames bytes = some n) (h2 : decodeFrames A bytes n (n + 1) = some st) :
    Decode A bytes
      = some ((st.paddedSamples.drop FrameSize).take (n * FrameSize), n * FrameSize) := by
  unfold Decode
  simp only [h1, h2, Option.bind_eq_bind, Option.some_bind, Option.pure_def]

end DecoderPointers

/-! ## `Decode` follows `Encode` -/

section Simulation

variable {F D : Type}

theorem getD_append_mid {α : Type} (l res r : List α) (b : Nat) (d : α) (h : b < res.length) :
    (l ++ res ++ r).getD (l.length + b) d = res.getD b d := by
  rw [List.append_assoc, List.getD_eq_getElem?_getD, List.getD_eq_getElem?_getD,
    List.getElem?_append_right (by omega), Nat.add_sub_cancel_left,
    List.getElem?_append_left h]

theorem encStateAt_zero (A : Arith F D) (x : List F) (sr br : D) (k : Nat) :
    (encStateAt A x sr br k 0).bandEnergyStream = (encState A x sr br k).bandEnergyStream ∧
      (encStateAt A x sr br k 0).quantizedBandEnergyPredictions
        = (encState A x sr br k).quantizedBandEnergyPredictions := ⟨rfl, rfl⟩

theorem encStateAt_succ (A : Arith F D) (x : List F) (sr br : D) (k j : Nat) :
    encStateAt A x sr br k (j + 1)
      = encodeSubframe A (encPadded A x)
          (A.divD (encTargetBitsPerFrame A sr br)
            (A.natD (numSubframesOf (encWindowMode A x br k)))) k (encWindowMode A x br k)
          (numSubframesOf (encWindowMode A x br k)) (subframeConfig (encWindowMode A x br k)).2.1
          (subframeConfig (encWindowMode A x br k)).2.2 (encStateAt A x sr br k j) j := by
  unfold encStateAt
  rw [encodeSubframes_succ]

theorem encStateAt_predOK (A : Arith F D) (x : List F) (sr br : D) (k j : Nat) :
    PredOK (encStateAt A x sr br k j).quantizedBandEnergyPredictions := by
  unfold encStateAt
  exact (encodeSubframes_spec A _ _ k _ _ j).2.2.2 (encState_spec A x sr br k).2.2.2

/-- The subframes of frame `k`: when `Decode` starts the frame at the position where
`Encode` started to write it and with the predictions of `Encode`, it is after every
subframe at the position `Encode` reached and has the predictions of `Encode`. -/
theorem sim_subframes (A : Arith F D) (x : List F) (sr br : D) (k : Nat)
    (hk : k < encFrameCount x.length) (ds0 : DecState F)
    (hq0 : ds0.quantizedBandBinStream = 10 + encFrameCount x.length + NumTotalBins * k)
    (hi0 : ds0.inputStream
      = 10 + encFrameCount x.length + NumTotalBins * encFrameCount x.length
        + (encState A x sr br k).bandEnergyStream.length)
    (hp0 : ds0.quantizedBandEnergyPredictions
      = (encState A x sr br k).quantizedBandEnergyPredictions)
    (j : Nat) (hj : j ≤ numSubframesOf (encWindowMode A x br k)) :
    ∃ ds, decodeSubframes A (encBytes A x sr br) k (encWindowMode A x br k) ds0 j = some ds ∧
      ds.windowModeStream = ds0.windowModeStream ∧
      ds.quantizedBandBinStream
        = ds0.quantizedBandBinStream
          + j * binsUpTo (numSubframesOf (encWindowMode A x br k)) NumBands ∧
      ds.inputStream
        = 10 + encFrameCount x.length + NumTotalBins * encFrameCount x.length
          + (encStateAt A x sr br k j).bandEnergyStream.length ∧
      ds.quantizedBandEnergyPredictions
        = (encStateAt A x sr br k j).quantizedBandEnergyPredictions ∧
      ds.paddedSamples.length = ds0.paddedSamples.length := by
  induction j with
  | zero =>
    refine ⟨ds0, rfl, rfl, by simp, ?_, ?_, rfl⟩
    · rw [hi0, (encStateAt_zero A x sr br k).1]
    · rw [hp0, (encStateAt_zero A x sr br k).2]
  | succ j ih =>
    obtain ⟨ds1, h0, h1, h2, h3, h4, h5⟩ := ih (by omega)
    have hes := encStateAt_succ A x sr br k j
    obtain ⟨_, ⟨res, e2, e3⟩, _⟩ := encodeSubframe_spec A (encPadded A x)
      (A.divD (encTargetBitsPerFrame A sr br)
        (A.natD (numSubframesOf (encWindowMode A x br k)))) k (encWindowMode A x br k)
      (numSubframesOf (encWindowMode A x br k)) (subframeConfig (encWindowMode A x br k)).2.1
      (subframeConfig (encWindowMode A x br k)).2.2 (encStateAt A x sr br k j) j
    rw [← hes] at e2 e3
    obtain ⟨r, hr⟩ := encStateAt_extends A x sr br k (j + 1) (encFrameCount x.length) hk hj
    have hlen := encBytes_length A x sr br
    have hbe := (encState_spec A x sr br (encFrameCount x.length)).2.1
    have hres : res.length = NumBands := e3.2.1
    have hBE : (encState A x sr br (encFrameCount x.length)).bandEnergyStream.length
        = (encStateAt A x sr br k j).bandEnergyStream.length + NumBands + r.length := by
      rw [hr, e2, List.length_append, List.length_append, hres]
    have hbins : (j + 1) * binsUpTo (numSubframesOf (encWindowMode A x br k)) NumBands
        ≤ NumTotalBins := by
      rw [← numSubframesOf_mul_bins (encWindowMode A x br k)]
      exact Nat.mul_le_mul_right _ hj
    have hsplit : (j + 1) * binsUpTo (numSubframesOf (encWindowMode A x br k)) NumBands
        = j * binsUpTo (numSubframesOf (encWindowMode A x br k)) NumBands
          + binsUpTo (numSubframesOf (encWindowMode A x br k)) NumBands := by ring
    have hkk : NumTotalBins * k + NumTotalBins ≤ NumTotalBins * encFrameCount x.length := by
      have : NumTotalBins * (k + 1) ≤ NumTotalBins * encFrameCount x.length :=
        Nat.mul_le_mul_left _ hk
      rw [Nat.mul_succ] at this
      exact this
    have hpl : ds1.quantizedBandEnergyPredictions.length = NumBands := by
      rw [h4]; exact (encStateAt_predOK A x sr br k j).1
    obtain ⟨ds2, g0, g1, g2, g3, g4, g5, g6⟩ := decodeSubframe_spec A (encBytes A x sr br) k
      (encWindowMode A x br k) (numSubframesOf (encWindowMode A x br k))
      (subframeConfig (encWindowMode A x br k)).2.1
      (subframeConfig (encWindowMode A x br k)).2.2 ds1 j
      (by rw [h2, hq0, hlen]; omega) (by rw [h3, hlen, ← hbe, hBE]; omega) hpl
    refine ⟨ds2, ?_, by rw [g1, h1], by rw [g2, h2, hsplit]; omega, ?_, ?_, by rw [g4, h5]⟩
    · rw [decodeSubframes_succ, h0]
      exact g0
    · rw [g3, h3, e2, List.length_append, hres]
      omega
    · apply list_ext_getD
      · rw [g5, e3.1]
      · intro b hb
        rw [g5] at hb
        rw [g6 b hb, h3, Nat.add_assoc, encBytes_bandEnergy, hr, e2,
          getD_append_mid _ _ _ _ _ (by rw [hres]; exact hb), e3.2.2.1 b hb, h4]
        exact u8_roundtrip _ _ (e3.2.2.2 b hb)

/-- The frames: for a header frame count `n` that is one less than the number of frames of
`Encode`, `Decode` is after every frame at the positions `Encode` reached and has the
predictions of `Encode`. -/
theorem sim_frames (A : Arith F D) (x : List F) (sr br : D) (n : Nat)
    (hn : n + 1 = encFrameCount x.length) (k : Nat) (hk : k ≤ encFrameCount x.length) :
    ∃ ds, decodeFrames A (encBytes A x sr br) n k = some ds ∧
      ds.windowModeStream = 10 + k ∧
      ds.quantizedBandBinStream = 10 + encFrameCount x.length + NumTotalBins * k ∧
      ds.inputStream
        = 10 + encFrameCount x.length + NumTotalBins * encFrameCount x.length
          + (encState A x sr br k).bandEnergyStream.length ∧
      ds.quantizedBandEnergyPredictions
        = (encState A x sr br k).quantizedBandEnergyPredictions ∧
      ds.paddedSamples.length = n * FrameSize + FrameSize * 2 := by
  induction k with
  | zero =>
    refine ⟨_, decodeFrames_zero A _ n, rfl, ?_, ?_, rfl, ?_⟩
    · simp [DecState.initial, hn]
    · simp [DecState.initial, hn, encState_zero, EncState.initial, Nat.mul_comm]
    · simp [DecState.initial]
  | succ k ih =>
    obtain ⟨ds1, h0, h1, h2, h3, h4, h5⟩ := ih (by omega)
    have hlen := encBytes_length A x sr br
    have hw : ds1.windowModeStream < (encBytes A x sr br).length := by
      rw [h1, hlen]; omega
    obtain ⟨ds2, g0, g1, g2, g3, g4, g5⟩ := sim_subframes A x sr br k (by omega)
      { ds1 with windowModeStream := ds1.windowModeStream + 1 } h2 h3 h4
      (numSubframesOf (encWindowMode A x br k)) (Nat.le_refl _)
    rw [← encState_succ_eq_encStateAt] at g3 g4
    have hm : (encBytes A x sr br).getD ds1.windowModeStream 0 = encWindowMode A x br k := by
      rw [h1]; exact encBytes_windowMode A x sr br k (by omega)
    refine ⟨ds2, ?_, by rw [g1, h1]; rfl, ?_, g3, g4, by rw [g5, h5]⟩
    · rw [decodeFrames_succ, h0]
      show decodeFrame A (encBytes A x sr br) ds1 k = some ds2
      rw [decodeFrame_eq A _ ds1 k hw, hm]
      exact g0
    · rw [g2, h2, numSubframesOf_mul_bins, Nat.mul_succ]
      omega

/-- The states inside a frame: after `k` frames and `j` subframes `Decode` has the
predictions and the residual position of `Encode`. -/
theorem sim_stateAt (A : Arith F D) (x : List F) (sr br : D) (n : Nat)
    (hn : n + 1 = encFrameCount x.length) (k : Nat) (hk : k < encFrameCount x.length)
    (j : Nat) (hj : j ≤ numSubframesOf (encWindowMode A x br k)) :
    ∃ ds, decStateAt A (encBytes A x sr br) n k j = some ds ∧
      ds.windowModeStream = 10 + k + 1 ∧
      ds.quantizedBandBinStream = 10 + encFrameCount x.length + NumTotalBins * k
        + j * binsUpTo (numSubframesOf (encWindowMode A x br k)) NumBands ∧
      ds.inputStream
        = 10 + encFrameCount x.length + NumTotalBins * encFrameCount x.length
          + (encStateAt A x sr br k j).bandEnergyStream.length ∧
      ds.quantizedBandEnergyPredictions
        = (encStateAt A x sr br k j).quantizedBandEnergyPredictions := by
  obtain ⟨ds1, h0, h1, h2, h3, h4, _⟩ := sim_frames A x sr br n hn k (by omega)
  have hlen := encBytes_length A x sr br
  have hw : ds1.windowModeStream < (encBytes A x sr br).length := by
    rw [h1, hlen]; omega
  obtain ⟨ds2, g0, g1, g2, g3, g4, _⟩ := sim_subframes A x sr br k hk
    { ds1 with windowModeStream := ds1.windowModeStream + 1 } h2 h3 h4 j hj
  have hm : (encBytes A x sr br).getD ds1.windowModeStream 0 = encWindowMode A x br k := by
    rw [h1]; exact encBytes_windowMode A x sr br k hk
  refine ⟨ds2, ?_, by rw [g1, h1], by rw [g2, h2], g3, g4⟩
  rw [decStateAt_eq A _ n k j ds1 h0 hw, hm]
  exact g0

end Simulation

/-! ## The window plan of a silent input -/

section Silence

variable {F D : Type}

theorem ratArith_zeroLaws : ratArith.ZeroLaws :=
  ⟨by simp [ratArith], by simp [ratArith], by simp [ratArith]⟩

theorem AllZero.getD {A : Arith F D} {l : List F} (h : AllZero A l) (i : Nat) :
    l.getD i (A.litF 0) = A.litF 0 := by
  rw [List.getD_eq_getElem?_getD]
  cases hi : l[i]? with
  | none => rfl
  | some v => exact h v (List.getElem?_mem hi)

theorem AllZero.set {A : Arith F D} {l : List F} (h : AllZero A l) (i : Nat) :
    AllZero A (l.set i (A.litF 0)) := by
  intro v hv
  rcases List.mem_or_eq_of_mem_set hv with h1 | h1
  · exact h v h1
  · exact h1

theorem padSamples_allZero (A : Arith F D) (n numPaddedSamples : Nat) :
    AllZero A (padSamples A (List.replicate n (A.litF 0)) numPaddedSamples) := by
  unfold padSamples
  dsimp only
  refine foldl_list_inv _ (AllZero A) _ _ ?_ ?_
  · intro v hv
    rcases List.mem_append.mp hv with h1 | h1
    · rcases List.mem_append.mp h1 with h2 | h2
      · exact List.eq_of_mem_replicate (List.mem_of_mem_take h2)
      · exact List.eq_of_mem_replicate h2
    · exact List.eq_of_mem_replicate (List.mem_of_mem_drop h1)
  · intro i l hl
    unfold padStep
    dsimp only
    rw [hl.getD]
    have h1 := hl.set (FrameSize - 1 - i)
    rw [h1.getD]
    exact h1.set _

theorem padSamples_length (A : Arith F D) (x : List F) (numPaddedSamples : Nat)
    (h : FrameSize + x.length ≤ numPaddedSamples) :
    (padSamples A x numPaddedSamples).length = numPaddedSamples := by
  unfold padSamples
  dsimp only
  refine foldl_list_inv _ (fun (l : List F) => l.length = numPaddedSamples) _ _ ?_ ?_
  · simp only [List.length_append, List.length_take, List.length_replicate, List.length_drop]
    omega
  · intro i l hl
    unfold padStep
    simp only [List.length_set, hl]

theorem frameEnergyAt_allZero {A : Arith F D} (hA : A.ZeroLaws) {ps : List F}
    (h : AllZero A ps) (f : Nat) : frameEnergyAt A ps f = A.litF 0 := by
  unfold frameEnergyAt
  dsimp only
  refine foldl_list_inv _ (fun (e : F) => e = A.litF 0) _ _ rfl ?_
  intro i e he
  rw [he, h.getD, hA.mul_zero_zero, hA.add_zero_zero]

theorem buildTransientFrameMap_allZero {A : Arith F D} (hA : A.ZeroLaws) {ps : List F}
    (h : AllZero A ps) (k : Nat) :
    (buildTransientFrameMap A ps k).1 = List.replicate k true := by
  unfold buildTransientFrameMap
  have key := foldl_range_inv
    (fun (s : List Bool × F) frameIndex =>
      (s.1 ++ [A.geF (frameEnergyAt A ps frameIndex) (A.mulF s.2 (A.litF 2))],
        frameEnergyAt A ps frameIndex))
    (fun k (s : List Bool × F) => s.1 = List.replicate k true ∧ s.2 = A.litF 0) k
    ([], A.litF 0) ⟨rfl, rfl⟩ ?_
  · exact key.1
  · intro i _ s hs
    obtain ⟨h1, h2⟩ := hs
    have he := frameEnergyAt_allZero hA h i
    dsimp only
    rw [h1, h2, he, hA.ge_zero, List.replicate_succ']
    exact ⟨rfl, rfl⟩

/-- Every frame of a silent input is a transient frame, so it is coded with short windows
when the target bit rate is above 8. -/
theorem encWindowMode_silence {A : Arith F D} (hA : A.ZeroLaws) (n : Nat) (br : D)
    (hbr : A.gtD br (A.litD 8) = true) (f : Nat) (hf : f < encFrameCount n) :
    encWindowMode A (List.replicate n (A.litF 0)) br f = WindowMode.Short := by
  unfold encWindowMode encTransientMap encPadded
  rw [buildTransientFrameMap_allZero hA (padSamples_allZero A _ _)]
  unfold selectWindowMode
  simp only [List.length_replicate] at hf ⊢
  simp [hbr, List.getD_eq_getElem?_getD, List.getElem?_replicate, hf]

/-- Above the threshold of 8 the window mode of a frame is given by the planning rules. -/
theorem selectWindowMode_eq (A : Arith F D) (br : D) (hbr : A.gtD br (A.litD 8) = true)
    (tmap : List Bool) (n f : Nat) :
    selectWindowMode A br tmap n f
      = planMode (tmap.getD f false) (decide (f > 0) && tmap.getD (f - 1) false)
          (decide (f < n - 1) && tmap.getD (f + 1) false) := by
  unfold selectWindowMode planMode
  simp only [hbr, if_true]

/-- Below the threshold of 8 every frame is coded with a long window. -/
theorem selectWindowMode_low (A : Arith F D) (br : D) (hbr : A.gtD br (A.litD 8) = false)
    (tmap : List Bool) (n f : Nat) : selectWindowMode A br tmap n f = WindowMode.Long := by
  unfold selectWindowMode
  simp [hbr]

theorem subframesUpTo_const (m : Nat → Nat) (c k : Nat)
    (h : ∀ f, f < k → numSubframesOf (m f) = c) : subframesUpTo m k = c * k := by
  induction k with
  | zero => simp [subframesUpTo]
  | succ k ih =>
    rw [subframesUpTo_succ, ih (fun f hf => h f (Nat.lt_succ_of_lt hf)), h k (Nat.lt_succ_self k),
      Nat.mul_succ]

end Silence

/-! ## The streams `Encode` writes for a silent input, in exact real arithmetic -/

section EncoderSilence

theorem realArith_zeroLaws (cosF sinF : ℝ → ℝ) : (realArith cosF sinF).ZeroLaws :=
  ⟨by simp [realArith], by simp [realArith], by simp [realArith]⟩

theorem realArith_litF_zero (cosF sinF : ℝ → ℝ) : (realArith cosF sinF).litF 0 = (0 : ℝ) := by
  simp [realArith]

theorem windowedSamplesOf_silence (cosF sinF : ℝ → ℝ) {ps : List ℝ}
    (h : AllZero (realArith cosF sinF) ps) (fo wo size : Nat) (mode : WindowMode) :
    AllZero (realArith cosF sinF)
      (windowedSamplesOf (realArith cosF sinF) ps fo wo size mode) := by
  intro v hv
  unfold windowedSamplesOf at hv
  obtain ⟨n, _, hn⟩ := List.mem_map.mp hv
  rw [← hn]
  dsimp only
  rw [h.getD]
  simp [realArith]

theorem mdct_silence (cosF sinF : ℝ → ℝ) {ws : List ℝ}
    (h : AllZero (realArith cosF sinF) ws) (size ssz : Nat) :
    AllZero (realArith cosF sinF) (mdct (realArith cosF sinF) ws size ssz) := by
  intro v hv
  unfold mdct at hv
  obtain ⟨k, _, hk⟩ := List.mem_map.mp hv
  rw [← hk]
  refine foldl_list_inv _ (fun (e : ℝ) => e = (realArith cosF sinF).litF 0) _ _ rfl ?_
  intro n e he
  rw [he, h.getD]
  simp [realArith]

theorem epsilon_lt : ((1 / 10 ^ 27 : ℚ) : ℝ) < (2 : ℝ) ^ (-40 : ℝ) := by
  have h2 : (2 : ℝ) ^ (-40 : ℝ) = 1 / 2 ^ 40 := by
    rw [Real.rpow_neg (by norm_num), show (40 : ℝ) = ((40 : ℕ) : ℝ) by norm_num,
      Real.rpow_natCast]
    norm_num
  rw [h2]
  push_cast
  rw [div_lt_div_iff₀ (by positivity) (by positivity)]
  norm_num

theorem sqrt_epsilon_lt : Real.sqrt ((1 / 10 ^ 27 : ℚ) : ℝ) < (2 : ℝ) ^ (-20 : ℝ) := by
  have h1 : (0 : ℝ) ≤ (2 : ℝ) ^ (-20 : ℝ) := by positivity
  rw [Real.sqrt_lt' (by positivity)]
  have h2 : ((2 : ℝ) ^ (-20 : ℝ)) ^ 2 = (2 : ℝ) ^ (-40 : ℝ) := by
    rw [← Real.rpow_natCast, ← Real.rpow_mul (by norm_num)]
    norm_num
  rw [h2]
  exact epsilon_lt

theorem encBandEnergy_silence (cosF sinF : ℝ → ℝ) {wb : List ℝ}
    (h : AllZero (realArith cosF sinF) wb) (off n : Nat) :
    encBandEnergy (realArith cosF sinF) wb off n = Real.sqrt ((1 / 10 ^ 27 : ℚ) : ℝ) := by
  unfold encBandEnergy
  dsimp only
  have : (List.range n).foldl
      (fun bandEnergy binIndex =>
        (realArith cosF sinF).addF bandEnergy
          ((realArith cosF sinF).mulF (wb.getD (off + binIndex) ((realArith cosF sinF).litF 0))
            (wb.getD (off + binIndex) ((realArith cosF sinF).litF 0))))
      ((realArith cosF sinF).litF (1 / 10 ^ 27)) = ((1 / 10 ^ 27 : ℚ) : ℝ) := by
    refine foldl_list_inv _ (fun (e : ℝ) => e = ((1 / 10 ^ 27 : ℚ) : ℝ)) _ _ rfl ?_
    intro i e he
    rw [he, h.getD]
    simp [realArith]
  rw [this]
  rfl

theorem encLinearBandEnergy_silence (cosF sinF : ℝ → ℝ) (n : Nat) (hn : 1 ≤ n) :
    encLinearBandEnergy (realArith cosF sinF) (Real.sqrt ((1 / 10 ^ 27 : ℚ) : ℝ)) n = 0 := by
  have hpos : (0 : ℝ) < Real.sqrt ((1 / 10 ^ 27 : ℚ) : ℝ) := by
    apply Real.sqrt_pos.mpr
    push_cast
    positivity
  have hn' : (1 : ℝ) ≤ (n : ℝ) := by exact_mod_cast hn
  have hx : Real.sqrt ((1 / 10 ^ 27 : ℚ) : ℝ) / (n : ℝ) < (2 : ℝ) ^ (-20 : ℝ) := by
    have : Real.sqrt ((1 / 10 ^ 27 : ℚ) : ℝ) / (n : ℝ) ≤ Real.sqrt ((1 / 10 ^ 27 : ℚ) : ℝ) :=
      div_le_self hpos.le hn'
    exact lt_of_le_of_lt this sqrt_epsilon_lt
  have hlog : Real.logb 2 (Real.sqrt ((1 / 10 ^ 27 : ℚ) : ℝ) / (n : ℝ)) < -20 := by
    rw [Real.logb_lt_iff_lt_rpow (by norm_num) (by positivity)]
    exact hx
  unfold encLinearBandEnergy clampF
  simp only [realArith]
  have hlt : decide (Real.logb 2 (Real.sqrt ((1 / 10 ^ 27 : ℚ) : ℝ) / (n : ℝ))
      < ((-20 : ℚ) : ℝ)) = true := by
    rw [decide_eq_true_eq]
    have e : ((-20 : ℚ) : ℝ) = -20 := by norm_num
    rw [e]
    exact hlog
  rw [if_pos hlt]
  push_cast
  norm_num

theorem realRound_zero : realRound 0 = 0 := by
  unfold realRound
  norm_num

theorem realTrunc_zero : realTrunc 0 = 0 := by
  unfold realTrunc
  norm_num

theorem roundToU8_zero (cosF sinF : ℝ → ℝ) : roundToU8 (realArith cosF sinF) 0 = 0 := by
  unfold roundToU8
  simp [realArith, realRound_zero, realTrunc_zero]

theorem roundToI8_zero (cosF sinF : ℝ → ℝ) : roundToI8 (realArith cosF sinF) 0 = 0 := by
  unfold roundToI8 wrapI8
  simp [realArith, realRound_zero, realTrunc_zero]

theorem encBinQ_silence (cosF sinF : ℝ → ℝ) (bin bandEnergy : ℝ) :
    encBinQ (realArith cosF sinF) bin bandEnergy 0 = 0 := by
  have h0 : ∀ a : ℝ, (realArith cosF sinF).mulF a 0 = 0 := by
    intro a
    simp [realArith]
  unfold encBinQ
  dsimp only
  rw [h0, roundToI8_zero]

/-- One band of a candidate for silent bins and a zero prediction: the energy byte, the
residual byte and all bin quanta are zero. -/
theorem encodeBand_silence (cosF sinF : ℝ → ℝ) {wb : List ℝ}
    (h : AllZero (realArith cosF sinF) wb) (pred : List Nat) (ns sf msf : Nat) (c : Candidate)
    (b : Nat) (hn : 1 ≤ BandToNumBins.getD b 0 / ns) (hp : pred.getD b 0 = 0)
    (h1 : ∀ v, v ∈ c.quantizedBandEnergies → v = 0) (h2 : ∀ v, v ∈ c.bandEnergyStream → v = 0)
    (h3 : ∀ v, v ∈ c.binQStream → v = 0) :
    (∀ v, v ∈ (encodeBand (realArith cosF sinF) wb pred ns sf msf c b).quantizedBandEnergies
        → v = 0) ∧
      (∀ v, v ∈ (encodeBand (realArith cosF sinF) wb pred ns sf msf c b).bandEnergyStream
        → v = 0) ∧
      (∀ v, v ∈ (encodeBand (realArith cosF sinF) wb pred ns sf msf c b).binQStream
        → v = 0) := by
  have hq : roundToU8 (realArith cosF sinF)
      ((realArith cosF sinF).mulF
        (encLinearBandEnergy (realArith cosF sinF)
          (encBandEnergy (realArith cosF sinF) wb c.bandBins (BandToNumBins.getD b 0 / ns))
          (BandToNumBins.getD b 0 / ns)) ((realArith cosF sinF).litF 64)) = 0 := by
    rw [encBandEnergy_silence cosF sinF h, encLinearBandEnergy_silence cosF sinF _ hn]
    have : (realArith cosF sinF).mulF 0 ((realArith cosF sinF).litF 64) = 0 := by
      simp [realArith]
    rw [this, roundToU8_zero]
  have hs : encBandBinQuantizeScale (realArith cosF sinF) b sf msf
      (encLinearBandEnergy (realArith cosF sinF)
        (encBandEnergy (realArith cosF sinF) wb c.bandBins (BandToNumBins.getD b 0 / ns))
        (BandToNumBins.getD b 0 / ns)) = 0 := by
    rw [encBandEnergy_silence cosF sinF h, encLinearBandEnergy_silence cosF sinF _ hn]
    unfold encBandBinQuantizeScale
    simp [realArith]
  unfold encodeBand
  dsimp only
  rw [hq, hs, hp]
  have hsub : subU8 0 0 = 0 := by decide
  rw [hsub]
  refine foldl_list_inv _
    (fun (s : Candidate) =>
      (∀ v, v ∈ s.quantizedBandEnergies → v = 0) ∧ (∀ v, v ∈ s.bandEnergyStream → v = 0) ∧
      (∀ v, v ∈ s.binQStream → v = 0)) _ _ ⟨?_, ?_, h3⟩ ?_
  · intro v hv
    rcases List.mem_append.mp hv with hv | hv
    · exact h1 v hv
    · simpa using hv
  · intro v hv
    rcases List.mem_append.mp hv with hv | hv
    · exact h2 v hv
    · simpa using hv
  · intro i s hs2
    obtain ⟨a1, a2, a3⟩ := hs2
    refine ⟨a1, a2, ?_⟩
    intro v hv
    rcases List.mem_append.mp hv with hv | hv
    · exact a3 v hv
    · rw [encBinQ_silence] at hv
      simpa using hv

theorem getD_eq_zero_of_forall {l : List Nat} (h : ∀ v, v ∈ l → v = 0) (i : Nat) :
    l.getD i 0 = 0 := by
  rw [List.getD_eq_getElem?_getD]
  cases hi : l[i]? with
  | none => rfl
  | some v => exact h v (List.getElem?_mem hi)

theorem bandNumBins_pos (ns : Nat) (hns : ns = 1 ∨ ns = 8) (b : Nat) (hb : b < NumBands) :
    1 ≤ BandToNumBins.getD b 0 / ns := by
  have h1 : ∀ b, b < 20 → 1 ≤ BandToNumBins.getD b 0 / 1 := by decide
  have h8 : ∀ b, b < 20 → 1 ≤ BandToNumBins.getD b 0 / 8 := by decide
  rcases hns with h | h <;> rw [h]
  · exact h1 b hb
  · exact h8 b hb

/-- A candidate for silent bins and zero predictions holds only zeros. -/
theorem encodeCandidate_silence (cosF sinF : ℝ → ℝ) {wb : List ℝ}
    (h : AllZero (realArith cosF sinF) wb) (pred : List Nat) (hp : ∀ v, v ∈ pred → v = 0)
    (ns sf msf : Nat) (hns : ns = 1 ∨ ns = 8) :
    (∀ v, v ∈ (encodeCandidate (realArith cosF sinF) wb pred ns sf msf).quantizedBandEnergies
        → v = 0) ∧
      (∀ v, v ∈ (encodeCandidate (realArith cosF sinF) wb pred ns sf msf).bandEnergyStream
        → v = 0) ∧
      (∀ v, v ∈ (encodeCandidate (realArith cosF sinF) wb pred ns sf msf).binQStream
        → v = 0) := by
  unfold encodeCandidate
  refine foldl_range_inv (encodeBand (realArith cosF sinF) wb pred ns sf msf)
    (fun _ (c : Candidate) =>
      (∀ v, v ∈ c.quantizedBandEnergies → v = 0) ∧ (∀ v, v ∈ c.bandEnergyStream → v = 0) ∧
      (∀ v, v ∈ c.binQStream → v = 0)) NumBands _ ⟨by simp, by simp, by simp⟩ ?_
  intro k hk c hc
  exact encodeBand_silence cosF sinF h pred ns sf msf c k (bandNumBins_pos ns hns k hk)
    (getD_eq_zero_of_forall hp k) hc.1 hc.2.1 hc.2.2

/-- One subframe of `Encode` on silent samples keeps a silent state silent. -/
theorem encodeSubframe_silence (cosF sinF : ℝ → ℝ) {ps : List ℝ}
    (h : AllZero (realArith cosF sinF) ps) (target : ℝ) (f : Nat) (mode : WindowMode)
    (ns off size : Nat) (hns : ns = 1 ∨ ns = 8) (st : EncState ℝ) (hst : SilentEnc st)
    (j : Nat) :
    SilentEnc (encodeSubframe (realArith cosF sinF) ps target f mode ns off size st j) := by
  obtain ⟨p1, p2, p3⟩ := hst
  have hwb := mdct_silence cosF sinF
    (windowedSamplesOf_silence cosF sinF h (f * FrameSize) (off + j * (size / 2)) size mode)
    size (size / 2)
  obtain ⟨sf, e1, e2, e3⟩ := searchScalingFactor_candidate (realArith cosF sinF)
    (mdct (realArith cosF sinF)
      (windowedSamplesOf (realArith cosF sinF) ps (f * FrameSize) (off + j * (size / 2)) size
        mode) size (size / 2))
    st.quantizedBandEnergyPredictions ns target st.slackBits
  obtain ⟨c1, c2, c3⟩ := encodeCandidate_silence cosF sinF hwb
    st.quantizedBandEnergyPredictions p1 ns sf maxScalingFactor hns
  unfold encodeSubframe SilentEnc
  dsimp only
  rw [e1, e2, e3]
  refine ⟨c1, ?_, ?_⟩
  · intro v hv
    rcases List.mem_append.mp hv with hv | hv
    · exact p2 v hv
    · exact c2 v hv
  · intro v hv
    rcases List.mem_append.mp hv with hv | hv
    · exact p3 v hv
    · exact c3 v hv

theorem SilentEnc_initial (A : Arith ℝ ℝ) : SilentEnc (EncState.initial A) := by
  refine ⟨?_, by simp [EncState.initial], by simp [EncState.initial]⟩
  intro v hv
  exact List.eq_of_mem_replicate hv

/-- One frame of `Encode` on silent samples keeps a silent state silent. -/
theorem encodeFrame_silence (cosF sinF : ℝ → ℝ) {ps : List ℝ}
    (h : AllZero (realArith cosF sinF) ps) (br tbpf : ℝ) (tmap : List Bool) (n : Nat)
    (st : EncState ℝ) (hst : SilentEnc st) (f : Nat) :
    SilentEnc (encodeFrame (realArith cosF sinF) ps br tbpf tmap n st f) := by
  rw [encodeFrame_eq]
  unfold encodeSubframes
  dsimp only
  refine foldl_list_inv _ SilentEnc _ _ ?_ ?_
  · exact hst
  · intro j s hs
    exact encodeSubframe_silence cosF sinF h _ f _ _ _ _
      (numSubframesOf_cases (selectWindowMode (realArith cosF sinF) br tmap n f)) s hs j

/-- The state of `Encode` on a silent input is silent after every frame. -/
theorem encState_silence (cosF sinF : ℝ → ℝ) (n : Nat) (sr br : ℝ) (k : Nat) :
    SilentEnc (encState (realArith cosF sinF) (List.replicate n (0 : ℝ)) sr br k) := by
  have hps : AllZero (realArith cosF sinF)
      (encPadded (realArith cosF sinF) (List.replicate n (0 : ℝ))) := by
    have := padSamples_allZero (realArith cosF sinF) n
      (encNumPaddedSamples (List.replicate n (0 : ℝ)).length)
    rw [realArith_litF_zero] at this
    exact this
  unfold encState encodeFrames
  refine foldl_list_inv _ SilentEnc _ _ (SilentEnc_initial _) ?_
  intro f s hs
  exact encodeFrame_silence cosF sinF hps _ _ _ _ s hs f

/-- The code of a silent input: every byte after the window mode stream is zero. -/
theorem encBytes_silence_zero (cosF sinF : ℝ → ℝ) (n : Nat) (sr br : ℝ) (i : Nat)
    (hi : 10 + encFrameCount n ≤ i) :
    (encBytes (realArith cosF sinF) (List.replicate n (0 : ℝ)) sr br).getD i 0 = 0 := by
  obtain ⟨_, p2, p3⟩ := encState_silence cosF sinF n sr br
    (encFrameCount (List.replicate n (0 : ℝ)).length)
  obtain ⟨s1, _, _, _⟩ := encState_spec (realArith cosF sinF) (List.replicate n (0 : ℝ)) sr br
    (encFrameCount (List.replicate n (0 : ℝ)).length)
  rw [List.length_replicate] at s1 p2 p3
  unfold encBytes
  rw [List.length_replicate, List.append_assoc, List.getD_eq_getElem?_getD,
    List.getElem?_append_right
      (by rw [List.length_append, encHeader_length, s1, List.length_map, List.length_range]
          exact hi),
    ← List.getD_eq_getElem?_getD]
  apply getD_eq_zero_of_forall
  intro v hv
  rcases List.mem_append.mp hv with hv | hv
  · obtain ⟨z, hz, e⟩ := List.mem_map.mp hv
    rw [p3 z hz] at e
    rw [← e]
    rfl
  · exact p2 v hv

end EncoderSilence

/-! ## Sums and bounds for the decoder -/

section DecoderAnalysis

theorem foldl_add_eq_sum (f : Nat → ℝ) (a : ℝ) (n : Nat) :
    (List.range n).foldl (fun e i => e + f i) a = a + ∑ i ∈ Finset.range n, f i := by
  induction n with
  | zero => simp
  | succ m ih =>
    rw [List.range_succ, List.foldl_append, ih, Finset.sum_range_succ]
    simp only [List.foldl_cons, List.foldl_nil]
    ring

theorem band_l1_bound (n : Nat) (v : Nat → ℝ) (ε E : ℝ) (hε : 0 < ε) (hE : 0 ≤ E) :
    ∑ i ∈ Finset.range n, |v i * (E / Real.sqrt (ε + ∑ k ∈ Finset.range n, v k * v k))|
      ≤ E * ((n : ℝ) / 16 + 4) := by
  set S2 := ∑ k ∈ Finset.range n, v k * v k with hS2
  have hS2nn : 0 ≤ S2 := Finset.sum_nonneg (fun k _ => mul_self_nonneg (v k))
  have hr : 0 < Real.sqrt (ε + S2) := Real.sqrt_pos.mpr (by linarith)
  have hcs : (∑ i ∈ Finset.range n, |v i|) ^ 2 ≤ (n : ℝ) * S2 := by
    have h := sq_sum_le_card_mul_sum_sq (s := Finset.range n) (f := fun i => |v i|)
    simp only [Finset.card_range, sq_abs] at h
    have e : ∑ i ∈ Finset.range n, v i ^ 2 = S2 := by
      rw [hS2]
      exact Finset.sum_congr rfl (fun k _ => by ring)
    rw [e] at h
    exact h
  have hn : (0 : ℝ) ≤ (n : ℝ) := Nat.cast_nonneg n
  have hq : (n : ℝ) ≤ ((n : ℝ) / 16 + 4) ^ 2 := by nlinarith [sq_nonneg ((n : ℝ) / 16 - 4)]
  have hS1 : ∑ i ∈ Finset.range n, |v i| ≤ ((n : ℝ) / 16 + 4) * Real.sqrt (ε + S2) := by
    have hb : 0 ≤ ((n : ℝ) / 16 + 4) * Real.sqrt (ε + S2) := by positivity
    have h1 : (∑ i ∈ Finset.range n, |v i|) ^ 2
        ≤ (((n : ℝ) / 16 + 4) * Real.sqrt (ε + S2)) ^ 2 := by
      rw [mul_pow, Real.sq_sqrt (by linarith)]
      calc (∑ i ∈ Finset.range n, |v i|) ^ 2 ≤ (n : ℝ) * S2 := hcs
        _ ≤ ((n : ℝ) / 16 + 4) ^ 2 * (ε + S2) := by
          apply mul_le_mul hq (by linarith) hS2nn (by positivity)
    exact le_trans (le_abs_self _) (abs_le_of_sq_le_sq h1 hb)
  have hterm : ∀ i, |v i * (E / Real.sqrt (ε + S2))| = |v i| * (E / Real.sqrt (ε + S2)) := by
    intro i
    rw [abs_mul, abs_of_nonneg (div_nonneg hE hr.le)]
  simp only [hterm]
  rw [← Finset.sum_mul]
  calc (∑ i ∈ Finset.range n, |v i|) * (E / Real.sqrt (ε + S2))
      ≤ (((n : ℝ) / 16 + 4) * Real.sqrt (ε + S2)) * (E / Real.sqrt (ε + S2)) :=
        mul_le_mul_of_nonneg_right hS1 (div_nonneg hE hr.le)
    _ = E * ((n : ℝ) / 16 + 4) := by
        field_simp
        ring

end DecoderAnalysis

section WindowBins

variable {F D : Type}

/-- The loop that reads the bins of a band writes only the bins of the band. -/
theorem decodeBandBins_windowBins (A : Arith F D) (bytes : List Nat) (n : Nat)
    (st st1 : DecState F) (nz : Nat) (d : F)
    (h : decodeBandBins A bytes n st = some (st1, nz)) :
    ∀ i, (i < st.bandBins ∨ st.bandBins + n ≤ i) →
      st1.windowBins.getD i d = st.windowBins.getD i d := by
  have key := foldlM_range_inv' (decodeBandBinsStep A bytes)
    (fun k (s : DecState F × Nat) =>
      s.1.bandBins = st.bandBins ∧
      ∀ i, (i < st.bandBins ∨ st.bandBins + k ≤ i) →
        s.1.windowBins.getD i d = st.windowBins.getD i d) n (st, 0)
    ⟨rfl, fun _ _ => rfl⟩ ?_ (st1, nz) h
  · exact key.2
  · intro k _ s s' hs hf
    obtain ⟨h1, h2⟩ := hs
    unfold decodeBandBinsStep at hf
    cases hb : bytes[s.1.quantizedBandBinStream]? with
    | none => simp [hb] at hf
    | some b =>
      simp only [hb, Option.bind_eq_bind, Option.some_bind, Option.pure_def,
        Option.some.injEq] at hf
      rw [← hf]
      refine ⟨h1, ?_⟩
      intro i hi
      dsimp only
      rw [getD_set_eq, if_neg (by rw [h1]; omega)]
      exact h2 i (by omega)

/-- The noise fill of a band writes only the bins of the band. -/
theorem noiseFill_windowBins (A : Arith F D) (n nz : Nat) (st : DecState F) (d : F) :
    ∀ i, (i < st.bandBins ∨ st.bandBins + n ≤ i) →
      (noiseFill A n nz st).windowBins.getD i d = st.windowBins.getD i d := by
  unfold noiseFill
  dsimp only
  split
  · have key := foldl_range_inv
      (fun (s : DecState F) binIndex =>
        ({ s with
          windowBins :=
            s.windowBins.set (s.bandBins + binIndex)
              (A.addF (s.windowBins.getD (s.bandBins + binIndex) (A.litF 0))
                (A.mulF (A.divF (A.intF (wrapI8 (s.lcgState / 2 ^ 16))) (A.litF 127))
                  (A.mulF
                    (A.divF (A.subF (A.litF (1 / 10)) (A.divF (A.natF nz) (A.natF n)))
                      (A.litF (1 / 10)))
                    (A.divF (A.subF (A.litF (1 / 10)) (A.divF (A.natF nz) (A.natF n)))
                      (A.litF (1 / 10))))))
          lcgState := (s.lcgState * 1664525 + 1013904223) % 2 ^ 32 } : DecState F))
      (fun k (s : DecState F) =>
        s.bandBins = st.bandBins ∧
        ∀ i, (i < st.bandBins ∨ st.bandBins + k ≤ i) →
          s.windowBins.getD i d = st.windowBins.getD i d) n st ⟨rfl, fun _ _ => rfl⟩ ?_
    · exact key.2
    · intro k _ s hs
      obtain ⟨h1, h2⟩ := hs
      refine ⟨h1, ?_⟩
      intro i hi
      dsimp only
      rw [getD_set_eq, if_neg (by rw [h1]; omega)]
      exact h2 i (by omega)
  · intro i _
    rfl

/-- The renormalisation of a band multiplies every bin of the band by `binScale` and writes
nothing else. -/
theorem scaleBand_windowBins (A : Arith F D) (n : Nat) (bandEnergy : F) (st : DecState F) :
    ∀ i, (scaleBand A n bandEnergy st).windowBins.getD i (A.litF 0)
      = if st.bandBins ≤ i ∧ i < st.bandBins + n ∧ i < st.windowBins.length then
          A.mulF (st.windowBins.getD i (A.litF 0))
            (decBinScale A st.windowBins st.bandBins n bandEnergy)
        else st.windowBins.getD i (A.litF 0) := by
  unfold scaleBand
  dsimp only
  have key := foldl_range_inv
    (fun (s : DecState F) binIndex =>
      ({ s with
        windowBins :=
          s.windowBins.set (s.bandBins + binIndex)
            (A.mulF (s.windowBins.getD (s.bandBins + binIndex) (A.litF 0))
              (decBinScale A st.windowBins st.bandBins n bandEnergy)) } : DecState F))
    (fun k (s : DecState F) =>
      s.bandBins = st.bandBins ∧ s.windowBins.length = st.windowBins.length ∧
      ∀ i, s.windowBins.getD i (A.litF 0)
        = if st.bandBins ≤ i ∧ i < st.bandBins + k ∧ i < st.windowBins.length then
            A.mulF (st.windowBins.getD i (A.litF 0))
              (decBinScale A st.windowBins st.bandBins n bandEnergy)
          else st.windowBins.getD i (A.litF 0)) n st
    ⟨rfl, rfl, fun i => by rw [if_neg (by omega)]⟩ ?_
  · exact key.2.2
  · intro k _ s hs
    obtain ⟨h1, h2, h3⟩ := hs
    refine ⟨h1, by simp only [List.length_set, h2], ?_⟩
    intro i
    dsimp only
    rw [getD_set_eq, h1, h2]
    by_cases hi : st.bandBins + k = i ∧ i < st.windowBins.length
    · rw [if_pos hi, if_pos (by omega), h3, if_neg (by omega), hi.1]
    · rw [if_neg hi, h3]
      by_cases hc : st.bandBins ≤ i ∧ i < st.bandBins + k ∧ i < st.windowBins.length
      · rw [if_pos hc, if_pos (by omega)]
      · rw [if_neg hc, if_neg (by omega)]

end WindowBins

section BandSilence

theorem decBandEnergy_zero (cosF sinF : ℝ → ℝ) (n : Nat) :
    decBandEnergy (realArith cosF sinF) 0 n = (2 : ℝ) ^ (-20 : ℝ) * (n : ℝ) := by
  unfold decBandEnergy
  simp [realArith]

theorem decBinScale_real (cosF sinF : ℝ → ℝ) (wb : List ℝ) (off n : Nat) (E : ℝ) :
    decBinScale (realArith cosF sinF) wb off n E
      = E / Real.sqrt (((1 / 10 ^ 27 : ℚ) : ℝ)
          + ∑ k ∈ Finset.range n, wb.getD (off + k) 0 * wb.getD (off + k) 0) := by
  unfold decBinScale
  dsimp only
  rw [realArith_litF_zero]
  have := foldl_add_eq_sum (fun k => wb.getD (off + k) 0 * wb.getD (off + k) 0)
    ((1 / 10 ^ 27 : ℚ) : ℝ) n
  simp only [realArith] at this ⊢
  rw [this]

/-- One band of `Decode` in exact real arithmetic, when the reconstructed quantized band
energy is zero: whatever the bin bytes and the noise are, the bins of the band have after
renormalisation an absolute sum of at most `2^-20 * n * (n / 16 + 4)`, and no other bin is
written. -/
theorem decodeBand_silence (cosF sinF : ℝ → ℝ) (bytes : List Nat) (ns : Nat)
    (st st' : DecState ℝ) (b : Nat)
    (h : decodeBand (realArith cosF sinF) bytes ns st b = some st')
    (hp : st.quantizedBandEnergyPredictions.getD b 0 = 0)
    (hr : bytes.getD st.inputStream 0 = 0) :
    st'.bandBins = st.bandBins + bandNumBins ns b ∧
      (∀ i, (i < st.bandBins ∨ st.bandBins + bandNumBins ns b ≤ i) →
        st'.windowBins.getD i 0 = st.windowBins.getD i 0) ∧
      ∑ i ∈ Finset.range (bandNumBins ns b), |st'.windowBins.getD (st.bandBins + i) 0|
        ≤ (2 : ℝ) ^ (-20 : ℝ) * (bandNumBins ns b : ℝ)
          * ((bandNumBins ns b : ℝ) / 16 + 4) ∧
      st'.inputStream = st.inputStream + 1 ∧
      st'.quantizedBandEnergyPredictions = st.quantizedBandEnergyPredictions.set b 0 := by
  unfold decodeBand at h
  cases h1 : decodeBandBins (realArith cosF sinF) bytes (BandToNumBins.getD b 0 / ns) st with
  | none =>
    simp only [h1, Option.bind_eq_bind, Option.none_bind] at h
    cases h
  | some r =>
    obtain ⟨st1, nz⟩ := r
    simp only [h1, Option.bind_eq_bind, Option.some_bind, Option.pure_def] at h
    obtain ⟨_, _, a3, a4, _, a6, _, _⟩ := decodeBandBins_spec_of_some (realArith cosF sinF)
      bytes (BandToNumBins.getD b 0 / ns) st st1 nz h1
    obtain ⟨_, _, n3, n4, _, n6, _⟩ := noiseFill_spec (realArith cosF sinF)
      (BandToNumBins.getD b 0 / ns) nz st1
    cases h2 : bytes[(noiseFill (realArith cosF sinF) (BandToNumBins.getD b 0 / ns) nz
        st1).inputStream]? with
    | none =>
      simp only [h2, Option.none_bind] at h
      cases h
    | some res =>
      simp only [h2, Option.some_bind, Option.some.injEq] at h
      have hres : res = 0 := by
        rw [n3, a3] at h2
        rw [List.getD_eq_getElem?_getD, h2] at hr
        exact hr
      have hq : ((noiseFill (realArith cosF sinF) (BandToNumBins.getD b 0 / ns) nz
          st1).quantizedBandEnergyPredictions.getD b 0 + res) % 256 = 0 := by
        rw [n4, a4, hp, hres]
      rw [hq, decBandEnergy_zero] at h
      obtain ⟨st3, hst3⟩ : ∃ st3 : DecState ℝ, st3 =
          { noiseFill (realArith cosF sinF) (BandToNumBins.getD b 0 / ns) nz st1 with
            inputStream := (noiseFill (realArith cosF sinF) (BandToNumBins.getD b 0 / ns) nz
              st1).inputStream + 1
            quantizedBandEnergyPredictions :=
              (noiseFill (realArith cosF sinF) (BandToNumBins.getD b 0 / ns) nz
                st1).quantizedBandEnergyPredictions.set b 0 } := ⟨_, rfl⟩
      have hst' : st' =
          { scaleBand (realArith cosF sinF) (BandToNumBins.getD b 0 / ns)
              ((2 : ℝ) ^ (-20 : ℝ) * ((BandToNumBins.getD b 0 / ns : ℕ) : ℝ)) st3 with
            bandBins := (scaleBand (realArith cosF sinF) (BandToNumBins.getD b 0 / ns)
              ((2 : ℝ) ^ (-20 : ℝ) * ((BandToNumBins.getD b 0 / ns : ℕ) : ℝ)) st3).bandBins
              + BandToNumBins.getD b 0 / ns } := by
        rw [hst3]
        exact h.symm
      have b3 : st3.bandBins = st.bandBins := by
        rw [hst3]
        exact n6.trans a6
      have hout : ∀ i, (i < st.bandBins ∨ st.bandBins + bandNumBins ns b ≤ i) →
          st3.windowBins.getD i 0 = st.windowBins.getD i 0 := by
        intro i hi
        rw [hst3]
        dsimp only
        rw [noiseFill_windowBins (realArith cosF sinF) _ nz st1 0 i (by rw [a6]; exact hi),
          decodeBandBins_windowBins (realArith cosF sinF) bytes _ st st1 nz 0 h1 i hi]
      have i3 : st3.inputStream = st.inputStream + 1 := by
        rw [hst3]
        dsimp only
        rw [n3, a3]
      have p3 : st3.quantizedBandEnergyPredictions
          = st.quantizedBandEnergyPredictions.set b 0 := by
        rw [hst3]
        dsimp only
        rw [n4, a4]
      clear hst3 h
      have hsi := (scaleBand_spec (realArith cosF sinF) (BandToNumBins.getD b 0 / ns)
        ((2 : ℝ) ^ (-20 : ℝ) * ((BandToNumBins.getD b 0 / ns : ℕ) : ℝ)) st3).2.2.1
      have hsp := (scaleBand_spec (realArith cosF sinF) (BandToNumBins.getD b 0 / ns)
        ((2 : ℝ) ^ (-20 : ℝ) * ((BandToNumBins.getD b 0 / ns : ℕ) : ℝ)) st3).2.2.2.1
      have hsb := (scaleBand_spec (realArith cosF sinF) (BandToNumBins.getD b 0 / ns)
        ((2 : ℝ) ^ (-20 : ℝ) * ((BandToNumBins.getD b 0 / ns : ℕ) : ℝ)) st3).2.2.2.2.2.1
      have hwb := scaleBand_windowBins (realArith cosF sinF) (BandToNumBins.getD b 0 / ns)
        ((2 : ℝ) ^ (-20 : ℝ) * ((BandToNumBins.getD b 0 / ns : ℕ) : ℝ)) st3
      rw [realArith_litF_zero, decBinScale_real, b3] at hwb
      rw [hst']
      dsimp only
      refine ⟨?_, ?_, ?_, by rw [hsi, i3], by rw [hsp, p3]⟩
      · rw [hsb, b3]
        rfl
      · intro i hi
        rw [hwb i, if_neg (by unfold bandNumBins at hi; omega)]
        exact hout i hi
      · have hval : ∀ i, i ∈ Finset.range (bandNumBins ns b) →
            |(scaleBand (realArith cosF sinF) (BandToNumBins.getD b 0 / ns)
                ((2 : ℝ) ^ (-20 : ℝ) * ((BandToNumBins.getD b 0 / ns : ℕ) : ℝ))
                st3).windowBins.getD (st.bandBins + i) 0|
              = |st3.windowBins.getD (st.bandBins + i) 0
                  * ((2 : ℝ) ^ (-20 : ℝ) * (bandNumBins ns b : ℝ)
                    / Real.sqrt (((1 / 10 ^ 27 : ℚ) : ℝ)
                      + ∑ k ∈ Finset.range (bandNumBins ns b),
                        st3.windowBins.getD (st.bandBins + k) 0
                          * st3.windowBins.getD (st.bandBins + k) 0))| := by
          intro i hi
          rw [hwb (st.bandBins + i)]
          by_cases hc : st.bandBins ≤ st.bandBins + i
              ∧ st.bandBins + i < st.bandBins + BandToNumBins.getD b 0 / ns
              ∧ st.bandBins + i < st3.windowBins.length
          · rw [if_pos hc]
            rfl
          · rw [if_neg hc]
            have hi2 : i < BandToNumBins.getD b 0 / ns := Finset.mem_range.mp hi
            have hlen : st3.windowBins.length ≤ st.bandBins + i := by omega
            have hz : st3.windowBins.getD (st.bandBins + i) 0 = 0 := by
              rw [List.getD_eq_getElem?_getD, List.getElem?_eq_none hlen]
              rfl
            rw [hz, zero_mul]
        rw [Finset.sum_congr rfl hval]
        exact band_l1_bound (bandNumBins ns b)
          (fun i => st3.windowBins.getD (st.bandBins + i) 0)
          ((1 / 10 ^ 27 : ℚ) : ℝ) ((2 : ℝ) ^ (-20 : ℝ) * (bandNumBins ns b : ℝ))
          (by push_cast; positivity) (by positivity)

theorem silenceBandBound_cast (n : Nat) :
    (2 : ℝ) ^ (-20 : ℝ) * (n : ℝ) * ((n : ℝ) / 16 + 4) = ((silenceBandBound n : ℚ) : ℝ) := by
  have h2 : (2 : ℝ) ^ (-20 : ℝ) = 1 / 2 ^ 20 := by
    rw [Real.rpow_neg (by norm_num), show (20 : ℝ) = ((20 : ℕ) : ℝ) by norm_num,
      Real.rpow_natCast]
    norm_num
  rw [h2]
  unfold silenceBandBound
  push_cast
  ring

theorem silenceBinsBound_succ (ns k : Nat) :
    silenceBinsBound ns (k + 1) = silenceBinsBound ns k + silenceBandBound (bandNumBins ns k) := by
  unfold silenceBinsBound
  rw [List.sum_range_succ]

/-- The band loop of a subframe of `Decode` in exact real arithmetic, when all twenty
reconstructed quantized band energies are zero: the bins beyond the last band stay zero, and
the absolute sum of the bins is at most the sum of the band bounds. -/
theorem decodeBands_silence (cosF sinF : ℝ → ℝ) (bytes : List Nat) (ns : Nat)
    (st st' : DecState ℝ)
    (h : (List.range NumBands).foldlM (decodeBand (realArith cosF sinF) bytes ns) st = some st')
    (hb0 : st.bandBins = 0) (hwb0 : ∀ i, st.windowBins.getD i 0 = 0)
    (hp : ∀ b, st.quantizedBandEnergyPredictions.getD b 0 = 0)
    (hr : ∀ b, b < NumBands → bytes.getD (st.inputStream + b) 0 = 0) :
    (∀ i, binsUpTo ns NumBands ≤ i → st'.windowBins.getD i 0 = 0) ∧
      ∑ i ∈ Finset.range (binsUpTo ns NumBands), |st'.windowBins.getD i 0|
        ≤ ((silenceBinsBound ns NumBands : ℚ) : ℝ) := by
  have key := foldlM_range_inv' (decodeBand (realArith cosF sinF) bytes ns)
    (fun k (s : DecState ℝ) =>
      s.bandBins = binsUpTo ns k ∧
      (∀ i, binsUpTo ns k ≤ i → s.windowBins.getD i 0 = 0) ∧
      ∑ i ∈ Finset.range (binsUpTo ns k), |s.windowBins.getD i 0|
        ≤ ((silenceBinsBound ns k : ℚ) : ℝ) ∧
      s.inputStream = st.inputStream + k ∧
      ∀ b, s.quantizedBandEnergyPredictions.getD b 0 = 0) NumBands st
    ⟨by rw [hb0]; rfl, fun i _ => hwb0 i, by simp [binsUpTo, silenceBinsBound], rfl, hp⟩
    ?_ st' h
  · exact ⟨key.2.1, key.2.2.1⟩
  · intro k hk s s' hs hf
    obtain ⟨h1, h2, h3, h4, h5⟩ := hs
    obtain ⟨g1, g2, g3, g4, g5⟩ := decodeBand_silence cosF sinF bytes ns s s' k hf (h5 k)
      (by rw [h4]; exact hr k hk)
    rw [h1] at g1 g2 g3
    refine ⟨by rw [g1, binsUpTo_succ], ?_, ?_, by rw [g4, h4, Nat.add_assoc], ?_⟩
    · intro i hi
      rw [binsUpTo_succ] at hi
      rw [g2 i (Or.inr hi)]
      exact h2 i (by omega)
    · rw [binsUpTo_succ, Finset.sum_range_add, silenceBinsBound_succ]
      have e1 : ∑ i ∈ Finset.range (binsUpTo ns k), |s'.windowBins.getD i 0|
          = ∑ i ∈ Finset.range (binsUpTo ns k), |s.windowBins.getD i 0| := by
        apply Finset.sum_congr rfl
        intro i hi
        rw [g2 i (Or.inl (Finset.mem_range.mp hi))]
      rw [e1, silenceBandBound_cast] at *
      push_cast
      exact add_le_add h3 g3
    · intro b
      rw [g5, getD_set_eq]
      split
      · rfl
      · exact h5 b

theorem imdctSample_bound (cosF sinF : ℝ → ℝ) (hcos : ∀ x, |cosF x| ≤ 1) (wb : List ℝ)
    (size n : Nat) :
    |imdctSample (realArith cosF sinF) wb size n|
      ≤ 2 / ((size / 2 : Nat) : ℝ) * ∑ k ∈ Finset.range (size / 2), |wb.getD k 0| := by
  unfold imdctSample
  dsimp only
  rw [realArith_litF_zero]
  have hsum := foldl_add_eq_sum
    (fun k => (2 / ((size / 2 : Nat) : ℝ) * wb.getD k 0)
      * cosF (Real.pi / ((size / 2 : Nat) : ℝ)
          * ((n : ℝ) + ((1 / 2 : ℚ) : ℝ) + ((size / 4 : Nat) : ℝ))
          * ((k : ℝ) + ((1 / 2 : ℚ) : ℝ)))) 0 (size / 2)
  have h2 : (realArith cosF sinF).litF 2 = (2 : ℝ) := by simp [realArith]
  rw [h2]
  simp only [realArith] at hsum ⊢
  rw [hsum, zero_add]
  refine le_trans (Finset.abs_sum_le_sum_abs _ _) ?_
  rw [Finset.mul_sum]
  apply Finset.sum_le_sum
  intro k _
  have hM : (0 : ℝ) ≤ 2 / ((size / 2 : Nat) : ℝ) := by positivity
  rw [abs_mul, abs_mul, abs_of_nonneg hM]
  calc 2 / ((size / 2 : Nat) : ℝ) * |wb.getD k 0| * |cosF _|
      ≤ 2 / ((size / 2 : Nat) : ℝ) * |wb.getD k 0| * 1 :=
        mul_le_mul_of_nonneg_left (hcos _) (by positivity)
    _ = 2 / ((size / 2 : Nat) : ℝ) * |wb.getD k 0| := by ring

theorem MdctWindow_bound (cosF sinF : ℝ → ℝ) (hsin : ∀ x, |sinF x| ≤ 1) (n size : Nat)
    (mode : WindowMode) (hm : mode = WindowMode.Long ∨ mode = WindowMode.Short) :
    |MdctWindow (realArith cosF sinF) n size mode| ≤ 1 := by
  have h1 : mode ≠ WindowMode.Start := by
    rcases hm with h | h <;> rw [h] <;> decide
  have h2 : mode ≠ WindowMode.Stop := by
    rcases hm with h | h <;> rw [h] <;> decide
  unfold MdctWindow
  dsimp only
  rw [if_neg h1, if_neg h2]
  unfold VorbisWindow
  exact hsin _

/-- The loop that accumulates the samples of a subframe adds at most `c` in absolute value to
the samples of the window and leaves the other samples. -/
theorem overlapAdd_bound (cosF sinF : ℝ → ℝ) (wb : List ℝ) (fo wo size : Nat)
    (mode : WindowMode) (ps : List ℝ) (c : ℝ) (hc0 : 0 ≤ c)
    (hc : ∀ n, n < size →
      |imdctSample (realArith cosF sinF) wb size n
        * MdctWindow (realArith cosF sinF) n size mode| ≤ c) :
    ∀ i, |(overlapAdd (realArith cosF sinF) wb fo wo size mode ps).getD i 0|
      ≤ |ps.getD i 0| + if fo + wo ≤ i ∧ i < fo + wo + size then c else 0 := by
  unfold overlapAdd
  have key := foldl_range_inv
    (fun (paddedSamples : List ℝ) n =>
      paddedSamples.set (fo + wo + n)
        ((realArith cosF sinF).addF
          (paddedSamples.getD (fo + wo + n) ((realArith cosF sinF).litF 0))
          ((realArith cosF sinF).mulF (imdctSample (realArith cosF sinF) wb size n)
            (MdctWindow (realArith cosF sinF) n size mode))))
    (fun k (l : List ℝ) =>
      ∀ i, |l.getD i 0| ≤ |ps.getD i 0| + if fo + wo ≤ i ∧ i < fo + wo + k then c else 0)
    size ps (fun i => by rw [if_neg (by omega), add_zero]) ?_
  · exact key
  · intro k hk l hl i
    dsimp only
    rw [getD_set_eq, realArith_litF_zero]
    by_cases hi : fo + wo + k = i ∧ i < l.length
    · rw [if_pos hi, if_pos (by omega), hi.1]
      have h1 := hl i
      rw [if_neg (by omega), add_zero] at h1
      have h2 := hc k hk
      have e : (realArith cosF sinF).addF (l.getD i 0)
          ((realArith cosF sinF).mulF (imdctSample (realArith cosF sinF) wb size k)
            (MdctWindow (realArith cosF sinF) k size mode))
          = l.getD i 0 + imdctSample (realArith cosF sinF) wb size k
              * MdctWindow (realArith cosF sinF) k size mode := rfl
      rw [e]
      exact le_trans (abs_add _ _) (add_le_add h1 h2)
    · rw [if_neg hi]
      have h1 := hl i
      by_cases h3 : fo + wo ≤ i ∧ i < fo + wo + k
      · rw [if_pos h3] at h1
        rw [if_pos (by omega)]
        exact h1
      · rw [if_neg h3, add_zero] at h1
        refine le_trans h1 ?_
        split <;> linarith

theorem subframeConfig_cases (mode : WindowMode)
    (hm : mode = WindowMode.Long ∨ mode = WindowMode.Short) :
    (numSubframesOf mode = 1 ∧ (subframeConfig mode).2.1 = 0
        ∧ (subframeConfig mode).2.2 = 2048) ∨
      (numSubframesOf mode = 8 ∧ (subframeConfig mode).2.1 = 448
        ∧ (subframeConfig mode).2.2 = 256) := by
  rcases hm with h | h <;> rw [h]
  · left; exact ⟨rfl, rfl, rfl⟩
  · right; exact ⟨rfl, rfl, rfl⟩

theorem silenceSampleBound_nonneg (ns size : Nat) :
    (0 : ℝ) ≤ ((silenceSampleBound ns size : ℚ) : ℝ) := by
  have h1 : ∀ n, (0 : ℚ) ≤ silenceBandBound n := by
    intro n
    unfold silenceBandBound
    positivity
  have h2 : ∀ k, (0 : ℚ) ≤ silenceBinsBound ns k := by
    intro k
    induction k with
    | zero => simp [silenceBinsBound]
    | succ k ih =>
      rw [silenceBinsBound_succ]
      exact add_nonneg ih (h1 _)
  have h3 : (0 : ℚ) ≤ silenceSampleBound ns size := by
    unfold silenceSampleBound
    exact mul_nonneg (by positivity) (h2 _)
  exact_mod_cast h3

theorem silenceSampleBound_cast (ns size : Nat) :
    ((silenceSampleBound ns size : ℚ) : ℝ)
      = 2 / ((size / 2 : Nat) : ℝ) * ((silenceBinsBound ns NumBands : ℚ) : ℝ) := by
  unfold silenceSampleBound
  rw [Rat.cast_mul, Rat.cast_div, Rat.cast_natCast]
  norm_num

/-- One subframe of `Decode` in exact real arithmetic on silent code: it succeeds, keeps the
predictions zero, and adds at most the sample bound to the samples of its window. -/
theorem decodeSubframe_silence (cosF sinF : ℝ → ℝ) (hcos : ∀ x, |cosF x| ≤ 1)
    (hsin : ∀ x, |sinF x| ≤ 1) (bytes : List Nat) (f : Nat) (mode : WindowMode)
    (hm : mode = WindowMode.Long ∨ mode = WindowMode.Short) (ns off size : Nat)
    (hBM : binsUpTo ns NumBands ≤ size / 2) (st : DecState ℝ) (j : Nat)
    (hq : st.quantizedBandBinStream + binsUpTo ns NumBands ≤ bytes.length)
    (hi : st.inputStream + NumBands ≤ bytes.length)
    (hl : st.quantizedBandEnergyPredictions.length = NumBands)
    (hp : ∀ b, st.quantizedBandEnergyPredictions.getD b 0 = 0)
    (hr : ∀ b, b < NumBands → bytes.getD (st.inputStream + b) 0 = 0) :
    ∃ st', decodeSubframe (realArith cosF sinF) bytes f mode ns off size st j = some st' ∧
      st'.windowModeStream = st.windowModeStream ∧
      st'.quantizedBandBinStream = st.quantizedBandBinStream + binsUpTo ns NumBands ∧
      st'.inputStream = st.inputStream + NumBands ∧
      st'.quantizedBandEnergyPredictions.length = NumBands ∧
      (∀ b, st'.quantizedBandEnergyPredictions.getD b 0 = 0) ∧
      st'.paddedSamples.length = st.paddedSamples.length ∧
      ∀ i, |st'.paddedSamples.getD i 0| ≤ |st.paddedSamples.getD i 0|
        + if f * FrameSize + (off + j * size / 2) ≤ i
            ∧ i < f * FrameSize + (off + j * size / 2) + size
          then ((silenceSampleBound ns size : ℚ) : ℝ)
          else 0 := by
  obtain ⟨st0, hst0⟩ : ∃ st0 : DecState ℝ, st0 =
      { st with windowBins := List.replicate FrameSize ((realArith cosF sinF).litF 0),
                bandBins := 0 } := ⟨_, rfl⟩
  have q0 : st0.quantizedBandBinStream = st.quantizedBandBinStream := by rw [hst0]
  have i0 : st0.inputStream = st.inputStream := by rw [hst0]
  have p0 : st0.quantizedBandEnergyPredictions = st.quantizedBandEnergyPredictions := by
    rw [hst0]
  have w0 : st0.windowModeStream = st.windowModeStream := by rw [hst0]
  have s0 : st0.paddedSamples = st.paddedSamples := by rw [hst0]
  have b0 : st0.bandBins = 0 := by rw [hst0]
  have hwb0 : ∀ i, st0.windowBins.getD i 0 = (0 : ℝ) := by
    intro i
    rw [hst0]
    dsimp only
    rw [realArith_litF_zero, List.getD_eq_getElem?_getD, List.getElem?_replicate]
    split <;> rfl
  obtain ⟨s1, e, a1, a2, a3, a4, _, a6, a7⟩ := decodeBands_spec (realArith cosF sinF) bytes
    ns st0 (by rw [q0]; exact hq) (by rw [i0]; exact hi) (by rw [p0]; exact hl)
  obtain ⟨z1, z2⟩ := decodeBands_silence cosF sinF bytes ns st0 s1 e b0 hwb0
    (by rw [p0]; exact hp) (by rw [i0]; exact hr)
  have hsum : ∑ k ∈ Finset.range (size / 2), |s1.windowBins.getD k 0|
      ≤ ((silenceBinsBound ns NumBands : ℚ) : ℝ) := by
    have hz : ∀ k, k ∈ Finset.range (size / 2) → k ∉ Finset.range (binsUpTo ns NumBands) →
        |s1.windowBins.getD k 0| = 0 := by
      intro k _ hk
      rw [Finset.mem_range, Nat.not_lt] at hk
      rw [z1 k hk, abs_zero]
    rw [← Finset.sum_subset (Finset.range_subset.mpr hBM) hz]
    exact z2
  have hc : ∀ n, n < size →
      |imdctSample (realArith cosF sinF) s1.windowBins size n
        * MdctWindow (realArith cosF sinF) n size mode|
        ≤ ((silenceSampleBound ns size : ℚ) : ℝ) := by
    intro n _
    have h1 := imdctSample_bound cosF sinF hcos s1.windowBins size n
    have h2 := MdctWindow_bound cosF sinF hsin n size mode hm
    have hM : (0 : ℝ) ≤ 2 / ((size / 2 : Nat) : ℝ) :=
      div_nonneg (by norm_num) (Nat.cast_nonneg _)
    have h3 : |imdctSample (realArith cosF sinF) s1.windowBins size n|
        ≤ ((silenceSampleBound ns size : ℚ) : ℝ) := by
      refine le_trans h1 ?_
      rw [silenceSampleBound_cast]
      exact mul_le_mul_of_nonneg_left hsum hM
    rw [abs_mul]
    calc |imdctSample (realArith cosF sinF) s1.windowBins size n|
          * |MdctWindow (realArith cosF sinF) n size mode|
        ≤ ((silenceSampleBound ns size : ℚ) : ℝ) * 1 :=
          mul_le_mul h3 h2 (abs_nonneg _) (silenceSampleBound_nonneg _ _)
      _ = _ := mul_one _
  have hov := overlapAdd_bound cosF sinF s1.windowBins (f * FrameSize)
    (off + j * size / 2) size mode s1.paddedSamples _ (silenceSampleBound_nonneg _ _) hc
  unfold decodeSubframe
  rw [← hst0]
  simp only [e, Option.bind_eq_bind, Option.some_bind, Option.pure_def, Option.some.injEq,
    exists_eq_left']
  refine ⟨by rw [a1, w0], by rw [a2, q0], by rw [a3, i0], a6, ?_,
    by rw [overlapAdd_length, a4, s0], ?_⟩
  · intro b
    by_cases hb : b < NumBands
    · rw [a7 b hb, p0, i0, hp b, hr b hb]
    · rw [List.getD_eq_getElem?_getD, List.getElem?_eq_none (by rw [a6]; omega)]
      rfl
  · intro i
    rw [a4, s0] at hov ⊢
    exact hov i

theorem Tier_step (c : ℝ) (off H t base size : Nat) (ps ps' : List ℝ)
    (hbase : base = off + H * t) (hsize : size = 2 * H) (h : Tier c off H t ps)
    (hstep : ∀ i, |ps'.getD i 0| ≤ |ps.getD i 0|
      + if base ≤ i ∧ i < base + size then c else 0) :
    Tier c off H (t + 1) ps' := by
  intro i
  have h1 := h i
  have h2 := hstep i
  have e1 : H * (t + 1) = H * t + H := Nat.mul_succ H t
  have e2 : H * (t + 1 + 1) = H * t + H + H := by rw [Nat.mul_succ, Nat.mul_succ]
  rw [e1] at h1 ⊢
  rw [e2]
  rw [hbase, hsize] at h2
  generalize H * t = a at *
  by_cases c1 : i < off + a
  · rw [if_pos c1] at h1
    rw [if_neg (by omega), add_zero] at h2
    rw [if_pos (by omega)]
    linarith
  · rw [if_neg c1] at h1
    by_cases c2 : i < off + (a + H)
    · rw [if_pos c2] at h1
      rw [if_pos (by omega)] at h2
      rw [if_pos c2]
      linarith
    · rw [if_neg c2] at h1
      rw [if_neg c2]
      by_cases c3 : i < off + (a + H + H)
      · rw [if_pos (by omega)] at h2
        rw [if_pos c3]
        linarith
      · rw [if_neg (by omega), add_zero] at h2
        rw [if_neg c3]
        linarith

theorem Tier.le {c : ℝ} (hc : 0 ≤ c) {off H t : Nat} {ps : List ℝ} (h : Tier c off H t ps)
    (i : Nat) : |ps.getD i 0| ≤ 2 * c := by
  have h1 := h i
  split at h1 <;> [skip; split at h1] <;> linarith

theorem silenceSampleBound_long : 2 * silenceSampleBound 1 2048 < 1 / 10 ^ 4 := by
  unfold silenceSampleBound silenceBinsBound NumBands
  simp only [List.range_succ, List.range_zero, List.nil_append, List.cons_append,
    List.map_cons, List.map_nil, List.sum_cons, List.sum_nil, silenceBandBound, bandNumBins,
    BandToNumBins]
  norm_num

theorem silenceSampleBound_short : 2 * silenceSampleBound 8 256 < 1 / 10 ^ 4 := by
  unfold silenceSampleBound silenceBinsBound NumBands
  simp only [List.range_succ, List.range_zero, List.nil_append, List.cons_append,
    List.map_cons, List.map_nil, List.sum_cons, List.sum_nil, silenceBandBound, bandNumBins,
    BandToNumBins]
  norm_num

theorem Tier_initial (c : ℝ) (hc : 0 ≤ c) (off H n : Nat) :
    Tier c off H 0 (List.replicate n (0 : ℝ)) := by
  intro i
  have : (List.replicate n (0 : ℝ)).getD i 0 = 0 := by
    rw [List.getD_eq_getElem?_getD, List.getElem?_replicate]
    split <;> rfl
  rw [this, abs_zero]
  split <;> [skip; split] <;> linarith

/-- The subframes of a frame of `Decode` on silent code, in exact real arithmetic. -/
theorem silence_subframes (cosF sinF : ℝ → ℝ) (hcos : ∀ x, |cosF x| ≤ 1)
    (hsin : ∀ x, |sinF x| ≤ 1) (bytes : List Nat) (nf : Nat) (mode : WindowMode)
    (ns off size H : Nat)
    (hcfg : (mode = WindowMode.Long ∧ ns = 1 ∧ off = 0 ∧ size = 2048 ∧ H = 1024) ∨
      (mode = WindowMode.Short ∧ ns = 8 ∧ off = 448 ∧ size = 256 ∧ H = 128))
    (hcode : SilentCode bytes nf mode) (k : Nat) (hk : k < nf) (ds0 : DecState ℝ)
    (hq0 : ds0.quantizedBandBinStream = 10 + nf + NumTotalBins * k)
    (hi0 : ds0.inputStream = 10 + nf + NumTotalBins * nf + NumBands * (ns * k))
    (hl0 : ds0.quantizedBandEnergyPredictions.length = NumBands)
    (hp0 : ∀ b, ds0.quantizedBandEnergyPredictions.getD b 0 = 0)
    (ht0 : Tier ((silenceSampleBound ns size : ℚ) : ℝ) off H (ns * k) ds0.paddedSamples)
    (j : Nat) (hj : j ≤ ns) :
    ∃ ds, decodeSubframes (realArith cosF sinF) bytes k mode ds0 j = some ds ∧
      ds.windowModeStream = ds0.windowModeStream ∧
      ds.quantizedBandBinStream = ds0.quantizedBandBinStream + j * binsUpTo ns NumBands ∧
      ds.inputStream = ds0.inputStream + NumBands * j ∧
      ds.quantizedBandEnergyPredictions.length = NumBands ∧
      (∀ b, ds.quantizedBandEnergyPredictions.getD b 0 = 0) ∧
      ds.paddedSamples.length = ds0.paddedSamples.length ∧
      Tier ((silenceSampleBound ns size : ℚ) : ℝ) off H (ns * k + j) ds.paddedSamples := by
  have hm : mode = WindowMode.Long ∨ mode = WindowMode.Short := by
    rcases hcfg with h | h
    · exact Or.inl h.1
    · exact Or.inr h.1
  have hns : numSubframesOf mode = ns ∧ (subframeConfig mode).2.1 = off
      ∧ (subframeConfig mode).2.2 = size := by
    rcases hcfg with ⟨h1, h2, h3, h4, _⟩ | ⟨h1, h2, h3, h4, _⟩ <;> rw [h1, h2, h3, h4] <;>
      exact ⟨rfl, rfl, rfl⟩
  have hbins : ns * binsUpTo ns NumBands = 856 ∧ binsUpTo ns NumBands ≤ size / 2 := by
    rcases hcfg with ⟨_, h2, _, h4, _⟩ | ⟨_, h2, _, h4, _⟩ <;> rw [h2, h4]
    · rw [binsUpTo_long]; decide
    · rw [binsUpTo_short]; decide
  have hlen := hcode.length_eq
  rw [hns.1] at hlen
  induction j with
  | zero =>
    exact ⟨ds0, rfl, rfl, by simp, by simp, hl0, hp0, rfl, ht0⟩
  | succ j ih =>
    obtain ⟨ds1, g0, g1, g2, g3, g4, g5, g6, g7⟩ := ih (by omega)
    have hjb : j * binsUpTo ns NumBands + binsUpTo ns NumBands ≤ 856 := by
      rw [← hbins.1, ← Nat.succ_mul]
      exact Nat.mul_le_mul_right _ hj
    have hkn : ns * k + j + 1 ≤ ns * nf := by
      have : ns * (k + 1) ≤ ns * nf := Nat.mul_le_mul_left _ hk
      rw [Nat.mul_succ] at this
      omega
    obtain ⟨ds2, e0, e1, e2, e3, e4, e5, e6, e7⟩ := decodeSubframe_silence cosF sinF hcos hsin
      bytes k mode hm ns off size hbins.2 ds1 j
      (by
        rw [g2, hq0, hlen]
        have : NumTotalBins * k + 856 ≤ NumTotalBins * nf := by
          have h := Nat.mul_le_mul_left NumTotalBins hk
          rw [Nat.mul_succ] at h
          exact h
        omega)
      (by
        rw [g3, hi0, hlen]
        have : NumBands * (ns * k) + NumBands * j + NumBands ≤ NumBands * (ns * nf) := by
          have h := Nat.mul_le_mul_left NumBands hkn
          rw [Nat.mul_add, Nat.mul_add, Nat.mul_one] at h
          exact h
        omega)
      g4 g5
      (by
        intro b _
        apply hcode.zero_after
        rw [g3, hi0]
        omega)
    refine ⟨ds2, ?_, by rw [e1, g1], ?_, ?_, e4, e5, by rw [e6, g6], ?_⟩
    · rw [decodeSubframes_succ, g0, hns.1, hns.2.1, hns.2.2]
      exact e0
    · rw [e2, g2, Nat.succ_mul, Nat.add_assoc]
    · rw [e3, g3, Nat.mul_succ, Nat.add_assoc]
    · refine Tier_step _ off H (ns * k + j)
        (k * FrameSize + (off + j * size / 2)) size ds1.paddedSamples ds2.paddedSamples ?_ ?_
        g7 e7
      · rcases hcfg with ⟨_, h2, h3, h4, h5⟩ | ⟨_, h2, h3, h4, h5⟩ <;>
          rw [h2, h3, h4, h5] <;> unfold FrameSize <;> omega
      · rcases hcfg with ⟨_, _, _, h4, h5⟩ | ⟨_, _, _, h4, h5⟩ <;> rw [h4, h5]

/-- The frames of `Decode` on silent code, in exact real arithmetic: after every frame the
samples of the padded buffer obey the tier bound. -/
theorem silence_frames (cosF sinF : ℝ → ℝ) (hcos : ∀ x, |cosF x| ≤ 1)
    (hsin : ∀ x, |sinF x| ≤ 1) (bytes : List Nat) (n : Nat) (mode : WindowMode)
    (ns off size H : Nat)
    (hcfg : (mode = WindowMode.Long ∧ ns = 1 ∧ off = 0 ∧ size = 2048 ∧ H = 1024) ∨
      (mode = WindowMode.Short ∧ ns = 8 ∧ off = 448 ∧ size = 256 ∧ H = 128))
    (hcode : SilentCode bytes (n + 1) mode) (k : Nat) (hk : k ≤ n + 1) :
    ∃ ds, decodeFrames (realArith cosF sinF) bytes n k = some ds ∧
      ds.windowModeStream = 10 + k ∧
      ds.quantizedBandBinStream = 10 + (n + 1) + NumTotalBins * k ∧
      ds.inputStream = 10 + (n + 1) + NumTotalBins * (n + 1) + NumBands * (ns * k) ∧
      ds.quantizedBandEnergyPredictions.length = NumBands ∧
      (∀ b, ds.quantizedBandEnergyPredictions.getD b 0 = 0) ∧
      ds.paddedSamples.length = n * FrameSize + FrameSize * 2 ∧
      Tier ((silenceSampleBound ns size : ℚ) : ℝ) off H (ns * k) ds.paddedSamples := by
  have hns : numSubframesOf mode = ns := by
    rcases hcfg with ⟨h1, h2, _⟩ | ⟨h1, h2, _⟩ <;> rw [h1, h2] <;> rfl
  have hbins : ns * binsUpTo ns NumBands = NumTotalBins := by
    rw [← hns]
    exact numSubframesOf_mul_bins mode
  induction k with
  | zero =>
    refine ⟨_, decodeFrames_zero _ bytes n, rfl, rfl, ?_, ?_, ?_, ?_, ?_⟩
    · simp [DecState.initial, Nat.mul_comm]
    · simp [DecState.initial]
    · intro b
      simp only [DecState.initial]
      rw [List.getD_eq_getElem?_getD, List.getElem?_replicate]
      split <;> rfl
    · simp [DecState.initial]
    · simp only [DecState.initial, realArith_litF_zero]
      exact Tier_initial _ (silenceSampleBound_nonneg _ _) _ _ _
  | succ k ih =>
    obtain ⟨ds1, h0, h1, h2, h3, h4, h5, h6, h7⟩ := ih (by omega)
    have hlen := hcode.length_eq
    have hw : ds1.windowModeStream < bytes.length := by
      rw [h1, hlen]; omega
    have hmode : bytes.getD ds1.windowModeStream 0 = mode := by
      rw [h1]; exact hcode.windowMode_eq k (by omega)
    obtain ⟨ds2, g0, g1, g2, g3, g4, g5, g6, g7⟩ := silence_subframes cosF sinF hcos hsin bytes
      (n + 1) mode ns off size H hcfg hcode k (by omega)
      { ds1 with windowModeStream := ds1.windowModeStream + 1 } h2 h3 h4 h5 h7 ns
      (Nat.le_refl _)
    dsimp only at g1 g2 g3 g6
    refine ⟨ds2, ?_, by rw [g1, h1]; rfl, ?_, ?_, g4, g5, by rw [g6, h6], ?_⟩
    · rw [decodeFrames_succ, h0]
      show decodeFrame (realArith cosF sinF) bytes ds1 k = some ds2
      rw [decodeFrame_eq _ bytes ds1 k hw, hmode, hns]
      exact g0
    · rw [g2, h2, hbins]
      ring
    · rw [g3, h3]
      ring
    · rw [Nat.mul_succ]
      exact g7

/-- The result of `Decode` on silent code, in exact real arithmetic: the frame count of the
header times 1024 samples, each of absolute value below `10^-4`. -/
theorem silence_decode (cosF sinF : ℝ → ℝ) (hcos : ∀ x, |cosF x| ≤ 1)
    (hsin : ∀ x, |sinF x| ≤ 1) (bytes : List Nat) (n : Nat) (mode : WindowMode)
    (hm : mode = WindowMode.Long ∨ mode = WindowMode.Short)
    (hcode : SilentCode bytes (n + 1) mode) (hr : readNumFrames bytes = some n) :
    ∃ samples, Decode (realArith cosF sinF) bytes = some (samples, n * FrameSize) ∧
      samples.length = n * FrameSize ∧ ∀ s, s ∈ samples → |s| < 1 / 10 ^ 4 := by
  have main : ∀ (ns off size H : Nat),
      ((mode = WindowMode.Long ∧ ns = 1 ∧ off = 0 ∧ size = 2048 ∧ H = 1024) ∨
        (mode = WindowMode.Short ∧ ns = 8 ∧ off = 448 ∧ size = 256 ∧ H = 128)) →
      2 * silenceSampleBound ns size < 1 / 10 ^ 4 →
      ∃ samples, Decode (realArith cosF sinF) bytes = some (samples, n * FrameSize) ∧
        samples.length = n * FrameSize ∧ ∀ s, s ∈ samples → |s| < 1 / 10 ^ 4 := by
    intro ns off size H hcfg hb
    obtain ⟨ds, h0, _, _, _, _, _, h6, h7⟩ := silence_frames cosF sinF hcos hsin bytes n mode
      ns off size H hcfg hcode (n + 1) (Nat.le_refl _)
    refine ⟨_, Decode_eq _ bytes n ds hr h0, ?_, ?_⟩
    · rw [List.length_take, List.length_drop, h6]
      simp only [FrameSize]
      omega
    · intro s hs
      have hmem : s ∈ ds.paddedSamples := List.mem_of_mem_drop (List.mem_of_mem_take hs)
      obtain ⟨i, hi⟩ := List.mem_iff_getElem?.mp hmem
      have hle := h7.le (silenceSampleBound_nonneg _ _) i
      rw [List.getD_eq_getElem?_getD, hi, Option.getD_some] at hle
      have hb' : (2 : ℝ) * ((silenceSampleBound ns size : ℚ) : ℝ) < 1 / 10 ^ 4 := by
        have : ((2 * silenceSampleBound ns size : ℚ) : ℝ) < ((1 / 10 ^ 4 : ℚ) : ℝ) :=
          Rat.cast_lt.mpr hb
        push_cast at this
        exact this
      exact lt_of_le_of_lt hle hb'
  rcases hm with h | h
  · exact main 1 0 2048 1024 (Or.inl ⟨h, rfl, rfl, rfl, rfl⟩) silenceSampleBound_long
  · exact main 8 448 256 128 (Or.inr ⟨h, rfl, rfl, rfl, rfl⟩) silenceSampleBound_short

/-- The code of a silent input, in exact real arithmetic, is silent code: every frame has the
same window mode (`Short` above the bit rate threshold, `Long` otherwise) and all bin and
residual bytes are zero. -/
theorem encBytes_silentCode (cosF sinF : ℝ → ℝ) (n : Nat) (sr br : ℝ) :
    ∃ mode, (mode = WindowMode.Long ∨ mode = WindowMode.Short) ∧
      SilentCode (encBytes (realArith cosF sinF) (List.replicate n (0 : ℝ)) sr br)
        (encFrameCount n) mode := by
  have hmode : ∃ mode, (mode = WindowMode.Long ∨ mode = WindowMode.Short) ∧
      ∀ f, f < encFrameCount n →
        encWindowMode (realArith cosF sinF) (List.replicate n (0 : ℝ)) br f = mode := by
    cases hbr : (realArith cosF sinF).gtD br ((realArith cosF sinF).litD 8) with
    | true =>
      refine ⟨WindowMode.Short, Or.inr rfl, ?_⟩
      intro f hf
      have := encWindowMode_silence (realArith_zeroLaws cosF sinF) n br hbr f hf
      rw [realArith_litF_zero] at this
      exact this
    | false =>
      refine ⟨WindowMode.Long, Or.inl rfl, ?_⟩
      intro f _
      unfold encWindowMode
      exact selectWindowMode_low _ br hbr _ _ _
  obtain ⟨mode, hm, hw⟩ := hmode
  refine ⟨mode, hm, ?_, ?_, ?_⟩
  · have := encBytes_length (realArith cosF sinF) (List.replicate n (0 : ℝ)) sr br
    rw [List.length_replicate] at this
    rw [this, subframesUpTo_const _ (numSubframesOf mode) _ (fun f hf => by rw [hw f hf])]
  · intro f hf
    have := encBytes_windowMode (realArith cosF sinF) (List.replicate n (0 : ℝ)) sr br f
      (by rw [List.length_replicate]; exact hf)
    rw [this, hw f hf]
  · intro i hi
    exact encBytes_silence_zero cosF sinF n sr br i hi

end BandSilence

/-! ## The scaling factor search -/

section Search

variable {F D : Type}

theorem ratArith_strictWeakOn (d : Nat → ℚ) : StrictWeakOn ratArith.ltD d where
  irrefl := by intro s; simp [ratArith]
  trans := by
    intro r s t h1 h2
    simp only [ratArith, decide_eq_true_eq] at h1 h2 ⊢
    exact lt_trans h1 h2
  negTrans := by
    intro r s t h1 h2
    simp only [ratArith, decide_eq_false_iff_not, not_lt] at h1 h2 ⊢
    exact le_trans h2 h1

theorem searchStep_eq (A : Arith F D) (wb : List F) (pred : List Nat) (ns : Nat)
    (target slack : D) (best : Best D) (sf s : Nat)
    (hb : best.bestSubframeBitsEstimate
      = subframeBitsEstimateOf A (encodeCandidate A wb pred ns s maxScalingFactor)) :
    searchStep A wb pred ns target slack best sf
      = if sf = minScalingFactor ∨
          A.ltD (searchDistance A wb pred ns target slack sf)
            (searchDistance A wb pred ns target slack s) = true then
          { bestQuantizedBandEnergies :=
              (encodeCandidate A wb pred ns sf maxScalingFactor).quantizedBandEnergies
            bestBandEnergyStream :=
              (encodeCandidate A wb pred ns sf maxScalingFactor).bandEnergyStream
            bestBinQStream := (encodeCandidate A wb pred ns sf maxScalingFactor).binQStream
            bestSubframeBitsEstimate :=
              subframeBitsEstimateOf A (encodeCandidate A wb pred ns sf maxScalingFactor) }
        else best := by
  unfold searchStep searchDistance
  dsimp only
  rw [hb]

/-- The candidate the scaling factor search keeps is the first one among the candidates of
the scaling factors `1, ..., 500` whose distance from the target no other candidate
undercuts. -/
theorem searchScalingFactor_argmin (A : Arith F D) (wb : List F) (pred : List Nat) (ns : Nat)
    (target slack : D)
    (hd : StrictWeakOn A.ltD (searchDistance A wb pred ns target slack)) :
    ∃ sf, 1 ≤ sf ∧ sf ≤ 500 ∧
      searchScalingFactor A wb pred ns target slack
        = { bestQuantizedBandEnergies :=
              (encodeCandidate A wb pred ns sf maxScalingFactor).quantizedBandEnergies
            bestBandEnergyStream :=
              (encodeCandidate A wb pred ns sf maxScalingFactor).bandEnergyStream
            bestBinQStream := (encodeCandidate A wb pred ns sf maxScalingFactor).binQStream
            bestSubframeBitsEstimate :=
              subframeBitsEstimateOf A (encodeCandidate A wb pred ns sf maxScalingFactor) } ∧
      (∀ t, 1 ≤ t → t ≤ 500 →
        A.ltD (searchDistance A wb pred ns target slack t)
          (searchDistance A wb pred ns target slack sf) = false) ∧
      ∀ t, 1 ≤ t → t < sf →
        A.ltD (searchDistance A wb pred ns target slack sf)
          (searchDistance A wb pred ns target slack t) = true := by
  unfold searchScalingFactor
  have h500 : List.range' minScalingFactor maxScalingFactor
      = minScalingFactor :: (List.range 499).map (fun k => 2 + k) := by
    unfold minScalingFactor maxScalingFactor
    rw [List.range'_succ, List.range'_eq_map_range]
  rw [h500, List.foldl_cons, List.foldl_map]
  have key := foldl_range_inv
    (fun best k => searchStep A wb pred ns target slack best (2 + k))
    (fun k (best : Best D) => ∃ sf, 1 ≤ sf ∧ sf ≤ k + 1 ∧
      best
        = { bestQuantizedBandEnergies :=
              (encodeCandidate A wb pred ns sf maxScalingFactor).quantizedBandEnergies
            bestBandEnergyStream :=
              (encodeCandidate A wb pred ns sf maxScalingFactor).bandEnergyStream
            bestBinQStream := (encodeCandidate A wb pred ns sf maxScalingFactor).binQStream
            bestSubframeBitsEstimate :=
              subframeBitsEstimateOf A (encodeCandidate A wb pred ns sf maxScalingFactor) } ∧
      (∀ t, 1 ≤ t → t ≤ k + 1 →
        A.ltD (searchDistance A wb pred ns target slack t)
          (searchDistance A wb pred ns target slack sf) = false) ∧
      ∀ t, 1 ≤ t → t < sf →
        A.ltD (searchDistance A wb pred ns target slack sf)
          (searchDistance A wb pred ns target slack t) = true) 499
    (searchStep A wb pred ns target slack
      { bestQuantizedBandEnergies := [], bestBandEnergyStream := [], bestBinQStream := [],
        bestSubframeBitsEstimate := A.litD 0 } minScalingFactor) ?_ ?_
  · obtain ⟨sf, h1, h2, h3, h4, h5⟩ := key
    exact ⟨sf, h1, by omega, h3, fun t ht1 ht2 => h4 t ht1 (by omega), h5⟩
  · refine ⟨1, le_refl _, by omega, ?_, ?_, ?_⟩
    · unfold searchStep
      dsimp only
      rw [if_pos (Or.inl rfl)]
      rfl
    · intro t ht1 ht2
      have : t = 1 := by omega
      subst this
      exact hd.irrefl 1
    · intro t ht1 ht2
      omega
  · intro k hk best hbest
    obtain ⟨sf, h1, h2, h3, h4, h5⟩ := hbest
    have hne : ¬ (2 + k = minScalingFactor) := by unfold minScalingFactor; omega
    beta_reduce
    rw [searchStep_eq A wb pred ns target slack best (2 + k) sf (by rw [h3])]
    by_cases hlt : A.ltD (searchDistance A wb pred ns target slack (2 + k))
        (searchDistance A wb pred ns target slack sf) = true
    · rw [if_pos (Or.inr hlt)]
      refine ⟨2 + k, by omega, by omega, rfl, ?_, ?_⟩
      · intro t ht1 ht2
        rcases Nat.lt_or_ge t (2 + k) with hl | hg
        · by_contra hc
          have hc' : A.ltD (searchDistance A wb pred ns target slack t)
              (searchDistance A wb pred ns target slack (2 + k)) = true := by
            simpa using hc
          have := hd.trans _ _ _ hc' hlt
          rw [h4 t ht1 (by omega)] at this
          exact Bool.false_ne_true this
        · have : t = 2 + k := by omega
          subst this
          exact hd.irrefl _
      · intro t ht1 ht2
        by_contra hc
        have hc' : A.ltD (searchDistance A wb pred ns target slack (2 + k))
            (searchDistance A wb pred ns target slack t) = false := by
          simpa using hc
        have := hd.negTrans _ _ _ hc' (h4 t ht1 (by omega))
        rw [hlt] at this
        exact Bool.false_ne_true this.symm
    · rw [if_neg (by rintro (h | h); exact hne h; exact hlt h)]
      refine ⟨sf, h1, by omega, h3, ?_, h5⟩
      intro t ht1 ht2
      rcases Nat.lt_or_ge t (2 + k) with hl | hg
      · exact h4 t ht1 (by omega)
      · have : t = 2 + k := by omega
        subst this
        simpa using hlt

/-- One subframe of `Encode` appends the streams of the candidate the search keeps, and
accounts its bits estimate. -/
theorem encodeSubframe_argmin (A : Arith F D) (ps : List F) (target : D) (f : Nat)
    (mode : WindowMode) (ns off size : Nat) (st : EncState D) (j : Nat)
    (hd : StrictWeakOn A.ltD
      (searchDistance A (encWindowBins A ps f mode off size j)
        st.quantizedBandEnergyPredictions ns target st.slackBits)) :
    ∃ sf, 1 ≤ sf ∧ sf ≤ 500 ∧
      encodeSubframe A ps target f mode ns off size st j
        = { st with
            quantizedBandEnergyPredictions :=
              (encodeCandidate A (encWindowBins A ps f mode off size j)
                st.quantizedBandEnergyPredictions ns sf maxScalingFactor).quantizedBandEnergies
            bandEnergyStream :=
              st.bandEnergyStream ++
                (encodeCandidate A (encWindowBins A ps f mode off size j)
                  st.quantizedBandEnergyPredictions ns sf maxScalingFactor).bandEnergyStream
            binQStream :=
              st.binQStream ++
                (encodeCandidate A (encWindowBins A ps f mode off size j)
                  st.quantizedBandEnergyPredictions ns sf maxScalingFactor).binQStream
            slackBits :=
              A.addD st.slackBits
                (A.subD target
                  (subframeBitsEstimateOf A
                    (encodeCandidate A (encWindowBins A ps f mode off size j)
                      st.quantizedBandEnergyPredictions ns sf maxScalingFactor)))
            outTotalBitsEstimate :=
              A.addD st.outTotalBitsEstimate
                (subframeBitsEstimateOf A
                  (encodeCandidate A (encWindowBins A ps f mode off size j)
                    st.quantizedBandEnergyPredictions ns sf maxScalingFactor)) } ∧
      (∀ t, 1 ≤ t → t ≤ 500 →
        A.ltD
          (searchDistance A (encWindowBins A ps f mode off size j)
            st.quantizedBandEnergyPredictions ns target st.slackBits t)
          (searchDistance A (encWindowBins A ps f mode off size j)
            st.quantizedBandEnergyPredictions ns target st.slackBits sf) = false) ∧
      ∀ t, 1 ≤ t → t < sf →
        A.ltD
          (searchDistance A (encWindowBins A ps f mode off size j)
            st.quantizedBandEnergyPredictions ns target st.slackBits sf)
          (searchDistance A (encWindowBins A ps f mode off size j)
            st.quantizedBandEnergyPredictions ns target st.slackBits t) = true := by
  obtain ⟨sf, h1, h2, h3, h4, h5⟩ := searchScalingFactor_argmin A _ _ ns target _ hd
  refine ⟨sf, h1, h2, ?_, h4, h5⟩
  unfold encWindowBins at h3 ⊢
  unfold encodeSubframe
  dsimp only
  rw [h3]

end Search

/-! ## The order 0 bits estimate -/

section Entropy

variable {F D : Type}

theorem numSymbols_foldl (freqs : List (Int × Nat)) (a : Nat) :
    freqs.foldl (fun numSymbols kvp => (numSymbols + kvp.2) % 2 ^ 32) a
      = if freqs = [] then a else (a + (freqs.map Prod.snd).sum) % 2 ^ 32 := by
  induction freqs generalizing a with
  | nil => simp
  | cons kv rest ih =>
    rw [List.foldl_cons, ih]
    by_cases hr : rest = []
    · subst hr
      simp
    · simp only [hr, if_false, List.map_cons, List.sum_cons, reduceCtorEq]
      rw [Nat.add_mod, Nat.mod_mod, ← Nat.add_mod, Nat.add_assoc]

theorem foldl_add_map_sum {α : Type} (g : α → ℝ) (l : List α) (a : ℝ) :
    l.foldl (fun acc kv => acc + g kv) a = a + (l.map g).sum := by
  induction l generalizing a with
  | nil => simp
  | cons kv rest ih =>
    rw [List.foldl_cons, ih, List.map_cons, List.sum_cons, add_assoc]

/-- The value of `Order0BitsEstimate` in exact real arithmetic: the sum of the terms
`-log2(f / numSymbols) * f`, where `numSymbols` is the 32 bit sum of the counts. -/
theorem Order0BitsEstimate_real (cosF sinF : ℝ → ℝ) (freqs : List (Int × Nat)) :
    Order0BitsEstimate (realArith cosF sinF) freqs
      = (freqs.map fun kvp =>
          -(Real.logb 2 ((kvp.2 : ℝ)
              / (((if freqs = [] then 0 else (freqs.map Prod.snd).sum % 2 ^ 32 : Nat)) : ℝ)))
            * (kvp.2 : ℝ)).sum := by
  unfold Order0BitsEstimate
  dsimp only
  rw [numSymbols_foldl]
  simp only [realArith, Rat.cast_zero, Nat.zero_add]
  rw [foldl_add_map_sum, zero_add]

theorem entropy_term_nonneg (f n : Nat) (hf : 0 < f) (hn : f ≤ n) :
    0 ≤ (f : ℝ) * -(Real.logb 2 ((f : ℝ) / (n : ℝ))) := by
  have hf' : (0 : ℝ) < f := by exact_mod_cast hf
  have hn' : (f : ℝ) ≤ n := by exact_mod_cast hn
  have hn0 : (0 : ℝ) < n := lt_of_lt_of_le hf' hn'
  have h1 : (f : ℝ) / n ≤ 1 := by rw [div_le_one hn0]; exact hn'
  have h0 : 0 < (f : ℝ) / n := div_pos hf' hn0
  have : Real.logb 2 ((f : ℝ) / n) ≤ 0 := Real.logb_nonpos (by norm_num) h0.le h1
  exact mul_nonneg hf'.le (by linarith)

theorem le_sum_of_mem (l : List Nat) (a : Nat) (h : a ∈ l) : a ≤ l.sum := by
  induction l with
  | nil => cases h
  | cons b rest ih =>
    rw [List.sum_cons]
    rcases List.mem_cons.mp h with h1 | h1
    · omega
    · have := ih h1
      omega

end Entropy

/-! ## The contents of a candidate -/

section CandidateContents

variable {F D : Type}

theorem getD_append_right_add {α : Type} (l r : List α) (i : Nat) (d : α) :
    (l ++ r).getD (l.length + i) d = r.getD i d := by
  simp [List.getD_eq_getElem?_getD, List.getElem?_append_right]

/-- One band of a candidate, in detail: the energy byte is the rounded `linearBandEnergy * 64`
and the bin quanta are the rounded scaled bins of the band that starts at `c.bandBins`. -/
theorem encodeBand_contents (A : Arith F D) (wb : List F) (pred : List Nat) (ns sf : Nat)
    (c : Candidate) (b : Nat) (hbb : c.bandBins = binsUpTo ns b) :
    (encodeBand A wb pred ns sf maxScalingFactor c b).bandBins = binsUpTo ns (b + 1) ∧
      (encodeBand A wb pred ns sf maxScalingFactor c b).quantizedBandEnergies
        = c.quantizedBandEnergies ++ [roundToU8 A (encBandEnergyValue A wb ns b)] ∧
      (encodeBand A wb pred ns sf maxScalingFactor c b).binQStream
        = c.binQStream
          ++ (List.range (bandNumBins ns b)).map fun i =>
              roundToI8 A (encBinValue A wb ns sf b i) := by
  unfold encodeBand
  dsimp only
  have inv := foldl_range_inv
    (fun (s : Candidate) binIndex =>
      ({ s with
          binQStream := s.binQStream ++
            [encBinQ A (wb.getD (s.bandBins + binIndex) (A.litF 0))
              (encBandEnergy A wb c.bandBins (BandToNumBins.getD b 0 / ns))
              (encBandBinQuantizeScale A b sf maxScalingFactor
                (encLinearBandEnergy A
                  (encBandEnergy A wb c.bandBins (BandToNumBins.getD b 0 / ns))
                  (BandToNumBins.getD b 0 / ns)))]
          binQFreqs := freqIncr
            (encBinQ A (wb.getD (s.bandBins + binIndex) (A.litF 0))
              (encBandEnergy A wb c.bandBins (BandToNumBins.getD b 0 / ns))
              (encBandBinQuantizeScale A b sf maxScalingFactor
                (encLinearBandEnergy A
                  (encBandEnergy A wb c.bandBins (BandToNumBins.getD b 0 / ns))
                  (BandToNumBins.getD b 0 / ns)))) s.binQFreqs } : Candidate))
    (fun k (s : Candidate) =>
      s.bandBins = c.bandBins ∧
      s.quantizedBandEnergies
        = c.quantizedBandEnergies ++ [roundToU8 A (encBandEnergyValue A wb ns b)] ∧
      s.binQStream
        = c.binQStream
          ++ (List.range k).map fun i => roundToI8 A (encBinValue A wb ns sf b i))
    (BandToNumBins.getD b 0 / ns)
    { c with
      quantizedBandEnergies := c.quantizedBandEnergies
        ++ [roundToU8 A (A.mulF (encLinearBandEnergy A
              (encBandEnergy A wb c.bandBins (BandToNumBins.getD b 0 / ns))
              (BandToNumBins.getD b 0 / ns)) (A.litF 64))]
      bandEnergyStream := c.bandEnergyStream
        ++ [subU8 (roundToU8 A (A.mulF (encLinearBandEnergy A
              (encBandEnergy A wb c.bandBins (BandToNumBins.getD b 0 / ns))
              (BandToNumBins.getD b 0 / ns)) (A.litF 64))) (pred.getD b 0)]
      bandEnergyFreqs := freqIncr
        ((subU8 (roundToU8 A (A.mulF (encLinearBandEnergy A
              (encBandEnergy A wb c.bandBins (BandToNumBins.getD b 0 / ns))
              (BandToNumBins.getD b 0 / ns)) (A.litF 64))) (pred.getD b 0) : Nat) : Int)
        c.bandEnergyFreqs }
    ?_ ?_
  · obtain ⟨h1, h2, h3⟩ := inv
    refine ⟨?_, h2, h3⟩
    rw [h1, hbb, binsUpTo_succ]
    rfl
  · refine ⟨rfl, ?_, by simp⟩
    simp only [encBandEnergyValue, encLinearBandEnergyOf, encBandEnergyOf, bandNumBins, hbb]
  · intro k _ s hs
    obtain ⟨h1, h2, h3⟩ := hs
    refine ⟨h1, h2, ?_⟩
    simp only [h3, List.range_succ, List.map_append, List.map_cons, List.map_nil,
      List.append_assoc]
    congr 2
    simp only [encBinValue, encBandBinQuantizeScaleOf, encLinearBandEnergyOf, encBandEnergyOf,
      bandNumBins, hbb, h1, encBinQ]

/-- A candidate, in detail: its energies are the rounded values `linearBandEnergy * 64` of
the twenty bands, and its bin quanta are the rounded scaled bins, band after band. -/
theorem encodeCandidate_contents (A : Arith F D) (wb : List F) (pred : List Nat) (ns sf : Nat) :
    (∀ b, b < NumBands →
      (encodeCandidate A wb pred ns sf maxScalingFactor).quantizedBandEnergies.getD b 0
        = roundToU8 A (encBandEnergyValue A wb ns b)) ∧
    ∀ b, b < NumBands → ∀ i, i < bandNumBins ns b →
      (encodeCandidate A wb pred ns sf maxScalingFactor).binQStream.getD (binsUpTo ns b + i) 0
        = roundToI8 A (encBinValue A wb ns sf b i) := by
  unfold encodeCandidate
  have key := foldl_range_inv (encodeBand A wb pred ns sf maxScalingFactor)
    (fun k (c : Candidate) =>
      c.bandBins = binsUpTo ns k ∧ c.quantizedBandEnergies.length = k ∧
      c.binQStream.length = binsUpTo ns k ∧
      (∀ b, b < k →
        c.quantizedBandEnergies.getD b 0 = roundToU8 A (encBandEnergyValue A wb ns b)) ∧
      ∀ b, b < k → ∀ i, i < bandNumBins ns b →
        c.binQStream.getD (binsUpTo ns b + i) 0 = roundToI8 A (encBinValue A wb ns sf b i))
    NumBands
    { quantizedBandEnergies := [], bandEnergyStream := [], bandEnergyFreqs := [],
      binQStream := [], binQFreqs := [], bandBins := 0 }
    ⟨by simp [binsUpTo], rfl, by simp [binsUpTo], by intro b hb; omega,
      by intro b hb; omega⟩ ?_
  · exact ⟨key.2.2.2.1, key.2.2.2.2⟩
  · intro k _ c hc
    obtain ⟨h1, h2, h3, h4, h5⟩ := hc
    obtain ⟨e1, e2, e3⟩ := encodeBand_contents A wb pred ns sf c k h1
    rw [e2, e3]
    refine ⟨e1, by simp [h2], by simp [h3, binsUpTo_succ], ?_, ?_⟩
    · intro b hb
      rcases Nat.lt_succ_iff_lt_or_eq.mp hb with hlt | heq
      · rw [getD_append_left _ _ _ _ (by omega)]
        exact h4 b hlt
      · subst heq
        have a2 := getD_append_length c.quantizedBandEnergies
          (roundToU8 A (encBandEnergyValue A wb ns b)) 0
        rw [h2] at a2
        exact a2
    · intro b hb i hi
      rcases Nat.lt_succ_iff_lt_or_eq.mp hb with hlt | heq
      · have hle : binsUpTo ns (b + 1) ≤ binsUpTo ns k := binsUpTo_mono ns (by omega)
        rw [binsUpTo_succ] at hle
        rw [getD_append_left _ _ _ _ (by omega)]
        exact h5 b hlt i hi
      · subst heq
        rw [← h3, getD_append_right_add]
        simp [List.getD_eq_getElem?_getD, hi]

end CandidateContents

/-! ## The quantizers of `Encode` in exact real arithmetic -/

section RealQuantizers

theorem encBandEnergy_real (cosF sinF : ℝ → ℝ) (wb : List ℝ) (off n : Nat) :
    encBandEnergy (realArith cosF sinF) wb off n
      = Real.sqrt (((1 / 10 ^ 27 : ℚ) : ℝ)
          + ∑ i ∈ Finset.range n, wb.getD (off + i) 0 * wb.getD (off + i) 0) := by
  unfold encBandEnergy
  dsimp only
  rw [realArith_litF_zero]
  have := foldl_add_eq_sum (fun i => wb.getD (off + i) 0 * wb.getD (off + i) 0)
    ((1 / 10 ^ 27 : ℚ) : ℝ) n
  simp only [realArith] at this ⊢
  rw [this]

theorem epsilon_pos : (0 : ℝ) < ((1 / 10 ^ 27 : ℚ) : ℝ) := by
  have : (0 : ℚ) < 1 / 10 ^ 27 := by norm_num
  exact_mod_cast this

theorem encBandEnergy_real_pos (cosF sinF : ℝ → ℝ) (wb : List ℝ) (off n : Nat) :
    0 < encBandEnergy (realArith cosF sinF) wb off n := by
  rw [encBandEnergy_real]
  apply Real.sqrt_pos.mpr
  have : 0 ≤ ∑ i ∈ Finset.range n, wb.getD (off + i) 0 * wb.getD (off + i) 0 :=
    Finset.sum_nonneg (fun i _ => mul_self_nonneg _)
  linarith [epsilon_pos]

/-- No bin of a band exceeds the band energy. -/
theorem abs_bin_le_encBandEnergy (cosF sinF : ℝ → ℝ) (wb : List ℝ) (off n i : Nat)
    (hi : i < n) :
    |wb.getD (off + i) 0| ≤ encBandEnergy (realArith cosF sinF) wb off n := by
  rw [encBandEnergy_real]
  apply Real.abs_le_sqrt
  have h1 : wb.getD (off + i) 0 * wb.getD (off + i) 0
      ≤ ∑ j ∈ Finset.range n, wb.getD (off + j) 0 * wb.getD (off + j) 0 :=
    Finset.single_le_sum (f := fun j => wb.getD (off + j) 0 * wb.getD (off + j) 0)
      (fun j _ => mul_self_nonneg _) (Finset.mem_range.mpr hi)
  have h2 := epsilon_pos
  nlinarith

/-- The value `linearBandEnergy` lies in `[0, 1]`. -/
theorem encLinearBandEnergy_real_mem (cosF sinF : ℝ → ℝ) (E : ℝ) (n : Nat) :
    0 ≤ encLinearBandEnergy (realArith cosF sinF) E n ∧
      encLinearBandEnergy (realArith cosF sinF) E n ≤ 1 := by
  unfold encLinearBandEnergy clampF
  simp only [realArith, decide_eq_true_eq]
  have e1 : ((-20 : ℚ) : ℝ) = -20 := by norm_num
  have e2 : ((20 : ℚ) : ℝ) = 20 := by norm_num
  have e3 : ((40 : ℚ) : ℝ) = 40 := by norm_num
  rw [e1, e2, e3]
  split_ifs with h1 h2
  · constructor <;> norm_num
  · constructor <;> norm_num
  · push_neg at h1 h2
    constructor
    · apply div_nonneg <;> linarith
    · rw [div_le_one (by norm_num)]; linarith

theorem BandBinQuantizeScaleBases_le (b : Nat) : BandBinQuantizeScaleBases.getD b 0 ≤ 200 := by
  by_cases hb : b < 20
  · have h : ∀ b, b < 20 → BandBinQuantizeScaleBases.getD b 0 ≤ 200 := by decide
    exact h b hb
  · rw [List.getD_eq_default _ _ (by simpa [BandBinQuantizeScaleBases] using hb)]
    omega

/-- The value `bandBinQuantizeScale` lies in `[0, 127]` for every scaling factor up to
`maxScalingFactor`. -/
theorem encBandBinQuantizeScale_real_mem (cosF sinF : ℝ → ℝ) (b sf : Nat) (hsf : sf ≤ 500)
    (lin : ℝ) (h0 : 0 ≤ lin) (h1 : lin ≤ 1) :
    0 ≤ encBandBinQuantizeScale (realArith cosF sinF) b sf maxScalingFactor lin ∧
      encBandBinQuantizeScale (realArith cosF sinF) b sf maxScalingFactor lin ≤ 127 := by
  unfold encBandBinQuantizeScale maxScalingFactor
  simp only [realArith]
  have e1 : ((200 : ℚ) : ℝ) = 200 := by norm_num
  have e2 : ((3 : ℚ) : ℝ) = 3 := by norm_num
  have e3 : ((127 : ℚ) : ℝ) = 127 := by norm_num
  have e4 : ((500 : Nat) : ℝ) = 500 := by norm_num
  rw [e1, e2, e3, e4]
  have hb : ((BandBinQuantizeScaleBases.getD b 0 : Nat) : ℝ) ≤ 200 := by
    exact_mod_cast BandBinQuantizeScaleBases_le b
  have hb0 : (0 : ℝ) ≤ ((BandBinQuantizeScaleBases.getD b 0 : Nat) : ℝ) := Nat.cast_nonneg _
  have hx0 : 0 ≤ ((BandBinQuantizeScaleBases.getD b 0 : Nat) : ℝ) / 200 :=
    div_nonneg hb0 (by norm_num)
  have hx1 : ((BandBinQuantizeScaleBases.getD b 0 : Nat) : ℝ) / 200 ≤ 1 := by
    rw [div_le_one (by norm_num)]; exact hb
  have hp0 : 0 ≤ (((BandBinQuantizeScaleBases.getD b 0 : Nat) : ℝ) / 200) ^ (3 : ℝ) :=
    Real.rpow_nonneg hx0 _
  have hp1 : (((BandBinQuantizeScaleBases.getD b 0 : Nat) : ℝ) / 200) ^ (3 : ℝ) ≤ 1 :=
    Real.rpow_le_one hx0 hx1 (by norm_num)
  have hs0 : (0 : ℝ) ≤ (sf : ℝ) := Nat.cast_nonneg _
  have hs1 : (sf : ℝ) ≤ 500 := by exact_mod_cast hsf
  generalize (((BandBinQuantizeScaleBases.getD b 0 : Nat) : ℝ) / 200) ^ (3 : ℝ) = p at hp0 hp1 ⊢
  generalize (sf : ℝ) = s at hs0 hs1 ⊢
  have hq0 : 0 ≤ p * s / 500 := div_nonneg (mul_nonneg hp0 hs0) (by norm_num)
  have hq1 : p * s / 500 ≤ 1 := by
    rw [div_le_one (by norm_num)]
    nlinarith
  generalize p * s / 500 = q at hq0 hq1 ⊢
  have hl0 : 0 ≤ lin * lin := mul_nonneg h0 h0
  have hl1 : lin * lin ≤ 1 := by nlinarith
  have : q * 127 * lin * lin = 127 * (q * (lin * lin)) := by ring
  rw [this]
  have hql0 : 0 ≤ q * (lin * lin) := mul_nonneg hq0 hl0
  have hql1 : q * (lin * lin) ≤ 1 := by nlinarith
  constructor <;> nlinarith

/-- Rounding a value of absolute value at most `m` gives an integer of absolute value at most
`m`, and the conversion to an integer returns that integer. -/
theorem realRound_bound (v : ℝ) (m : Int) (hm : 0 ≤ m) (h1 : -(m : ℝ) ≤ v) (h2 : v ≤ m) :
    ∃ r : Int, realRound v = (r : ℝ) ∧ realTrunc (realRound v) = r ∧ -m ≤ r ∧ r ≤ m := by
  have htr : ∀ r : Int, realTrunc (r : ℝ) = r := by
    intro r
    unfold realTrunc
    split_ifs with h
    · exact Int.floor_intCast r
    · have : -(r : ℝ) = ((-r : Int) : ℝ) := by push_cast; ring
      rw [this, Int.floor_intCast]
      ring
  unfold realRound
  split_ifs with h
  · refine ⟨⌊v + 1 / 2⌋, rfl, htr _, ?_, ?_⟩
    · have : (0 : Int) ≤ ⌊v + 1 / 2⌋ := Int.floor_nonneg.mpr (by linarith)
      omega
    · have : ⌊v + 1 / 2⌋ < m + 1 := by
        rw [Int.floor_lt]
        push_cast
        linarith
      omega
  · push_neg at h
    refine ⟨-⌊-v + 1 / 2⌋, by push_cast; ring, ?_, ?_, ?_⟩
    · have : -((⌊-v + 1 / 2⌋ : Int) : ℝ) = ((-⌊-v + 1 / 2⌋ : Int) : ℝ) := by push_cast; ring
      rw [this, htr]
    · have : ⌊-v + 1 / 2⌋ < m + 1 := by
        rw [Int.floor_lt]
        push_cast
        linarith
      omega
    · have : (0 : Int) ≤ ⌊-v + 1 / 2⌋ := Int.floor_nonneg.mpr (by linarith)
      omega

/-- The argument of `roundf` in the quantization of a bin has absolute value at most 127. -/
theorem encBinValue_real_bound (cosF sinF : ℝ → ℝ) (wb : List ℝ) (ns sf b i : Nat)
    (hsf : sf ≤ 500) (hi : i < bandNumBins ns b) :
    |encBinValue (realArith cosF sinF) wb ns sf b i| ≤ 127 := by
  have hE := encBandEnergy_real_pos cosF sinF wb (binsUpTo ns b) (bandNumBins ns b)
  have hX := abs_bin_le_encBandEnergy cosF sinF wb (binsUpTo ns b) (bandNumBins ns b) i hi
  have hl := encLinearBandEnergy_real_mem cosF sinF
    (encBandEnergy (realArith cosF sinF) wb (binsUpTo ns b) (bandNumBins ns b))
    (bandNumBins ns b)
  have hs := encBandBinQuantizeScale_real_mem cosF sinF b sf hsf _ hl.1 hl.2
  unfold encBinValue encBandBinQuantizeScaleOf encLinearBandEnergyOf encBandEnergyOf
  rw [realArith_litF_zero]
  generalize encBandBinQuantizeScale (realArith cosF sinF) b sf maxScalingFactor
    (encLinearBandEnergy (realArith cosF sinF)
      (encBandEnergy (realArith cosF sinF) wb (binsUpTo ns b) (bandNumBins ns b))
      (bandNumBins ns b)) = s at hs ⊢
  generalize encBandEnergy (realArith cosF sinF) wb (binsUpTo ns b) (bandNumBins ns b) = E
    at hE hX ⊢
  generalize wb.getD (binsUpTo ns b + i) 0 = X at hX ⊢
  simp only [realArith]
  have he := epsilon_pos
  generalize ((1 / 10 ^ 27 : ℚ) : ℝ) = ε at he ⊢
  rw [abs_mul, abs_div, abs_of_pos (by linarith : 0 < E + ε), abs_of_nonneg hs.1]
  have hr : |X| / (E + ε) ≤ 1 := by
    rw [div_le_one (by linarith)]
    linarith
  have hr0 : 0 ≤ |X| / (E + ε) := div_nonneg (abs_nonneg _) (by linarith)
  nlinarith [hs.1, hs.2]

theorem clamp_int8_eq (r : Int) (h1 : -128 ≤ r) (h2 : r ≤ 127) : clamp_int8 r = r := by
  unfold clamp_int8
  omega

theorem wrapI8_eq (r : Int) (h1 : -128 ≤ r) (h2 : r ≤ 127) : wrapI8 r = r := by
  unfold wrapI8
  omega

end RealQuantizers

/-! ## The candidate a subframe of `Encode` keeps -/

section KeptCandidate

variable {F D : Type}

/-- Invariant rule for a loop over a list, with a body that is only run on members. -/
theorem foldl_list_inv_mem {σ α : Type} (f : σ → α → σ) (P : σ → Prop) (l : List α) (s0 : σ)
    (h0 : P s0) (hstep : ∀ a, a ∈ l → ∀ s, P s → P (f s a)) : P (l.foldl f s0) := by
  induction l generalizing s0 with
  | nil => simpa using h0
  | cons a l ih =>
    exact ih _ (hstep a (List.mem_cons_self a l) s0 h0)
      (fun b hb s hs => hstep b (List.mem_cons_of_mem a hb) s hs)

/-- The streams the scaling factor search keeps are the streams of the candidate of one of
the scaling factors `1, ..., 500`, whatever the comparison of the estimates does. -/
theorem searchScalingFactor_candidate_bounded (A : Arith F D) (wb : List F) (pred : List Nat)
    (ns : Nat) (target slack : D) :
    ∃ sf, 1 ≤ sf ∧ sf ≤ 500 ∧
      (searchScalingFactor A wb pred ns target slack).bestQuantizedBandEnergies
        = (encodeCandidate A wb pred ns sf maxScalingFactor).quantizedBandEnergies ∧
      (searchScalingFactor A wb pred ns target slack).bestBandEnergyStream
        = (encodeCandidate A wb pred ns sf maxScalingFactor).bandEnergyStream ∧
      (searchScalingFactor A wb pred ns target slack).bestBinQStream
        = (encodeCandidate A wb pred ns sf maxScalingFactor).binQStream := by
  unfold searchScalingFactor
  have h500 : List.range' minScalingFactor maxScalingFactor
      = minScalingFactor :: List.range' (minScalingFactor + 1) 499 := by
    unfold minScalingFactor maxScalingFactor
    rw [List.range'_succ]
  rw [h500, List.foldl_cons]
  refine foldl_list_inv_mem (searchStep A wb pred ns target slack)
    (fun best => ∃ sf, 1 ≤ sf ∧ sf ≤ 500 ∧
      best.bestQuantizedBandEnergies
        = (encodeCandidate A wb pred ns sf maxScalingFactor).quantizedBandEnergies ∧
      best.bestBandEnergyStream
        = (encodeCandidate A wb pred ns sf maxScalingFactor).bandEnergyStream ∧
      best.bestBinQStream
        = (encodeCandidate A wb pred ns sf maxScalingFactor).binQStream) _ _ ?_ ?_
  · refine ⟨minScalingFactor, le_refl _, by unfold minScalingFactor; omega, ?_⟩
    simp [searchStep]
  · intro sf hsf best hbest
    have hmem := List.mem_range'_1.mp hsf
    unfold minScalingFactor at hmem
    unfold searchStep
    dsimp only
    split
    · exact ⟨sf, by omega, by omega, rfl, rfl, rfl⟩
    · exact hbest

/-- Every subframe of a run of `Encode` appends the bin quanta and sets the predictions to
the energies of the candidate of one of the scaling factors `1, ..., 500`. -/
theorem encStateAt_succ_candidate (A : Arith F D) (x : List F) (sr br : D) (k j : Nat) :
    ∃ sf, 1 ≤ sf ∧ sf ≤ 500 ∧
      (encStateAt A x sr br k (j + 1)).quantizedBandEnergyPredictions
        = (encodeCandidate A
            (encWindowBins A (encPadded A x) k (encWindowMode A x br k)
              (subframeConfig (encWindowMode A x br k)).2.1
              (subframeConfig (encWindowMode A x br k)).2.2 j)
            (encStateAt A x sr br k j).quantizedBandEnergyPredictions
            (numSubframesOf (encWindowMode A x br k)) sf maxScalingFactor).quantizedBandEnergies ∧
      (encStateAt A x sr br k (j + 1)).binQStream
        = (encStateAt A x sr br k j).binQStream
          ++ (encodeCandidate A
            (encWindowBins A (encPadded A x) k (encWindowMode A x br k)
              (subframeConfig (encWindowMode A x br k)).2.1
              (subframeConfig (encWindowMode A x br k)).2.2 j)
            (encStateAt A x sr br k j).quantizedBandEnergyPredictions
            (numSubframesOf (encWindowMode A x br k)) sf maxScalingFactor).binQStream := by
  obtain ⟨sf, h1, h2, h3, _, h5⟩ := searchScalingFactor_candidate_bounded A
    (encWindowBins A (encPadded A x) k (encWindowMode A x br k)
      (subframeConfig (encWindowMode A x br k)).2.1
      (subframeConfig (encWindowMode A x br k)).2.2 j)
    (encStateAt A x sr br k j).quantizedBandEnergyPredictions
    (numSubframesOf (encWindowMode A x br k))
    (A.divD (encTargetBitsPerFrame A sr br) (A.natD (numSubframesOf (encWindowMode A x br k))))
    (encStateAt A x sr br k j).slackBits
  unfold encWindowBins at h3 h5 ⊢
  rw [encStateAt_succ]
  unfold encodeSubframe
  dsimp only
  exact ⟨sf, h1, h2, h3, by rw [h5]⟩

end KeptCandidate

/-! ## The range of the quantized band energies -/

section EnergyRange

variable {F D : Type}

theorem decBandEnergy_eq (A : Arith F D) (q n : Nat) :
    decBandEnergy A q n = A.mulF (A.Exp2f (decExp2Arg A q)) (A.natF n) := rfl

/-- Rounding a value in `[0, m]` gives an integer in `[0, m]`. -/
theorem realRound_nonneg_bound (v : ℝ) (m : Int) (h1 : 0 ≤ v) (h2 : v ≤ m) :
    ∃ r : Int, realTrunc (realRound v) = r ∧ 0 ≤ r ∧ r ≤ m := by
  have hm : (0 : Int) ≤ m := by
    have : (0 : ℝ) ≤ (m : ℝ) := le_trans h1 h2
    exact_mod_cast this
  obtain ⟨r, hr1, hr2, _, hr4⟩ := realRound_bound v m hm (by linarith) h2
  refine ⟨r, hr2, ?_, hr4⟩
  have hv : realRound v = ((⌊v + 1 / 2⌋ : Int) : ℝ) := by
    unfold realRound
    rw [if_pos h1]
  rw [hv] at hr1
  have : ⌊v + 1 / 2⌋ = r := by exact_mod_cast hr1
  rw [← this]
  exact Int.floor_nonneg.mpr (by linarith)

/-- The quantized energy of a band is at most 64. -/
theorem roundToU8_encBandEnergyValue_le (cosF sinF : ℝ → ℝ) (wb : List ℝ) (ns b : Nat) :
    roundToU8 (realArith cosF sinF) (encBandEnergyValue (realArith cosF sinF) wb ns b) ≤ 64 := by
  have hl := encLinearBandEnergy_real_mem cosF sinF
    (encBandEnergyOf (realArith cosF sinF) wb ns b) (bandNumBins ns b)
  have hv : encBandEnergyValue (realArith cosF sinF) wb ns b
      = encLinearBandEnergy (realArith cosF sinF)
          (encBandEnergyOf (realArith cosF sinF) wb ns b) (bandNumBins ns b) * 64 := by
    unfold encBandEnergyValue encLinearBandEnergyOf
    simp only [realArith]
    norm_num
  obtain ⟨r, hr1, hr2, hr3⟩ := realRound_nonneg_bound
    (encBandEnergyValue (realArith cosF sinF) wb ns b) 64
    (by rw [hv]; nlinarith [hl.1]) (by rw [hv]; push_cast; nlinarith [hl.2])
  unfold roundToU8
  have : (realArith cosF sinF).truncF ((realArith cosF sinF).roundf
      (encBandEnergyValue (realArith cosF sinF) wb ns b)) = r := hr1
  rw [this]
  omega

theorem mem_getD {l : List Nat} {q : Nat} (h : q ∈ l) : ∃ i, i < l.length ∧ l.getD i 0 = q := by
  obtain ⟨i, hi, e⟩ := List.getElem_of_mem h
  refine ⟨i, hi, ?_⟩
  rw [List.getD_eq_getElem _ _ hi, e]

/-- Every quantized band energy of a candidate is at most 64. -/
theorem encodeCandidate_energies_le (cosF sinF : ℝ → ℝ) (wb : List ℝ) (pred : List Nat)
    (ns sf : Nat) (q : Nat)
    (hq : q ∈ (encodeCandidate (realArith cosF sinF) wb pred ns sf
      maxScalingFactor).quantizedBandEnergies) : q ≤ 64 := by
  obtain ⟨i, hi, e⟩ := mem_getD hq
  rw [(encodeCandidate_spec (realArith cosF sinF) wb pred ns sf maxScalingFactor).1.1] at hi
  rw [← e, (encodeCandidate_contents (realArith cosF sinF) wb pred ns sf).1 i hi]
  exact roundToU8_encBandEnergyValue_le cosF sinF wb ns i

/-- At every point of a run of `Encode` the band energy predictions are at most 64. -/
theorem encStateAt_predictions_le (cosF sinF : ℝ → ℝ) (x : List ℝ) (sr br : ℝ) (k j : Nat) :
    ∀ q, q ∈ (encStateAt (realArith cosF sinF) x sr br k j).quantizedBandEnergyPredictions →
      q ≤ 64 := by
  have hsub : ∀ k,
      (∀ q, q ∈ (encState (realArith cosF sinF) x sr br k).quantizedBandEnergyPredictions →
        q ≤ 64) →
      ∀ j q, q ∈ (encStateAt (realArith cosF sinF) x sr br k j).quantizedBandEnergyPredictions →
        q ≤ 64 := by
    intro k hk j
    cases j with
    | zero =>
      rw [(encStateAt_zero (realArith cosF sinF) x sr br k).2]
      exact hk
    | succ j =>
      obtain ⟨sf, _, _, h3, _⟩ := encStateAt_succ_candidate (realArith cosF sinF) x sr br k j
      rw [h3]
      intro q hq
      exact encodeCandidate_energies_le cosF sinF _ _ _ sf q hq
  have hframes : ∀ k q,
      q ∈ (encState (realArith cosF sinF) x sr br k).quantizedBandEnergyPredictions →
        q ≤ 64 := by
    intro k
    induction k with
    | zero =>
      intro q hq
      rw [encState_zero] at hq
      have : q = 0 := List.eq_of_mem_replicate hq
      omega
    | succ k ih =>
      rw [encState_succ_eq_encStateAt]
      exact hsub k ih _
  exact hsub k (hframes k) j

/-- The argument of `Exp2f` for a quantized band energy of at most 64 lies in `[-20, 20]`. -/
theorem decExp2Arg_real_mem (cosF sinF : ℝ → ℝ) (q : Nat) (hq : q ≤ 64) :
    -20 ≤ decExp2Arg (realArith cosF sinF) q ∧ decExp2Arg (realArith cosF sinF) q ≤ 20 := by
  unfold decExp2Arg
  simp only [realArith]
  have h0 : (0 : ℝ) ≤ (q : ℝ) := Nat.cast_nonneg _
  have h1 : (q : ℝ) ≤ 64 := by exact_mod_cast hq
  have e1 : ((64 : ℚ) : ℝ) = 64 := by norm_num
  have e2 : ((40 : ℚ) : ℝ) = 40 := by norm_num
  have e3 : ((20 : ℚ) : ℝ) = 20 := by norm_num
  rw [e1, e2, e3]
  constructor <;> linarith

end EnergyRange

/-! ## The first frame of the transient map -/

section FirstFrame

variable {F D : Type}

/-- The first entry of the transient frame map compares the energy of frame 0 with twice the
initial value `0.0f` of `lastFrameEnergy`. -/
theorem buildTransientFrameMap_head (A : Arith F D) (ps : List F) (numFrames : Nat)
    (h : 1 ≤ numFrames) :
    (buildTransientFrameMap A ps numFrames).1.getD 0 false
      = A.geF (frameEnergyAt A ps 0) (A.mulF (A.litF 0) (A.litF 2)) := by
  unfold buildTransientFrameMap
  have key := foldl_range_inv
    (fun (s : List Bool × F) frameIndex =>
      (s.1 ++ [A.geF (frameEnergyAt A ps frameIndex) (A.mulF s.2 (A.litF 2))],
        frameEnergyAt A ps frameIndex))
    (fun k (s : List Bool × F) =>
      s.1.length = k ∧ (k = 0 → s.2 = A.litF 0) ∧
      (1 ≤ k → s.1.getD 0 false
        = A.geF (frameEnergyAt A ps 0) (A.mulF (A.litF 0) (A.litF 2))))
    numFrames ([], A.litF 0) ⟨rfl, fun _ => rfl, fun h => absurd h (by omega)⟩ ?_
  · exact key.2.2 h
  · intro k _ s hs
    obtain ⟨h1, h2, h3⟩ := hs
    refine ⟨by simp [h1], fun hk => absurd hk (by omega), fun _ => ?_⟩
    dsimp only
    by_cases hk : k = 0
    · subst hk
      have : s.1 = [] := List.length_eq_zero.mp h1
      rw [this, h2 rfl]
      rfl
    · rw [getD_append_left _ _ _ _ (by omega)]
      exact h3 (by omega)

/-- In exact real arithmetic the energy of a frame is not negative. -/
theorem frameEnergyAt_real_nonneg (cosF sinF : ℝ → ℝ) (ps : List ℝ) (f : Nat) :
    0 ≤ frameEnergyAt (realArith cosF sinF) ps f := by
  unfold frameEnergyAt
  dsimp only
  refine foldl_list_inv _ (fun (e : ℝ) => 0 ≤ e) _ _ ?_ ?_
  · simp [realArith]
  · intro i e he
    simp only [realArith]
    exact add_nonneg he (mul_self_nonneg _)

/-- In exact real arithmetic frame 0 is a transient frame. -/
theorem encTransientMap_real_head (cosF sinF : ℝ → ℝ) (x : List ℝ) :
    (encTransientMap (realArith cosF sinF) x).getD 0 false = true := by
  unfold encTransientMap
  have hF : 1 ≤ encFrameCount x.length := by
    unfold encFrameCount headerNumFrames FrameSize
    omega
  rw [buildTransientFrameMap_head _ _ _ hF]
  have := frameEnergyAt_real_nonneg cosF sinF (encPadded (realArith cosF sinF) x) 0
  simp only [realArith, decide_eq_true_eq] at this ⊢
  norm_num
  exact this

end FirstFrame

/-! ## The padded buffer of `Encode` -/

section Padding

variable {F D : Type}

theorem padSamples_eq (A : Arith F D) (x : List F) (N : Nat) :
    padSamples A x N = (List.range FrameSize).foldl (padStep A N) (copiedSamples A x N) := rfl

theorem copiedSamples_length (A : Arith F D) (x : List F) (N : Nat)
    (h : FrameSize + x.length ≤ N) : (copiedSamples A x N).length = N := by
  unfold copiedSamples
  simp only [List.length_append, List.length_take, List.length_replicate, List.length_drop]
  omega

theorem getElem?_append_mid {α : Type} (l1 x l2 : List α) (m i : Nat) (hl : l1.length = m)
    (hi : i < x.length) : (l1 ++ x ++ l2)[m + i]? = x[i]? := by
  subst hl
  rw [List.append_assoc, List.getElem?_append_right (by omega),
    List.getElem?_append_left (by omega)]
  congr 1
  omega

/-- The copy puts the input at the indices from `FrameSize` on. -/
theorem copiedSamples_input (A : Arith F D) (x : List F) (N : Nat)
    (h : FrameSize + x.length ≤ N) (i : Nat) (hi : i < x.length) :
    (copiedSamples A x N)[FrameSize + i]? = x[i]? := by
  unfold copiedSamples
  refine getElem?_append_mid _ x _ FrameSize i ?_ hi
  rw [List.length_take, List.length_replicate]
  omega

/-- The padding loop after `k` iterations: the last `k` samples of the head region and the
first `k` samples of the tail region are the mirror images of the samples next to them, and
every other sample is as the copy left it. -/
theorem padStep_foldl (A : Arith F D) (c : List F) (N : Nat) (hN : 3 * FrameSize ≤ N)
    (hc : c.length = N) (k : Nat) (hk : k ≤ FrameSize) :
    ((List.range k).foldl (padStep A N) c).length = N ∧
      ∀ idx, ((List.range k).foldl (padStep A N) c).getD idx (A.litF 0)
        = if FrameSize - k ≤ idx ∧ idx < FrameSize then
            c.getD (2 * FrameSize - 1 - idx) (A.litF 0)
          else if N - FrameSize ≤ idx ∧ idx < N - FrameSize + k then
            c.getD (2 * N - 2 * FrameSize - 1 - idx) (A.litF 0)
          else c.getD idx (A.litF 0) := by
  have hS : FrameSize = 1024 := rfl
  have key := foldl_range_inv (padStep A N)
    (fun k (p : List F) => k ≤ FrameSize →
      p.length = N ∧
      ∀ idx, p.getD idx (A.litF 0)
        = if FrameSize - k ≤ idx ∧ idx < FrameSize then
            c.getD (2 * FrameSize - 1 - idx) (A.litF 0)
          else if N - FrameSize ≤ idx ∧ idx < N - FrameSize + k then
            c.getD (2 * N - 2 * FrameSize - 1 - idx) (A.litF 0)
          else c.getD idx (A.litF 0)) k c ?_ ?_
  · exact key hk
  · intro _
    refine ⟨hc, ?_⟩
    intro idx
    rw [if_neg (by omega), if_neg (by omega)]
  · intro j _ p hp hj
    obtain ⟨hl, hv⟩ := hp (by omega)
    have r1 : p.getD (FrameSize + j) (A.litF 0) = c.getD (FrameSize + j) (A.litF 0) := by
      rw [hv, if_neg (by omega), if_neg (by omega)]
    have r2 : p.getD (N - FrameSize - 1 - j) (A.litF 0)
        = c.getD (N - FrameSize - 1 - j) (A.litF 0) := by
      rw [hv, if_neg (by omega), if_neg (by omega)]
    unfold padStep
    dsimp only
    refine ⟨by simp only [List.length_set, hl], ?_⟩
    intro idx
    rewrite [getD_set_eq, getD_set_eq, getD_set_eq, List.length_set, hl, r1, r2, hv]
    split_ifs <;>
      first
      | omega
      | exact congrArg (fun t => c.getD t (A.litF 0)) (by omega)

theorem getElem?_eq_of_getD_eq {α : Type} (l : List α) (i j : Nat) (d : α) (hi : i < l.length)
    (hj : j < l.length) (h : l.getD i d = l.getD j d) : l[i]? = l[j]? := by
  rw [getElem?_eq_some_getD l i d hi, getElem?_eq_some_getD l j d hj, h]

/-- The padded buffer of `Encode`: the input is at the indices from `FrameSize` on, the head
region is the mirror image of the samples that follow it and the tail region is the mirror
image of the samples before it. -/
theorem padSamples_mirror (A : Arith F D) (x : List F) (N : Nat)
    (hN : 3 * FrameSize + x.length ≤ N) :
    (padSamples A x N).length = N ∧
      (∀ i, i < x.length → (padSamples A x N)[FrameSize + i]? = x[i]?) ∧
      ∀ i, i < FrameSize →
        (padSamples A x N)[FrameSize - 1 - i]? = (padSamples A x N)[FrameSize + i]? ∧
        (padSamples A x N)[N - FrameSize + i]? = (padSamples A x N)[N - FrameSize - 1 - i]? := by
  have hS : FrameSize = 1024 := rfl
  have hc := copiedSamples_length A x N (by omega)
  obtain ⟨hl, hv⟩ := padStep_foldl A (copiedSamples A x N) N (by omega) hc FrameSize
    (Nat.le_refl _)
  rw [← padSamples_eq] at hl hv
  refine ⟨hl, ?_, ?_⟩
  · intro i hi
    rewrite [← copiedSamples_input A x N (by omega) i hi,
      getElem?_eq_some_getD _ _ (A.litF 0) (by rw [hl]; omega),
      getElem?_eq_some_getD _ _ (A.litF 0) (by rw [hc]; omega), hv,
      if_neg (by omega), if_neg (by omega)]
    exact rfl
  · intro i hi
    constructor
    · apply getElem?_eq_of_getD_eq _ _ _ (A.litF 0) (by rw [hl]; omega) (by rw [hl]; omega)
      rewrite [hv, hv]
      split_ifs <;>
      first
      | omega
      | exact congrArg (fun t => (copiedSamples A x N).getD t (A.litF 0)) (by omega)
    · apply getElem?_eq_of_getD_eq _ _ _ (A.litF 0) (by rw [hl]; omega) (by rw [hl]; omega)
      rewrite [hv, hv]
      split_ifs <;>
      first
      | omega
      | exact congrArg (fun t => (copiedSamples A x N).getD t (A.litF 0)) (by omega)

end Padding

/-! ## The buffers of `Decode` -/

section DecodeBuffers

variable {F D : Type}

/-- One band of `Decode`, when it succeeds: the padded buffer is untouched, `windowBins`
keeps its size and `bandBins` advances by the bins of the band. -/
theorem decodeBand_of_some (A : Arith F D) (bytes : List Nat) (ns : Nat) (st st' : DecState F)
    (b : Nat) (h : decodeBand A bytes ns st b = some st') :
    st'.paddedSamples = st.paddedSamples ∧
      st'.bandBins = st.bandBins + bandNumBins ns b ∧
      st'.windowBins.length = st.windowBins.length := by
  unfold decodeBand at h
  cases h1 : decodeBandBins A bytes (BandToNumBins.getD b 0 / ns) st with
  | none => simp only [h1, Option.bind_eq_bind, Option.none_bind] at h; cases h
  | some r =>
    obtain ⟨st1, nz⟩ := r
    obtain ⟨_, _, _, _, a5, a6, _, a8⟩ := decodeBandBins_spec_of_some A bytes _ st st1 nz h1
    obtain ⟨_, _, _, _, n5, n6, n7⟩ := noiseFill_spec A (BandToNumBins.getD b 0 / ns) nz st1
    simp only [h1, Option.bind_eq_bind, Option.some_bind] at h
    cases h2 : bytes[(noiseFill A (BandToNumBins.getD b 0 / ns) nz st1).inputStream]? with
    | none => simp only [h2, Option.none_bind] at h; cases h
    | some r2 =>
      simp only [h2, Option.some_bind, Option.pure_def, Option.some.injEq] at h
      rw [← h]
      obtain ⟨_, _, _, _, s5, s6, _, s8⟩ := scaleBand_spec A (BandToNumBins.getD b 0 / ns)
        (decBandEnergy A
          (((noiseFill A (BandToNumBins.getD b 0 / ns) nz st1).quantizedBandEnergyPredictions.getD
            b 0 + r2) % 256) (BandToNumBins.getD b 0 / ns))
        { noiseFill A (BandToNumBins.getD b 0 / ns) nz st1 with
          inputStream := (noiseFill A (BandToNumBins.getD b 0 / ns) nz st1).inputStream + 1
          quantizedBandEnergyPredictions :=
            (noiseFill A (BandToNumBins.getD b 0 / ns) nz st1).quantizedBandEnergyPredictions.set
              b (((noiseFill A (BandToNumBins.getD b 0 / ns) nz
                st1).quantizedBandEnergyPredictions.getD b 0 + r2) % 256) }
      dsimp only at s5 s6 s8 ⊢
      refine ⟨by rw [s5, n5, a5], ?_, by rw [s8, n7, a8]⟩
      rw [s6, n6, a6]
      rfl

/-- The band loop of a subframe of `Decode`, when it succeeds. -/
theorem decodeBands_of_some (A : Arith F D) (bytes : List Nat) (ns : Nat) (st : DecState F)
    (k : Nat) :
    ∀ st', (List.range k).foldlM (decodeBand A bytes ns) st = some st' →
      st'.paddedSamples = st.paddedSamples ∧
        st'.bandBins = st.bandBins + binsUpTo ns k ∧
        st'.windowBins.length = st.windowBins.length := by
  refine foldlM_range_inv' (decodeBand A bytes ns)
    (fun k (s : DecState F) =>
      s.paddedSamples = st.paddedSamples ∧ s.bandBins = st.bandBins + binsUpTo ns k ∧
        s.windowBins.length = st.windowBins.length) k st
    ⟨rfl, by simp [binsUpTo], rfl⟩ ?_
  intro b _ s s' hs hf
  obtain ⟨h1, h2, h3⟩ := hs
  obtain ⟨g1, g2, g3⟩ := decodeBand_of_some A bytes ns s s' b hf
  exact ⟨by rw [g1, h1], by rw [g2, h2, binsUpTo_succ]; omega, by rw [g3, h3]⟩

/-- One subframe of `Decode`, when it succeeds: the padded buffer keeps its size, and the
bins of the twenty bands have been written to a `windowBins` of `FrameSize` entries, up to
`bandBins`. -/
theorem decodeSubframe_of_some (A : Arith F D) (bytes : List Nat) (f : Nat) (mode : WindowMode)
    (ns off size : Nat) (st st' : DecState F) (j : Nat)
    (h : decodeSubframe A bytes f mode ns off size st j = some st') :
    st'.paddedSamples.length = st.paddedSamples.length ∧
      st'.windowBins.length = FrameSize ∧ st'.bandBins = binsUpTo ns NumBands := by
  unfold decodeSubframe at h
  cases h1 : (List.range NumBands).foldlM (decodeBand A bytes ns)
      { st with windowBins := List.replicate FrameSize (A.litF 0), bandBins := 0 } with
  | none => simp only [h1, Option.bind_eq_bind, Option.none_bind] at h; cases h
  | some s1 =>
    obtain ⟨a1, a2, a3⟩ := decodeBands_of_some A bytes ns _ NumBands s1 h1
    simp only [h1, Option.bind_eq_bind, Option.some_bind, Option.pure_def,
      Option.some.injEq] at h
    rw [← h]
    dsimp only at a1 a2 a3 ⊢
    refine ⟨by rw [overlapAdd_length, a1], by rw [a3, List.length_replicate], ?_⟩
    rw [a2, Nat.zero_add]

/-- The subframes of a frame of `Decode`, when they succeed, keep the size of the padded
buffer. -/
theorem decodeSubframes_of_some (A : Arith F D) (bytes : List Nat) (f : Nat)
    (mode : WindowMode) (st : DecState F) (j : Nat) :
    ∀ st', decodeSubframes A bytes f mode st j = some st' →
      st'.paddedSamples.length = st.paddedSamples.length := by
  unfold decodeSubframes
  dsimp only
  refine foldlM_range_inv' _
    (fun _ (s : DecState F) => s.paddedSamples.length = st.paddedSamples.length) j st rfl ?_
  intro i _ s s' hs hf
  rw [(decodeSubframe_of_some A bytes f mode _ _ _ s s' i hf).1, hs]

/-- The frames of `Decode`, when they succeed, keep the size of the padded buffer. -/
theorem decodeFrames_of_some (A : Arith F D) (bytes : List Nat) (n k : Nat) :
    ∀ st', decodeFrames A bytes n k = some st' →
      st'.paddedSamples.length = n * FrameSize + FrameSize * 2 := by
  unfold decodeFrames
  refine foldlM_range_inv' _
    (fun _ (s : DecState F) => s.paddedSamples.length = n * FrameSize + FrameSize * 2) k _
    (by simp [DecState.initial]) ?_
  intro i _ s s' hs hf
  unfold decodeFrame decodeFrameStart at hf
  cases hb : bytes[s.windowModeStream]? with
  | none => simp only [hb, Option.bind_eq_bind, Option.none_bind] at hf; cases hf
  | some m =>
    simp only [hb, Option.bind_eq_bind, Option.some_bind, Option.pure_def] at hf
    rw [decodeSubframes_of_some A bytes i m _ _ s' hf]
    exact hs

/-- Every state of `Decode` inside a frame has a padded buffer of the allocated size. -/
theorem decStateAt_of_some (A : Arith F D) (bytes : List Nat) (n k j : Nat) (ds : DecState F)
    (h : decStateAt A bytes n k j = some ds) :
    ds.paddedSamples.length = n * FrameSize + FrameSize * 2 := by
  unfold decStateAt decodeFrameStart at h
  cases h1 : decodeFrames A bytes n k with
  | none => simp only [h1, Option.bind_eq_bind, Option.none_bind] at h; cases h
  | some s =>
    simp only [h1, Option.bind_eq_bind, Option.some_bind] at h
    cases hb : bytes[s.windowModeStream]? with
    | none => simp only [hb, Option.none_bind] at h; cases h
    | some m =>
      simp only [hb, Option.some_bind, Option.pure_def] at h
      rw [decodeSubframes_of_some A bytes k m _ _ ds h]
      exact decodeFrames_of_some A bytes n k s h1

/-- After one more subframe of a frame, `windowBins` has `FrameSize` entries and `bandBins`
stands after the bins of the twenty bands. -/
theorem decStateAt_succ_of_some (A : Arith F D) (bytes : List Nat) (n k j : Nat)
    (ds : DecState F) (h : decStateAt A bytes n k (j + 1) = some ds) :
    ds.windowBins.length = FrameSize ∧
      ∃ m, ds.bandBins = binsUpTo (numSubframesOf m) NumBands := by
  unfold decStateAt decodeFrameStart at h
  cases h1 : decodeFrames A bytes n k with
  | none => simp only [h1, Option.bind_eq_bind, Option.none_bind] at h; cases h
  | some s =>
    simp only [h1, Option.bind_eq_bind, Option.some_bind] at h
    cases hb : bytes[s.windowModeStream]? with
    | none => simp only [hb, Option.none_bind] at h; cases h
    | some m =>
      simp only [hb, Option.some_bind, Option.pure_def] at h
      rw [decodeSubframes_succ] at h
      cases h2 : decodeSubframes A bytes k m
          { s with windowModeStream := s.windowModeStream + 1 } j with
      | none => simp only [h2, Option.bind_eq_bind, Option.none_bind] at h; cases h
      | some s2 =>
        simp only [h2, Option.bind_eq_bind, Option.some_bind] at h
        obtain ⟨_, g2, g3⟩ := decodeSubframe_of_some A bytes k m _ _ _ s2 ds j h
        exact ⟨g2, m, g3⟩

/-- The sample indices of a subframe stay below the size of the padded buffer. -/
theorem decSampleIndex_lt (N f m j n : Nat) (hf : f ≤ N) (hj : j < (subframeConfig m).1)
    (hn : n < (subframeConfig m).2.2) : decSampleIndex f m j n < N * 1024 + 2048 := by
  unfold decSampleIndex
  unfold subframeConfig at hj hn ⊢
  by_cases hm : m = WindowMode.Short
  · simp only [hm, if_true, NumShortWindowsPerFrame, LongWindowSize, ShortWindowSize,
      FrameSize] at hj hn ⊢
    omega
  · simp only [hm, if_false, LongWindowSize, FrameSize] at hj hn ⊢
    omega

/-- The bins of the bands of a subframe lie in disjoint regions of `windowBins` that end at
index 856 for a long window and at index 107 for a short window. -/
theorem decBinIndex_lt (m b i : Nat) (hb : b < NumBands)
    (hi : i < bandNumBins (numSubframesOf m) b) :
    decBinIndex (numSubframesOf m) b i < binsUpTo (numSubframesOf m) (b + 1) ∧
      binsUpTo (numSubframesOf m) (b + 1) ≤ binsUpTo (numSubframesOf m) NumBands ∧
      binsUpTo (numSubframesOf m) NumBands = (if m = WindowMode.Short then 107 else 856) ∧
      binsUpTo (numSubframesOf m) NumBands ≤ FrameSize := by
  refine ⟨?_, binsUpTo_mono _ (by omega), ?_, ?_⟩
  · unfold decBinIndex
    rw [binsUpTo_succ]
    omega
  · rw [numSubframesOf_eq]
    unfold WindowMode.Short
    split
    · exact binsUpTo_short
    · exact binsUpTo_long
  · rcases numSubframesOf_cases m with h | h <;> rw [h]
    · rw [binsUpTo_long]; decide
    · rw [binsUpTo_short]; decide

end DecodeBuffers

/-! ## The tail of the padded buffer of `Encode` -/

section PaddingTail

variable {F D : Type}

theorem getD_append_tail {α : Type} (l1 x l2 : List α) (z : α) (i : Nat)
    (h2 : ∀ v, v ∈ l2 → v = z) (hi : l1.length + x.length ≤ i) :
    (l1 ++ x ++ l2).getD i z = z := by
  rw [List.getD_eq_getElem?_getD,
    List.getElem?_append_right (by rw [List.length_append]; exact hi)]
  cases h : l2[i - (l1 ++ x).length]? with
  | none => rfl
  | some v => exact h2 v (List.getElem?_mem h)

/-- After the copy of the input every sample behind the input is the `float` zero. -/
theorem copiedSamples_zero (A : Arith F D) (x : List F) (N : Nat)
    (h : FrameSize + x.length ≤ N) (i : Nat) (hi : FrameSize + x.length ≤ i) :
    (copiedSamples A x N).getD i (A.litF 0) = A.litF 0 := by
  unfold copiedSamples
  refine getD_append_tail _ x _ (A.litF 0) i ?_ ?_
  · intro v hv
    exact List.eq_of_mem_replicate (List.mem_of_mem_drop hv)
  · rw [List.length_take, List.length_replicate, Nat.min_eq_left (by omega)]
    exact hi

/-- After the padding loop every sample from the end of the last frame of the input on is the
`float` zero: the tail region mirrors samples that lie behind the input. -/
theorem padSamples_tail_zero (A : Arith F D) (x : List F) (N : Nat)
    (hN : 3 * FrameSize + x.length ≤ N) (i : Nat) (hi : FrameSize + x.length ≤ i) :
    (padSamples A x N).getD i (A.litF 0) = A.litF 0 := by
  have hS : FrameSize = 1024 := rfl
  have hc := copiedSamples_length A x N (by omega)
  obtain ⟨_, hv⟩ := padStep_foldl A (copiedSamples A x N) N (by omega) hc FrameSize
    (Nat.le_refl _)
  rw [← padSamples_eq] at hv
  rewrite [hv]
  split_ifs with h1 h2
  · omega
  · exact copiedSamples_zero A x N (by omega) _ (by omega)
  · exact copiedSamples_zero A x N (by omega) i hi

end PaddingTail

/-! ## The neighbours of the frames of the window plan -/

section PlanNeighbours

variable {F D : Type}

/-- The window plan of every transient map: a `Start` frame is followed by a `Short` frame, a
`Stop` frame is preceded by a `Short` frame, and the neighbours of a `Long` frame are not
`Short`. -/
theorem selectWindowMode_neighbours (A : Arith F D) (br : D) (tmap : List Bool)
    (numFrames f : Nat) (hf : f < numFrames) :
    (selectWindowMode A br tmap numFrames f = WindowMode.Start →
      f + 1 < numFrames ∧ selectWindowMode A br tmap numFrames (f + 1) = WindowMode.Short) ∧
    (selectWindowMode A br tmap numFrames f = WindowMode.Stop →
      0 < f ∧ selectWindowMode A br tmap numFrames (f - 1) = WindowMode.Short) ∧
    (selectWindowMode A br tmap numFrames f = WindowMode.Long →
      (0 < f → selectWindowMode A br tmap numFrames (f - 1) ≠ WindowMode.Short) ∧
      (f + 1 < numFrames →
        selectWindowMode A br tmap numFrames (f + 1) ≠ WindowMode.Short)) := by
  by_cases hbr : A.gtD br (A.litD 8) = true
  · simp only [selectWindowMode_eq A br hbr]
    refine ⟨?_, ?_, ?_⟩
    · intro hs
      by_cases hn : f < numFrames - 1
      · have e1 : decide (f < numFrames - 1) = true := by rw [decide_eq_true_eq]; exact hn
        rw [e1] at hs
        refine ⟨by omega, ?_⟩
        revert hs
        generalize tmap.getD f false = a
        generalize tmap.getD (f + 1) false = b
        generalize (decide (f > 0) && tmap.getD (f - 1) false) = c
        generalize (decide (f + 1 > 0) && tmap.getD (f + 1 - 1) false) = d
        generalize (decide (f + 1 < numFrames - 1) && tmap.getD (f + 1 + 1) false) = e
        revert a b c d e
        decide
      · have e1 : decide (f < numFrames - 1) = false := by
          rw [decide_eq_false_iff_not]; exact hn
        rw [e1, Bool.false_and] at hs
        exfalso
        revert hs
        generalize tmap.getD f false = a
        generalize (decide (f > 0) && tmap.getD (f - 1) false) = c
        revert a c
        decide
    · intro hs
      by_cases h0 : f > 0
      · have e1 : decide (f > 0) = true := by rw [decide_eq_true_eq]; exact h0
        rw [e1] at hs
        refine ⟨h0, ?_⟩
        revert hs
        generalize tmap.getD f false = a
        generalize tmap.getD (f - 1) false = b
        generalize (decide (f < numFrames - 1) && tmap.getD (f + 1) false) = c
        generalize (decide (f - 1 > 0) && tmap.getD (f - 1 - 1) false) = d
        generalize (decide (f - 1 < numFrames - 1) && tmap.getD (f - 1 + 1) false) = e
        revert a b c d e
        decide
      · have e1 : decide (f > 0) = false := by rw [decide_eq_false_iff_not]; exact h0
        rw [e1, Bool.false_and] at hs
        exfalso
        revert hs
        generalize tmap.getD f false = a
        generalize (decide (f < numFrames - 1) && tmap.getD (f + 1) false) = c
        revert a c
        decide
    · intro hs
      constructor
      · intro h0
        have e1 : decide (f > 0) = true := by rw [decide_eq_true_eq]; exact h0
        have e2 : f - 1 + 1 = f := by omega
        rw [e1] at hs
        rw [e2]
        revert hs
        generalize tmap.getD f false = a
        generalize tmap.getD (f - 1) false = b
        generalize (decide (f < numFrames - 1) && tmap.getD (f + 1) false) = c
        generalize (decide (f - 1 > 0) && tmap.getD (f - 1 - 1) false) = d
        generalize decide (f - 1 < numFrames - 1) = e
        revert a b c d e
        decide
      · intro h1
        have e1 : decide (f < numFrames - 1) = true := by rw [decide_eq_true_eq]; omega
        have e2 : f + 1 - 1 = f := by omega
        rw [e1] at hs
        rw [e2]
        revert hs
        generalize tmap.getD f false = a
        generalize tmap.getD (f + 1) false = b
        generalize (decide (f > 0) && tmap.getD (f - 1) false) = c
        generalize decide (f + 1 > 0) = d
        generalize (decide (f + 1 < numFrames - 1) && tmap.getD (f + 1 + 1) false) = e
        revert a b c d e
        decide
  · have hlow : A.gtD br (A.litD 8) = false := by simpa using hbr
    simp only [selectWindowMode_low A br hlow]
    refine ⟨fun hs => absurd hs (by decide), fun hs => absurd hs (by decide), fun _ => ?_⟩
    exact ⟨fun _ => by decide, fun _ => by decide⟩

end PlanNeighbours

/-! ## The window in exact real arithmetic -/

section RealWindow

theorem specStartOffset_eq : specStartOffset = 1472 := by decide

theorem specStopOffset_eq : specStopOffset = 448 := by decide

theorem VorbisWindow_real (cosF : ℝ → ℝ) (x : ℝ) (S : Nat) :
    VorbisWindow (realArith cosF Real.sin) x S = specVorbis x S := by
  unfold VorbisWindow specVorbis
  simp only [realArith]
  congr 1
  ring

theorem nPlusHalf_real (cosF sinF : ℝ → ℝ) (n : Nat) :
    (realArith cosF sinF).addF ((realArith cosF sinF).natF n) ((realArith cosF sinF).litF (1 / 2))
      = (n : ℝ) + 0.5 := by
  simp only [realArith]
  norm_num

/-- In exact real arithmetic with the exact sine, `MdctWindow` is the window of the format
description. -/
theorem MdctWindow_real (cosF : ℝ → ℝ) (n S : Nat) (mode : WindowMode) :
    MdctWindow (realArith cosF Real.sin) n S mode = specMdctWindow n S mode := by
  have h1 : LongWindowSize * 3 / 4 - ShortWindowSize / 4 = 1472 := by decide
  have h2 : LongWindowSize / 4 - ShortWindowSize / 4 = 448 := by decide
  have h3 : ShortWindowSize / 2 = 128 := by decide
  have h4 : LongWindowSize / 2 = 1024 := by decide
  unfold MdctWindow specMdctWindow
  simp only [nPlusHalf_real, VorbisWindow_real, h1, h2, h3, h4, specStartOffset_eq,
    specStopOffset_eq]
  have e0 : (realArith cosF Real.sin).litF 0 = (0 : ℝ) := by simp [realArith]
  have e1 : (realArith cosF Real.sin).litF 1 = (1 : ℝ) := by simp [realArith]
  have e2 : ∀ a b : ℝ, (realArith cosF Real.sin).subF a b = a - b := fun _ _ => rfl
  have e3 : ∀ k : Nat, (realArith cosF Real.sin).natF k = (k : ℝ) := fun _ => rfl
  simp only [e0, e1, e2, e3]
  split_ifs <;> first | omega | rfl

end RealWindow

/-! ## The bit accounting of `Encode` -/

section Slack

variable {F D : Type}

/-- One subframe of a run of `Encode` adds `targetBitsPerSubframe - bestSubframeBitsEstimate`
to `slackBits` and `bestSubframeBitsEstimate` to `outTotalBitsEstimate`. -/
theorem encStateAt_succ_bits (A : Arith F D) (x : List F) (sr br : D) (k j : Nat) :
    (encStateAt A x sr br k (j + 1)).slackBits
        = A.addD (encStateAt A x sr br k j).slackBits
            (A.subD (encTargetBitsPerSubframe A x sr br k) (encChosenEstimate A x sr br k j)) ∧
      (encStateAt A x sr br k (j + 1)).outTotalBitsEstimate
        = A.addD (encStateAt A x sr br k j).outTotalBitsEstimate
            (encChosenEstimate A x sr br k j) := by
  rw [encStateAt_succ]
  unfold encodeSubframe encChosenEstimate encTargetBitsPerSubframe encWindowBins
  exact ⟨rfl, rfl⟩

theorem encStateAt_zero_bits (A : Arith F D) (x : List F) (sr br : D) (k : Nat) :
    (encStateAt A x sr br k 0).slackBits = (encState A x sr br k).slackBits ∧
      (encStateAt A x sr br k 0).outTotalBitsEstimate
        = (encState A x sr br k).outTotalBitsEstimate := ⟨rfl, rfl⟩

/-- The estimate the scaling factor search keeps is the estimate of the candidate of one of
the scaling factors. -/
theorem searchScalingFactor_estimate (A : Arith F D) (wb : List F) (pred : List Nat)
    (ns : Nat) (target slack : D) :
    ∃ sf, (searchScalingFactor A wb pred ns target slack).bestSubframeBitsEstimate
      = subframeBitsEstimateOf A (encodeCandidate A wb pred ns sf maxScalingFactor) := by
  unfold searchScalingFactor
  have h500 : List.range' minScalingFactor maxScalingFactor
      = minScalingFactor :: List.range' (minScalingFactor + 1) 499 := by
    unfold minScalingFactor maxScalingFactor
    rw [List.range'_succ]
  rw [h500, List.foldl_cons]
  refine foldl_list_inv (searchStep A wb pred ns target slack)
    (fun best => ∃ sf, best.bestSubframeBitsEstimate
      = subframeBitsEstimateOf A (encodeCandidate A wb pred ns sf maxScalingFactor)) _ _ ?_ ?_
  · refine ⟨minScalingFactor, ?_⟩
    simp [searchStep]
  · intro sf best hbest
    unfold searchStep
    dsimp only
    split
    · exact ⟨sf, rfl⟩
    · exact hbest

/-- The frequency map holds positive counts with the total `n`. -/
theorem freqIncr_ok (key : Int) (l : List (Int × Nat)) (hpos : ∀ kv, kv ∈ l → 0 < kv.2)
    (hsum : (l.map Prod.snd).sum + 1 < 2 ^ 32) :
    (∀ kv, kv ∈ freqIncr key l → 0 < kv.2) ∧
      ((freqIncr key l).map Prod.snd).sum = (l.map Prod.snd).sum + 1 := by
  induction l with
  | nil =>
    unfold freqIncr
    constructor
    · intro kv hkv
      rw [List.mem_singleton] at hkv
      rw [hkv]
      exact Nat.one_pos
    · rfl
  | cons kc rest ih =>
    obtain ⟨k, c⟩ := kc
    unfold freqIncr
    simp only [List.map_cons, List.sum_cons] at hsum
    split_ifs with h1 h2
    · constructor
      · intro kv hkv
        rcases List.mem_cons.mp hkv with h | h
        · rw [h]; exact Nat.one_pos
        · exact hpos kv h
      · simp only [List.map_cons, List.sum_cons]
        omega
    · constructor
      · intro kv hkv
        rcases List.mem_cons.mp hkv with h | h
        · rw [h]
          show 0 < (c + 1) % 2 ^ 32
          rw [Nat.mod_eq_of_lt (by omega)]
          omega
        · exact hpos kv (List.mem_cons_of_mem _ h)
      · simp only [List.map_cons, List.sum_cons]
        rw [Nat.mod_eq_of_lt (by omega)]
        omega
    · obtain ⟨i1, i2⟩ := ih (fun kv hkv => hpos kv (List.mem_cons_of_mem _ hkv)) (by omega)
      constructor
      · intro kv hkv
        rcases List.mem_cons.mp hkv with h | h
        · rw [h]; exact hpos (k, c) (List.mem_cons_self _ _)
        · exact i1 kv h
      · simp only [List.map_cons, List.sum_cons, i2]
        omega

theorem FreqOK.incr {l : List (Int × Nat)} {n : Nat} (h : FreqOK l n) (key : Int)
    (hn : n + 1 < 2 ^ 32) : FreqOK (freqIncr key l) (n + 1) := by
  obtain ⟨h1, h2⟩ := h
  obtain ⟨g1, g2⟩ := freqIncr_ok key l h1 (by rw [h2]; exact hn)
  exact ⟨g1, by rw [g2, h2]⟩

/-- One band of a candidate counts one residual byte and the bin quanta of the band. -/
theorem encodeBand_freqs (A : Arith F D) (wb : List F) (pred : List Nat) (ns sf msf : Nat)
    (c : Candidate) (b e q : Nat) (he : FreqOK c.bandEnergyFreqs e)
    (hq : FreqOK c.binQFreqs q) (hen : e + 1 < 2 ^ 32)
    (hqn : q + bandNumBins ns b < 2 ^ 32) :
    FreqOK (encodeBand A wb pred ns sf msf c b).bandEnergyFreqs (e + 1) ∧
      FreqOK (encodeBand A wb pred ns sf msf c b).binQFreqs (q + bandNumBins ns b) := by
  unfold encodeBand
  dsimp only
  refine foldl_range_inv _
    (fun k (s : Candidate) => k ≤ bandNumBins ns b →
      FreqOK s.bandEnergyFreqs (e + 1) ∧ FreqOK s.binQFreqs (q + k)) _ _ ?_ ?_ (Nat.le_refl _)
  · intro _
    exact ⟨he.incr _ hen, hq⟩
  · intro k hk s hs hk1
    obtain ⟨h1, h2⟩ := hs (by omega)
    exact ⟨h1, h2.incr _ (by omega)⟩

theorem bandNumBins_le (ns b : Nat) : bandNumBins ns b ≤ bandNumBins 1 b := by
  unfold bandNumBins
  rw [Nat.div_one]
  exact Nat.div_le_self _ _

theorem binsUpTo_le (ns k : Nat) (hk : k ≤ NumBands) : binsUpTo ns k ≤ 856 := by
  have h1 : binsUpTo ns k ≤ binsUpTo 1 k := by
    induction k with
    | zero => simp [binsUpTo]
    | succ k ih =>
      rw [binsUpTo_succ, binsUpTo_succ]
      have := bandNumBins_le ns k
      have := ih (by omega)
      omega
  have h2 : binsUpTo 1 k ≤ binsUpTo 1 NumBands := binsUpTo_mono 1 hk
  rw [binsUpTo_long] at h2
  omega

/-- The frequency maps of a candidate hold positive counts: twenty residual bytes and the bin
quanta of the twenty bands. -/
theorem encodeCandidate_freqs (A : Arith F D) (wb : List F) (pred : List Nat) (ns sf msf : Nat) :
    FreqOK (encodeCandidate A wb pred ns sf msf).bandEnergyFreqs NumBands ∧
      FreqOK (encodeCandidate A wb pred ns sf msf).binQFreqs (binsUpTo ns NumBands) := by
  unfold encodeCandidate
  refine foldl_range_inv (encodeBand A wb pred ns sf msf)
    (fun k (c : Candidate) => k ≤ NumBands →
      FreqOK c.bandEnergyFreqs k ∧ FreqOK c.binQFreqs (binsUpTo ns k)) NumBands _ ?_ ?_
    (Nat.le_refl _)
  · intro _
    exact ⟨⟨fun kv h => absurd h (List.not_mem_nil kv), rfl⟩,
      ⟨fun kv h => absurd h (List.not_mem_nil kv), by simp [binsUpTo]⟩⟩
  · intro k hk c hc hk1
    obtain ⟨h1, h2⟩ := hc (by omega)
    have hb := binsUpTo_le ns (k + 1) hk1
    rw [binsUpTo_succ] at hb ⊢
    have hN : NumBands = 20 := rfl
    exact encodeBand_freqs A wb pred ns sf msf c k k (binsUpTo ns k) h1 h2 (by omega) (by omega)

/-- In exact real arithmetic the bits estimate of a frequency map with positive counts and a
total below `2^32` is not negative. -/
theorem Order0BitsEstimate_nonneg (cosF sinF : ℝ → ℝ) (freqs : List (Int × Nat)) (n : Nat)
    (h : FreqOK freqs n) (hn : n < 2 ^ 32) :
    0 ≤ Order0BitsEstimate (realArith cosF sinF) freqs := by
  obtain ⟨hpos, hsum⟩ := h
  rw [Order0BitsEstimate_real]
  apply List.sum_nonneg
  intro v hv
  obtain ⟨kvp, hk, rfl⟩ := List.mem_map.mp hv
  have hne : freqs ≠ [] := by
    intro he
    rw [he] at hk
    cases hk
  rw [if_neg hne, hsum, Nat.mod_eq_of_lt hn]
  have := entropy_term_nonneg kvp.2 n (hpos kvp hk)
    (by rw [← hsum]; exact le_sum_of_mem _ _ (List.mem_map_of_mem Prod.snd hk))
  linarith [mul_comm (kvp.2 : ℝ) (-(Real.logb 2 ((kvp.2 : ℝ) / (n : ℝ))))]

/-- In exact real arithmetic the adjusted bits estimate of a candidate is not negative. -/
theorem subframeBitsEstimateOf_nonneg (cosF sinF : ℝ → ℝ) (wb : List ℝ) (pred : List Nat)
    (ns sf msf : Nat) :
    0 ≤ subframeBitsEstimateOf (realArith cosF sinF)
      (encodeCandidate (realArith cosF sinF) wb pred ns sf msf) := by
  obtain ⟨h1, h2⟩ := encodeCandidate_freqs (realArith cosF sinF) wb pred ns sf msf
  have a1 := Order0BitsEstimate_nonneg cosF sinF _ _ h1 (by decide)
  have a2 := Order0BitsEstimate_nonneg cosF sinF _ _ h2
    (by have := binsUpTo_le ns NumBands (Nat.le_refl _); omega)
  unfold subframeBitsEstimateOf
  simp only [realArith] at a1 a2 ⊢
  have e : ((83 / 100 : ℚ) : ℝ) = 83 / 100 := by norm_num
  rw [e]
  nlinarith

/-- In exact real arithmetic the chosen bits estimate of a subframe is not negative. -/
theorem encChosenEstimate_nonneg (cosF sinF : ℝ → ℝ) (x : List ℝ) (sr br : ℝ) (k j : Nat) :
    0 ≤ encChosenEstimate (realArith cosF sinF) x sr br k j := by
  unfold encChosenEstimate
  obtain ⟨sf, h⟩ := searchScalingFactor_estimate (realArith cosF sinF)
    (encWindowBins (realArith cosF sinF) (encPadded (realArith cosF sinF) x) k
      (encWindowMode (realArith cosF sinF) x br k)
      (subframeConfig (encWindowMode (realArith cosF sinF) x br k)).2.1
      (subframeConfig (encWindowMode (realArith cosF sinF) x br k)).2.2 j)
    (encStateAt (realArith cosF sinF) x sr br k j).quantizedBandEnergyPredictions
    (numSubframesOf (encWindowMode (realArith cosF sinF) x br k))
    (encTargetBitsPerSubframe (realArith cosF sinF) x sr br k)
    (encStateAt (realArith cosF sinF) x sr br k j).slackBits
  rw [h]
  exact subframeBitsEstimateOf_nonneg cosF sinF _ _ _ sf _

/-- In exact real arithmetic, inside frame `k`: `slackBits` has grown by the targets minus
the chosen estimates of the subframes processed, and `outTotalBitsEstimate` by the chosen
estimates. -/
theorem encStateAt_bits_real (cosF sinF : ℝ → ℝ) (x : List ℝ) (sr br : ℝ) (k j : Nat) :
    (encStateAt (realArith cosF sinF) x sr br k j).slackBits
        = (encState (realArith cosF sinF) x sr br k).slackBits
          + ∑ i ∈ Finset.range j,
              (encTargetBitsPerSubframe (realArith cosF sinF) x sr br k
                - encChosenEstimate (realArith cosF sinF) x sr br k i) ∧
      (encStateAt (realArith cosF sinF) x sr br k j).outTotalBitsEstimate
        = (encState (realArith cosF sinF) x sr br k).outTotalBitsEstimate
          + ∑ i ∈ Finset.range j, encChosenEstimate (realArith cosF sinF) x sr br k i := by
  induction j with
  | zero =>
    rw [(encStateAt_zero_bits _ x sr br k).1, (encStateAt_zero_bits _ x sr br k).2]
    simp
  | succ j ih =>
    obtain ⟨h1, h2⟩ := encStateAt_succ_bits (realArith cosF sinF) x sr br k j
    rw [h1, h2, ih.1, ih.2, Finset.sum_range_succ, Finset.sum_range_succ]
    have e1 : ∀ a b : ℝ, (realArith cosF sinF).addD a b = a + b := fun _ _ => rfl
    have e2 : ∀ a b : ℝ, (realArith cosF sinF).subD a b = a - b := fun _ _ => rfl
    rw [e1, e1, e2]
    constructor <;> ring

/-- In exact real arithmetic, after `k` frames: `slackBits` is the sum of the targets minus
the chosen estimates of all subframes of the frames, and `outTotalBitsEstimate` the sum of
the chosen estimates. -/
theorem encState_bits_real (cosF sinF : ℝ → ℝ) (x : List ℝ) (sr br : ℝ) (k : Nat) :
    (encState (realArith cosF sinF) x sr br k).slackBits
        = ∑ f ∈ Finset.range k,
            ∑ i ∈ Finset.range (numSubframesOf (encWindowMode (realArith cosF sinF) x br f)),
              (encTargetBitsPerSubframe (realArith cosF sinF) x sr br f
                - encChosenEstimate (realArith cosF sinF) x sr br f i) ∧
      (encState (realArith cosF sinF) x sr br k).outTotalBitsEstimate
        = ∑ f ∈ Finset.range k,
            ∑ i ∈ Finset.range (numSubframesOf (encWindowMode (realArith cosF sinF) x br f)),
              encChosenEstimate (realArith cosF sinF) x sr br f i := by
  induction k with
  | zero =>
    rw [encState_zero]
    simp [EncState.initial, realArith]
  | succ k ih =>
    rw [encState_succ_eq_encStateAt, (encStateAt_bits_real cosF sinF x sr br k _).1,
      (encStateAt_bits_real cosF sinF x sr br k _).2, ih.1, ih.2, Finset.sum_range_succ,
      Finset.sum_range_succ]
    exact ⟨rfl, rfl⟩

/-- In exact real arithmetic the targets of the subframes of a frame add up to
`targetBitsPerFrame`. -/
theorem sum_encTargetBitsPerSubframe (cosF sinF : ℝ → ℝ) (x : List ℝ) (sr br : ℝ) (f : Nat) :
    ∑ _i ∈ Finset.range (numSubframesOf (encWindowMode (realArith cosF sinF) x br f)),
        encTargetBitsPerSubframe (realArith cosF sinF) x sr br f
      = encTargetBitsPerFrame (realArith cosF sinF) sr br := by
  rw [Finset.sum_const, Finset.card_range, nsmul_eq_mul]
  unfold encTargetBitsPerSubframe
  have e : ∀ a b : ℝ, (realArith cosF sinF).divD a b = a / b := fun _ _ => rfl
  have e2 : ∀ n : Nat, (realArith cosF sinF).natD n = (n : ℝ) := fun _ => rfl
  rw [e, e2]
  have hne : ((numSubframesOf (encWindowMode (realArith cosF sinF) x br f) : Nat) : ℝ) ≠ 0 := by
    rcases numSubframesOf_cases (encWindowMode (realArith cosF sinF) x br f) with h | h <;>
      rw [h] <;> norm_num
  field_simp

end Slack

/-! ## The noise fill of `Decode` -/

section NoiseFill

variable {F D : Type}

/-- The noise fill written with the views: it is applied when the band is `noiseFilled`, and
then bin after bin adds `noiseSample * noiseFillGain` and makes one transition of the LCG. -/
theorem noiseFill_eq (A : Arith F D) (n nz : Nat) (st : DecState F) :
    noiseFill A n nz st
      = if noiseFilled A n nz = true then
          (List.range n).foldl
            (fun (s : DecState F) binIndex =>
              { s with
                windowBins :=
                  s.windowBins.set (s.bandBins + binIndex)
                    (A.addF (s.windowBins.getD (s.bandBins + binIndex) (A.litF 0))
                      (A.mulF (noiseSampleOf A s.lcgState) (noiseFillGainOf A n nz)))
                lcgState := lcgNext s.lcgState })
            st
        else st := rfl

theorem noiseFill_not_filled (A : Arith F D) (n nz : Nat) (st : DecState F)
    (h : noiseFilled A n nz = false) : noiseFill A n nz st = st := by
  rw [noiseFill_eq, h]
  rfl

/-- A noise-filled band: the LCG makes one transition for each bin, and bin `i` of the band
receives the noise sample of the state after `i` transitions times the gain of the band. -/
theorem noiseFill_filled (A : Arith F D) (n nz : Nat) (st : DecState F)
    (h : noiseFilled A n nz = true) (hb : st.bandBins + n ≤ st.windowBins.length) :
    (noiseFill A n nz st).lcgState = lcgNext^[n] st.lcgState ∧
      ∀ i, i < n →
        (noiseFill A n nz st).windowBins.getD (st.bandBins + i) (A.litF 0)
          = A.addF (st.windowBins.getD (st.bandBins + i) (A.litF 0))
              (A.mulF (noiseSampleOf A (lcgNext^[i] st.lcgState)) (noiseFillGainOf A n nz)) := by
  rw [noiseFill_eq, if_pos h]
  have key := foldl_range_inv
    (fun (s : DecState F) binIndex =>
      ({ s with
          windowBins :=
            s.windowBins.set (s.bandBins + binIndex)
              (A.addF (s.windowBins.getD (s.bandBins + binIndex) (A.litF 0))
                (A.mulF (noiseSampleOf A s.lcgState) (noiseFillGainOf A n nz)))
          lcgState := lcgNext s.lcgState } : DecState F))
    (fun k (s : DecState F) =>
      s.bandBins = st.bandBins ∧ s.windowBins.length = st.windowBins.length ∧
      s.lcgState = lcgNext^[k] st.lcgState ∧
      (∀ i, i < k →
        s.windowBins.getD (st.bandBins + i) (A.litF 0)
          = A.addF (st.windowBins.getD (st.bandBins + i) (A.litF 0))
              (A.mulF (noiseSampleOf A (lcgNext^[i] st.lcgState)) (noiseFillGainOf A n nz))) ∧
      ∀ i, k ≤ i →
        s.windowBins.getD (st.bandBins + i) (A.litF 0)
          = st.windowBins.getD (st.bandBins + i) (A.litF 0))
    n st ⟨rfl, rfl, rfl, fun i hi => absurd hi (by omega), fun i _ => rfl⟩ ?_
  · exact ⟨key.2.2.1, key.2.2.2.1⟩
  · intro k hk s hs
    obtain ⟨h1, h2, h3, h4, h5⟩ := hs
    refine ⟨h1, by simp only [List.length_set, h2], ?_, ?_, ?_⟩
    · show lcgNext s.lcgState = _
      rw [h3, Function.iterate_succ_apply']
    · intro i hi
      show (s.windowBins.set (s.bandBins + k) _).getD (st.bandBins + i) (A.litF 0) = _
      rw [getD_set_eq, h1, h2]
      by_cases hik : i = k
      · subst hik
        rw [if_pos ⟨rfl, by omega⟩, h5 i (Nat.le_refl _), h3]
      · rw [if_neg (by omega)]
        exact h4 i (by omega)
    · intro i hi
      show (s.windowBins.set (s.bandBins + k) _).getD (st.bandBins + i) (A.litF 0) = _
      rw [getD_set_eq, h1, if_neg (by omega)]
      exact h5 i (by omega)

theorem noiseFill_lcg (A : Arith F D) (n nz : Nat) (st : DecState F) :
    (noiseFill A n nz st).lcgState
      = if noiseFilled A n nz = true then lcgNext^[n] st.lcgState else st.lcgState := by
  rw [noiseFill_eq]
  split
  · refine foldl_range_inv _
      (fun k (s : DecState F) => s.lcgState = lcgNext^[k] st.lcgState) n st rfl ?_
    intro k _ s hs
    show lcgNext s.lcgState = _
    rw [hs, Function.iterate_succ_apply']
  · rfl

/-- The loop that reads the bins of a band counts the bytes that are not zero. -/
theorem decodeBandBins_count (A : Arith F D) (bytes : List Nat) (n : Nat)
    (st st1 : DecState F) (nz : Nat) (h : decodeBandBins A bytes n st = some (st1, nz)) :
    nz = countNonzeroBins bytes st.quantizedBandBinStream n := by
  unfold decodeBandBins at h
  have key := foldlM_range_inv' (decodeBandBinsStep A bytes)
    (fun k (s : DecState F × Nat) =>
      s.1.quantizedBandBinStream = st.quantizedBandBinStream + k ∧
      s.2 = countNonzeroBins bytes st.quantizedBandBinStream k) n (st, 0)
    ⟨rfl, rfl⟩ ?_ (st1, nz) h
  · exact key.2
  · intro k _ s s' hs hf
    obtain ⟨h1, h2⟩ := hs
    unfold decodeBandBinsStep at hf
    cases hb : bytes[s.1.quantizedBandBinStream]? with
    | none => simp only [hb, Option.bind_eq_bind, Option.none_bind] at hf; cases hf
    | some v =>
      simp only [hb, Option.bind_eq_bind, Option.some_bind, Option.pure_def,
        Option.some.injEq] at hf
      rw [← hf]
      refine ⟨by simp only [h1]; omega, ?_⟩
      have hv : bytes.getD (st.quantizedBandBinStream + k) 0 = v := by
        rw [List.getD_eq_getElem?_getD, ← h1, hb]
        rfl
      unfold countNonzeroBins at h2 ⊢
      rw [List.range_succ, List.filter_append, List.length_append, ← h2]
      simp only [List.filter_cons, List.filter_nil, hv]
      by_cases hz : u8ToI8 v ≠ 0
      · simp [hz]
      · simp [hz]

/-- One band of `Decode`, when it succeeds: the bins are read and counted, the noise fill runs
on the state after the read with that count, and nothing else touches the LCG. -/
theorem decodeBand_lcg (A : Arith F D) (bytes : List Nat) (ns : Nat) (st st' : DecState F)
    (b : Nat) (h : decodeBand A bytes ns st b = some st') :
    ∃ st1 nz, decodeBandBins A bytes (bandNumBins ns b) st = some (st1, nz) ∧
      nz = countNonzeroBins bytes st.quantizedBandBinStream (bandNumBins ns b) ∧
      st1.lcgState = st.lcgState ∧ st1.bandBins = st.bandBins ∧
      st1.windowBins.length = st.windowBins.length ∧
      st'.lcgState = (noiseFill A (bandNumBins ns b) nz st1).lcgState := by
  unfold decodeBand at h
  cases h1 : decodeBandBins A bytes (BandToNumBins.getD b 0 / ns) st with
  | none => simp only [h1, Option.bind_eq_bind, Option.none_bind] at h; cases h
  | some r =>
    obtain ⟨st1, nz⟩ := r
    obtain ⟨_, _, _, _, _, a6, a7, a8⟩ := decodeBandBins_spec_of_some A bytes _ st st1 nz h1
    have hc := decodeBandBins_count A bytes _ st st1 nz h1
    simp only [h1, Option.bind_eq_bind, Option.some_bind] at h
    cases h2 : bytes[(noiseFill A (BandToNumBins.getD b 0 / ns) nz st1).inputStream]? with
    | none => simp only [h2, Option.none_bind] at h; cases h
    | some r2 =>
      simp only [h2, Option.some_bind, Option.pure_def, Option.some.injEq] at h
      refine ⟨st1, nz, h1, hc, a7, a6, a8, ?_⟩
      rw [← h]
      exact (scaleBand_spec A _ _ _).2.2.2.2.2.2.1

/-- The state of the LCG after a band: `numBins` transitions when the band is noise-filled,
none otherwise. -/
theorem decodeBand_lcg_eq (A : Arith F D) (bytes : List Nat) (ns : Nat) (st st' : DecState F)
    (b : Nat) (h : decodeBand A bytes ns st b = some st') :
    st'.lcgState
      = if noiseFilled A (bandNumBins ns b)
            (countNonzeroBins bytes st.quantizedBandBinStream (bandNumBins ns b)) = true then
          lcgNext^[bandNumBins ns b] st.lcgState
        else st.lcgState := by
  obtain ⟨st1, nz, _, h2, h3, _, _, h6⟩ := decodeBand_lcg A bytes ns st st' b h
  rw [h6, noiseFill_lcg, h3, h2]

theorem lcgNext_iterate_lcgAt (n K : Nat) : lcgNext^[n] (lcgAt K) = lcgAt (n + K) := by
  unfold lcgAt
  rw [Function.iterate_add_apply]

/-- Every state of the band loop of `Decode` holds an LCG state that is reached from 0. -/
theorem decodeBands_lcg (A : Arith F D) (bytes : List Nat) (ns : Nat) (st : DecState F)
    (k : Nat) (hst : ∃ K, st.lcgState = lcgAt K) :
    ∀ st', (List.range k).foldlM (decodeBand A bytes ns) st = some st' →
      ∃ K, st'.lcgState = lcgAt K := by
  refine foldlM_range_inv' (decodeBand A bytes ns)
    (fun _ (s : DecState F) => ∃ K, s.lcgState = lcgAt K) k st hst ?_
  intro b _ s s' hs hf
  obtain ⟨K, hK⟩ := hs
  rw [decodeBand_lcg_eq A bytes ns s s' b hf, hK]
  split
  · exact ⟨_, lcgNext_iterate_lcgAt _ K⟩
  · exact ⟨K, rfl⟩

theorem decodeSubframe_lcg (A : Arith F D) (bytes : List Nat) (f : Nat) (mode : WindowMode)
    (ns off size : Nat) (st st' : DecState F) (j : Nat) (hst : ∃ K, st.lcgState = lcgAt K)
    (h : decodeSubframe A bytes f mode ns off size st j = some st') :
    ∃ K, st'.lcgState = lcgAt K := by
  unfold decodeSubframe at h
  cases h1 : (List.range NumBands).foldlM (decodeBand A bytes ns)
      { st with windowBins := List.replicate FrameSize (A.litF 0), bandBins := 0 } with
  | none => simp only [h1, Option.bind_eq_bind, Option.none_bind] at h; cases h
  | some s1 =>
    simp only [h1, Option.bind_eq_bind, Option.some_bind, Option.pure_def,
      Option.some.injEq] at h
    rw [← h]
    exact decodeBands_lcg A bytes ns
      { st with windowBins := List.replicate FrameSize (A.litF 0), bandBins := 0 } NumBands
      hst s1 h1

theorem decodeSubframes_lcg (A : Arith F D) (bytes : List Nat) (f : Nat)
    (mode : WindowMode) (st : DecState F) (j : Nat) (hst : ∃ K, st.lcgState = lcgAt K) :
    ∀ st', decodeSubframes A bytes f mode st j = some st' → ∃ K, st'.lcgState = lcgAt K := by
  unfold decodeSubframes
  dsimp only
  refine foldlM_range_inv' _
    (fun _ (s : DecState F) => ∃ K, s.lcgState = lcgAt K) j st hst ?_
  intro i _ s s' hs hf
  exact decodeSubframe_lcg A bytes f mode _ _ _ s s' i hs hf

theorem decodeFrames_lcg (A : Arith F D) (bytes : List Nat) (n k : Nat) :
    ∀ st', decodeFrames A bytes n k = some st' → ∃ K, st'.lcgState = lcgAt K := by
  unfold decodeFrames
  refine foldlM_range_inv' _
    (fun _ (s : DecState F) => ∃ K, s.lcgState = lcgAt K) k _ ⟨0, rfl⟩ ?_
  intro i _ s s' hs hf
  unfold decodeFrame decodeFrameStart at hf
  cases hb : bytes[s.windowModeStream]? with
  | none => simp only [hb, Option.bind_eq_bind, Option.none_bind] at hf; cases hf
  | some m =>
    simp only [hb, Option.bind_eq_bind, Option.some_bind, Option.pure_def] at hf
    exact decodeSubframes_lcg A bytes i m
      { s with windowModeStream := s.windowModeStream + 1 } _ hs s' hf

/-- Every state of `Decode` inside a frame holds an LCG state that is reached from 0. -/
theorem decStateAt_lcg (A : Arith F D) (bytes : List Nat) (n k j : Nat) (ds : DecState F)
    (h : decStateAt A bytes n k j = some ds) : ∃ K, ds.lcgState = lcgAt K := by
  unfold decStateAt decodeFrameStart at h
  cases h1 : decodeFrames A bytes n k with
  | none => simp only [h1, Option.bind_eq_bind, Option.none_bind] at h; cases h
  | some s =>
    simp only [h1, Option.bind_eq_bind, Option.some_bind] at h
    cases hb : bytes[s.windowModeStream]? with
    | none => simp only [hb, Option.none_bind] at h; cases h
    | some m =>
      simp only [hb, Option.some_bind, Option.pure_def] at h
      exact decodeSubframes_lcg A bytes k m
        { s with windowModeStream := s.windowModeStream + 1 } _
        (decodeFrames_lcg A bytes n k s h1) ds h

/-- In exact real arithmetic a band is noise-filled exactly when fewer than a tenth of its
bins are not zero. -/
theorem noiseFilled_real (cosF sinF : ℝ → ℝ) (n nz : Nat) (hn : 0 < n) :
    noiseFilled (realArith cosF sinF) n nz = true ↔ 10 * nz < n := by
  unfold noiseFilled
  simp only [realArith, decide_eq_true_eq]
  have hn' : (0 : ℝ) < (n : ℝ) := by exact_mod_cast hn
  have e : ((1 / 10 : ℚ) : ℝ) = 1 / 10 := by norm_num
  rw [e, div_lt_iff₀ hn']
  constructor
  · intro h
    have : (10 : ℝ) * (nz : ℝ) < (n : ℝ) := by linarith
    exact_mod_cast this
  · intro h
    have : (10 : ℝ) * (nz : ℝ) < (n : ℝ) := by exact_mod_cast h
    linarith

theorem noiseFillGainOf_real (cosF sinF : ℝ → ℝ) (n nz : Nat) :
    noiseFillGainOf (realArith cosF sinF) n nz
      = ((1 / 10 - (nz : ℝ) / (n : ℝ)) / (1 / 10)) ^ 2 := by
  unfold noiseFillGainOf
  simp only [realArith]
  have e : ((1 / 10 : ℚ) : ℝ) = 1 / 10 := by norm_num
  rw [e]
  ring

theorem noiseSampleOf_real (cosF sinF : ℝ → ℝ) (s : Nat) :
    noiseSampleOf (realArith cosF sinF) s = ((wrapI8 (s / 2 ^ 16) : Int) : ℝ) / 127 := by
  unfold noiseSampleOf
  simp only [realArith]
  norm_num

end NoiseFill

/-! ## The claims -/

section Claims

variable {F D : Type}

theorem readU16_encBytes (A : Arith F D) (x : List F) (sr br : D) :
    readU16 (encBytes A x sr br) 4 = some (headerNumFrames x.length % 2 ^ 16) := by
  unfold encBytes
  rw [List.append_assoc, List.append_assoc]
  exact readU16_header _ _

theorem take8_encBytes (A : Arith F D) (x : List F) (sr br : D) :
    (encBytes A x sr br).take 8 = [0x50, 0x4C, 0x53, 0x4A, 0, 0, 1, 0] := by
  unfold encBytes
  rw [List.append_assoc, List.append_assoc, encHeader_eq]
  rfl

theorem take10_encBytes (A : Arith F D) (x : List F) (sr br : D) :
    (encBytes A x sr br).take 10
      = [0x50, 0x4C, 0x53, 0x4A, 0, 0, 1, 0, headerNumFrames x.length % 2 ^ 16 % 256,
          headerNumFrames x.length % 2 ^ 16 / 256 % 256] := by
  unfold encBytes
  rw [List.append_assoc, List.append_assoc, encHeader_eq]
  rfl

theorem length_le_of_ceilFrames_le {n : Nat} (h : ceilFrames n ≤ 65535) :
    n ≤ 2 ^ 32 - 4096 := by
  rw [ceilFrames_eq] at h
  omega

/-- C1 (counterexample).  An input of 67107841 samples has `⌈n / 1024⌉ = 65536` frames, but
the 16 bit frame count `Encode` writes to its header is 0. -/
theorem Encode_header_count_wraps :
    ceilFrames 67107841 = 65536 ∧
      ∃ v est, Encode ratArith (List.replicate 67107841 (0 : ℚ)) 44100 64 = some (v, est) ∧
        readU16 v 4 = some 0 := by
  refine ⟨by rw [ceilFrames_eq], _, _, Encode_eq_some ratArith _ 44100 64 ?_, ?_⟩
  · rw [List.length_replicate]; norm_num
  · rw [readU16_encBytes, List.length_replicate, headerNumFrames_eq (by norm_num)]
    norm_num

/-- C1 (amended).  For every input of `n ≤ 2^32 - 4096` samples (beyond that the buffer size
computation of `Encode` wraps), every sample rate and every target bit rate, the output of
`Encode` begins with the eight bytes `50 4C 53 4A 00 00 01 00` followed by the little-endian
16 bit integer `⌈n / 1024⌉ mod 65536`, which is `⌈n / 1024⌉` whenever `⌈n / 1024⌉ ≤ 65535`. -/
theorem Encode_header (A : Arith F D) (x : List F) (sampleRate targetBitRate : D)
    (h : x.length ≤ 2 ^ 32 - 4096) :
    ∃ v est, Encode A x sampleRate targetBitRate = some (v, est) ∧
      v.take 8 = [0x50, 0x4C, 0x53, 0x4A, 0, 0, 1, 0] ∧
      readU16 v 4 = some (ceilFrames x.length % 65536) ∧
      (ceilFrames x.length ≤ 65535 → readU16 v 4 = some (ceilFrames x.length)) := by
  have h16 : readU16 (encBytes A x sampleRate targetBitRate) 4
      = some (ceilFrames x.length % 65536) := by
    rw [readU16_encBytes, headerNumFrames_eq h, ceilFrames_eq]
    norm_num
  refine ⟨_, _, Encode_eq_some A x sampleRate targetBitRate h, take8_encBytes A x _ _, h16, ?_⟩
  intro hc
  rw [h16, Nat.mod_eq_of_lt (by omega)]

/-- C1 (witness).  The headers of a 1024-sample and of a 2048-sample input carry the frame
counts 1 and 2. -/
theorem Encode_header_witness :
    (∃ v est, Encode ratArith (List.replicate 1024 (0 : ℚ)) 44100 64 = some (v, est) ∧
        v.take 8 = [0x50, 0x4C, 0x53, 0x4A, 0, 0, 1, 0] ∧ readU16 v 4 = some 1) ∧
      (∃ v est, Encode ratArith (List.replicate 2048 (0 : ℚ)) 44100 64 = some (v, est) ∧
        v.take 8 = [0x50, 0x4C, 0x53, 0x4A, 0, 0, 1, 0] ∧ readU16 v 4 = some 2) := by
  constructor
  · obtain ⟨v, est, h1, h2, _, h4⟩ :=
      Encode_header ratArith (List.replicate 1024 (0 : ℚ)) 44100 64
        (by rw [List.length_replicate]; norm_num)
    rw [List.length_replicate, ceilFrames_eq] at h4
    exact ⟨v, est, h1, h2, h4 (by norm_num)⟩
  · obtain ⟨v, est, h1, h2, _, h4⟩ :=
      Encode_header ratArith (List.replicate 2048 (0 : ℚ)) 44100 64
        (by rw [List.length_replicate]; norm_num)
    rw [List.length_replicate, ceilFrames_eq] at h4
    exact ⟨v, est, h1, h2, h4 (by norm_num)⟩

/-- C2 (counterexample).  1024 zero samples at target bit rate 64 give the header
`50 4C 53 4A 00 00 01 00 01 00`, but a total size of 2044 bytes, not `10 + 2 * 877 = 1764`:
both frames are coded with short windows and carry `8 * 20` residual bytes each. -/
theorem Encode_length_silence_1024 :
    ∃ v est, Encode ratArith (List.replicate 1024 (0 : ℚ)) 44100 64 = some (v, est) ∧
      v.take 10 = [0x50, 0x4C, 0x53, 0x4A, 0, 0, 1, 0, 1, 0] ∧
      v.length = 2044 ∧ v.length ≠ 10 + (1 + 1) * (1 + 856 + 20) := by
  have hlen : (List.replicate 1024 (0 : ℚ)).length = 1024 := List.length_replicate _ _
  have hF : encFrameCount 1024 = 2 := by rw [encFrameCount_eq (by norm_num)]
  have hL : (encBytes ratArith (List.replicate 1024 (0 : ℚ)) 44100 64).length = 2044 := by
    rw [encBytes_length, hlen, hF,
      subframesUpTo_const _ 8 2 (fun f hf => by
        have hm := encWindowMode_silence ratArith_zeroLaws 1024 (64 : ℚ)
          (by simp [ratArith]; norm_num) f (by rw [hF]; exact hf)
        have hz : ratArith.litF 0 = (0 : ℚ) := rfl
        rw [hz] at hm
        rw [hm]
        rfl)]
    rfl
  refine ⟨_, _, Encode_eq_some ratArith _ 44100 64 (by rw [hlen]; norm_num), ?_, hL, ?_⟩
  · rw [take10_encBytes, hlen, headerNumFrames_eq (by norm_num)]
    rfl
  · rw [hL]
    norm_num

/-- C2 (amended).  For every input of `n ≤ 2^32 - 4096` samples and every target bit rate,
the total byte length of the output of `Encode` is `10 + F * (1 + 856) + 20 * S`, where
`F = ⌈n / 1024⌉ + 1` is the number of coded frames and `S` is the number of coded subframes:
eight for every frame whose window mode byte is `Short`, one for every other frame.  When no
frame is `Short`, as for every target bit rate that is not above 8, this is
`10 + F * (1 + 856 + 20)`; and `F - 1` is the frame count of the header whenever
`⌈n / 1024⌉ ≤ 65535`. -/
theorem Encode_length (A : Arith F D) (x : List F) (sampleRate targetBitRate : D)
    (h : x.length ≤ 2 ^ 32 - 4096) :
    ∃ v est, Encode A x sampleRate targetBitRate = some (v, est) ∧
      v.length = 10 + (ceilFrames x.length + 1) * (1 + 856)
        + 20 * subframesUpTo (fun f => v.getD (10 + f) 0) (ceilFrames x.length + 1) ∧
      (A.gtD targetBitRate (A.litD 8) = false →
        v.length = 10 + (ceilFrames x.length + 1) * (1 + 856 + 20)) ∧
      (ceilFrames x.length ≤ 65535 → readU16 v 4 = some (ceilFrames x.length)) := by
  have hF : encFrameCount x.length = ceilFrames x.length + 1 := by
    rw [encFrameCount_eq h, ceilFrames_eq]
  have hL := encBytes_length A x sampleRate targetBitRate
  rw [hF] at hL
  refine ⟨_, _, Encode_eq_some A x sampleRate targetBitRate h, ?_, ?_, ?_⟩
  · rw [subframesUpTo_congr _ (encWindowMode A x targetBitRate) _
      (fun f hf => encBytes_windowMode A x sampleRate targetBitRate f (by rw [hF]; exact hf)),
      hL]
    simp only [NumTotalBins, NumBands]
    ring
  · intro hbr
    rw [hL, subframesUpTo_const _ 1 _ (fun f _ => by
      unfold encWindowMode
      rw [selectWindowMode_low A targetBitRate hbr]
      rfl)]
    simp only [NumTotalBins, NumBands]
    ring
  · intro hc
    rw [readU16_encBytes, headerNumFrames_eq h, ← ceilFrames_eq, Nat.mod_eq_of_lt (by omega)]

/-- C2 (witness).  4096 zero samples at target bit rate 4 give `10 + 5 * 877` bytes. -/
theorem Encode_length_witness :
    ∃ v est, Encode ratArith (List.replicate 4096 (0 : ℚ)) 44100 4 = some (v, est) ∧
      v.length = 10 + 5 * 877 := by
  obtain ⟨v, est, h1, _, h3, _⟩ :=
    Encode_length ratArith (List.replicate 4096 (0 : ℚ)) 44100 4
      (by rw [List.length_replicate]; norm_num)
  rw [List.length_replicate, ceilFrames_eq] at h3
  exact ⟨v, est, h1, h3 (by simp [ratArith]; norm_num)⟩

/-- C3 (counterexample).  For an input of 67107841 samples `⌈n / 1024⌉ * 1024` is 67108864,
but `Decode` reports 0 samples for the output of `Encode`. -/
theorem Decode_count_wraps :
    ceilFrames 67107841 * 1024 = 67108864 ∧
      ∃ v est samples,
        Encode ratArith (List.replicate 67107841 (0 : ℚ)) 44100 64 = some (v, est) ∧
        Decode ratArith v = some (samples, 0) := by
  have hlen : (List.replicate 67107841 (0 : ℚ)).length = 67107841 := List.length_replicate _ _
  have hF : encFrameCount 67107841 = 65537 := by rw [encFrameCount_eq (by norm_num)]
  have hL := encBytes_length ratArith (List.replicate 67107841 (0 : ℚ)) 44100 64
  rw [hlen, hF] at hL
  have hs := subframesUpTo_le
    (fun f => (encBytes ratArith (List.replicate 67107841 (0 : ℚ)) 44100 64).getD (10 + f) 0) 1
  have key : ∀ L S S1 : Nat, L = 10 + 65537 + NumTotalBins * 65537 + NumBands * S →
      S1 ≤ 8 * 1 → 10 + (0 + 1) + NumTotalBins * (0 + 1) + NumBands * S1 ≤ L := by
    intro L S S1 h1 h2
    simp only [NumTotalBins, NumBands] at h1 ⊢
    omega
  obtain ⟨st, h0, _⟩ := decodeFrames_ptr ratArith
    (encBytes ratArith (List.replicate 67107841 (0 : ℚ)) 44100 64) 0 1 (Nat.le_refl _)
    (key _ _ _ hL hs)
  have hr : readNumFrames (encBytes ratArith (List.replicate 67107841 (0 : ℚ)) 44100 64)
      = some 0 := by
    rw [readNumFrames_encBytes, hlen, headerNumFrames_eq (by norm_num)]
    norm_num
  refine ⟨by rw [ceilFrames_eq], _, _, (st.paddedSamples.drop FrameSize).take (0 * FrameSize),
    Encode_eq_some ratArith _ 44100 64 (by rw [hlen]; norm_num), ?_⟩
  rw [Decode_eq ratArith _ 0 st hr h0, Nat.zero_mul]

/-- C3 (amended).  For every input `x` with `⌈|x| / 1024⌉ ≤ 65535` and every target bit rate,
`Decode` succeeds on the output of `Encode`, and the sample count it reports, which is the
length of the sample buffer it returns, equals `⌈|x| / 1024⌉ * 1024`, the frame count of the
header times `FrameSize`. -/
theorem Decode_count (A : Arith F D) (x : List F) (sampleRate targetBitRate : D)
    (hc : ceilFrames x.length ≤ 65535) :
    ∃ v est samples, Encode A x sampleRate targetBitRate = some (v, est) ∧
      Decode A v = some (samples, ceilFrames x.length * 1024) ∧
      samples.length = ceilFrames x.length * 1024 ∧
      readNumFrames v = some (ceilFrames x.length) ∧
      ceilFrames x.length * 1024 = ceilFrames x.length * FrameSize := by
  have h := length_le_of_ceilFrames_le hc
  have hF : ceilFrames x.length + 1 = encFrameCount x.length := by
    rw [encFrameCount_eq h, ceilFrames_eq]
  have hr : readNumFrames (encBytes A x sampleRate targetBitRate)
      = some (ceilFrames x.length) := by
    rw [readNumFrames_encBytes, headerNumFrames_eq h, ← ceilFrames_eq,
      Nat.mod_eq_of_lt (by omega)]
  obtain ⟨ds, h0, _, _, _, _, h5⟩ := sim_frames A x sampleRate targetBitRate
    (ceilFrames x.length) hF (encFrameCount x.length) (Nat.le_refl _)
  rw [← hF] at h0
  refine ⟨_, _, _, Encode_eq_some A x sampleRate targetBitRate h,
    Decode_eq A _ _ ds hr h0, ?_, hr, rfl⟩
  rw [List.length_take, List.length_drop, h5]
  simp only [FrameSize]
  omega

/-- C3 (witness).  `Decode` reports 2048 samples for the code of an input of 1500 samples. -/
theorem Decode_count_witness :
    ∃ v est samples, Encode ratArith (List.replicate 1500 (1 / 2 : ℚ)) 44100 64 = some (v, est) ∧
      Decode ratArith v = some (samples, 2048) ∧ samples.length = 2048 := by
  obtain ⟨v, est, samples, h1, h2, h3, _⟩ :=
    Decode_count ratArith (List.replicate 1500 (1 / 2 : ℚ)) 44100 64
      (by rw [List.length_replicate, ceilFrames_eq]; norm_num)
  rw [List.length_replicate, ceilFrames_eq] at h2 h3
  exact ⟨v, est, samples, h1, h2, h3⟩

/-- C4 (confirmed).  For every input with `⌈n / 1024⌉ ≤ 65535` and every target bit rate, the
output of `Encode` is the ten byte header followed by the window mode stream
(`F = numFrames + 1` bytes), the bin stream (`856 * F` bytes) and the band energy stream.
`Decode` starts to read window modes at offset 10, bins at offset `10 + F` and residuals at
offset `10 + 857 * F`; after every frame `k` its three pointers have read `k` window mode
bytes, `856 * k` bin bytes and exactly the residual bytes `Encode` had written after `k`
frames; at the end each pointer is at the end of its stream, the residual pointer at the end
of the output, and no read passes the end (`Decode` has a result).  Every pointer of the
embedding moves by one byte for each byte it reads, so every payload byte is read once, in
the order in which it was written. -/
theorem Decode_reads_Encode_layout (A : Arith F D) (x : List F) (sampleRate targetBitRate : D)
    (hc : ceilFrames x.length ≤ 65535) :
    ∃ v est wm bq be, Encode A x sampleRate targetBitRate = some (v, est) ∧
      v = encHeader x.length ++ wm ++ bq ++ be ∧
      (encHeader x.length).length = 10 ∧
      wm.length = ceilFrames x.length + 1 ∧
      bq.length = 856 * (ceilFrames x.length + 1) ∧
      readNumFrames v = some (ceilFrames x.length) ∧
      (DecState.initial A (ceilFrames x.length)).windowModeStream = 10 ∧
      (DecState.initial A (ceilFrames x.length)).quantizedBandBinStream
        = 10 + (ceilFrames x.length + 1) ∧
      (DecState.initial A (ceilFrames x.length)).inputStream
        = 10 + 857 * (ceilFrames x.length + 1) ∧
      (∀ k, k ≤ ceilFrames x.length + 1 →
        ∃ ds r, decodeFrames A v (ceilFrames x.length) k = some ds ∧
          ds.windowModeStream = 10 + k ∧
          ds.quantizedBandBinStream = 10 + (ceilFrames x.length + 1) + 856 * k ∧
          ds.inputStream = 10 + 857 * (ceilFrames x.length + 1)
            + (encState A x sampleRate targetBitRate k).bandEnergyStream.length ∧
          be = (encState A x sampleRate targetBitRate k).bandEnergyStream ++ r) ∧
      (∃ ds, decodeFrames A v (ceilFrames x.length) (ceilFrames x.length + 1) = some ds ∧
        ds.windowModeStream = 10 + (ceilFrames x.length + 1) ∧
        ds.quantizedBandBinStream = 10 + 857 * (ceilFrames x.length + 1) ∧
        ds.inputStream = v.length) ∧
      (Decode A v).isSome = true := by
  have h := length_le_of_ceilFrames_le hc
  have hF : ceilFrames x.length + 1 = encFrameCount x.length := by
    rw [encFrameCount_eq h, ceilFrames_eq]
  have hr : readNumFrames (encBytes A x sampleRate targetBitRate)
      = some (ceilFrames x.length) := by
    rw [readNumFrames_encBytes, headerNumFrames_eq h, ← ceilFrames_eq,
      Nat.mod_eq_of_lt (by omega)]
  obtain ⟨s1, s2, s3, _⟩ := encState_spec A x sampleRate targetBitRate (encFrameCount x.length)
  have hL := encBytes_length A x sampleRate targetBitRate
  rw [← s2] at hL
  obtain ⟨dsF, f0, f1, f2, f3, _, _⟩ := sim_frames A x sampleRate targetBitRate
    (ceilFrames x.length) hF (encFrameCount x.length) (Nat.le_refl _)
  refine ⟨_, _, _, _, _, Encode_eq_some A x sampleRate targetBitRate h, rfl,
    encHeader_length _, ?_, ?_, hr, rfl, rfl, ?_, ?_, ?_, ?_⟩
  · rw [s1, List.length_map, List.length_range, hF]
  · rw [List.length_map, s3, hF]; rfl
  · simp only [DecState.initial, NumTotalBins]
    omega
  · intro k hk
    obtain ⟨ds, h0, h1, h2, h3, _, _⟩ := sim_frames A x sampleRate targetBitRate
      (ceilFrames x.length) hF k (by omega)
    obtain ⟨r, hr2⟩ := encState_extends A x sampleRate targetBitRate k
      (encFrameCount x.length) (by omega)
    refine ⟨ds, r, h0, h1, by rw [h2, hF]; rfl, ?_, hr2⟩
    rw [h3, hF]
    simp only [NumTotalBins]
    omega
  · rw [hF]
    refine ⟨dsF, f0, f1, ?_, ?_⟩
    · rw [f2]; simp only [NumTotalBins]; omega
    · rw [f3, hL]
  · rw [← hF] at f0
    rw [Decode_eq A _ _ dsF hr f0]
    rfl

/-- C4 (witness).  The layout statement at an input of 1500 samples: the code has a result
that `Decode` accepts. -/
theorem Decode_reads_Encode_layout_witness :
    ∃ v est, Encode ratArith (List.replicate 1500 (1 / 2 : ℚ)) 44100 64 = some (v, est) ∧
      (∃ ds, decodeFrames ratArith v 2 3 = some ds ∧ ds.windowModeStream = 13 ∧
        ds.quantizedBandBinStream = 2581 ∧ ds.inputStream = v.length) ∧
      (Decode ratArith v).isSome = true := by
  obtain ⟨v, est, _, _, _, h1, _, _, _, _, _, _, _, _, _, h2, h3⟩ :=
    Decode_reads_Encode_layout ratArith (List.replicate 1500 (1 / 2 : ℚ)) 44100 64
      (by rw [List.length_replicate, ceilFrames_eq]; norm_num)
  rw [List.length_replicate, ceilFrames_eq] at h2
  exact ⟨v, est, h1, h2, h3⟩

/-- C5 (confirmed).  For every input with `⌈n / 1024⌉ ≤ 65535` and every target bit rate,
when `Decode` processes the output of `Encode`, after every subframe `j` of every frame `k`
(and after every complete frame) its array `quantizedBandEnergyPredictions`, which holds the
band energies it reconstructed as prediction plus residual modulo 256, equals the array of
`Encode` at the same point, which holds the quantized band energies `Encode` computed for that
subframe.  At the byte level `(p + ((q - p) mod 256)) mod 256 = q` for all bytes `p`, `q`. -/
theorem Decode_predictions_eq_Encode (A : Arith F D) (x : List F)
    (sampleRate targetBitRate : D) (hc : ceilFrames x.length ≤ 65535) :
    ∃ v est, Encode A x sampleRate targetBitRate = some (v, est) ∧
      (∀ k j, k < ceilFrames x.length + 1 →
        j ≤ numSubframesOf (encWindowMode A x targetBitRate k) →
        ∃ ds, decStateAt A v (ceilFrames x.length) k j = some ds ∧
          ds.quantizedBandEnergyPredictions
            = (encStateAt A x sampleRate targetBitRate k j).quantizedBandEnergyPredictions) ∧
      (∀ k, k ≤ ceilFrames x.length + 1 →
        ∃ ds, decodeFrames A v (ceilFrames x.length) k = some ds ∧
          ds.quantizedBandEnergyPredictions
            = (encState A x sampleRate targetBitRate k).quantizedBandEnergyPredictions) ∧
      ∀ p q : Nat, p < 256 → q < 256 →
        (p + subU8 q p) % 256 = q ∧ ((p : Int) + ((q : Int) - (p : Int)) % 256) % 256 = q := by
  have h := length_le_of_ceilFrames_le hc
  have hF : ceilFrames x.length + 1 = encFrameCount x.length := by
    rw [encFrameCount_eq h, ceilFrames_eq]
  refine ⟨_, _, Encode_eq_some A x sampleRate targetBitRate h, ?_, ?_, ?_⟩
  · intro k j hk hj
    obtain ⟨ds, h0, _, _, _, h4⟩ := sim_stateAt A x sampleRate targetBitRate
      (ceilFrames x.length) hF k (by omega) j hj
    exact ⟨ds, h0, h4⟩
  · intro k hk
    obtain ⟨ds, h0, _, _, _, h4, _⟩ := sim_frames A x sampleRate targetBitRate
      (ceilFrames x.length) hF k (by omega)
    exact ⟨ds, h0, h4⟩
  · intro p q hp hq
    exact ⟨u8_roundtrip p q hq, by omega⟩

/-- C5 (witness).  After the first frame of the code of 1500 samples, `Decode` has the
predictions of `Encode`. -/
theorem Decode_predictions_eq_Encode_witness :
    ∃ v est, Encode ratArith (List.replicate 1500 (1 / 2 : ℚ)) 44100 64 = some (v, est) ∧
      ∃ ds, decodeFrames ratArith v 2 1 = some ds ∧
        ds.quantizedBandEnergyPredictions
          = (encState ratArith (List.replicate 1500 (1 / 2 : ℚ)) 44100 64
              1).quantizedBandEnergyPredictions := by
  obtain ⟨v, est, h1, _, h3, _⟩ :=
    Decode_predictions_eq_Encode ratArith (List.replicate 1500 (1 / 2 : ℚ)) 44100 64
      (by rw [List.length_replicate, ceilFrames_eq]; norm_num)
  rw [List.length_replicate, ceilFrames_eq] at h3
  exact ⟨v, est, h1, h3 1 (by norm_num)⟩

/-- C6 (confirmed).  For both subframe configurations (`numSubframes = 1` and
`numSubframes = 8`), `numSubframes` times the sum over the 20 bands of
`BandToNumBins[b] / numSubframes` is `856 = NumTotalBins`, and every `BandToNumBins[b]` is
divisible by 8.  Therefore every frame of `Encode` appends exactly 856 bin quanta, every
frame of `Decode` reads exactly 856 bin bytes whatever the window mode byte is, and the bin
quanta of frame `f` start at offset `856 * f` of the bin stream, on both sides. -/
theorem bins_per_frame (A : Arith F D) :
    (1 * ((List.range NumBands).map fun b => BandToNumBins.getD b 0 / 1).sum = NumTotalBins ∧
      8 * ((List.range NumBands).map fun b => BandToNumBins.getD b 0 / 8).sum = NumTotalBins ∧
      NumTotalBins = 856 ∧ ∀ b, b ∈ BandToNumBins → 8 ∣ b) ∧
    (∀ windowMode : Nat,
      (numSubframesOf windowMode = 1 ∨ numSubframesOf windowMode = 8) ∧
      numSubframesOf windowMode * binsUpTo (numSubframesOf windowMode) NumBands = 856) ∧
    (∀ (ps : List F) (br tbpf : D) (tmap : List Bool) (n : Nat) (st : EncState D) (f : Nat),
      (encodeFrame A ps br tbpf tmap n st f).binQStream.length
        = st.binQStream.length + 856) ∧
    (∀ (x : List F) (sr br : D) (f : Nat),
      (encState A x sr br f).binQStream.length = 856 * f) ∧
    (∀ (bytes : List Nat) (st : DecState F) (k : Nat),
      st.windowModeStream < bytes.length →
      st.quantizedBandBinStream + 856 ≤ bytes.length →
      st.inputStream + 20 * numSubframesOf (bytes.getD st.windowModeStream 0) ≤ bytes.length →
      st.quantizedBandEnergyPredictions.length = 20 →
      ∃ st', decodeFrame A bytes st k = some st' ∧
        st'.quantizedBandBinStream = st.quantizedBandBinStream + 856) ∧
    (∀ (bytes : List Nat) (n f : Nat), f ≤ n + 1 →
      10 + (n + 1) + 856 * (n + 1) + 160 * (n + 1) ≤ bytes.length →
      ∃ st', decodeFrames A bytes n f = some st' ∧
        st'.quantizedBandBinStream = (10 + (n + 1)) + 856 * f) := by
  refine ⟨⟨by decide, by decide, rfl, by decide⟩, ?_, ?_, ?_, ?_, ?_⟩
  · intro m
    exact ⟨numSubframesOf_cases m, numSubframesOf_mul_bins m⟩
  · intro ps br tbpf tmap n st f
    exact (encodeFrame_spec A ps br tbpf tmap n st f).2.2.1
  · intro x sr br f
    exact (encState_spec A x sr br f).2.2.1
  · intro bytes st k h1 h2 h3 h4
    obtain ⟨st', g0, _, g2, _⟩ := decodeFrame_ptr A bytes st k h1 h2 h3 h4
    exact ⟨st', g0, g2⟩
  · intro bytes n f hf hlen
    have hs := subframesUpTo_le (fun f => bytes.getD (10 + f) 0) f
    obtain ⟨st', g0, _, g2, _⟩ := decodeFrames_ptr A bytes n f hf
      (by simp only [NumTotalBins, NumBands]; omega)
    exact ⟨st', g0, g2⟩

/-- C6 (witness).  On 1027 bytes that are all 7, the first frame of `Decode` moves the bin
pointer from 11 to 867. -/
theorem bins_per_frame_witness :
    ∃ st', decodeFrame ratArith (List.replicate 1027 7) (DecState.initial ratArith 0) 0
        = some st' ∧
      st'.quantizedBandBinStream = 11 + 856 := by
  have hn : numSubframesOf ((List.replicate 1027 7).getD 10 0) = 1 := by
    rw [List.getD_eq_getElem?_getD, List.getElem?_replicate]
    rfl
  exact (bins_per_frame ratArith).2.2.2.2.1 (List.replicate 1027 7)
    (DecState.initial ratArith 0) 0
    (by rw [List.length_replicate]; decide)
    (by rw [List.length_replicate]; decide)
    (by
      have e : (DecState.initial ratArith 0).windowModeStream = 10 := rfl
      rw [e, hn, List.length_replicate]
      decide)
    rfl

/-- C7 (confirmed).  In the window mode stream of every output of `Encode` (the bytes at
offsets `10, ..., 10 + F - 1` for the `F = ⌈n / 1024⌉ + 1` coded frames), every frame `f`
whose mode is `Short` has mode `Short` or `Start` at frame `f - 1` whenever `f > 0`, and mode
`Short` or `Stop` at frame `f + 1` whenever `f` is not the last coded frame.  This holds for
the window plan computed from every transient map `tmap` and every frame count. -/
theorem Encode_short_flanked (A : Arith F D) (x : List F) (sampleRate targetBitRate : D)
    (h : x.length ≤ 2 ^ 32 - 4096) :
    (∃ v est, Encode A x sampleRate targetBitRate = some (v, est) ∧
      ∀ f, f < ceilFrames x.length + 1 → v.getD (10 + f) 0 = WindowMode.Short →
        (0 < f → v.getD (10 + (f - 1)) 0 = WindowMode.Short
          ∨ v.getD (10 + (f - 1)) 0 = WindowMode.Start) ∧
        (f + 1 < ceilFrames x.length + 1 → v.getD (10 + (f + 1)) 0 = WindowMode.Short
          ∨ v.getD (10 + (f + 1)) 0 = WindowMode.Stop)) ∧
      ∀ (tmap : List Bool) (numFrames f : Nat), f < numFrames →
        selectWindowMode A targetBitRate tmap numFrames f = WindowMode.Short →
        (0 < f → selectWindowMode A targetBitRate tmap numFrames (f - 1) = WindowMode.Short
          ∨ selectWindowMode A targetBitRate tmap numFrames (f - 1) = WindowMode.Start) ∧
        (f < numFrames - 1 →
          selectWindowMode A targetBitRate tmap numFrames (f + 1) = WindowMode.Short
          ∨ selectWindowMode A targetBitRate tmap numFrames (f + 1) = WindowMode.Stop) := by
  have plan : ∀ (tmap : List Bool) (numFrames f : Nat), f < numFrames →
      selectWindowMode A targetBitRate tmap numFrames f = WindowMode.Short →
      (0 < f → selectWindowMode A targetBitRate tmap numFrames (f - 1) = WindowMode.Short
        ∨ selectWindowMode A targetBitRate tmap numFrames (f - 1) = WindowMode.Start) ∧
      (f < numFrames - 1 →
        selectWindowMode A targetBitRate tmap numFrames (f + 1) = WindowMode.Short
        ∨ selectWindowMode A targetBitRate tmap numFrames (f + 1) = WindowMode.Stop) := by
    intro tmap numFrames f hf hs
    by_cases hbr : A.gtD targetBitRate (A.litD 8) = true
    · rw [selectWindowMode_eq A targetBitRate hbr] at hs
      constructor
      · intro h0
        rw [selectWindowMode_eq A targetBitRate hbr]
        have e1 : f - 1 + 1 = f := by omega
        have e2 : decide (f - 1 < numFrames - 1) = true := by
          rw [decide_eq_true_eq]; omega
        have e3 : decide (f > 0) = true := by rw [decide_eq_true_eq]; exact h0
        rw [e1, e2]
        rw [e3] at hs
        revert hs
        generalize tmap.getD f false = a
        generalize tmap.getD (f - 1) false = b
        generalize (decide (f < numFrames - 1) && tmap.getD (f + 1) false) = c
        generalize (decide (f - 1 > 0) && tmap.getD (f - 1 - 1) false) = d
        revert a b c d
        decide
      · intro h1
        rw [selectWindowMode_eq A targetBitRate hbr]
        have e1 : f + 1 - 1 = f := by omega
        have e2 : decide (f < numFrames - 1) = true := by
          rw [decide_eq_true_eq]; exact h1
        have e3 : decide (f + 1 > 0) = true := by rw [decide_eq_true_eq]; omega
        rw [e1, e3]
        rw [e2] at hs
        revert hs
        generalize tmap.getD f false = a
        generalize tmap.getD (f + 1) false = b
        generalize (decide (f > 0) && tmap.getD (f - 1) false) = c
        generalize (decide (f + 1 < numFrames - 1) && tmap.getD (f + 1 + 1) false) = d
        revert a b c d
        decide
    · rw [selectWindowMode_low A targetBitRate (by simpa using hbr)] at hs
      exact absurd hs (by decide)
  have hF : encFrameCount x.length = ceilFrames x.length + 1 := by
    rw [encFrameCount_eq h, ceilFrames_eq]
  refine ⟨⟨_, _, Encode_eq_some A x sampleRate targetBitRate h, ?_⟩, plan⟩
  intro f hf hs
  rw [encBytes_windowMode A x sampleRate targetBitRate f (by rw [hF]; exact hf)] at hs
  have hp := plan (encTransientMap A x) (encFrameCount x.length) f (by rw [hF]; exact hf) hs
  constructor
  · intro h0
    rw [encBytes_windowMode A x sampleRate targetBitRate (f - 1) (by rw [hF]; omega)]
    exact hp.1 h0
  · intro h1
    rw [encBytes_windowMode A x sampleRate targetBitRate (f + 1) (by rw [hF]; exact h1)]
    exact hp.2 (by rw [hF]; omega)

/-- C7 (witness).  The statement at a silent input of 1024 samples and target bit rate 64. -/
theorem Encode_short_flanked_witness :
    ∃ v est, Encode ratArith (List.replicate 1024 (0 : ℚ)) 44100 64 = some (v, est) ∧
      ∀ f, f < 2 → v.getD (10 + f) 0 = WindowMode.Short →
        (0 < f → v.getD (10 + (f - 1)) 0 = WindowMode.Short
          ∨ v.getD (10 + (f - 1)) 0 = WindowMode.Start) ∧
        (f + 1 < 2 → v.getD (10 + (f + 1)) 0 = WindowMode.Short
          ∨ v.getD (10 + (f + 1)) 0 = WindowMode.Stop) := by
  have h := (Encode_short_flanked ratArith (List.replicate 1024 (0 : ℚ)) 44100 64
    (by rw [List.length_replicate]; norm_num)).1
  rw [List.length_replicate, ceilFrames_eq] at h
  exact h

/-- C8 (confirmed).  When the target bit rate is not above 8 (the comparison
`targetBitRate > 8.0` of `Encode` is false, which is what `targetBitRate <= 8.0` means in an
ordered arithmetic), every byte of the window mode stream written by `Encode` is 0 (`Long`),
whatever the transient map is. -/
theorem Encode_low_rate_long (A : Arith F D) (x : List F) (sampleRate targetBitRate : D)
    (h : x.length ≤ 2 ^ 32 - 4096) (hbr : A.gtD targetBitRate (A.litD 8) = false) :
    (∃ v est, Encode A x sampleRate targetBitRate = some (v, est) ∧
      (v.drop 10).take (ceilFrames x.length + 1) = List.replicate (ceilFrames x.length + 1) 0 ∧
      ∀ f, f < ceilFrames x.length + 1 → v.getD (10 + f) 0 = 0) ∧
      ∀ (tmap : List Bool) (numFrames f : Nat),
        selectWindowMode A targetBitRate tmap numFrames f = WindowMode.Long := by
  have hF : encFrameCount x.length = ceilFrames x.length + 1 := by
    rw [encFrameCount_eq h, ceilFrames_eq]
  refine ⟨⟨_, _, Encode_eq_some A x sampleRate targetBitRate h, ?_, ?_⟩,
    selectWindowMode_low A targetBitRate hbr⟩
  · have h1 := (encState_spec A x sampleRate targetBitRate (encFrameCount x.length)).1
    have h2 : (encState A x sampleRate targetBitRate (encFrameCount x.length)).windowModeStream
        = List.replicate (ceilFrames x.length + 1) 0 := by
      rw [h1, hF]
      apply List.ext_getElem (by simp)
      intro i hi1 hi2
      simp only [List.getElem_map, List.getElem_range, List.getElem_replicate]
      unfold encWindowMode
      rw [selectWindowMode_low A targetBitRate hbr]
      rfl
    unfold encBytes
    rw [List.append_assoc, List.append_assoc, List.drop_append_of_le_length
      (by rw [encHeader_length]), ← encHeader_length x.length, List.drop_length, List.nil_append,
      h2, List.take_append_of_le_length (by simp)]
    simp
  · intro f hf
    rw [encBytes_windowMode A x sampleRate targetBitRate f (by rw [hF]; exact hf)]
    unfold encWindowMode
    rw [selectWindowMode_low A targetBitRate hbr]
    rfl

/-- C8 (witness).  4096 samples at target bit rate 4 give five window mode bytes, all 0. -/
theorem Encode_low_rate_long_witness :
    ∃ v est, Encode ratArith (List.replicate 4096 (1 / 2 : ℚ)) 44100 4 = some (v, est) ∧
      (v.drop 10).take 5 = [0, 0, 0, 0, 0] := by
  obtain ⟨v, est, h1, h2, _⟩ :=
    (Encode_low_rate_long ratArith (List.replicate 4096 (1 / 2 : ℚ)) 44100 4
      (by rw [List.length_replicate]; norm_num) (by simp [ratArith]; norm_num)).1
  rw [List.length_replicate, ceilFrames_eq] at h2
  exact ⟨v, est, h1, h2⟩

/-- C9 (counterexample).  For `M = 65536 * 1024` zero samples, in exact real arithmetic with
the exact cosine and sine, decoding the code yields no sample at all, not `M` samples: the
16 bit frame count of the header is 0. -/
theorem silence_roundtrip_wraps :
    (67108864 : Nat) = 1024 * 65536 ∧
      ∃ v est,
        Encode (realArith Real.cos Real.sin) (List.replicate 67108864 (0 : ℝ)) 44100 64
          = some (v, est) ∧
        Decode (realArith Real.cos Real.sin) v = some ([], 0) := by
  have hlen : (List.replicate 67108864 (0 : ℝ)).length = 67108864 := List.length_replicate _ _
  have hF : encFrameCount 67108864 = 65537 := by rw [encFrameCount_eq (by norm_num)]
  have hL := encBytes_length (realArith Real.cos Real.sin)
    (List.replicate 67108864 (0 : ℝ)) 44100 64
  rw [hlen, hF] at hL
  have hs := subframesUpTo_le
    (fun f => (encBytes (realArith Real.cos Real.sin)
      (List.replicate 67108864 (0 : ℝ)) 44100 64).getD (10 + f) 0) 1
  have key : ∀ L S S1 : Nat, L = 10 + 65537 + NumTotalBins * 65537 + NumBands * S →
      S1 ≤ 8 * 1 → 10 + (0 + 1) + NumTotalBins * (0 + 1) + NumBands * S1 ≤ L := by
    intro L S S1 h1 h2
    simp only [NumTotalBins, NumBands] at h1 ⊢
    omega
  obtain ⟨st, h0, _⟩ := decodeFrames_ptr (realArith Real.cos Real.sin)
    (encBytes (realArith Real.cos Real.sin) (List.replicate 67108864 (0 : ℝ)) 44100 64) 0 1
    (Nat.le_refl _) (key _ _ _ hL hs)
  have hr : readNumFrames (encBytes (realArith Real.cos Real.sin)
      (List.replicate 67108864 (0 : ℝ)) 44100 64) = some 0 := by
    rw [readNumFrames_encBytes, hlen, headerNumFrames_eq (by norm_num)]
    norm_num
  refine ⟨by norm_num, _, _, Encode_eq_some _ _ 44100 64 (by rw [hlen]; norm_num), ?_⟩
  rw [Decode_eq _ _ 0 st hr h0, Nat.zero_mul, List.take_zero]

/-- C9 (amended).  For every `M = 1024 * m` with `m ≤ 65535` and every sample rate and target
bit rate, in exact real arithmetic with shims that satisfy `|cos| ≤ 1` and `|sin| ≤ 1` (and
the exact `exp2` and `sqrt`), encoding `M` zero samples and decoding the result yields `M`
samples, each of absolute value below `10^-4`. -/
theorem silence_roundtrip (cosF sinF : ℝ → ℝ) (hcos : ∀ x, |cosF x| ≤ 1)
    (hsin : ∀ x, |sinF x| ≤ 1) (m : Nat) (hm : m ≤ 65535) (sampleRate targetBitRate : ℝ) :
    ∃ v est samples,
      Encode (realArith cosF sinF) (List.replicate (1024 * m) (0 : ℝ)) sampleRate targetBitRate
        = some (v, est) ∧
      Decode (realArith cosF sinF) v = some (samples, 1024 * m) ∧
      samples.length = 1024 * m ∧ ∀ s, s ∈ samples → |s| < 1 / 10 ^ 4 := by
  have hlen : (List.replicate (1024 * m) (0 : ℝ)).length = 1024 * m :=
    List.length_replicate _ _
  have hn : 1024 * m ≤ 2 ^ 32 - 4096 := by omega
  have hH : headerNumFrames (1024 * m) = m := by
    rw [headerNumFrames_eq hn]
    omega
  have hF : encFrameCount (1024 * m) = m + 1 := by
    rw [encFrameCount_eq hn]
    omega
  obtain ⟨mode, hmode, hcode⟩ := encBytes_silentCode cosF sinF (1024 * m) sampleRate
    targetBitRate
  rw [hF] at hcode
  have hr : readNumFrames (encBytes (realArith cosF sinF) (List.replicate (1024 * m) (0 : ℝ))
      sampleRate targetBitRate) = some m := by
    rw [readNumFrames_encBytes, hlen, hH, Nat.mod_eq_of_lt (by omega)]
  obtain ⟨samples, h1, h2, h3⟩ := silence_decode cosF sinF hcos hsin _ m mode hmode hcode hr
  have e : m * FrameSize = 1024 * m := by
    unfold FrameSize
    omega
  rw [e] at h1 h2
  exact ⟨_, _, samples, Encode_eq_some _ _ sampleRate targetBitRate (by rw [hlen]; exact hn),
    h1, h2, h3⟩

/-- C9 (witness).  With the exact cosine and sine, 1024 zero samples at target bit rate 64
decode to 1024 samples of absolute value below `10^-4`. -/
theorem silence_roundtrip_witness :
    ∃ v est samples,
      Encode (realArith Real.cos Real.sin) (List.replicate (1024 * 1) (0 : ℝ)) 44100 64
        = some (v, est) ∧
      Decode (realArith Real.cos Real.sin) v = some (samples, 1024 * 1) ∧
      samples.length = 1024 * 1 ∧ ∀ s, s ∈ samples → |s| < 1 / 10 ^ 4 :=
  silence_roundtrip Real.cos Real.sin Real.abs_cos_le_one Real.abs_sin_le_one 1
    (by norm_num) 44100 64

/-- C10 (the code at the failing input).  On the eight bytes `"PLSJ" 01 00 01 00`, whose
first four bytes are exactly the tag, `CheckSample` returns false: `strcmp` also compares the
fifth byte with the terminating NUL of the tag.  On `"PLSJ" 00 00 01 00` it returns true. -/
theorem CheckSample_major_one :
    CheckSample [0x50, 0x4C, 0x53, 0x4A, 1, 0, 1, 0] = some false ∧
      CheckSample [0x50, 0x4C, 0x53, 0x4A, 0, 0, 1, 0] = some true := by
  constructor <;> decide

theorem readU16_of_le (b : List Nat) (i : Nat) (h : 2 * i + 2 ≤ b.length) :
    readU16 b i = some (b.getD (2 * i) 0 + 256 * b.getD (2 * i + 1) 0) := by
  unfold readU16
  rw [getElem?_eq_some_getD b (2 * i) 0 (by omega),
    getElem?_eq_some_getD b (2 * i + 1) 0 (by omega)]
  rfl

theorem CheckSample_encBytes (A : Arith F D) (x : List F) (sr br : D) :
    CheckSample (encBytes A x sr br) = some true := by
  unfold encBytes
  rw [List.append_assoc, List.append_assoc, encHeader_eq]
  rfl

theorem readU16_two_encBytes (A : Arith F D) (x : List F) (sr br : D) :
    readU16 (encBytes A x sr br) 2 = some 0 ∧ readU16 (encBytes A x sr br) 3 = some 1 := by
  unfold encBytes
  rw [List.append_assoc, List.append_assoc, encHeader_eq]
  exact ⟨rfl, rfl⟩

/-- C11 (confirmed).  For every byte buffer of at least 8 bytes, `CheckSampleVersion` returns
true exactly when the little-endian 16 bit integer at byte offset 4 equals
`CodecVersionMajor = 0`; its result depends on the bytes 4 and 5 only, so neither the tag
bytes nor the minor version change it; on `"PLSJ" 01 00 01 00` it returns false. -/
theorem CheckSampleVersion_iff (b : List Nat) (h : 8 ≤ b.length) :
    (∃ r, CheckSampleVersion b = some r ∧
      (r = true ↔ b.getD 4 0 + 256 * b.getD 5 0 = CodecVersionMajor)) ∧
    (∀ c : List Nat, 8 ≤ c.length → c.getD 4 0 = b.getD 4 0 → c.getD 5 0 = b.getD 5 0 →
      CheckSampleVersion c = CheckSampleVersion b) ∧
    CodecVersionMajor = 0 ∧
    CheckSampleVersion [0x50, 0x4C, 0x53, 0x4A, 1, 0, 1, 0] = some false := by
  have e : ∀ c : List Nat, 8 ≤ c.length → CheckSampleVersion c
      = some (c.getD 4 0 + 256 * c.getD 5 0 == CodecVersionMajor) := by
    intro c hc
    unfold CheckSampleVersion
    rw [readU16_of_le c 2 (by omega)]
    rfl
  refine ⟨⟨_, e b h, by simp⟩, ?_, rfl, by decide⟩
  intro c hc h4 h5
  rw [e c hc, e b h, h4, h5]

/-- C11 (witness).  A buffer with a foreign tag and major version 0 is accepted, whatever its
minor version is. -/
theorem CheckSampleVersion_iff_witness :
    CheckSampleVersion [0x4F, 0x47, 0x47, 0x53, 0, 0, 7, 9] = some true := by
  obtain ⟨⟨r, h1, h2⟩, _⟩ :=
    CheckSampleVersion_iff [0x4F, 0x47, 0x47, 0x53, 0, 0, 7, 9] (by decide)
  rw [h1, h2.mpr (by decide)]

/-- C12 (confirmed).  `Encode` returns a byte vector for every input whose size does not make
its buffer sizes wrap, and every byte vector `Encode` returns, for every input, sample rate
and target bit rate, is accepted by `CheckSample` and by `CheckSampleVersion`. -/
theorem Encode_accepted (A : Arith F D) (x : List F) (sampleRate targetBitRate : D) :
    (x.length ≤ 2 ^ 32 - 4096 → ∃ v est, Encode A x sampleRate targetBitRate = some (v, est)) ∧
    ∀ v est, Encode A x sampleRate targetBitRate = some (v, est) →
      CheckSample v = some true ∧ CheckSampleVersion v = some true := by
  constructor
  · intro h
    exact ⟨_, _, Encode_eq_some A x sampleRate targetBitRate h⟩
  · intro v est hv
    by_cases h : x.length ≤ 2 ^ 32 - 4096
    · rw [Encode_eq_some A x sampleRate targetBitRate h] at hv
      simp only [Option.some.injEq, Prod.mk.injEq] at hv
      rw [← hv.1]
      refine ⟨CheckSample_encBytes A x _ _, ?_⟩
      unfold CheckSampleVersion
      rw [(readU16_two_encBytes A x _ _).1]
      rfl
    · rw [Encode_eq_none A x sampleRate targetBitRate (by omega)] at hv
      cases hv

/-- C12 (witness).  The code of a 1500-sample input is accepted by both checks. -/
theorem Encode_accepted_witness :
    ∃ v est, Encode ratArith (List.replicate 1500 (1 / 2 : ℚ)) 44100 64 = some (v, est) ∧
      CheckSample v = some true ∧ CheckSampleVersion v = some true := by
  obtain ⟨h1, h2⟩ := Encode_accepted ratArith (List.replicate 1500 (1 / 2 : ℚ)) 44100 64
  obtain ⟨v, est, hv⟩ := h1 (by rw [List.length_replicate]; norm_num)
  exact ⟨v, est, hv, h2 v est hv⟩

/-- C13 (confirmed).  `CodecVersionString()` is `"pulsejet v0.1"`, `LibraryVersionString()` is
`"pulsejet v0.1.0"`; for every buffer of at least 8 bytes `SampleVersionString` is
`"pulsejet v"`, the decimal digits of the 16 bit integer at offset 4, a dot and the decimal
digits of the 16 bit integer at offset 6; and on every byte vector `Encode` returns it is
`CodecVersionString()`. -/
theorem SampleVersionString_eq (A : Arith F D) (x : List F) (sampleRate targetBitRate : D) :
    CodecVersionString = "pulsejet v0.1" ∧ LibraryVersionString = "pulsejet v0.1.0" ∧
    (∀ b : List Nat, 8 ≤ b.length →
      SampleVersionString b
        = some ("pulsejet v" ++ Nat.repr (b.getD 4 0 + 256 * b.getD 5 0) ++ "."
            ++ Nat.repr (b.getD 6 0 + 256 * b.getD 7 0))) ∧
    ∀ v est, Encode A x sampleRate targetBitRate = some (v, est) →
      SampleVersionString v = some CodecVersionString := by
  refine ⟨by decide, by decide, ?_, ?_⟩
  · intro b hb
    unfold SampleVersionString
    rw [readU16_of_le b 2 (by omega), readU16_of_le b 3 (by omega)]
    rfl
  · intro v est hv
    by_cases h : x.length ≤ 2 ^ 32 - 4096
    · rw [Encode_eq_some A x sampleRate targetBitRate h] at hv
      simp only [Option.some.injEq, Prod.mk.injEq] at hv
      rw [← hv.1]
      unfold SampleVersionString
      rw [(readU16_two_encBytes A x _ _).1, (readU16_two_encBytes A x _ _).2]
      rfl
    · rw [Encode_eq_none A x sampleRate targetBitRate (by omega)] at hv
      cases hv

/-- C13 (witness).  The version string of the code of a 1500-sample input is
`"pulsejet v0.1"`, and the version string of a buffer with the version fields 1 and 258 is
`"pulsejet v1.258"`. -/
theorem SampleVersionString_eq_witness :
    (∃ v est, Encode ratArith (List.replicate 1500 (1 / 2 : ℚ)) 44100 64 = some (v, est) ∧
      SampleVersionString v = some "pulsejet v0.1") ∧
    SampleVersionString [0x50, 0x4C, 0x53, 0x4A, 1, 0, 2, 1] = some "pulsejet v1.258" := by
  obtain ⟨h1, _, h3, h4⟩ :=
    SampleVersionString_eq ratArith (List.replicate 1500 (1 / 2 : ℚ)) 44100 64
  obtain ⟨v, est, hv⟩ : ∃ v est,
      Encode ratArith (List.replicate 1500 (1 / 2 : ℚ)) 44100 64 = some (v, est) :=
    ⟨_, _, Encode_eq_some ratArith _ 44100 64 (by rw [List.length_replicate]; norm_num)⟩
  refine ⟨⟨v, est, hv, ?_⟩, ?_⟩
  · rw [h4 v est hv, h1]
  · rw [h3 _ (by decide)]
    decide

/-- C14 (confirmed).  For every subframe `j` of every frame `k` of a run of `Encode`: when
the comparison of `double` values is a strict weak order on the distances
`abs(subframeBitsEstimate - (targetBitsPerSubframe + slackBits))` of the 500 candidates (as
it is for numbers, and for a target that is not a number), the subframe appends the streams
and accounts the bits estimate of the candidate `c` of one scaling factor `sf` in `[1, 500]`;
no candidate is strictly closer to the target than this one, and every candidate of a smaller
scaling factor is strictly farther. -/
theorem Encode_keeps_first_closest (A : Arith F D) (x : List F) (sampleRate targetBitRate : D)
    (k j : Nat)
    (hd : StrictWeakOn A.ltD
      (searchDistance A
        (encWindowBins A (encPadded A x) k (encWindowMode A x targetBitRate k)
          (subframeConfig (encWindowMode A x targetBitRate k)).2.1
          (subframeConfig (encWindowMode A x targetBitRate k)).2.2 j)
        (encStateAt A x sampleRate targetBitRate k j).quantizedBandEnergyPredictions
        (numSubframesOf (encWindowMode A x targetBitRate k))
        (A.divD (encTargetBitsPerFrame A sampleRate targetBitRate)
          (A.natD (numSubframesOf (encWindowMode A x targetBitRate k))))
        (encStateAt A x sampleRate targetBitRate k j).slackBits)) :
    ∃ sf c, 1 ≤ sf ∧ sf ≤ 500 ∧
      c = encodeCandidate A
        (encWindowBins A (encPadded A x) k (encWindowMode A x targetBitRate k)
          (subframeConfig (encWindowMode A x targetBitRate k)).2.1
          (subframeConfig (encWindowMode A x targetBitRate k)).2.2 j)
        (encStateAt A x sampleRate targetBitRate k j).quantizedBandEnergyPredictions
        (numSubframesOf (encWindowMode A x targetBitRate k)) sf maxScalingFactor ∧
      encStateAt A x sampleRate targetBitRate k (j + 1)
        = { encStateAt A x sampleRate targetBitRate k j with
            quantizedBandEnergyPredictions := c.quantizedBandEnergies
            bandEnergyStream :=
              (encStateAt A x sampleRate targetBitRate k j).bandEnergyStream
                ++ c.bandEnergyStream
            binQStream :=
              (encStateAt A x sampleRate targetBitRate k j).binQStream ++ c.binQStream
            slackBits :=
              A.addD (encStateAt A x sampleRate targetBitRate k j).slackBits
                (A.subD
                  (A.divD (encTargetBitsPerFrame A sampleRate targetBitRate)
                    (A.natD (numSubframesOf (encWindowMode A x targetBitRate k))))
                  (subframeBitsEstimateOf A c))
            outTotalBitsEstimate :=
              A.addD (encStateAt A x sampleRate targetBitRate k j).outTotalBitsEstimate
                (subframeBitsEstimateOf A c) } ∧
      (∀ t, 1 ≤ t → t ≤ 500 →
        A.ltD
          (searchDistance A
            (encWindowBins A (encPadded A x) k (encWindowMode A x targetBitRate k)
              (subframeConfig (encWindowMode A x targetBitRate k)).2.1
              (subframeConfig (encWindowMode A x targetBitRate k)).2.2 j)
            (encStateAt A x sampleRate targetBitRate k j).quantizedBandEnergyPredictions
            (numSubframesOf (encWindowMode A x targetBitRate k))
            (A.divD (encTargetBitsPerFrame A sampleRate targetBitRate)
              (A.natD (numSubframesOf (encWindowMode A x targetBitRate k))))
            (encStateAt A x sampleRate targetBitRate k j).slackBits t)
          (A.absD
            (A.subD (subframeBitsEstimateOf A c)
              (A.addD
                (A.divD (encTargetBitsPerFrame A sampleRate targetBitRate)
                  (A.natD (numSubframesOf (encWindowMode A x targetBitRate k))))
                (encStateAt A x sampleRate targetBitRate k j).slackBits))) = false) ∧
      ∀ t, 1 ≤ t → t < sf →
        A.ltD
          (A.absD
            (A.subD (subframeBitsEstimateOf A c)
              (A.addD
                (A.divD (encTargetBitsPerFrame A sampleRate targetBitRate)
                  (A.natD (numSubframesOf (encWindowMode A x targetBitRate k))))
                (encStateAt A x sampleRate targetBitRate k j).slackBits)))
          (searchDistance A
            (encWindowBins A (encPadded A x) k (encWindowMode A x targetBitRate k)
              (subframeConfig (encWindowMode A x targetBitRate k)).2.1
              (subframeConfig (encWindowMode A x targetBitRate k)).2.2 j)
            (encStateAt A x sampleRate targetBitRate k j).quantizedBandEnergyPredictions
            (numSubframesOf (encWindowMode A x targetBitRate k))
            (A.divD (encTargetBitsPerFrame A sampleRate targetBitRate)
              (A.natD (numSubframesOf (encWindowMode A x targetBitRate k))))
            (encStateAt A x sampleRate targetBitRate k j).slackBits t) = true := by
  obtain ⟨sf, h1, h2, h3, h4, h5⟩ := encodeSubframe_argmin A (encPadded A x)
    (A.divD (encTargetBitsPerFrame A sampleRate targetBitRate)
      (A.natD (numSubframesOf (encWindowMode A x targetBitRate k)))) k
    (encWindowMode A x targetBitRate k) (numSubframesOf (encWindowMode A x targetBitRate k))
    (subframeConfig (encWindowMode A x targetBitRate k)).2.1
    (subframeConfig (encWindowMode A x targetBitRate k)).2.2
    (encStateAt A x sampleRate targetBitRate k j) j hd
  refine ⟨sf, _, h1, h2, rfl, ?_, h4, h5⟩
  rw [encStateAt_succ]
  exact h3

/-- C14 (witness).  The first subframe of the code of a 1500-sample input, in rational
arithmetic: the state after the subframe holds the streams of a candidate that no candidate
undercuts. -/
theorem Encode_keeps_first_closest_witness :
    ∃ sf c, 1 ≤ sf ∧ sf ≤ 500 ∧
      c = encodeCandidate ratArith
        (encWindowBins ratArith (encPadded ratArith (List.replicate 1500 (1 / 2 : ℚ))) 0
          (encWindowMode ratArith (List.replicate 1500 (1 / 2 : ℚ)) 64 0)
          (subframeConfig (encWindowMode ratArith (List.replicate 1500 (1 / 2 : ℚ)) 64 0)).2.1
          (subframeConfig (encWindowMode ratArith (List.replicate 1500 (1 / 2 : ℚ)) 64 0)).2.2 0)
        (encStateAt ratArith (List.replicate 1500 (1 / 2 : ℚ)) 44100 64 0
          0).quantizedBandEnergyPredictions
        (numSubframesOf (encWindowMode ratArith (List.replicate 1500 (1 / 2 : ℚ)) 64 0)) sf
        maxScalingFactor ∧
      (encStateAt ratArith (List.replicate 1500 (1 / 2 : ℚ)) 44100 64 0 1).bandEnergyStream
        = (encStateAt ratArith (List.replicate 1500 (1 / 2 : ℚ)) 44100 64 0 0).bandEnergyStream
            ++ c.bandEnergyStream ∧
      ∀ t, 1 ≤ t → t ≤ 500 →
        ratArith.ltD
          (searchDistance ratArith
            (encWindowBins ratArith (encPadded ratArith (List.replicate 1500 (1 / 2 : ℚ))) 0
              (encWindowMode ratArith (List.replicate 1500 (1 / 2 : ℚ)) 64 0)
              (subframeConfig
                (encWindowMode ratArith (List.replicate 1500 (1 / 2 : ℚ)) 64 0)).2.1
              (subframeConfig
                (encWindowMode ratArith (List.replicate 1500 (1 / 2 : ℚ)) 64 0)).2.2 0)
            (encStateAt ratArith (List.replicate 1500 (1 / 2 : ℚ)) 44100 64 0
              0).quantizedBandEnergyPredictions
            (numSubframesOf (encWindowMode ratArith (List.replicate 1500 (1 / 2 : ℚ)) 64 0))
            (ratArith.divD (encTargetBitsPerFrame ratArith 44100 64)
              (ratArith.natD
                (numSubframesOf (encWindowMode ratArith (List.replicate 1500 (1 / 2 : ℚ)) 64 0))))
            (encStateAt ratArith (List.replicate 1500 (1 / 2 : ℚ)) 44100 64 0 0).slackBits t)
          (ratArith.absD
            (ratArith.subD (subframeBitsEstimateOf ratArith c)
              (ratArith.addD
                (ratArith.divD (encTargetBitsPerFrame ratArith 44100 64)
                  (ratArith.natD
                    (numSubframesOf
                      (encWindowMode ratArith (List.replicate 1500 (1 / 2 : ℚ)) 64 0))))
                (encStateAt ratArith (List.replicate 1500 (1 / 2 : ℚ)) 44100 64 0
                  0).slackBits))) = false := by
  obtain ⟨sf, c, h1, h2, hc, h3, h4, _⟩ :=
    Encode_keeps_first_closest ratArith (List.replicate 1500 (1 / 2 : ℚ)) 44100 64 0 0
      (ratArith_strictWeakOn _)
  exact ⟨sf, c, h1, h2, hc, by rw [h3], h4⟩

/-- C15 (counterexample).  The map with the counts `4294967295` and `2` has positive counts,
and every term `f * (-log2(f / N))` of the claimed sum, with `N = 4294967297`, is non-negative;
but `Order0BitsEstimate` returns a negative value, since it adds the counts in 32 bits and
divides by `numSymbols = 1`. -/
theorem Order0BitsEstimate_total_wraps :
    Order0BitsEstimate (realArith Real.cos Real.sin) [(0, 4294967295), (1, 2)] < 0 ∧
      0 ≤ (4294967295 : ℝ) * -(Real.logb 2 ((4294967295 : ℝ) / (4294967297 : ℝ)))
          + (2 : ℝ) * -(Real.logb 2 ((2 : ℝ) / (4294967297 : ℝ))) := by
  constructor
  · rw [Order0BitsEstimate_real]
    have e : (if ([(0, 4294967295), (1, 2)] : List (Int × Nat)) = [] then 0
        else (([(0, 4294967295), (1, 2)] : List (Int × Nat)).map Prod.snd).sum % 2 ^ 32) = 1 := by
      decide
    rw [e]
    simp only [List.map_cons, List.map_nil, List.sum_cons, List.sum_nil, Nat.cast_one, div_one,
      add_zero, Nat.cast_ofNat]
    have h1 : 0 < Real.logb 2 4294967295 := Real.logb_pos (by norm_num) (by norm_num)
    have h2 : Real.logb 2 2 = 1 := Real.logb_self_eq_one (by norm_num)
    rw [h2]
    nlinarith
  · have a1 := entropy_term_nonneg 4294967295 4294967297 (by norm_num) (by norm_num)
    have a2 := entropy_term_nonneg 2 4294967297 (by norm_num) (by norm_num)
    have := add_nonneg a1 a2
    simpa using this

/-- C15 (amended).  In exact real arithmetic, for every frequency map with positive counts
`f_i` whose total `N` is below `2^32`, `Order0BitsEstimate` returns the sum over the symbols
of `f_i * (-log2(f_i / N))`, and every term of the sum, hence the sum, is non-negative; it
returns 0 for the empty map, and 0 for every map that holds a single symbol with a positive
count below `2^32`. -/
theorem Order0BitsEstimate_eq (cosF sinF : ℝ → ℝ) (freqs : List (Int × Nat))
    (hpos : ∀ kvp, kvp ∈ freqs → 0 < kvp.2) (hN : (freqs.map Prod.snd).sum < 2 ^ 32) :
    Order0BitsEstimate (realArith cosF sinF) freqs
        = (freqs.map fun kvp =>
            (kvp.2 : ℝ)
              * -(Real.logb 2 ((kvp.2 : ℝ) / (((freqs.map Prod.snd).sum : Nat) : ℝ)))).sum ∧
      (∀ kvp, kvp ∈ freqs →
        0 ≤ (kvp.2 : ℝ)
          * -(Real.logb 2 ((kvp.2 : ℝ) / (((freqs.map Prod.snd).sum : Nat) : ℝ)))) ∧
      0 ≤ Order0BitsEstimate (realArith cosF sinF) freqs ∧
      Order0BitsEstimate (realArith cosF sinF) [] = 0 ∧
      ∀ (key : Int) (f : Nat), 0 < f → f < 2 ^ 32 →
        Order0BitsEstimate (realArith cosF sinF) [(key, f)] = 0 := by
  have hterm : ∀ kvp, kvp ∈ freqs →
      0 ≤ (kvp.2 : ℝ)
        * -(Real.logb 2 ((kvp.2 : ℝ) / (((freqs.map Prod.snd).sum : Nat) : ℝ))) := by
    intro kvp hk
    exact entropy_term_nonneg _ _ (hpos kvp hk)
      (le_sum_of_mem _ _ (List.mem_map_of_mem Prod.snd hk))
  have heq : Order0BitsEstimate (realArith cosF sinF) freqs
      = (freqs.map fun kvp =>
          (kvp.2 : ℝ)
            * -(Real.logb 2 ((kvp.2 : ℝ) / (((freqs.map Prod.snd).sum : Nat) : ℝ)))).sum := by
    rw [Order0BitsEstimate_real]
    by_cases he : freqs = []
    · subst he
      simp
    · rw [if_neg he, Nat.mod_eq_of_lt hN]
      congr 1
      apply List.map_congr_left
      intro kvp _
      ring
  refine ⟨heq, hterm, ?_, ?_, ?_⟩
  · rw [heq]
    apply List.sum_nonneg
    intro v hv
    obtain ⟨kvp, hk, rfl⟩ := List.mem_map.mp hv
    exact hterm kvp hk
  · rw [Order0BitsEstimate_real]
    simp
  · intro key f hf hf32
    rw [Order0BitsEstimate_real]
    have hf' : (f : ℝ) ≠ 0 := by exact_mod_cast (Nat.pos_iff_ne_zero.mp hf)
    have hm : f % 2 ^ 32 = f := Nat.mod_eq_of_lt hf32
    simp only [List.map_cons, List.map_nil, List.sum_cons, List.sum_nil, add_zero,
      reduceCtorEq, if_false, hm, div_self hf', Real.logb_one, neg_zero, zero_mul]

/-- C15 (witness).  The map with the counts 1 and 3: total 4, estimate
`1 * (-log2(1/4)) + 3 * (-log2(3/4))`, which is not negative. -/
theorem Order0BitsEstimate_eq_witness :
    Order0BitsEstimate (realArith Real.cos Real.sin) [(0, 1), (5, 3)]
        = (1 : ℝ) * -(Real.logb 2 ((1 : ℝ) / (4 : ℝ)))
          + (3 : ℝ) * -(Real.logb 2 ((3 : ℝ) / (4 : ℝ))) ∧
      0 ≤ Order0BitsEstimate (realArith Real.cos Real.sin) [(0, 1), (5, 3)] := by
  obtain ⟨h1, _, h3, _⟩ := Order0BitsEstimate_eq Real.cos Real.sin [(0, 1), (5, 3)]
    (by decide) (by decide)
  refine ⟨?_, h3⟩
  rw [h1]
  simp only [List.map_cons, List.map_nil, List.sum_cons, List.sum_nil, add_zero]
  norm_num

/-- C16 (confirmed).  In exact real arithmetic, for every vector of bins, band `b`, bin `i` of
the band and scaling factor up to 500: the bin quantum of the candidate, which the code
computes as `static_cast<int8_t>(roundf(v))` for
`v = X[i] / (bandEnergy + epsilon) * bandBinQuantizeScale`, equals
`clamp_int8(round(v))`, because `|X[i]| ≤ bandEnergy` and `0 ≤ bandBinQuantizeScale ≤ 127`
keep the rounded value within `[-127, 127]`.  Every subframe `j` of every frame `k` of a run
of `Encode` appends the bin quanta of such a candidate to its bin stream. -/
theorem Encode_binQ_eq_clamp (cosF sinF : ℝ → ℝ) (x : List ℝ) (sampleRate targetBitRate : ℝ)
    (k j : Nat) :
    (∀ (wb : List ℝ) (pred : List Nat) (ns sf b i : Nat), sf ≤ 500 → b < NumBands →
      i < bandNumBins ns b →
      (encodeCandidate (realArith cosF sinF) wb pred ns sf maxScalingFactor).binQStream.getD
          (binsUpTo ns b + i) 0
        = clamp_int8 (realTrunc (realRound (encBinValue (realArith cosF sinF) wb ns sf b i))) ∧
      encBinValue (realArith cosF sinF) wb ns sf b i
        = wb.getD (binsUpTo ns b + i) 0
            / (encBandEnergyOf (realArith cosF sinF) wb ns b + 1 / 10 ^ 27)
          * encBandBinQuantizeScaleOf (realArith cosF sinF) wb ns sf b ∧
      |wb.getD (binsUpTo ns b + i) 0| ≤ encBandEnergyOf (realArith cosF sinF) wb ns b ∧
      0 ≤ encBandBinQuantizeScaleOf (realArith cosF sinF) wb ns sf b ∧
      encBandBinQuantizeScaleOf (realArith cosF sinF) wb ns sf b ≤ 127 ∧
      -127 ≤ realTrunc (realRound (encBinValue (realArith cosF sinF) wb ns sf b i)) ∧
      realTrunc (realRound (encBinValue (realArith cosF sinF) wb ns sf b i)) ≤ 127) ∧
    ∃ sf, 1 ≤ sf ∧ sf ≤ 500 ∧
      (encStateAt (realArith cosF sinF) x sampleRate targetBitRate k (j + 1)).binQStream
        = (encStateAt (realArith cosF sinF) x sampleRate targetBitRate k j).binQStream
          ++ (encodeCandidate (realArith cosF sinF)
            (encWindowBins (realArith cosF sinF) (encPadded (realArith cosF sinF) x) k
              (encWindowMode (realArith cosF sinF) x targetBitRate k)
              (subframeConfig (encWindowMode (realArith cosF sinF) x targetBitRate k)).2.1
              (subframeConfig (encWindowMode (realArith cosF sinF) x targetBitRate k)).2.2 j)
            (encStateAt (realArith cosF sinF) x sampleRate targetBitRate k
              j).quantizedBandEnergyPredictions
            (numSubframesOf (encWindowMode (realArith cosF sinF) x targetBitRate k)) sf
            maxScalingFactor).binQStream := by
  constructor
  · intro wb pred ns sf b i hsf hb hi
    have hv := encBinValue_real_bound cosF sinF wb ns sf b i hsf hi
    obtain ⟨r, hr1, hr2, hr3, hr4⟩ := realRound_bound
      (encBinValue (realArith cosF sinF) wb ns sf b i) 127 (by norm_num)
      (by have := (abs_le.mp hv).1; push_cast; linarith)
      (by have := (abs_le.mp hv).2; push_cast; linarith)
    have hl := encLinearBandEnergy_real_mem cosF sinF
      (encBandEnergy (realArith cosF sinF) wb (binsUpTo ns b) (bandNumBins ns b))
      (bandNumBins ns b)
    have hs := encBandBinQuantizeScale_real_mem cosF sinF b sf hsf _ hl.1 hl.2
    refine ⟨?_, ?_, ?_, hs.1, hs.2, by rw [hr2]; exact hr3, by rw [hr2]; exact hr4⟩
    · rw [(encodeCandidate_contents (realArith cosF sinF) wb pred ns sf).2 b hb i hi]
      unfold roundToI8
      show wrapI8 (realTrunc (realRound _)) = _
      rw [hr2, wrapI8_eq r (by omega) (by omega), clamp_int8_eq r (by omega) (by omega)]
    · unfold encBinValue
      rw [realArith_litF_zero]
      simp only [realArith]
      norm_num
    · exact abs_bin_le_encBandEnergy cosF sinF wb (binsUpTo ns b) (bandNumBins ns b) i hi
  · obtain ⟨sf, h1, h2, _, h4⟩ :=
      encStateAt_succ_candidate (realArith cosF sinF) x sampleRate targetBitRate k j
    exact ⟨sf, h1, h2, h4⟩

/-- C16 (witness).  The bins `3, -4, 0, ...` of a long window: the second bin quantum of the
first band of the candidate of scaling factor 250 is the clamped rounded value, which lies in
`[-127, 127]`. -/
theorem Encode_binQ_eq_clamp_witness :
    (encodeCandidate (realArith Real.cos Real.sin) [3, -4] [] 1 250 maxScalingFactor).binQStream.getD
          (binsUpTo 1 0 + 1) 0
        = clamp_int8
            (realTrunc (realRound (encBinValue (realArith Real.cos Real.sin) [3, -4] 1 250 0 1))) ∧
      -127 ≤ realTrunc (realRound (encBinValue (realArith Real.cos Real.sin) [3, -4] 1 250 0 1)) ∧
      realTrunc (realRound (encBinValue (realArith Real.cos Real.sin) [3, -4] 1 250 0 1)) ≤ 127 := by
  obtain ⟨h1, _, _, _, _, h6, h7⟩ :=
    (Encode_binQ_eq_clamp Real.cos Real.sin [] 44100 64 0 0).1 [3, -4] [] 1 250 0 1
      (by norm_num) (by decide) (by decide)
  exact ⟨h1, h6, h7⟩

/-- C17 (confirmed).  In exact real arithmetic, every quantized band energy of every candidate
`Encode` builds is at most 64 (and, being a byte, at least 0), and so is every band energy
prediction at every point of a run.  For every input with `⌈n / 1024⌉ ≤ 65535`, when `Decode`
processes the output of `Encode`, after every subframe `j` of every frame `k` every entry of
its array `quantizedBandEnergyPredictions`, which holds the band energies it reconstructed in
that subframe, is at most 64, and the argument `q / 64 * 40 - 20` it passes to `Exp2f` for
such an energy lies in `[-20, 20]`. -/
theorem Encode_band_energy_le_64 (cosF sinF : ℝ → ℝ) (x : List ℝ)
    (sampleRate targetBitRate : ℝ) (hc : ceilFrames x.length ≤ 65535) :
    (∀ (wb : List ℝ) (pred : List Nat) (ns sf q : Nat),
      q ∈ (encodeCandidate (realArith cosF sinF) wb pred ns sf
        maxScalingFactor).quantizedBandEnergies → 0 ≤ q ∧ q ≤ 64) ∧
    (∀ k j q,
      q ∈ (encStateAt (realArith cosF sinF) x sampleRate targetBitRate k
        j).quantizedBandEnergyPredictions → q ≤ 64) ∧
    ∃ v est, Encode (realArith cosF sinF) x sampleRate targetBitRate = some (v, est) ∧
      ∀ k j, k < ceilFrames x.length + 1 →
        j ≤ numSubframesOf (encWindowMode (realArith cosF sinF) x targetBitRate k) →
        ∃ ds, decStateAt (realArith cosF sinF) v (ceilFrames x.length) k j = some ds ∧
          ∀ q, q ∈ ds.quantizedBandEnergyPredictions →
            q ≤ 64 ∧ -20 ≤ decExp2Arg (realArith cosF sinF) q ∧
              decExp2Arg (realArith cosF sinF) q ≤ 20 ∧
              ∀ n, decBandEnergy (realArith cosF sinF) q n
                = (realArith cosF sinF).mulF
                    ((realArith cosF sinF).Exp2f (decExp2Arg (realArith cosF sinF) q))
                    ((realArith cosF sinF).natF n) := by
  have h := length_le_of_ceilFrames_le hc
  have hF : ceilFrames x.length + 1 = encFrameCount x.length := by
    rw [encFrameCount_eq h, ceilFrames_eq]
  refine ⟨?_, ?_, _, _, Encode_eq_some (realArith cosF sinF) x sampleRate targetBitRate h, ?_⟩
  · intro wb pred ns sf q hq
    exact ⟨Nat.zero_le _, encodeCandidate_energies_le cosF sinF wb pred ns sf q hq⟩
  · intro k j
    exact encStateAt_predictions_le cosF sinF x sampleRate targetBitRate k j
  · intro k j hk hj
    obtain ⟨ds, h0, _, _, _, h4⟩ := sim_stateAt (realArith cosF sinF) x sampleRate
      targetBitRate (ceilFrames x.length) hF k (by omega) j hj
    refine ⟨ds, h0, ?_⟩
    intro q hq
    rw [h4] at hq
    have hq64 := encStateAt_predictions_le cosF sinF x sampleRate targetBitRate k j q hq
    exact ⟨hq64, (decExp2Arg_real_mem cosF sinF q hq64).1,
      (decExp2Arg_real_mem cosF sinF q hq64).2, fun n => rfl⟩

/-- C17 (witness).  The code of a 1500-sample input: after the first subframe of the first
frame every band energy `Decode` has reconstructed is at most 64. -/
theorem Encode_band_energy_le_64_witness :
    ∃ v est,
      Encode (realArith Real.cos Real.sin) (List.replicate 1500 (1 / 2 : ℝ)) 44100 64
        = some (v, est) ∧
      ∃ ds, decStateAt (realArith Real.cos Real.sin) v 2 0 1 = some ds ∧
        ∀ q, q ∈ ds.quantizedBandEnergyPredictions → q ≤ 64 := by
  obtain ⟨_, _, v, est, h1, h2⟩ :=
    Encode_band_energy_le_64 Real.cos Real.sin (List.replicate 1500 (1 / 2 : ℝ)) 44100 64
      (by rw [List.length_replicate, ceilFrames_eq]; norm_num)
  rw [List.length_replicate, ceilFrames_eq] at h2
  obtain ⟨ds, g1, g2⟩ := h2 0 1 (by norm_num) (by
    have := numSubframesOf_cases
      (encWindowMode (realArith Real.cos Real.sin) (List.replicate 1500 (1 / 2 : ℝ)) 64 0)
    omega)
  exact ⟨v, est, h1, ds, g1, fun q hq => (g2 q hq).1⟩

/-- C18 (confirmed).  In exact real arithmetic, for every input and every target bit rate
above 8: frame 0 is marked transient, because its energy, a sum of squares, is compared with
`2` times the initial value `0` of `lastFrameEnergy`; the window mode of frame 0 is therefore
`Short`, the first window mode byte of the output of `Encode` is 1, and so at least one frame
of the plan has a mode among `Short`, `Start`, `Stop`. -/
theorem Encode_first_frame_short (cosF sinF : ℝ → ℝ) (x : List ℝ)
    (sampleRate targetBitRate : ℝ) (hbr : 8 < targetBitRate)
    (hlen : x.length ≤ 2 ^ 32 - 4096) :
    (encTransientMap (realArith cosF sinF) x).getD 0 false = true ∧
    encWindowMode (realArith cosF sinF) x targetBitRate 0 = WindowMode.Short ∧
    ∃ v est, Encode (realArith cosF sinF) x sampleRate targetBitRate = some (v, est) ∧
      v.getD 10 0 = WindowMode.Short ∧
      ∃ f, f < ceilFrames x.length + 1 ∧
        (v.getD (10 + f) 0 = WindowMode.Short ∨ v.getD (10 + f) 0 = WindowMode.Start ∨
          v.getD (10 + f) 0 = WindowMode.Stop) := by
  have ht := encTransientMap_real_head cosF sinF x
  have hm : encWindowMode (realArith cosF sinF) x targetBitRate 0 = WindowMode.Short := by
    unfold encWindowMode
    rw [selectWindowMode_eq _ _ (by simp only [realArith, decide_eq_true_eq]; norm_num; exact hbr)]
    rw [ht]
    rfl
  have hF : 0 < encFrameCount x.length := by
    rw [encFrameCount_eq hlen]; omega
  have hb := encBytes_windowMode (realArith cosF sinF) x sampleRate targetBitRate 0 hF
  rw [hm] at hb
  refine ⟨ht, hm, _, _,
    Encode_eq_some (realArith cosF sinF) x sampleRate targetBitRate hlen, hb, 0, by omega,
    Or.inl hb⟩

/-- C18 (witness).  The unit impulse at index 512 of 1024 samples, at target bit rate 64: the
first frame is coded with short windows. -/
theorem Encode_first_frame_short_witness :
    ∃ v est,
      Encode (realArith Real.cos Real.sin)
        (List.replicate 512 (0 : ℝ) ++ [1] ++ List.replicate 511 (0 : ℝ)) 44100 64
        = some (v, est) ∧
      v.getD 10 0 = WindowMode.Short := by
  obtain ⟨_, _, v, est, h1, h2, _⟩ :=
    Encode_first_frame_short Real.cos Real.sin
      (List.replicate 512 (0 : ℝ) ++ [1] ++ List.replicate 511 (0 : ℝ)) 44100 64
      (by norm_num)
      (by rw [List.length_append, List.length_append, List.length_replicate,
        List.length_replicate]; norm_num)
  exact ⟨v, est, h1, h2⟩

/-- C20 (confirmed).  For every input of `n ≤ 2^32 - 4096` samples (the sizes for which no
32 bit computation of `Encode` wraps), with `nf = ⌈n / 1024⌉` and `N = (nf + 1) * 1024 +
2 * 1024`: the padded buffer of `Encode` has `N` samples, holds the input at the indices
`[1024, 1024 + n)`, and after the padding loop `padded[1023 - i] = padded[1024 + i]` and
`padded[N - 1024 + i] = padded[N - 1025 - i]` for every `i` in `[0, 1024)`. -/
theorem Encode_padding_mirror (A : Arith F D) (x : List F) (h : x.length ≤ 2 ^ 32 - 4096) :
    encPadded A x = padSamples A x (encNumPaddedSamples x.length) ∧
    encNumPaddedSamples x.length = (ceilFrames x.length + 1) * 1024 + 2 * 1024 ∧
    (encPadded A x).length = (ceilFrames x.length + 1) * 1024 + 2 * 1024 ∧
    (∀ i, i < x.length → (encPadded A x)[1024 + i]? = x[i]?) ∧
    ∀ i, i < 1024 → ∃ s t,
      (encPadded A x)[1023 - i]? = some s ∧ (encPadded A x)[1024 + i]? = some s ∧
      (encPadded A x)[(ceilFrames x.length + 1) * 1024 + 2 * 1024 - 1024 + i]? = some t ∧
      (encPadded A x)[(ceilFrames x.length + 1) * 1024 + 2 * 1024 - 1025 - i]? = some t := by
  have hN : encNumPaddedSamples x.length = (ceilFrames x.length + 1) * 1024 + 2 * 1024 := by
    rw [encNumPaddedSamples_eq h, ceilFrames_eq]
  have hc := ceilFrames_eq x.length
  have hS : FrameSize = 1024 := rfl
  obtain ⟨h1, h2, h3⟩ := padSamples_mirror A x (encNumPaddedSamples x.length)
    (by rw [hN, hc, hS]; omega)
  have e : padSamples A x (encNumPaddedSamples x.length) = encPadded A x := rfl
  rw [e] at h1 h2 h3
  rw [hN] at h1 h3
  rw [hS] at h2 h3
  refine ⟨rfl, hN, h1, h2, ?_⟩
  intro i hi
  obtain ⟨g1, g2⟩ := h3 i hi
  have i1 : (ceilFrames x.length + 1) * 1024 + 2 * 1024 - 1025 - i
      = (ceilFrames x.length + 1) * 1024 + 2 * 1024 - 1024 - 1 - i := by omega
  have i2 : 1023 - i = 1024 - 1 - i := by omega
  rw [i1, i2]
  refine ⟨(encPadded A x).getD (1024 + i) (A.litF 0),
    (encPadded A x).getD ((ceilFrames x.length + 1) * 1024 + 2 * 1024 - 1024 - 1 - i)
      (A.litF 0), ?_, ?_, ?_, ?_⟩
  · rw [g1]
    exact getElem?_eq_some_getD _ _ _ (by rw [h1]; omega)
  · exact getElem?_eq_some_getD _ _ _ (by rw [h1]; omega)
  · rw [g2]
    exact getElem?_eq_some_getD _ _ _ (by rw [h1]; omega)
  · exact getElem?_eq_some_getD _ _ _ (by rw [h1]; omega)

/-- C20 (witness).  The padded buffer of the three samples `1, 2, 3` has 4096 samples; the
input is at the indices 1024, 1025, 1026 and is mirrored at the indices 1023, 1022, 1021. -/
theorem Encode_padding_mirror_witness :
    (encPadded ratArith [1, 2, 3]).length = 4096 ∧
      (encPadded ratArith [1, 2, 3])[1024]? = some 1 ∧
      (encPadded ratArith [1, 2, 3])[1023]? = some 1 ∧
      (encPadded ratArith [1, 2, 3])[1021]? = some 3 := by
  obtain ⟨_, _, h3, h4, h5⟩ :=
    Encode_padding_mirror ratArith ([1, 2, 3] : List ℚ) (by decide)
  have hc : ceilFrames ([1, 2, 3] : List ℚ).length = 1 := by rw [ceilFrames_eq]; rfl
  rw [hc] at h3
  have a0 := h4 0 (by decide)
  have a2 := h4 2 (by decide)
  obtain ⟨s0, _, b1, b2, _, _⟩ := h5 0 (by norm_num)
  obtain ⟨s2, _, c1, c2, _, _⟩ := h5 2 (by norm_num)
  rw [a0] at b2
  rw [a2] at c2
  refine ⟨h3, a0, ?_, ?_⟩
  · rw [b1, ← b2]; rfl
  · rw [c1, ← c2]; rfl

/-- C19 (confirmed).  For every header frame count `N ≤ 65535`, every byte stream and every
window mode byte `m` (whatever its value): the padded buffer of `Decode` is allocated with
`N * 1024 + 2048` samples, computed without 32 bit wrap, and has this size in every state of
the run; the loop that accumulates a subframe writes at the indices
`frameIndex * 1024 + windowOffset + n`, each of which is below `N * 1024 + 2048` for every
frame `frameIndex ≤ N`; the bins of band `b` are kept at the indices `bandBins + binIndex`
below the end of the band, the bands end at index 856 (long) or 107 (short), and `windowBins`
has 1024 entries in every state after a subframe; the IMDCT reads `windowBins` at
`k < subframeWindowSize / 2 ≤ 1024`; and the final copy of `N * 1024` samples from index 1024
on stays within the buffer, so that the result of `Decode` has `N * 1024` samples. -/
theorem Decode_indices_in_bounds (A : Arith F D) (bytes : List Nat) (N : Nat)
    (hN : N ≤ 65535) :
    ((DecState.initial A N).paddedSamples.length = N * 1024 + 2048 ∧
      (N + 1) * 1024 + 2048 < 2 ^ 32) ∧
    (∀ k j ds, decStateAt A bytes N k j = some ds →
      ds.paddedSamples.length = N * 1024 + 2048) ∧
    (∀ (wb ps : List F) (f m j : Nat),
      overlapAdd A wb (f * FrameSize)
          ((subframeConfig m).2.1 + j * (subframeConfig m).2.2 / 2) (subframeConfig m).2.2 m ps
        = (List.range (subframeConfig m).2.2).foldl
            (fun paddedSamples n =>
              paddedSamples.set (decSampleIndex f m j n)
                (A.addF (paddedSamples.getD (decSampleIndex f m j n) (A.litF 0))
                  (A.mulF (imdctSample A wb (subframeConfig m).2.2 n)
                    (MdctWindow A n (subframeConfig m).2.2 m))))
            ps) ∧
    (∀ f m j n, f ≤ N → j < (subframeConfig m).1 → n < (subframeConfig m).2.2 →
      decSampleIndex f m j n < N * 1024 + 2048) ∧
    (∀ m b i, b < NumBands → i < bandNumBins (numSubframesOf m) b →
      decBinIndex (numSubframesOf m) b i < binsUpTo (numSubframesOf m) (b + 1) ∧
      binsUpTo (numSubframesOf m) (b + 1) ≤ binsUpTo (numSubframesOf m) NumBands ∧
      binsUpTo (numSubframesOf m) NumBands = (if m = WindowMode.Short then 107 else 856) ∧
      binsUpTo (numSubframesOf m) NumBands ≤ FrameSize) ∧
    (∀ k j ds, decStateAt A bytes N k (j + 1) = some ds →
      ds.windowBins.length = 1024 ∧ ds.bandBins ≤ 856) ∧
    (∀ m, (subframeConfig m).2.2 / 2 ≤ 1024) ∧
    1024 + N * 1024 ≤ N * 1024 + 2048 ∧
    ∀ samples count, readNumFrames bytes = some N → Decode A bytes = some (samples, count) →
      count = N * 1024 ∧ samples.length = N * 1024 := by
  have hS : FrameSize = 1024 := rfl
  have hlen : ∀ k j ds, decStateAt A bytes N k j = some ds →
      ds.paddedSamples.length = N * 1024 + 2048 := by
    intro k j ds h
    rw [decStateAt_of_some A bytes N k j ds h, hS]
  refine ⟨⟨by simp [DecState.initial, FrameSize], by omega⟩, hlen, ?_, ?_, ?_, ?_, ?_,
    by omega, ?_⟩
  · intro wb ps f m j
    rfl
  · intro f m j n hf hj hn
    exact decSampleIndex_lt N f m j n hf hj hn
  · intro m b i hb hi
    exact decBinIndex_lt m b i hb hi
  · intro k j ds h
    obtain ⟨g1, m, g2⟩ := decStateAt_succ_of_some A bytes N k j ds h
    refine ⟨by rw [g1, hS], ?_⟩
    rw [g2]
    rcases numSubframesOf_cases m with h1 | h1 <;> rw [h1]
    · rw [binsUpTo_long]
    · rw [binsUpTo_short]; omega
  · intro m
    unfold subframeConfig
    split
    · simp only [ShortWindowSize, LongWindowSize, FrameSize, NumShortWindowsPerFrame]
      omega
    · simp only [LongWindowSize, FrameSize]
      omega
  · intro samples count hr hd
    unfold Decode at hd
    simp only [hr, Option.bind_eq_bind, Option.some_bind] at hd
    cases h1 : decodeFrames A bytes N (N + 1) with
    | none => simp only [h1, Option.none_bind] at hd; cases hd
    | some st =>
      simp only [h1, Option.some_bind, Option.pure_def, Option.some.injEq,
        Prod.mk.injEq] at hd
      have hl := decodeFrames_of_some A bytes N (N + 1) st h1
      rw [← hd.1, ← hd.2, List.length_take, List.length_drop, hl, hS]
      exact ⟨rfl, by omega⟩

/-- C19 (witness).  For the header frame count 1: the last sample of a long window of the
last frame goes to index 3071 and the last sample of the last short window of the last frame
to index 2623, both below the buffer size 3072. -/
theorem Decode_indices_in_bounds_witness :
    decSampleIndex 1 0 0 2047 = 3071 ∧ decSampleIndex 1 1 7 255 = 2623 ∧
      decSampleIndex 1 0 0 2047 < 1 * 1024 + 2048 ∧
      decSampleIndex 1 1 7 255 < 1 * 1024 + 2048 ∧
      decSampleIndex 1 200 0 2047 < 1 * 1024 + 2048 := by
  obtain ⟨_, _, _, h, _⟩ := Decode_indices_in_bounds ratArith [] 1 (by norm_num)
  exact ⟨by decide, by decide, h 1 0 0 2047 (by norm_num) (by decide) (by decide),
    h 1 1 7 255 (by norm_num) (by decide) (by decide),
    h 1 200 0 2047 (by norm_num) (by decide) (by decide)⟩

/-- C21 (confirmed).  For every input of `n ≤ 2^32 - 4096` samples (the sizes for which no
32 bit computation of `Encode` wraps), with `nf = ⌈n / 1024⌉`: after the padding loop every
sample of the padded buffer at an index from `(nf + 1) * 1024` on is the `float` zero `0.0f`,
whatever the input is; so is every sample from index `1024 + n` on.  The source region
`[N - 2048, N - 1024)` of the tail mirror starts at `(nf + 1) * 1024`, behind the copied
input. -/
theorem Encode_tail_padding_zero (A : Arith F D) (x : List F) (h : x.length ≤ 2 ^ 32 - 4096) :
    (encPadded A x).length = (ceilFrames x.length + 1) * 1024 + 2 * 1024 ∧
    1024 + x.length ≤ (ceilFrames x.length + 1) * 1024 ∧
    (ceilFrames x.length + 1) * 1024 + 2 * 1024 - 2048 = (ceilFrames x.length + 1) * 1024 ∧
    (∀ i, (ceilFrames x.length + 1) * 1024 ≤ i →
      i < (ceilFrames x.length + 1) * 1024 + 2 * 1024 →
      (encPadded A x)[i]? = some (A.litF 0)) ∧
    ∀ i, 1024 + x.length ≤ i → i < (ceilFrames x.length + 1) * 1024 + 2 * 1024 →
      (encPadded A x)[i]? = some (A.litF 0) := by
  have hN : encNumPaddedSamples x.length = (ceilFrames x.length + 1) * 1024 + 2 * 1024 := by
    rw [encNumPaddedSamples_eq h, ceilFrames_eq]
  have hc := ceilFrames_eq x.length
  have hS : FrameSize = 1024 := rfl
  have e : padSamples A x (encNumPaddedSamples x.length) = encPadded A x := rfl
  have hl : (encPadded A x).length = (ceilFrames x.length + 1) * 1024 + 2 * 1024 := by
    have := padSamples_length A x (encNumPaddedSamples x.length) (by rw [hN, hc, hS]; omega)
    rw [e] at this
    rw [this, hN]
  have key : ∀ i, 1024 + x.length ≤ i → i < (ceilFrames x.length + 1) * 1024 + 2 * 1024 →
      (encPadded A x)[i]? = some (A.litF 0) := by
    intro i h1 h2
    rw [getElem?_eq_some_getD _ _ (A.litF 0) (by rw [hl]; exact h2)]
    have := padSamples_tail_zero A x (encNumPaddedSamples x.length)
      (by rw [hN, hc, hS]; omega) i (by rw [hS]; exact h1)
    rw [e] at this
    rw [this]
  refine ⟨hl, by rw [hc]; omega, by omega, ?_, key⟩
  intro i h1 h2
  exact key i (by rw [hc] at h1; omega) h2

/-- C21 (witness).  The padded buffer of the three samples `1, 2, 3` has 4096 samples; the
samples at the indices 2048 and 4095 are zero, and so is the sample at index 1027. -/
theorem Encode_tail_padding_zero_witness :
    (encPadded ratArith [1, 2, 3])[2048]? = some 0 ∧
      (encPadded ratArith [1, 2, 3])[4095]? = some 0 ∧
      (encPadded ratArith [1, 2, 3])[1027]? = some 0 := by
  obtain ⟨_, _, _, h4, h5⟩ :=
    Encode_tail_padding_zero ratArith ([1, 2, 3] : List ℚ) (by decide)
  have hc : ceilFrames ([1, 2, 3] : List ℚ).length = 1 := by rw [ceilFrames_eq]; rfl
  rw [hc] at h4 h5
  exact ⟨h4 2048 (by norm_num) (by norm_num), h4 4095 (by norm_num) (by norm_num),
    h5 1027 (by decide) (by norm_num)⟩

/-- C24 (confirmed).  In the window mode stream of every output of `Encode` (the bytes at
offsets `10, ..., 10 + F - 1` for the `F = ⌈n / 1024⌉ + 1` coded frames): every frame with
mode `Start` is not the last one and the frame after it has mode `Short`; every frame with
mode `Stop` is not the first one and the frame before it has mode `Short`; and neither
neighbour of a frame with mode `Long` has mode `Short`.  This holds for the window plan
computed from every transient map `tmap` and every frame count. -/
theorem Encode_start_stop_adjacent (A : Arith F D) (x : List F) (sampleRate targetBitRate : D)
    (h : x.length ≤ 2 ^ 32 - 4096) :
    (∃ v est, Encode A x sampleRate targetBitRate = some (v, est) ∧
      ∀ f, f < ceilFrames x.length + 1 →
        (v.getD (10 + f) 0 = WindowMode.Start →
          f + 1 < ceilFrames x.length + 1 ∧ v.getD (10 + (f + 1)) 0 = WindowMode.Short) ∧
        (v.getD (10 + f) 0 = WindowMode.Stop →
          0 < f ∧ v.getD (10 + (f - 1)) 0 = WindowMode.Short) ∧
        (v.getD (10 + f) 0 = WindowMode.Long →
          (0 < f → v.getD (10 + (f - 1)) 0 ≠ WindowMode.Short) ∧
          (f + 1 < ceilFrames x.length + 1 →
            v.getD (10 + (f + 1)) 0 ≠ WindowMode.Short))) ∧
    ∀ (tmap : List Bool) (numFrames f : Nat), f < numFrames →
      (selectWindowMode A targetBitRate tmap numFrames f = WindowMode.Start →
        f + 1 < numFrames ∧
          selectWindowMode A targetBitRate tmap numFrames (f + 1) = WindowMode.Short) ∧
      (selectWindowMode A targetBitRate tmap numFrames f = WindowMode.Stop →
        0 < f ∧ selectWindowMode A targetBitRate tmap numFrames (f - 1) = WindowMode.Short) ∧
      (selectWindowMode A targetBitRate tmap numFrames f = WindowMode.Long →
        (0 < f → selectWindowMode A targetBitRate tmap numFrames (f - 1) ≠ WindowMode.Short) ∧
        (f + 1 < numFrames →
          selectWindowMode A targetBitRate tmap numFrames (f + 1) ≠ WindowMode.Short)) := by
  have hF : encFrameCount x.length = ceilFrames x.length + 1 := by
    rw [encFrameCount_eq h, ceilFrames_eq]
  refine ⟨⟨_, _, Encode_eq_some A x sampleRate targetBitRate h, ?_⟩,
    fun tmap numFrames f hf => selectWindowMode_neighbours A targetBitRate tmap numFrames f hf⟩
  intro f hf
  obtain ⟨p1, p2, p3⟩ := selectWindowMode_neighbours A targetBitRate (encTransientMap A x)
    (encFrameCount x.length) f (by rw [hF]; exact hf)
  have hm : ∀ g, g < ceilFrames x.length + 1 →
      (encBytes A x sampleRate targetBitRate).getD (10 + g) 0
        = selectWindowMode A targetBitRate (encTransientMap A x) (encFrameCount x.length) g := by
    intro g hg
    exact encBytes_windowMode A x sampleRate targetBitRate g (by rw [hF]; exact hg)
  rw [hm f hf]
  refine ⟨?_, ?_, ?_⟩
  · intro hs
    obtain ⟨q1, q2⟩ := p1 hs
    rw [hF] at q1
    exact ⟨q1, by rw [hm (f + 1) q1]; exact q2⟩
  · intro hs
    obtain ⟨q1, q2⟩ := p2 hs
    exact ⟨q1, by rw [hm (f - 1) (by omega)]; exact q2⟩
  · intro hs
    obtain ⟨q1, q2⟩ := p3 hs
    constructor
    · intro h0
      rw [hm (f - 1) (by omega)]
      exact q1 h0
    · intro h1
      rw [hm (f + 1) h1]
      exact q2 (by rw [hF]; exact h1)

/-- C24 (witness).  The plan of the transient map `false, false, true, false, false` at a
target bit rate of 64 in rational arithmetic is `Long, Start, Short, Stop, Long`. -/
theorem Encode_start_stop_adjacent_witness :
    selectWindowMode ratArith 64 [false, false, true, false, false] 5 1 = WindowMode.Start ∧
      selectWindowMode ratArith 64 [false, false, true, false, false] 5 2 = WindowMode.Short ∧
      selectWindowMode ratArith 64 [false, false, true, false, false] 5 3 = WindowMode.Stop ∧
      selectWindowMode ratArith 64 [false, false, true, false, false] 5 0 = WindowMode.Long ∧
      selectWindowMode ratArith 64 [false, false, true, false, false] 5 1 ≠ WindowMode.Short := by
  have hbr : ratArith.gtD 64 (ratArith.litD 8) = true := by
    simp only [ratArith, decide_eq_true_eq]; norm_num
  have e1 : selectWindowMode ratArith 64 [false, false, true, false, false] 5 1
      = WindowMode.Start := by
    rw [selectWindowMode_eq ratArith 64 hbr]; decide
  have e3 : selectWindowMode ratArith 64 [false, false, true, false, false] 5 3
      = WindowMode.Stop := by
    rw [selectWindowMode_eq ratArith 64 hbr]; decide
  have e0 : selectWindowMode ratArith 64 [false, false, true, false, false] 5 0
      = WindowMode.Long := by
    rw [selectWindowMode_eq ratArith 64 hbr]; decide
  obtain ⟨_, hplan⟩ := Encode_start_stop_adjacent ratArith ([] : List ℚ) 44100 64 (by decide)
  obtain ⟨p1, _, _⟩ := hplan [false, false, true, false, false] 5 1 (by norm_num)
  obtain ⟨_, _, p3⟩ := hplan [false, false, true, false, false] 5 0 (by norm_num)
  exact ⟨e1, (p1 e1).2, e3, e0, (p3 e0).2 (by norm_num)⟩

/-- C25 (confirmed).  In exact real arithmetic with the exact sine, for every `n`, `S` and
mode, `MdctWindow(n, S, mode)` is the piecewise window of the format description with
`vorbis(x, S) = sin(π/2 · sin²(π/S · x))`: `vorbis(n+0.5, S)` for `Long` and `Short`; for
`Start`, with `off = 1472`, `1 - vorbis(n+0.5-1472, 256)` on `[1472, 1600)`, `0` from 1600 on,
`1` on `[1024, 1472)` and `vorbis(n+0.5, S)` below 1024; for `Stop`, with `off = 448`, `0`
below 448, `vorbis(n+0.5-448, 256)` on `[448, 576)`, `1` on `[576, 1024)` and
`vorbis(n+0.5, S)` from 1024 on. -/
theorem MdctWindow_piecewise (cosF : ℝ → ℝ) (n S : Nat) (mode : WindowMode) :
    MdctWindow (realArith cosF Real.sin) n S mode = specMdctWindow n S mode ∧
    (∀ (x : ℝ) (T : Nat),
      specVorbis x T = Real.sin (Real.pi / 2 * Real.sin (Real.pi / (T : ℝ) * x) ^ 2)) ∧
    (specStartOffset = 1472 ∧ specStopOffset = 448) ∧
    (mode ≠ WindowMode.Start → mode ≠ WindowMode.Stop →
      MdctWindow (realArith cosF Real.sin) n S mode = specVorbis ((n : ℝ) + 0.5) S) ∧
    (mode = WindowMode.Start →
      (1472 ≤ n → n < 1600 →
        MdctWindow (realArith cosF Real.sin) n S mode
          = 1 - specVorbis ((n : ℝ) + 0.5 - 1472) 256) ∧
      (1600 ≤ n → MdctWindow (realArith cosF Real.sin) n S mode = 0) ∧
      (1024 ≤ n → n < 1472 → MdctWindow (realArith cosF Real.sin) n S mode = 1) ∧
      (n < 1024 →
        MdctWindow (realArith cosF Real.sin) n S mode = specVorbis ((n : ℝ) + 0.5) S)) ∧
    (mode = WindowMode.Stop →
      (n < 448 → MdctWindow (realArith cosF Real.sin) n S mode = 0) ∧
      (448 ≤ n → n < 576 →
        MdctWindow (realArith cosF Real.sin) n S mode
          = specVorbis ((n : ℝ) + 0.5 - 448) 256) ∧
      (576 ≤ n → n < 1024 → MdctWindow (realArith cosF Real.sin) n S mode = 1) ∧
      (1024 ≤ n →
        MdctWindow (realArith cosF Real.sin) n S mode = specVorbis ((n : ℝ) + 0.5) S)) := by
  have h3 : ShortWindowSize / 2 = 128 := by decide
  have h4 : LongWindowSize / 2 = 1024 := by decide
  have h5 : ShortWindowSize = 256 := by decide
  have hne : WindowMode.Stop ≠ WindowMode.Start := by decide
  have c1 : ((1472 : Nat) : ℝ) = 1472 := by norm_num
  have c2 : ((448 : Nat) : ℝ) = 448 := by norm_num
  have key : MdctWindow (realArith cosF Real.sin) n S mode
      = if mode = WindowMode.Start then
          if 1472 ≤ n ∧ n < 1472 + 128 then 1 - specVorbis ((n : ℝ) + 0.5 - 1472) 256
          else if n ≥ 1472 + 128 then 0
          else if 1024 ≤ n ∧ n < 1472 then 1
          else specVorbis ((n : ℝ) + 0.5) S
        else if mode = WindowMode.Stop then
          if n < 448 then 0
          else if 448 ≤ n ∧ n < 448 + 128 then specVorbis ((n : ℝ) + 0.5 - 448) 256
          else if 128 + 448 ≤ n ∧ n < 1024 then 1
          else specVorbis ((n : ℝ) + 0.5) S
        else specVorbis ((n : ℝ) + 0.5) S := by
    rw [MdctWindow_real]
    unfold specMdctWindow
    simp only [specStartOffset_eq, specStopOffset_eq, h3, h4, h5, c1, c2]
  refine ⟨MdctWindow_real cosF n S mode, fun _ _ => rfl,
    ⟨specStartOffset_eq, specStopOffset_eq⟩, ?_, ?_, ?_⟩
  · intro m1 m2
    rw [key, if_neg m1, if_neg m2]
  · intro m
    rw [key, if_pos m]
    refine ⟨fun a b => ?_, fun a => ?_, fun a b => ?_, fun a => ?_⟩
    · rw [if_pos ⟨a, by omega⟩]
    · rw [if_neg (by omega), if_pos (by omega)]
    · rw [if_neg (by omega), if_neg (by omega), if_pos ⟨a, b⟩]
    · rw [if_neg (by omega), if_neg (by omega), if_neg (by omega)]
  · intro m
    rw [key, if_neg (by rw [m]; exact hne), if_pos m]
    refine ⟨fun a => ?_, fun a b => ?_, fun a b => ?_, fun a => ?_⟩
    · rw [if_pos a]
    · rw [if_neg (by omega), if_pos ⟨a, by omega⟩]
    · rw [if_neg (by omega), if_neg (by omega), if_pos ⟨by omega, b⟩]
    · rw [if_neg (by omega), if_neg (by omega), if_neg (by omega)]

/-- C25 (witness).  The `Start` window is `1 - vorbis(28.5, 256)` at `n = 1500` and `0` at
`n = 1700`; the `Stop` window is `0` at `n = 100`; the `Long` window of size 2048 at `n = 0`
is `sin(π/2 · sin²(π/2048 · 0.5))`. -/
theorem MdctWindow_piecewise_witness :
    MdctWindow (realArith Real.cos Real.sin) 1500 2048 WindowMode.Start
        = 1 - specVorbis (((1500 : Nat) : ℝ) + 0.5 - 1472) 256 ∧
      MdctWindow (realArith Real.cos Real.sin) 1700 2048 WindowMode.Start = 0 ∧
      MdctWindow (realArith Real.cos Real.sin) 100 2048 WindowMode.Stop = 0 ∧
      MdctWindow (realArith Real.cos Real.sin) 0 2048 WindowMode.Long
        = Real.sin (Real.pi / 2
            * Real.sin (Real.pi / ((2048 : Nat) : ℝ) * (((0 : Nat) : ℝ) + 0.5)) ^ 2) := by
  refine ⟨?_, ?_, ?_, ?_⟩
  · exact ((MdctWindow_piecewise Real.cos 1500 2048 WindowMode.Start).2.2.2.2.1 rfl).1
      (by norm_num) (by norm_num)
  · exact ((MdctWindow_piecewise Real.cos 1700 2048 WindowMode.Start).2.2.2.2.1 rfl).2.1
      (by norm_num)
  · exact ((MdctWindow_piecewise Real.cos 100 2048 WindowMode.Stop).2.2.2.2.2 rfl).1
      (by norm_num)
  · obtain ⟨_, h2, _, h4, _⟩ := MdctWindow_piecewise Real.cos 0 2048 WindowMode.Long
    rw [h4 (by decide) (by decide), h2]

/-- C23 (confirmed).  In exact real arithmetic, at every point of a run of `Encode`, after
`k` complete frames and `j` subframes of frame `k`: every subframe adds
`targetBitsPerSubframe - chosenEstimate` to `slackBits` and `chosenEstimate` to
`outTotalBitsEstimate`; `slackBits` is the sum of `targetBitsPerSubframe` over the subframes
processed minus the sum of their chosen bits estimates; `outTotalBitsEstimate` is the sum of
the chosen estimates; every chosen estimate, hence `outTotalBitsEstimate` and the estimate
`Encode` returns, is not negative; and after `k` complete frames
`slackBits + outTotalBitsEstimate = k * targetBitsPerFrame`. -/
theorem Encode_slack_bits (cosF sinF : ℝ → ℝ) (x : List ℝ) (sampleRate targetBitRate : ℝ) :
    (∀ k j,
      (encStateAt (realArith cosF sinF) x sampleRate targetBitRate k (j + 1)).slackBits
        = (encStateAt (realArith cosF sinF) x sampleRate targetBitRate k j).slackBits
          + (encTargetBitsPerSubframe (realArith cosF sinF) x sampleRate targetBitRate k
              - encChosenEstimate (realArith cosF sinF) x sampleRate targetBitRate k j) ∧
      (encStateAt (realArith cosF sinF) x sampleRate targetBitRate k
          (j + 1)).outTotalBitsEstimate
        = (encStateAt (realArith cosF sinF) x sampleRate targetBitRate k
            j).outTotalBitsEstimate
          + encChosenEstimate (realArith cosF sinF) x sampleRate targetBitRate k j) ∧
    (∀ k j,
      (encStateAt (realArith cosF sinF) x sampleRate targetBitRate k j).slackBits
        = ((∑ f ∈ Finset.range k,
              ∑ _i ∈ Finset.range
                  (numSubframesOf (encWindowMode (realArith cosF sinF) x targetBitRate f)),
                encTargetBitsPerSubframe (realArith cosF sinF) x sampleRate targetBitRate f)
            + ∑ _i ∈ Finset.range j,
                encTargetBitsPerSubframe (realArith cosF sinF) x sampleRate targetBitRate k)
          - ((∑ f ∈ Finset.range k,
              ∑ i ∈ Finset.range
                  (numSubframesOf (encWindowMode (realArith cosF sinF) x targetBitRate f)),
                encChosenEstimate (realArith cosF sinF) x sampleRate targetBitRate f i)
            + ∑ i ∈ Finset.range j,
                encChosenEstimate (realArith cosF sinF) x sampleRate targetBitRate k i) ∧
      (encStateAt (realArith cosF sinF) x sampleRate targetBitRate k j).outTotalBitsEstimate
        = (∑ f ∈ Finset.range k,
              ∑ i ∈ Finset.range
                  (numSubframesOf (encWindowMode (realArith cosF sinF) x targetBitRate f)),
                encChosenEstimate (realArith cosF sinF) x sampleRate targetBitRate f i)
            + ∑ i ∈ Finset.range j,
                encChosenEstimate (realArith cosF sinF) x sampleRate targetBitRate k i) ∧
    (∀ k j,
      0 ≤ encChosenEstimate (realArith cosF sinF) x sampleRate targetBitRate k j ∧
      0 ≤ (encStateAt (realArith cosF sinF) x sampleRate targetBitRate k
        j).outTotalBitsEstimate) ∧
    (∀ k,
      (encState (realArith cosF sinF) x sampleRate targetBitRate k).slackBits
          + (encState (realArith cosF sinF) x sampleRate targetBitRate k).outTotalBitsEstimate
        = (k : ℝ) * encTargetBitsPerFrame (realArith cosF sinF) sampleRate targetBitRate) ∧
    ∀ v est, Encode (realArith cosF sinF) x sampleRate targetBitRate = some (v, est) →
      0 ≤ est := by
  have hout : ∀ k j,
      (encStateAt (realArith cosF sinF) x sampleRate targetBitRate k j).outTotalBitsEstimate
        = (∑ f ∈ Finset.range k,
              ∑ i ∈ Finset.range
                  (numSubframesOf (encWindowMode (realArith cosF sinF) x targetBitRate f)),
                encChosenEstimate (realArith cosF sinF) x sampleRate targetBitRate f i)
            + ∑ i ∈ Finset.range j,
                encChosenEstimate (realArith cosF sinF) x sampleRate targetBitRate k i := by
    intro k j
    rw [(encStateAt_bits_real cosF sinF x sampleRate targetBitRate k j).2,
      (encState_bits_real cosF sinF x sampleRate targetBitRate k).2]
  have hnn : ∀ k j,
      0 ≤ (encStateAt (realArith cosF sinF) x sampleRate targetBitRate k
        j).outTotalBitsEstimate := by
    intro k j
    rw [hout]
    apply add_nonneg
    · exact Finset.sum_nonneg (fun f _ => Finset.sum_nonneg (fun i _ =>
        encChosenEstimate_nonneg cosF sinF x sampleRate targetBitRate f i))
    · exact Finset.sum_nonneg (fun i _ =>
        encChosenEstimate_nonneg cosF sinF x sampleRate targetBitRate k i)
  refine ⟨?_, ?_, ?_, ?_, ?_⟩
  · intro k j
    exact encStateAt_succ_bits (realArith cosF sinF) x sampleRate targetBitRate k j
  · intro k j
    refine ⟨?_, hout k j⟩
    rw [(encStateAt_bits_real cosF sinF x sampleRate targetBitRate k j).1,
      (encState_bits_real cosF sinF x sampleRate targetBitRate k).1]
    simp only [Finset.sum_sub_distrib]
    ring
  · intro k j
    exact ⟨encChosenEstimate_nonneg cosF sinF x sampleRate targetBitRate k j, hnn k j⟩
  · intro k
    rw [(encState_bits_real cosF sinF x sampleRate targetBitRate k).1,
      (encState_bits_real cosF sinF x sampleRate targetBitRate k).2, ← Finset.sum_add_distrib]
    have : ∀ f, f ∈ Finset.range k →
        (∑ i ∈ Finset.range
            (numSubframesOf (encWindowMode (realArith cosF sinF) x targetBitRate f)),
          (encTargetBitsPerSubframe (realArith cosF sinF) x sampleRate targetBitRate f
            - encChosenEstimate (realArith cosF sinF) x sampleRate targetBitRate f i))
          + ∑ i ∈ Finset.range
              (numSubframesOf (encWindowMode (realArith cosF sinF) x targetBitRate f)),
            encChosenEstimate (realArith cosF sinF) x sampleRate targetBitRate f i
        = encTargetBitsPerFrame (realArith cosF sinF) sampleRate targetBitRate := by
      intro f _
      rw [← Finset.sum_add_distrib]
      simp only [sub_add_cancel]
      exact sum_encTargetBitsPerSubframe cosF sinF x sampleRate targetBitRate f
    rw [Finset.sum_congr rfl this, Finset.sum_const, Finset.card_range, nsmul_eq_mul]
  · intro v est hv
    by_cases h : x.length ≤ 2 ^ 32 - 4096
    · rw [Encode_eq_some _ x sampleRate targetBitRate h] at hv
      simp only [Option.some.injEq, Prod.mk.injEq] at hv
      rw [← hv.2]
      have := hnn (encFrameCount x.length) 0
      rw [(encStateAt_zero_bits _ x sampleRate targetBitRate _).2] at this
      exact this
    · rw [Encode_eq_none _ x sampleRate targetBitRate (by omega)] at hv
      cases hv

/-- C23 (witness).  A run on 1500 samples at 44100 Hz and target bit rate 64: after the two
frames of the run the slack bits and the total bits estimate add up to twice the target of a
frame, and the total bits estimate is not negative. -/
theorem Encode_slack_bits_witness :
    (encState (realArith Real.cos Real.sin) (List.replicate 1500 (1 / 2 : ℝ)) 44100 64
          2).slackBits
        + (encState (realArith Real.cos Real.sin) (List.replicate 1500 (1 / 2 : ℝ)) 44100 64
            2).outTotalBitsEstimate
      = ((2 : Nat) : ℝ) * encTargetBitsPerFrame (realArith Real.cos Real.sin) 44100 64 ∧
    0 ≤ (encStateAt (realArith Real.cos Real.sin) (List.replicate 1500 (1 / 2 : ℝ)) 44100 64
      2 0).outTotalBitsEstimate := by
  obtain ⟨_, _, h3, h4, _⟩ :=
    Encode_slack_bits Real.cos Real.sin (List.replicate 1500 (1 / 2 : ℝ)) 44100 64
  exact ⟨h4 2, (h3 2 0).2⟩

/-- C22 (confirmed).  In `Decode` the noise fill of a band of `numBins` bins of which
`numNonzeroBins` are not zero is applied exactly when `binFill < 0.1f` (`noiseFilled`), which
in exact real arithmetic is `10 * numNonzeroBins < numBins`, with the gain
`((0.1 - binFill) / 0.1)^2`; a band that is not noise-filled leaves the state, and so the LCG,
unchanged.  The LCG starts at 0, a band makes `numBins` transitions
`s -> (s * 1664525 + 1013904223) mod 2^32` when it is noise-filled and none otherwise, and no
other statement changes the LCG; so every state of a run holds `lcgAt K` for some `K`, and
when a noise-filled band starts in the state `lcgAt K`, its bin `i` receives
`int8(lcgAt (i + K) >> 16) / 127 * gain` and the band ends in the state `lcgAt (numBins + K)`.
The first noise sample of a call, the one of the state `lcgAt 0 = 0`, is 0. -/
theorem Decode_noise_fill (A : Arith F D) (cosF sinF : ℝ → ℝ) (bytes : List Nat) (N : Nat) :
    ((DecState.initial A N).lcgState = 0 ∧ lcgAt 0 = 0 ∧
      (∀ s, lcgNext s = (s * 1664525 + 1013904223) % 2 ^ 32) ∧
      (∀ K, lcgAt (K + 1) = lcgNext (lcgAt K)) ∧
      ∀ s, noiseSampleOf A s = A.divF (A.intF (wrapI8 (s / 2 ^ 16))) (A.litF 127)) ∧
    (∀ (n nz : Nat) (st : DecState F), noiseFilled A n nz = false →
      noiseFill A n nz st = st) ∧
    (∀ (K n nz : Nat) (st : DecState F), noiseFilled A n nz = true →
      st.bandBins + n ≤ st.windowBins.length → st.lcgState = lcgAt K →
      (noiseFill A n nz st).lcgState = lcgAt (n + K) ∧
      ∀ i, i < n →
        (noiseFill A n nz st).windowBins.getD (st.bandBins + i) (A.litF 0)
          = A.addF (st.windowBins.getD (st.bandBins + i) (A.litF 0))
              (A.mulF (noiseSampleOf A (lcgAt (i + K))) (noiseFillGainOf A n nz))) ∧
    (∀ (ns b : Nat) (st st' : DecState F), decodeBand A bytes ns st b = some st' →
      (∃ st1 nz, decodeBandBins A bytes (bandNumBins ns b) st = some (st1, nz) ∧
        nz = countNonzeroBins bytes st.quantizedBandBinStream (bandNumBins ns b) ∧
        st1.lcgState = st.lcgState ∧
        st'.lcgState = (noiseFill A (bandNumBins ns b) nz st1).lcgState) ∧
      st'.lcgState
        = if noiseFilled A (bandNumBins ns b)
              (countNonzeroBins bytes st.quantizedBandBinStream (bandNumBins ns b)) = true then
            lcgNext^[bandNumBins ns b] st.lcgState
          else st.lcgState) ∧
    (∀ k j ds, decStateAt A bytes N k j = some ds → ∃ K, ds.lcgState = lcgAt K) ∧
    (∀ n nz : Nat, 0 < n →
      (noiseFilled (realArith cosF sinF) n nz = true ↔ 10 * nz < n) ∧
      noiseFillGainOf (realArith cosF sinF) n nz
        = ((1 / 10 - (nz : ℝ) / (n : ℝ)) / (1 / 10)) ^ 2) ∧
    (∀ s, noiseSampleOf (realArith cosF sinF) s = ((wrapI8 (s / 2 ^ 16) : Int) : ℝ) / 127) ∧
    noiseSampleOf (realArith cosF sinF) (lcgAt 0) = 0 ∧
    ∀ n nz : Nat,
      (realArith cosF sinF).mulF (noiseSampleOf (realArith cosF sinF) (lcgAt 0))
        (noiseFillGainOf (realArith cosF sinF) n nz) = 0 := by
  have h0 : noiseSampleOf (realArith cosF sinF) (lcgAt 0) = 0 := by
    rw [noiseSampleOf_real]
    have : wrapI8 (lcgAt 0 / 2 ^ 16) = 0 := by decide
    rw [this]
    norm_num
  refine ⟨⟨rfl, rfl, fun _ => rfl, ?_, fun _ => rfl⟩, ?_, ?_, ?_, ?_, ?_,
    noiseSampleOf_real cosF sinF, h0, ?_⟩
  · intro K
    unfold lcgAt
    rw [Function.iterate_succ_apply']
  · intro n nz st h
    exact noiseFill_not_filled A n nz st h
  · intro K n nz st h hb hK
    obtain ⟨g1, g2⟩ := noiseFill_filled A n nz st h hb
    refine ⟨by rw [g1, hK, lcgNext_iterate_lcgAt], ?_⟩
    intro i hi
    rw [g2 i hi, hK, lcgNext_iterate_lcgAt]
  · intro ns b st st' h
    obtain ⟨st1, nz, a1, a2, a3, _, _, a6⟩ := decodeBand_lcg A bytes ns st st' b h
    exact ⟨⟨st1, nz, a1, a2, a3, a6⟩, decodeBand_lcg_eq A bytes ns st st' b h⟩
  · intro k j ds h
    exact decStateAt_lcg A bytes N k j ds h
  · intro n nz hn
    exact ⟨noiseFilled_real cosF sinF n nz hn, noiseFillGainOf_real cosF sinF n nz⟩
  · intro n nz
    rw [h0]
    simp [realArith]

/-- C22 (witness).  A band of eight bins without a nonzero bin is noise-filled with gain 1, a
band of eight bins with one nonzero bin is not; the second state of the LCG is 1013904223,
whose noise sample is `110 / 127`. -/
theorem Decode_noise_fill_witness :
    noiseFilled (realArith Real.cos Real.sin) 8 0 = true ∧
      noiseFilled (realArith Real.cos Real.sin) 8 1 = false ∧
      noiseFillGainOf (realArith Real.cos Real.sin) 8 0 = 1 ∧
      lcgAt 1 = 1013904223 ∧
      noiseSampleOf (realArith Real.cos Real.sin) (lcgAt 1) = 110 / 127 := by
  obtain ⟨_, _, _, _, _, h6, h7, _⟩ :=
    Decode_noise_fill ratArith Real.cos Real.sin [] 0
  have a1 := (h6 8 0 (by norm_num)).1
  have a2 := (h6 8 1 (by norm_num)).1
  have a3 := (h6 8 0 (by norm_num)).2
  have e1 : lcgAt 1 = 1013904223 := by decide
  refine ⟨a1.mpr (by norm_num), ?_, ?_, e1, ?_⟩
  · cases hc : noiseFilled (realArith Real.cos Real.sin) 8 1 with
    | false => rfl
    | true => exact absurd (a2.mp hc) (by norm_num)
  · rw [a3]
    norm_num
  · rw [h7, e1]
    have : wrapI8 (((1013904223 : Nat) : Int) / 2 ^ 16) = 110 := by decide
    rw [this]
    norm_num

end Claims

end Pulsejet
